import Mathlib

/-!
# FShinn/ANN: a feedforward network on character data

A shallow embedding of `IOData.c`, `ANN.c`, `ANNManager.c`, `parseArgs.c` and of the
part of `test.c` that builds and trains the network.

* C arrays are lists; every read or write is bounds-checked, and an access
  outside the array makes the run end in `Abort.fault`.
* `double` is an arbitrary linearly ordered field `α` with a floor function: sums,
  products and quotients are exact, the rounding of double arithmetic is not part of
  the model. The function `exp` of `math.h` is a parameter of `sigmoid`;
  `expUnderflow` gives it the underflow to 0 of double arithmetic, with which an
  activation is exactly 1. A conversion of a double to `int` is `truncToInt` where the
  value is an index and `doubleToInt`, which knows the range of `int`, elsewhere.
* A `char` is stored as its byte, `Fin 256`. Plain `char` is a signed type on the build
  at hand, so as a number (`charValue`) a byte from 128 on stands for a value
  from -128 to -1: `translateInput` divides this value, and `buildTranslationMatrix`
  uses it as an index into its table of 256 flags.
* `int` sizes and indices are natural numbers; `malloc` always succeeds.
-/

set_option autoImplicit false
set_option linter.unusedSectionVars false
set_option linter.unusedVariables false

namespace ANN

/-! ## Execution model -/

/-- Ways a C function stops early: `fault` is an access outside an array
(undefined behaviour), `failure` is the explicit `return -1`. -/
inductive Abort where
  | fault
  | failure
  deriving DecidableEq, Repr

/-- Result of running a piece of C code over an explicit state. -/
abbrev Exec := Except Abort

/-- Bounds-checked read: `xs[i]?` turned into a run that faults when the index
is outside the array. -/
def rd {β : Type} (o : Option β) : Exec β :=
  match o with
  | some b => .ok b
  | none => .error .fault

/-- The loop `for (i = 0; i < n; i++) body(i)` over an explicit state. -/
def forLoop {σ : Type} (body : Nat → σ → Exec σ) : Nat → σ → Exec σ
  | 0, s => .ok s
  | n + 1, s => forLoop body n s >>= body n

/-- The loop `for (i = n-1; i >= 0; i--) body(i)` over an explicit state. -/
def forDown {σ : Type} (body : Nat → σ → Exec σ) : Nat → σ → Exec σ
  | 0, s => .ok s
  | n + 1, s => body n s >>= forDown body n

/-- Bounds-checked write `xs[i] = v`. -/
def wr {β : Type} (xs : List β) (i : Nat) (v : β) : Exec (List β) :=
  if i < xs.length then .ok (xs.set i v) else .error .fault

/-- Bounds-checked write `xs[i] = v` for an index of type `int`: a negative index is
outside the array. -/
def wrIdx {β : Type} (xs : List β) (i : Int) (v : β) : Exec (List β) :=
  if 0 ≤ i then wr xs i.toNat v else .error .fault

/-- Read `m[l][n]` of a ragged matrix. -/
def get2 {β : Type} (m : List (List β)) (l n : Nat) : Option β :=
  (m[l]?).bind (fun row => row[n]?)

/-- Write `m[l][n] = v` in a ragged matrix. -/
def set2 {β : Type} (m : List (List β)) (l n : Nat) (v : β) : Exec (List (List β)) := do
  let row ← rd m[l]?
  let row ← wr row n v
  wr m l row

/-- Read `w[l][n][i]` of the weight tensor. -/
def get3 {β : Type} (w : List (List (List β))) (l n i : Nat) : Option β :=
  (w[l]?).bind (fun m => get2 m n i)

/-- Write `w[l][n][i] = v` in the weight tensor. -/
def set3 {β : Type} (w : List (List (List β))) (l n i : Nat) (v : β) :
    Exec (List (List (List β))) := do
  let m ← rd w[l]?
  let m ← set2 m n i v
  wr w l m

/-! ## IOData.c -/

/-- The C type `char`, as a byte value. -/
abbrev Symbol := Fin 256

/-- The value of a plain `char` as a number. Plain `char` is a signed type on the build
at hand: the bytes from 128 to 255 stand for the values from -128 to -1. -/
def charValue (c : Symbol) : Int :=
  if c.val < 128 then (c.val : Int) else (c.val : Int) - 256

/-- The record `struct IOData`. -/
structure IOData where
  input : List Symbol
  output : List Symbol
  deriving DecidableEq, Repr

/-- The record `struct translation`. -/
structure translation where
  count : Nat
  entries : List Symbol
  deriving DecidableEq, Repr

variable {α : Type} [LinearOrderedField α] [FloorRing α]

/-- The search loop of `translateOutput`, at index `t_i` with `fuel` iterations left
(`fuel = count - t_i`). Leaving the loop gives the sentinel `-1`. -/
def translateOutput.loop (c : Symbol) (translationSet : translation) : Nat → Nat → Exec α
  | 0, _ => .ok (-1)
  | fuel + 1, t_i => do
    let e ← rd translationSet.entries[t_i]?
    if c = e then
      .ok (((t_i : α) + 0.5) / (translationSet.count : α))
    else
      translateOutput.loop c translationSet fuel (t_i + 1)

/-- Function `translateOutput` of IOData.c: desired output, character to number. -/
def translateOutput (c : Symbol) (translationSet : translation) : Exec α :=
  translateOutput.loop c translationSet translationSet.count 0

/-- Function `translateInput` of IOData.c: data input, character to number. The
division `c/256.0` converts the value of the plain `char`. -/
def translateInput (c : Symbol) : α := ((charValue c : Int) : α) / 256.0

/-- One round of the outer loop of `buildTranslationMatrix`, for output position `out_i`. -/
def buildTranslationMatrix.position (IOCount : Nat) (ios : List IOData)
    (out_i : Nat) (translations : List translation) : Exec (List translation) := do
  -- clear entries
  let entries ← forLoop (fun e_i es => wr es e_i (0 : Nat)) 256 (List.replicate 256 0)
  -- for each io pair, flag element in entries for output
  let entries ← forLoop (fun io_i es => do
      let r ← rd ios[io_i]?
      let c ← rd r.output[out_i]?
      wrIdx es (charValue c) 1) IOCount entries
  -- count entries
  let count ← forLoop (fun e_i (cnt : Nat) => do
      let f ← rd entries[e_i]?
      if f ≠ 0 then .ok (cnt + 1) else .ok cnt) 256 0
  -- malloc char[] for each output node, then store unique outputs in it
  let r ← forLoop (fun e_i (st : Nat × List Symbol) => do
      let f ← rd entries[e_i]?
      if f ≠ 0 then do
        let ent ← wr st.2 st.1 (Fin.ofNat e_i)
        .ok (st.1 + 1, ent)
      else .ok st) 256 (0, List.replicate count (0 : Symbol))
  wr translations out_i { count := count, entries := r.2 }

/-- Function `buildTranslationMatrix` of IOData.c. The caller's array `translations`
is passed in and returned filled, next to the return code. -/
def buildTranslationMatrix (IOCount outputLen : Nat) (ios : List IOData)
    (translations : List translation) : Exec (Int × List translation) := do
  let ts ← forLoop (buildTranslationMatrix.position IOCount ios) outputLen translations
  .ok (0, ts)

/-! ## ANN.c -/

/-- The record `struct network`. -/
structure network (α : Type) where
  inputLen : Nat
  layerCount : Nat
  nodeCounts : List Nat
  outputs : List (List α)
  weights : List (List (List α))
  translations : List translation

/-- Function `sigmoid` of ANN.c; `exp` is the exponential of `math.h`. -/
def sigmoid (exp : α → α) (sum : α) : α :=
  1.0 / (1.0 + exp (0.0 - sum))

/-- Function `sumDeltasNextLayer` of ANN.c. -/
def sumDeltasNextLayer (currentNode : Nat) (weights : List (List α)) (deltas : List α)
    (count : Nat) : Exec α :=
  forLoop (fun d_i sum => do
    let w ← rd (get2 weights d_i (currentNode + 1))
    let d ← rd deltas[d_i]?
    .ok (sum + w * d)) count 0.0

/-- The bound `(l_i == 0 ? network->inputLen : network->nodeCounts[l_i-1])` of the
weight loops. -/
def fanIn (net : network α) (l_i : Nat) : Exec Nat :=
  if l_i = 0 then .ok net.inputLen else rd net.nodeCounts[l_i - 1]?

/-- The source feeding weight `w_i > 0` of a node of layer `l_i`:
`l_i == 0 ? translateInput(input[w_i-1]) : network->outputs[l_i-1][w_i-1]`. -/
def sourceOf (outputs : List (List α)) (input : List Symbol) (l_i w_i : Nat) : Exec α :=
  if l_i = 0 then do
    let c ← rd input[w_i - 1]?
    .ok (translateInput c)
  else rd (get2 outputs (l_i - 1) (w_i - 1))

/-- The conversion `(int) x` of a double: truncation toward zero. -/
def truncToInt (x : α) : Int :=
  if 0 ≤ x then ⌊x⌋ else ⌈x⌉

/-- The body of the `w_i` loop of `runForward`. -/
def runForward.weight (net : network α) (input : List Symbol) (l_i n_i w_i : Nat)
    (outputs : List (List α)) : Exec (List (List α)) := do
  let w ← rd (get3 net.weights l_i n_i w_i)
  if w_i = 0 then
    -- resets node's weightedSum to bias value
    set2 outputs l_i n_i w
  else do
    -- add input multiplied by weight to running weightedSum
    let src ← sourceOf outputs input l_i w_i
    let cur ← rd (get2 outputs l_i n_i)
    set2 outputs l_i n_i (cur + w * src)

/-- The body of the `n_i` loop of `runForward`: the weighted sum of one node, then
its sigmoid, both stored in `outputs[l_i][n_i]`. -/
def runForward.node (exp : α → α) (net : network α) (input : List Symbol) (l_i n_i : Nat)
    (outputs : List (List α)) : Exec (List (List α)) := do
  let bound ← fanIn net l_i
  let outputs ← forLoop (runForward.weight net input l_i n_i) (bound + 1) outputs
  -- store sigmoid(weightedSum) as node's output
  let cur ← rd (get2 outputs l_i n_i)
  set2 outputs l_i n_i (sigmoid exp cur)

/-- The expression `translations[o_i].entries[(int)(count * outputs[last][o_i])]` of
`runForward`: the character an output activation stands for. -/
def runForward.decode (t : translation) (a : α) : Exec Symbol :=
  let idx : Int := truncToInt ((t.count : α) * a)
  if 0 ≤ idx then rd t.entries[idx.toNat]? else .error .fault

/-- The layer and node loops of `runForward`, which fill the activation buffer. -/
def runForward.layers (exp : α → α) (net : network α) (input : List Symbol) :
    Exec (List (List α)) :=
  forLoop (fun l_i outputs => do
    let cnt ← rd net.nodeCounts[l_i]?
    forLoop (runForward.node exp net input l_i) cnt outputs) net.layerCount net.outputs

/-- Function `runForward` of ANN.c. The buffer `output` of the caller is passed in and
returned filled, next to the network with its new activation buffer. -/
def runForward (exp : α → α) (net : network α) (input : List Symbol) (output : List Symbol) :
    Exec (network α × List Symbol) := do
  let outputs ← runForward.layers exp net input
  -- convert output of outputLayer to corresponding char values
  if net.layerCount = 0 then .error .fault else
  let cnt ← rd net.nodeCounts[net.layerCount - 1]?
  let output ← forLoop (fun o_i out => do
    let t ← rd net.translations[o_i]?
    let a ← rd (get2 outputs (net.layerCount - 1) o_i)
    let c ← runForward.decode t a
    wr out o_i c) cnt output
  .ok ({ net with outputs := outputs }, output)

/-- The factor of the delta of node `n_i` of layer `l_i` in `BPandWeightUpdate`. An
unknown desired character is the `return -1` of the source. -/
def BPandWeightUpdate.factor (net : network α) (desiredOutput : List Symbol)
    (delta : List (List α)) (l_i n_i : Nat) : Exec α :=
  -- for output layer
  if l_i + 1 = net.layerCount then do
    let c ← rd desiredOutput[n_i]?
    let t ← rd net.translations[n_i]?
    let f ← translateOutput c t
    if f < 0 then .error .failure
    else do
      let a ← rd (get2 net.outputs l_i n_i)
      .ok (f - a)
  -- for hidden layers
  else do
    let wnext ← rd net.weights[l_i + 1]?
    let dnext ← rd delta[l_i + 1]?
    let cnt ← rd net.nodeCounts[l_i + 1]?
    sumDeltasNextLayer n_i wnext dnext cnt

/-- The body of the `n_i` loop of the first loop nest of `BPandWeightUpdate`: the delta of
node `n_i` of layer `l_i`. -/
def BPandWeightUpdate.node (net : network α) (desiredOutput : List Symbol) (l_i n_i : Nat)
    (delta : List (List α)) : Exec (List (List α)) := do
  let factorOfDelta ← BPandWeightUpdate.factor net desiredOutput delta l_i n_i
  let a ← rd (get2 net.outputs l_i n_i)
  set2 delta l_i n_i (a * (1.0 - a) * factorOfDelta)

/-- First loop nest of `BPandWeightUpdate`: the delta matrix, working backward through
the layers. Each layer of the matrix is allocated when its turn comes. -/
def BPandWeightUpdate.deltas (net : network α) (desiredOutput : List Symbol) :
    Exec (List (List α)) :=
  forDown (fun l_i delta => do
    let cnt ← rd net.nodeCounts[l_i]?
    let delta ← wr delta l_i (List.replicate cnt 0)
    forLoop (BPandWeightUpdate.node net desiredOutput l_i) cnt delta)
    net.layerCount (List.replicate net.layerCount [])

/-- The statement `weights[l_i][n_i][w_i] += learningRate*in*delta[l_i][n_i]` of
`BPandWeightUpdate`. -/
def BPandWeightUpdate.weight (net : network α) (input : List Symbol) (learningRate : α)
    (delta : List (List α)) (l_i n_i w_i : Nat) (weights : List (List (List α))) :
    Exec (List (List (List α))) := do
  let inp ← if w_i = 0 then .ok 1 else sourceOf net.outputs input l_i w_i
  let d ← rd (get2 delta l_i n_i)
  let w ← rd (get3 weights l_i n_i w_i)
  set3 weights l_i n_i w_i (w + learningRate * inp * d)

/-- The body of the layer loop of the weight update of `BPandWeightUpdate`. -/
def BPandWeightUpdate.layer (net : network α) (input : List Symbol) (learningRate : α)
    (delta : List (List α)) (l_i : Nat) (weights : List (List (List α))) :
    Exec (List (List (List α))) := do
  let cnt ← rd net.nodeCounts[l_i]?
  forLoop (fun n_i weights => do
    let bound ← fanIn net l_i
    forLoop (BPandWeightUpdate.weight net input learningRate delta l_i n_i) (bound + 1) weights)
    cnt weights

/-- Second loop nest of `BPandWeightUpdate`: the weight update, last layer first. -/
def BPandWeightUpdate.update (net : network α) (input : List Symbol) (learningRate : α)
    (delta : List (List α)) : Exec (List (List (List α))) :=
  forDown (BPandWeightUpdate.layer net input learningRate delta) net.layerCount net.weights

/-- Function `BPandWeightUpdate` of ANN.c: the return code and the network after the
call. -/
def BPandWeightUpdate (net : network α) (input desiredOutput : List Symbol)
    (learningRate : α) : Exec (Int × network α) :=
  match BPandWeightUpdate.deltas net desiredOutput with
  | .error .failure => .ok (-1, net)
  | .error .fault => .error .fault
  | .ok delta => do
    let weights ← BPandWeightUpdate.update net input learningRate delta
    .ok (0, { net with weights := weights })

/-- The loop `for l_i in order body(l_i)`, for a list of indices. -/
def forEach {σ : Type} (body : Nat → σ → Exec σ) : List Nat → σ → Exec σ
  | [], s => .ok s
  | i :: rest, s => body i s >>= forEach body rest

/-- Variant of `BPandWeightUpdate` whose weight update visits the layers in the order
given by the list `order` instead of last layer first. -/
def BPandWeightUpdateInOrder (order : List Nat) (net : network α)
    (input desiredOutput : List Symbol) (learningRate : α) : Exec (Int × network α) :=
  match BPandWeightUpdate.deltas net desiredOutput with
  | .error .failure => .ok (-1, net)
  | .error .fault => .error .fault
  | .ok delta => do
    let weights ← forEach (BPandWeightUpdate.layer net input learningRate delta) order net.weights
    .ok (0, { net with weights := weights })

/-! ## ANNManager.c -/

/-- The loop "build nodes" of `buildNetwork`: the rows of `outputs` and the layers of
`weights`. Fresh memory reads as `0`. -/
def buildNetwork.nodes (net : network α) :
    Exec (List (List α) × List (List (List α))) :=
  forLoop (fun l_i (st : List (List α) × List (List (List α))) => do
    let cnt ← rd net.nodeCounts[l_i]?
    let outputs ← wr st.1 l_i (List.replicate cnt 0)
    let weights ← wr st.2 l_i (List.replicate cnt [])
    .ok (outputs, weights)) net.layerCount (net.outputs, net.weights)

/-- The loop "build weights" of `buildNetwork`: one weight vector for each node. -/
def buildNetwork.vectors (net : network α) (weights : List (List (List α))) :
    Exec (List (List (List α))) :=
  forLoop (fun l_i weights => do
    let cnt ← rd net.nodeCounts[l_i]?
    forLoop (fun n_i (weights : List (List (List α))) => do
      let bound ← fanIn net l_i
      set2 weights l_i n_i (List.replicate (bound + 1) 0)) cnt weights) net.layerCount weights

/-- The loop "randomize weights" of `buildNetwork`. The state holds, next to the
weights, the number of calls of `rand()` so far; the calls return the values of the
sequence `rand`. -/
def buildNetwork.randomize (rand : Nat → Nat) (RAND_MAX : Nat) (net : network α)
    (weights : List (List (List α))) : Exec (List (List (List α)) × Nat) :=
  forLoop (fun l_i st => do
    let cnt ← rd net.nodeCounts[l_i]?
    forLoop (fun n_i st => do
      let bound ← fanIn net l_i
      forLoop (fun w_i (st : List (List (List α)) × Nat) => do
        let weights ← set3 st.1 l_i n_i w_i
          ((((rand st.2 : α) / (RAND_MAX : α)) * 2) - 1)
        .ok (weights, st.2 + 1)) (bound + 1) st) cnt st) net.layerCount (weights, 0)

/-- Function `buildNetwork` of ANNManager.c: the return code and the network built. -/
def buildNetwork (rand : Nat → Nat) (RAND_MAX : Nat) (inputLen layerCount : Nat)
    (nodeCounts : List Nat) (translations : List translation) : Exec (Int × network α) := do
  -- set basic info, build layers
  let net : network α :=
    { inputLen := inputLen, layerCount := layerCount, nodeCounts := nodeCounts,
      outputs := List.replicate layerCount [], weights := List.replicate layerCount [],
      translations := translations }
  let built ← buildNetwork.nodes net
  let weights ← buildNetwork.vectors net built.2
  let randomized ← buildNetwork.randomize rand RAND_MAX net weights
  .ok (0, { net with outputs := built.1, weights := randomized.1 })

/-! ## Vocabulary of the statements -/

/-- Character `s` occurs at output position `o` in one of the first `IOCount` records. -/
def occursAt (IOCount : Nat) (ios : List IOData) (o : Nat) (s : Symbol) : Prop :=
  ∃ i, i < IOCount ∧ ∃ r, ios[i]? = some r ∧ r.output[o]? = some s

/-- Entry `m[l][n]` of a matrix that is known to have it (`0` outside the matrix). -/
def at2 (m : List (List α)) (l n : Nat) : α :=
  (m.getD l []).getD n 0

/-- Entry `w[l][n][i]` of a weight tensor that is known to have it. -/
def at3 (w : List (List (List α))) (l n i : Nat) : α :=
  at2 (w.getD l []) n i

/-- The matrix `m` after the write `m[l][n] = v` inside its bounds. -/
def put2 {β : Type} (m : List (List β)) (l n : Nat) (v : β) : List (List β) :=
  m.set l ((m.getD l []).set n v)

/-- The tensor `w` after the write `w[l][n][i] = v` inside its bounds. -/
def put3 {β : Type} (w : List (List (List β))) (l n i : Nat) (v : β) : List (List (List β)) :=
  w.set l (put2 (w.getD l []) n i v)

/-- Row lengths of a ragged matrix. -/
def dims2 {β : Type} (m : List (List β)) : List Nat :=
  m.map List.length

/-- Layer sizes and row lengths of a ragged tensor. -/
def dims3 {β : Type} (w : List (List (List β))) : List (List Nat) :=
  w.map dims2

/-- Number of nodes of layer `l`, `nodeCounts[l]`. -/
def nodesOf (net : network α) (l : Nat) : Nat :=
  net.nodeCounts.getD l 0

/-- Number of inputs of the nodes of layer `l`:
`l == 0 ? inputLen : nodeCounts[l-1]`. -/
def fanInOf (net : network α) (l : Nat) : Nat :=
  if l = 0 then net.inputLen else net.nodeCounts.getD (l - 1) 0

/-- Shape invariant of `struct network`, as the comment block of ANN.c gives it:
`nodeCounts`, `outputs` and `weights` have `layerCount` layers, layer `l` of `outputs`
and of `weights` has `nodeCounts[l]` nodes, and the weight vector of a node of layer `l`
has one entry for the bias and one for each of its inputs. -/
structure ShapeInv (net : network α) : Prop where
  nodeCounts_len : net.nodeCounts.length = net.layerCount
  outputs_len : net.outputs.length = net.layerCount
  weights_len : net.weights.length = net.layerCount
  outputs_row : ∀ l, l < net.layerCount → (net.outputs.getD l []).length = nodesOf net l
  weights_layer : ∀ l, l < net.layerCount → (net.weights.getD l []).length = nodesOf net l
  weights_node : ∀ l, l < net.layerCount → ∀ n, n < nodesOf net l →
    ((net.weights.getD l []).getD n []).length = fanInOf net l + 1

/-- Invariant of the translators of a network: one per node of the last layer, each
with `count` the number of its entries and at least one entry. -/
structure TranslatorsInv (net : network α) : Prop where
  translations_len : net.translations.length = nodesOf net (net.layerCount - 1)
  counts : ∀ t ∈ net.translations, t.count = t.entries.length ∧ 1 ≤ t.count

/-- Reference value of input `i` of a node of layer `l`: the encoded input character for
the first layer, else the activation of node `i` of the layer before. -/
def sourceAt (acts : List (List α)) (input : List Symbol) (l i : Nat) : α :=
  if l = 0 then translateInput (input.getD i 0) else at2 acts (l - 1) i

/-- Reference weighted sum of node `(l, n)`: the bias plus the sum of weight times
source over the inputs of the node. -/
def weightedSum (net : network α) (acts : List (List α)) (input : List Symbol) (l n : Nat) : α :=
  at3 net.weights l n 0 +
    ∑ i in Finset.range (fanInOf net l), at3 net.weights l n (i + 1) * sourceAt acts input l i

/-- All desired characters are known: the character at every position of the last
layer is among the entries of the translator of that position. -/
def KnownSymbols (net : network α) (desiredOutput : List Symbol) : Prop :=
  ∀ n, n < nodesOf net (net.layerCount - 1) →
    ∃ c t, desiredOutput[n]? = some c ∧ net.translations[n]? = some t ∧ c ∈ t.entries

/-- Reference definition of the deltas of the layers `k` and above: for a node of the
last layer `a * (1 - a) * (target - a)`, the target being the encoding of the desired
character, and for a node `n` of a hidden layer `l` the product of `a * (1 - a)` and the
sum over the nodes `m` of layer `l + 1` of `delta[l+1][m] * w[l+1][m][n+1]`, where `a`
is the activation of the node in the buffer. -/
def DeltaSpecFrom (k : Nat) (net : network α) (desiredOutput : List Symbol)
    (delta : List (List α)) : Prop :=
  (k + 1 ≤ net.layerCount → ∀ n, n < nodesOf net (net.layerCount - 1) →
    ∃ c t f, desiredOutput[n]? = some c ∧ net.translations[n]? = some t ∧
      translateOutput c t = .ok f ∧ 0 ≤ f ∧
      at2 delta (net.layerCount - 1) n =
        at2 net.outputs (net.layerCount - 1) n * (1 - at2 net.outputs (net.layerCount - 1) n) *
          (f - at2 net.outputs (net.layerCount - 1) n)) ∧
  (∀ l n, k ≤ l → l + 1 < net.layerCount → n < nodesOf net l →
    at2 delta l n = at2 net.outputs l n * (1 - at2 net.outputs l n) *
      ∑ m in Finset.range (nodesOf net (l + 1)),
        at2 delta (l + 1) m * at3 net.weights (l + 1) m (n + 1))

/-- Reference source of weight `i` of a node of layer `l` in the weight update: `1` for the
bias, else the encoded input character `i - 1` for the first layer and the activation
of node `i - 1` of the layer before for the others. -/
def sourceActivation (net : network α) (input : List Symbol) (l i : Nat) : α :=
  if i = 0 then 1 else sourceAt net.outputs input l (i - 1)

/-- Reference value of weight `(l, n, i)` after one update of the tensor `w`. -/
def updatedWeight (net : network α) (input : List Symbol) (learningRate : α)
    (delta : List (List α)) (w : List (List (List α))) (l n i : Nat) : α :=
  at3 w l n i + learningRate * sourceActivation net input l i * at2 delta l n

/-- A network of two layers over the rationals: two inputs, two hidden nodes and one
output node that answers `'0'` or `'1'`. -/
def sampleNet : network ℚ :=
  { inputLen := 2, layerCount := 2, nodeCounts := [2, 1],
    outputs := [[1 / 2, 1 / 4], [1 / 2]],
    weights := [[[0, 1, -1], [1 / 2, 0, 1]], [[1, -1, 1 / 2]]],
    translations := [⟨2, [48, 49]⟩] }

/-- A stand-in for the exponential on the rationals: positive everywhere. -/
def sampleExp (x : ℚ) : ℚ := 1 + x * x

/-! ## ANNManager.c: training and trial -/

/-- The result of an `int` operation that leaves the range of `int`: the value wrapped
to 32 bits, two's complement. -/
def wrapInt (x : Int) : Int :=
  (x + 2 ^ 31) % 2 ^ 32 - 2 ^ 31

/-- The index `epoch % convergenceRange` into the array `accuracy`. -/
def slotOf (epoch convergenceRange : Nat) : Exec Nat :=
  if convergenceRange = 0 then .error .fault else .ok (epoch % convergenceRange)

/-- Function `convergence` of ANNManager.c, for `epoch ≥ 0`. -/
def convergence (accuracy : List Int) (convergenceRange epoch : Nat) : Exec Int := do
  let i ← slotOf epoch convergenceRange
  let j ← slotOf (epoch + convergenceRange - 1) convergenceRange
  let a ← rd accuracy[i]?
  let b ← rd accuracy[j]?
  .ok (wrapInt (a - b))

/-- The variables of `train` that its loop over the examples changes: the network, the
buffer `output` and the array `accuracy`. -/
structure trainState (α : Type) where
  network : network α
  output : List Symbol
  accuracy : List Int

/-- How one round of a loop with a `return` inside ends: the loop goes on, or the
function returns `code`. -/
inductive Flow (σ : Type) where
  | next (s : σ)
  | ret (code : Int) (s : σ)

/-- The loop `for (i = 0; i < n; i++) body(i)` whose body may `return`. -/
def forFlow {σ : Type} (body : Nat → σ → Exec (Flow σ)) : Nat → σ → Exec (Flow σ)
  | 0, s => .ok (.next s)
  | n + 1, s =>
    match forFlow body n s with
    | .ok (.next t) => body n t
    | .ok (.ret code t) => .ok (.ret code t)
    | .error e => .error e

/-- The loop "evaluate result" of `train` and of `trial`: `correct` stays 1 when the
output of the network is the desired output, character by character. -/
def evaluateResult (count : Nat) (desired output : List Symbol) : Exec Int :=
  forLoop (fun r_i (correct : Int) => do
    let d ← rd desired[r_i]?
    let o ← rd output[r_i]?
    if d ≠ o then .ok 0 else .ok correct) count 1

/-- The expression `network.nodeCounts[network.layerCount-1]`. -/
def outputCount (net : network α) : Exec Nat :=
  if net.layerCount = 0 then .error .fault else rd net.nodeCounts[net.layerCount - 1]?

/-- The body of the loop over the examples of `train`, for example `io_i` in epoch
`epoch`. -/
def train.example (exp : α → α) (ios : List IOData) (learningRate : α)
    (convergenceRange epoch : Nat) (io_i : Nat) (st : trainState α) :
    Exec (Flow (trainState α)) := do
  let r ← rd ios[io_i]?
  -- run network forward
  let fwd ← runForward exp st.network r.input st.output
  -- evaluate result
  let count ← outputCount fwd.1
  let correct ← evaluateResult count r.output fwd.2
  -- deal with result
  if correct ≠ 0 then do
    let slot ← slotOf epoch convergenceRange
    let a ← rd st.accuracy[slot]?
    let accuracy ← wr st.accuracy slot (a + 1)
    .ok (.next { network := fwd.1, output := fwd.2, accuracy := accuracy })
  else do
    let bp ← BPandWeightUpdate fwd.1 r.input r.output learningRate
    if bp.1 < 0 then
      .ok (.ret (-1) { network := bp.2, output := fwd.2, accuracy := st.accuracy })
    else
      .ok (.next { network := bp.2, output := fwd.2, accuracy := st.accuracy })

/-- One round of the `do ... while` loop of `train` up to the line that prints the
accuracy: the slot of the epoch is reset and the examples are gone through. -/
def train.epoch (exp : α → α) (ios : List IOData) (trainingIOCount : Nat) (learningRate : α)
    (convergenceRange epoch : Nat) (st : trainState α) : Exec (Flow (trainState α)) := do
  let slot ← slotOf epoch convergenceRange
  let accuracy ← wr st.accuracy slot 0
  forFlow (train.example exp ios learningRate convergenceRange epoch) trainingIOCount
    { st with accuracy := accuracy }

/-- The value of `100*precision*diff/trainingIOCount` in `int` arithmetic, for a divisor
that is not 0: two `int` products, then the `int` division of C, which truncates toward
zero. -/
def stopQuotient (precision diff : Int) (trainingIOCount : Nat) : Int :=
  (wrapInt (wrapInt (100 * precision) * diff)).tdiv (trainingIOCount : Int)

/-- The operand `100*precision*convergence(..)/trainingIOCount` of the loop test of
`train`, given the value `diff` of `convergence`. -/
def train.quotient (precision diff : Int) (trainingIOCount : Nat) : Exec Int :=
  if trainingIOCount = 0 then .error .fault
  else .ok (stopQuotient precision diff trainingIOCount)

/-- What a call of `train` leaves: the return code, the value of `epoch`, the network,
buffer and array, the accuracies it printed (one for each completed epoch) and the
values `convergence` returned (one for each evaluation of the loop test). -/
structure trainResult (α : Type) where
  code : Int
  epoch : Nat
  state : trainState α
  counts : List Int
  diffs : List Int

/-- The `do ... while` loop of `train`, entered with the given value of `epoch`. -/
def train.loop (exp : α → α) (ios : List IOData) (trainingIOCount maxEpoch : Nat)
    (learningRate : α) (precision : Int) (convergenceRange : Nat)
    (epoch : Nat) (st : trainState α) (counts diffs : List Int) : Exec (trainResult α) :=
  match train.epoch exp ios trainingIOCount learningRate convergenceRange epoch st with
  | .error e => .error e
  | .ok (.ret code st') =>
    .ok { code := code, epoch := epoch, state := st', counts := counts, diffs := diffs }
  | .ok (.next st') =>
    -- the accuracy of the epoch, as printed
    match slotOf epoch convergenceRange >>= fun slot => rd st'.accuracy[slot]? with
    | .error e => .error e
    | .ok c =>
      if h : epoch + 1 < maxEpoch then
        match convergence st'.accuracy convergenceRange (epoch + 1) with
        | .error e => .error e
        | .ok diff =>
          match train.quotient precision diff trainingIOCount with
          | .error e => .error e
          | .ok q =>
            if q ≠ 0 then
              train.loop exp ios trainingIOCount maxEpoch learningRate precision convergenceRange
                (epoch + 1) st' (counts ++ [c]) (diffs ++ [diff])
            else
              .ok { code := 0, epoch := epoch + 1, state := st', counts := counts ++ [c],
                    diffs := diffs ++ [diff] }
      else
        .ok { code := 0, epoch := epoch + 1, state := st', counts := counts ++ [c],
              diffs := diffs }
termination_by maxEpoch - epoch
decreasing_by omega

/-- Function `train` of ANNManager.c. The array `accuracy` is not initialised by the
source: slot `j` holds `garbage j` on entry. `fopenOk` tells whether the dump file can
be opened; what is printed to it is left out. -/
def train (exp : α → α) (garbage : Nat → Int) (fopenOk : Bool) (net : network α)
    (ios : List IOData) (trainingIOCount maxEpoch : Nat) (learningRate : α)
    (dumpFileName : Option String) (precision : Int) (convRange : Nat) :
    Exec (trainResult α) := do
  let count ← outputCount net
  let st : trainState α :=
    { network := net, output := List.replicate count 0,
      accuracy := (List.range convRange).map garbage }
  if dumpFileName.isSome ∧ fopenOk = false then
    .ok { code := -1, epoch := 0, state := st, counts := [], diffs := [] }
  else
    train.loop exp ios trainingIOCount maxEpoch learningRate precision convRange 0 st [] []

/-- The body of the loop over the examples of `trial`. -/
def trial.example (exp : α → α) (ios : List IOData) (io_i : Nat)
    (st : network α × List Symbol × Int) : Exec (network α × List Symbol × Int) := do
  let r ← rd ios[io_i]?
  -- run network forward
  let fwd ← runForward exp st.1 r.input st.2.1
  -- evaluate result
  let count ← outputCount fwd.1
  let correct ← evaluateResult count r.output fwd.2
  -- deal with result
  if correct ≠ 0 then .ok (fwd.1, fwd.2, st.2.2 + 1) else .ok (fwd.1, fwd.2, st.2.2)

/-- Function `trial` of ANNManager.c: the return code, the network after the call and
the accuracy it prints. -/
def trial (exp : α → α) (net : network α) (ios : List IOData) (trialIOCount : Nat) :
    Exec (Int × network α × Int) := do
  let count ← outputCount net
  let st ← forLoop (trial.example exp ios) trialIOCount (net, List.replicate count 0, 0)
  .ok (0, st.1, st.2.2)

/-- The networks `net` and `net'` have the same topology and translators. -/
structure SameTopology (net net' : network α) : Prop where
  inputLen_eq : net'.inputLen = net.inputLen
  layerCount_eq : net'.layerCount = net.layerCount
  nodeCounts_eq : net'.nodeCounts = net.nodeCounts
  translations_eq : net'.translations = net.translations

/-- Every record of `ios` has at least `inputLen` input characters and as many output
characters as the last layer has nodes. -/
def WellFormedExamples (net : network α) (ios : List IOData) : Prop :=
  ∀ r ∈ ios, net.inputLen ≤ r.input.length ∧ nodesOf net (net.layerCount - 1) ≤ r.output.length

/-- Reference: the output vector of the network for `input`, the characters `runForward`
decodes from the activations of the last layer (empty when `runForward` faults). -/
def outputOf (exp : α → α) (net : network α) (input : List Symbol) : List Symbol :=
  match runForward exp net input (List.replicate (nodesOf net (net.layerCount - 1)) 0) with
  | .ok fwd => fwd.2
  | .error _ => []

/-- Reference: the network classifies the record `r` correctly, its output vector is the
desired output, character by character. -/
def classifies (exp : α → α) (net : network α) (r : IOData) : Prop :=
  r.output.take (nodesOf net (net.layerCount - 1)) = outputOf exp net r.input

instance (exp : α → α) (net : network α) (r : IOData) : Decidable (classifies exp net r) := by
  unfold classifies
  infer_instance

/-- Reference: the number of records of a list that the network classifies correctly. -/
def correctCount (exp : α → α) (net : network α) (rs : List IOData) : Nat :=
  rs.countP (fun r => decide (classifies exp net r))

/-- Reference definition of one epoch, after the specification: the records are gone
through in order; the network is run forward and its output compared with the desired
output; a record that is classified correctly adds one to the count, any other record
gets one call of `BPandWeightUpdate`, whose failure ends the epoch with code `-1`. The
result is the code, the network and the count. -/
def epochRef (exp : α → α) (learningRate : α) :
    List IOData → network α → Int → Exec (Int × network α × Int)
  | [], net, c => .ok (0, net, c)
  | r :: rest, net, c => do
    let fwd ← runForward exp net r.input (List.replicate (nodesOf net (net.layerCount - 1)) 0)
    if r.output.take (nodesOf net (net.layerCount - 1)) = fwd.2 then
      epochRef exp learningRate rest fwd.1 (c + 1)
    else do
      let bp ← BPandWeightUpdate fwd.1 r.input r.output learningRate
      if bp.1 < 0 then .ok (-1, bp.2, c) else epochRef exp learningRate rest bp.2 c

/-! ## Vocabulary of the statements on `train` -/

/-- Reference value of the difference that the stop test of `train` uses after the
completed epoch `k` (0-based), from the list of the correct-counts of the epochs: the
count of epoch `k + 1 - R`, the oldest of the last `R` epochs, minus the count of epoch
`k`; while fewer than `R` epochs are complete the first term is the content of the slot
`k + 1`, which no epoch has written. The subtraction is an `int` subtraction. -/
def diffRef (garbage : Nat → Int) (R : Nat) (counts : List Int) (k : Nat) : Int :=
  wrapInt ((if R ≤ k + 1 then counts.getD (k + 1 - R) 0 else garbage (k + 1)) - counts.getD k 0)

/-- The array `accuracy` holds the correct-counts of the last `R` epochs, the count of
epoch `k` in slot `k mod R`, and a slot that no epoch has written holds what was in the
memory before. -/
structure Recorded (garbage : Nat → Int) (R : Nat) (counts acc : List Int) : Prop where
  len : acc.length = R
  recent : ∀ k, k < counts.length → counts.length ≤ k + R → acc[k % R]? = counts[k]?
  unwritten : ∀ j, counts.length ≤ j → j < R → acc[j]? = some (garbage j)

/-! ## parseArgs.c -/

/-- The record `struct paramaters` of parseArgs.c. A string is the list of its characters
before the terminating zero; the pointer `dumpFile` is `none` when it is `NULL`. -/
structure paramaters (α : Type) where
  filename : List Char
  IOCount : Int
  inputLen : Int
  outputLen : Int
  layerCount : Int
  nodeCounts : List Int
  learningRate : α
  maxEpoch : Int
  trainingPartion : α
  dumpFile : Option (List Char)
  PrePost : Int
  precision : Int
  converganceRange : Int

/-- Read of `arr[i]` for an `int` index: outside the array it is a fault. -/
def rdAt (arr : List Int) (i : Int) : Exec Int :=
  if 0 ≤ i then rd arr[i.toNat]? else .error .fault

/-- Write of `arr[i] = v` for an `int` index: outside the array it is a fault. -/
def wrAt (arr : List Int) (i : Int) (v : Int) : Exec (List Int) :=
  if 0 ≤ i then wr arr i.toNat v else .error .fault

/-- The test `argv[i][0] == '-' && argv[i][1] && argv[i][1] == c` of `findFlagArg`. -/
def isFlag (arg : List Char) (c : Char) : Bool :=
  match arg with
  | a :: b :: _ => a == '-' && b.toNat != 0 && b == c
  | _ => false

/-- The loop of `findFlagArg` from index `i` on, over the arguments that are left. -/
def findFlagArg.loop (c : Char) : List (List Char) → Nat → Nat
  | [], i => i
  | arg :: rest, i => if isFlag arg c then i else findFlagArg.loop c rest (i + 1)

/-- Function `findFlagArg` of parseArgs.c: the index of the first argument after
`argv[0]` that holds the flag `c`, or `argc`. -/
def findFlagArg (argv : List (List Char)) (c : Char) : Nat :=
  match argv with
  | [] => 0
  | _ :: rest => findFlagArg.loop c rest 1

/-- The loop of `getFileName` from index `i` on: an argument that starts with `'-'` is
skipped together with the argument after it. -/
def getFileName.loop : Nat → List (List Char) → Option (List Char)
  | 0, _ => none
  | _ + 1, [] => none
  | fuel + 1, arg :: rest =>
    if arg.head? = some '-' then getFileName.loop fuel (rest.drop 1)
    else some arg

/-- Function `getFileName` of parseArgs.c: `none` stands for the result `argv[0]`, which
`parseArgs` takes as the failure. -/
def getFileName (argv : List (List Char)) : Option (List Char) :=
  getFileName.loop argv.length (argv.drop 1)

/-- Function `getOutputCount` of parseArgs.c. -/
def getOutputCount (atoi : List Char → Int) (argv : List (List Char)) : Int :=
  match argv[findFlagArg argv 'o' + 1]? with
  | some arg => if atoi arg > 0 then atoi arg else -1
  | none => 1

/-- The first loop of `getInputInfo`: it counts the commas of the first line and gives
the rest of the file after the end of that line. -/
def getInputInfo.header : List Char → Int → Int × List Char
  | [], inputLen => (inputLen, [])
  | c :: rest, inputLen =>
    if c = Char.ofNat 10 then (inputLen, rest)
    else if c = ',' then getInputInfo.header rest (wrapInt (inputLen + 1))
    else getInputInfo.header rest inputLen

/-- The second loop of `getInputInfo`: it counts the ends of line. -/
def getInputInfo.lines : List Char → Int → Int
  | [], count => count
  | c :: rest, count =>
    if c = Char.ofNat 10 then getInputInfo.lines rest (wrapInt (count + 1))
    else getInputInfo.lines rest count

/-- Function `getInputInfo` of parseArgs.c: the return code, `*IOCount` and `*inputLen`
after the call. The argument `file` is the content of the file, `none` when it cannot be
opened; the content holds no character that reads as `EOF`. -/
def getInputInfo (file : Option (List Char)) (count inputLen : Int) : Int × Int × Int :=
  match file with
  | none => (-1, count, inputLen)
  | some content =>
    let h := getInputInfo.header content inputLen
    if h.1 < 1 then (-1, count, h.1)
    else (0, getInputInfo.lines h.2 count, h.1)

/-- Function `getLayerCount` of parseArgs.c. -/
def getLayerCount (atoi : List Char → Int) (argv : List (List Char)) (inputLen : Int) : Int :=
  match argv[findFlagArg argv 'l' + 1]? with
  | some arg => if atoi arg > 0 then atoi arg else -1
  | none => inputLen.tdiv 7

/-- Function `avgBetween` of parseArgs.c, with `fuel` at least `e - s`. -/
def avgBetween.go : Nat → List Int → Int → Int → Exec (List Int)
  | 0, arr, _, _ => .ok arr
  | fuel + 1, arr, s, e =>
    if s + 1 ≥ e then .ok arr
    else do
      let m := (wrapInt (s + e)).tdiv 2
      let a ← rdAt arr s
      let b ← rdAt arr e
      let arr ← wrAt arr m ((wrapInt (a + b)).tdiv 2)
      let arr ← avgBetween.go fuel arr s m
      avgBetween.go fuel arr m e

/-- Function `avgBetween` of parseArgs.c: the depth of its recursion is at most the
distance `e - s`. -/
def avgBetween (arr : List Int) (s e : Int) : Exec (List Int) :=
  avgBetween.go (e - s).toNat arr s e

/-- The loop of `getNodeCounts` over the arguments after the flag `-n`: the code (-1
when a count is smaller than 1), `layer_i` and the array after the loop. -/
def getNodeCounts.loop (atoi : List Char → Int) (layerCount : Int) :
    List (List Char) → Int → List Int → Exec (Int × Int × List Int)
  | [], layer_i, nodeCounts => .ok (0, layer_i, nodeCounts)
  | arg :: rest, layer_i, nodeCounts =>
    if layer_i < layerCount then do
      let nodeCounts ← wrAt nodeCounts layer_i (atoi arg)
      if atoi arg < 1 then .ok (-1, layer_i + 1, nodeCounts)
      else getNodeCounts.loop atoi layerCount rest (layer_i + 1) nodeCounts
    else .ok (0, layer_i, nodeCounts)

/-- Function `getNodeCounts` of parseArgs.c: the return code and the array `nodeCounts`
after the call. -/
def getNodeCounts (atoi : List Char → Int) (argv : List (List Char)) (layerCount : Int)
    (nodeCounts : List Int) (inputLen outputLen : Int) : Exec (Int × List Int) :=
  let arg_i := findFlagArg argv 'n' + 1
  if arg_i < argv.length then
    if findFlagArg argv 'l' = argv.length then .ok (-1, nodeCounts)
    else do
      let r ← getNodeCounts.loop atoi layerCount (argv.drop arg_i) 0 nodeCounts
      if r.1 < 0 then .ok (-1, r.2.2)
      else if r.2.1 ≠ layerCount then .ok (-1, r.2.2)
      else do
        let last ← rdAt r.2.2 (layerCount - 1)
        if last ≠ outputLen then .ok (-1, r.2.2) else .ok (0, r.2.2)
  else do
    let nodeCounts ← wrAt nodeCounts 0 inputLen
    let nodeCounts ← wrAt nodeCounts (layerCount - 1) outputLen
    let nodeCounts ← avgBetween nodeCounts 0 (layerCount - 1)
    .ok (0, nodeCounts)

/-- Function `getLearningRate` of parseArgs.c. -/
def getLearningRate (atof : List Char → α) (argv : List (List Char)) : α :=
  match argv[findFlagArg argv 'r' + 1]? with
  | some arg => if atof arg > 0 then atof arg else -1
  | none => 1 / 10

/-- Function `getMaxEpoch` of parseArgs.c. -/
def getMaxEpoch (atoi : List Char → Int) (argv : List (List Char)) : Int :=
  match argv[findFlagArg argv 'e' + 1]? with
  | some arg => if atoi arg > 0 then atoi arg else -1
  | none => 1000

/-- Function `getTrainingPartion` of parseArgs.c. -/
def getTrainingPartion (atof : List Char → α) (argv : List (List Char)) : α :=
  match argv[findFlagArg argv 't' + 1]? with
  | some arg => if atof arg > 0 ∧ atof arg < 1 then atof arg else -1
  | none => 80 / 100

/-- Function `getDumpWeights` of parseArgs.c. -/
def getDumpWeights (argv : List (List Char)) : Option (List Char) :=
  argv[findFlagArg argv 'd' + 1]?

/-- Function `getPrePostWeights` of parseArgs.c. -/
def getPrePostWeights (argv : List (List Char)) : Int :=
  if findFlagArg argv 'b' < argv.length then 1 else 0

/-- The conversion of a double that is assigned to an `int`: truncation toward zero. For
a value outside the range of `int` the conversion is undefined in C; the build at hand
gives the smallest `int`. -/
def doubleToInt (x : α) : Int :=
  if -(2 ^ 31) ≤ truncToInt x ∧ truncToInt x < 2 ^ 31 then truncToInt x else -(2 ^ 31)

/-- The loop `for (i=0; i<ret; i++) precision *= 10` of `getPrecision`, in `int`
arithmetic. -/
def getPrecision.power : Nat → Int → Int
  | 0, precision => precision
  | n + 1, precision => getPrecision.power n (wrapInt (precision * 10))

/-- Function `getPrecision` of parseArgs.c. -/
def getPrecision (atof : List Char → α) (argv : List (List Char)) : Int :=
  match argv[findFlagArg argv 'p' + 1]? with
  | some arg =>
    if doubleToInt (atof arg) ≥ 0 then getPrecision.power (doubleToInt (atof arg)).toNat 1
    else -1
  | none => 100

/-- Function `getconverganceRange` of parseArgs.c. -/
def getconverganceRange (atof : List Char → α) (argv : List (List Char)) : Int :=
  match argv[findFlagArg argv 'c' + 1]? with
  | some arg => if doubleToInt (atof arg) > 1 then doubleToInt (atof arg) else -1
  | none => 32

/-- The part of `parseArgs` after the call of `getNodeCounts`, whose return code is
`code`: the learning rate, the number of epochs, the partition, the dump file, the flag
`-b`, the precision and the convergence range. The result of `getDumpWeights` is never
the pointer `argv[0]`. -/
def parseArgs.rest (atoi : List Char → Int) (atof : List Char → α) (argv : List (List Char))
    (params : paramaters α) (code : Int) : Exec (Int × paramaters α) :=
  if code < 0 then .ok (-1, params)
  else
    let learningRate := getLearningRate atof argv
    if learningRate < 0 then .ok (-1, { params with learningRate := learningRate })
    else
      let maxEpoch := getMaxEpoch atoi argv
      if maxEpoch < 0 then
        .ok (-1, { params with learningRate := learningRate, maxEpoch := maxEpoch })
      else
        let trainingPartion := getTrainingPartion atof argv
        if trainingPartion < 0 then
          .ok (-1, { params with learningRate := learningRate, maxEpoch := maxEpoch,
                                 trainingPartion := trainingPartion })
        else
          let precision := getPrecision atof argv
          if precision < 0 then
            .ok (-1, { params with learningRate := learningRate, maxEpoch := maxEpoch,
                                   trainingPartion := trainingPartion,
                                   dumpFile := getDumpWeights argv,
                                   PrePost := getPrePostWeights argv,
                                   precision := precision })
          else
            let converganceRange := getconverganceRange atof argv
            .ok (if converganceRange < 0 then -1 else 0,
              { params with learningRate := learningRate, maxEpoch := maxEpoch,
                            trainingPartion := trainingPartion,
                            dumpFile := getDumpWeights argv,
                            PrePost := getPrePostWeights argv,
                            precision := precision,
                            converganceRange := converganceRange })

/-- Function `parseArgs` of parseArgs.c: the return code and `*params` after the call.
The functions `atoi` and `atof` of the C library and the file system, which gives the
content of the file of a name when it can be opened, are arguments; `malloc` returns an
array of `layerCount` cells. At every `return` the record holds the fields that have been
assigned so far, the other fields are those of the record of the caller; without a file
name the field `filename` is `argv[0]`. -/
def parseArgs (atoi : List Char → Int) (atof : List Char → α)
    (fs : List Char → Option (List Char)) (argv : List (List Char)) (params : paramaters α) :
    Exec (Int × paramaters α) :=
  match getFileName argv with
  | none => .ok (-1, { params with filename := argv.headD [] })
  | some filename =>
    let outputLen := getOutputCount atoi argv
    if outputLen < 0 then
      .ok (-1, { params with filename := filename, outputLen := outputLen })
    else
      -- `IOCount = 0` and `inputLen = 1 - outputLen` before the call of `getInputInfo`
      let info := getInputInfo (fs filename) 0 (wrapInt (1 - outputLen))
      let count := info.2.1
      let inputLen := info.2.2
      if info.1 < 0 then
        .ok (-1, { params with filename := filename, outputLen := outputLen, IOCount := count,
                               inputLen := inputLen })
      else
        let layerCount := getLayerCount atoi argv inputLen
        if layerCount < 0 then
          .ok (-1, { params with filename := filename, outputLen := outputLen,
                                 IOCount := count, inputLen := inputLen,
                                 layerCount := layerCount })
        else
          match getNodeCounts atoi argv layerCount (List.replicate layerCount.toNat 0) inputLen
              outputLen with
          | .error e => .error e
          | .ok nc =>
            parseArgs.rest atoi atof argv
              { params with filename := filename, outputLen := outputLen, IOCount := count,
                            inputLen := inputLen, layerCount := layerCount,
                            nodeCounts := nc.2 } nc.1

/-- The command line `test and.csv`: the name of the program and the name of the file of
records, no flag. -/
def andArgv : List (List Char) := ["test".toList, "and.csv".toList]

/-- A file of records of the AND function: a line of titles with two commas, then four
lines. -/
def andFile : List Char :=
  "a,b,out".toList ++ [Char.ofNat 10] ++ "0,0,0".toList ++ [Char.ofNat 10] ++
    "0,1,0".toList ++ [Char.ofNat 10] ++ "1,0,0".toList ++ [Char.ofNat 10] ++
    "1,1,1".toList ++ [Char.ofNat 10]

/-- A file system that holds the file `and.csv` only. -/
def andFs (name : List Char) : Option (List Char) :=
  if name = "and.csv".toList then some andFile else none

/-! ## Networks of one node -/

/-- The single-layer topology on two inputs: one layer of one node, with the bias `b` and
the weights `w1` and `w2`, the activation `a` in the buffer, and the translator of the
characters `'0'` and `'1'`. -/
def unitNet (b w1 w2 a : α) : network α :=
  { inputLen := 2, layerCount := 1, nodeCounts := [1], outputs := [[a]],
    weights := [[[b, w1, w2]]], translations := [⟨2, [48, 49]⟩] }

/-- The four records of the logical AND, as characters. -/
def andExamples : List IOData :=
  [⟨[48, 48], [48]⟩, ⟨[48, 49], [48]⟩, ⟨[49, 48], [48]⟩, ⟨[49, 49], [49]⟩]

/-- The weighted sum of the node of a network of one node on an input of two
characters. -/
def unitSum (b w1 w2 : α) (x1 x2 : Symbol) : α :=
  b + w1 * translateInput x1 + w2 * translateInput x2

/-- The target activation of the desired character `d` for the translator of `'0'` and
`'1'`: one quarter for `'0'`, three quarters for `'1'`. -/
def unitTarget (d : Symbol) : α :=
  if d = 48 then 1 / 4 else 3 / 4

/-- The delta of the node of a network of one node with the activation `a`, for the
desired character `d`. -/
def unitDelta (a : α) (d : Symbol) : α :=
  a * (1 - a) * (unitTarget d - a)

/-- The network of one node after one correction on the input `x1 x2` with the desired
character `d`. -/
def unitStep (lr b w1 w2 a : α) (x1 x2 d : Symbol) : network α :=
  unitNet (b + lr * unitDelta a d) (w1 + lr * translateInput x1 * unitDelta a d)
    (w2 + lr * translateInput x2 * unitDelta a d) a

/-- A record with the desired character `'0'` whose first input is the byte 127, the
largest value of a `char`. -/
def lowRecord : IOData := ⟨[127, 0], [48]⟩

/-- A record with the desired character `'1'` whose inputs are the byte 0. -/
def highRecord : IOData := ⟨[0, 0], [49]⟩

/-! ## test.c -/

/-- An `int` that is used as the length of an array or as the bound of the loops over
it: a negative value is outside the model. -/
def lengthOf (x : Int) : Exec Nat :=
  if 0 ≤ x then .ok x.toNat else .error .fault

/-- The lines of function `main` of test.c from the translation matrix to the call of
`train`, for the parameters that `parseArgs` has set and the array `io` that `getData`
has filled. The result is `none` when `main` returns before the call of `train`,
otherwise the network that `buildNetwork` has built and what `train` leaves. What
`main` prints is left out; a number of epochs below 1 lets `train` run one epoch, like
the number 0. The product `params.IOCount*params.trainingPartion` is a product of
doubles: `rnd` is the rounding of the exact product to a double, and the conversion to
`int` is that of `doubleToInt`. -/
def main.training (exp : α → α) (rnd : α → α) (rand : Nat → Nat) (RAND_MAX : Nat)
    (garbage : Nat → Int) (fopenOk : Bool) (params : paramaters α) (io : List IOData) :
    Exec (Option (network α × trainResult α)) := do
  let IOCount ← lengthOf params.IOCount
  let outputLen ← lengthOf params.outputLen
  -- build translation matrix (translates ANN output to character output)
  let tm ← buildTranslationMatrix IOCount outputLen io (List.replicate outputLen ⟨0, []⟩)
  if tm.1 < 0 then .ok none else
  -- build ANN
  let inputLen ← lengthOf params.inputLen
  let layerCount ← lengthOf params.layerCount
  let nodeCounts ← params.nodeCounts.mapM lengthOf
  let built ← buildNetwork rand RAND_MAX inputLen layerCount nodeCounts tm.2
  if built.1 < 0 then .ok none else
  -- train ANN
  let trainingIOCount ←
    lengthOf (doubleToInt (rnd ((params.IOCount : α) * params.trainingPartion)))
  let convRange ← lengthOf params.converganceRange
  let res ← train exp garbage fopenOk built.2 io trainingIOCount params.maxEpoch.toNat
    params.learningRate (params.dumpFile.map String.mk) params.precision convRange
  .ok (some (built.2, res))

/-- The parameters of a run on the four records of the AND function: one layer of one
node, the learning rate 1/2, at most 5000 epochs, four fifths of the records for the
training, the precision 100 and the convergence range 32. -/
def andParams : paramaters ℚ :=
  { filename := "and.csv".toList, IOCount := 4, inputLen := 2, outputLen := 1, layerCount := 1,
    nodeCounts := [1], learningRate := 1 / 2, maxEpoch := 5000, trainingPartion := 4 / 5,
    dumpFile := none, PrePost := 0, precision := 100, converganceRange := 32 }

/-- The parameters of a run on three records, one layer of one node, four fifths of the
records for the training. -/
def highByteParams : paramaters α :=
  { filename := "high.csv".toList, IOCount := 3, inputLen := 2, outputLen := 1, layerCount := 1,
    nodeCounts := [1], learningRate := 1 / 2, maxEpoch := 5000, trainingPartion := 4 / 5,
    dumpFile := none, PrePost := 0, precision := 100, converganceRange := 32 }

/-- Three records of which the first has the byte 200 as its desired character. -/
def highByteRecords : List IOData :=
  [⟨[48, 49], [200]⟩, ⟨[48, 48], [48]⟩, ⟨[49, 49], [49]⟩]

/-! ## Vocabulary of the statements on the squared error -/

/-- Reference: the target of output node `n`, the number `translateOutput` gives for the
desired character of the node (0 for a character that is missing or unknown). -/
def targetOf (net : network α) (desiredOutput : List Symbol) (n : Nat) : α :=
  match desiredOutput[n]?, net.translations[n]? with
  | some c, some t =>
    match translateOutput (α := α) c t with
    | .ok f => if f < 0 then 0 else f
    | .error _ => 0
  | _, _ => 0

/-- Reference: the squared error of the activations in the buffer of the network, the
sum over the nodes `n` of the last layer of `(target_n - a_n)^2`. -/
def squaredError (net : network α) (desiredOutput : List Symbol) : α :=
  ∑ n in Finset.range (nodesOf net (net.layerCount - 1)),
    (targetOf net desiredOutput n - at2 net.outputs (net.layerCount - 1) n) ^ 2

/-- Reference: the activation of node `n` of layer `l` as a function of the weights
`w l n i`, the numbers `fan l` of inputs of the layers and the encoded input `x`: the
sigmoid of the bias plus the sum of weight times source, the sources of layer 0 being
the inputs and those of a later layer the activations of the layer before. -/
def activationRef (exp : α → α) (w : Nat → Nat → Nat → α) (fan : Nat → Nat) (x : Nat → α) :
    Nat → Nat → α
  | 0, n => sigmoid exp (w 0 n 0 + ∑ i in Finset.range (fan 0), w 0 n (i + 1) * x i)
  | l + 1, n => sigmoid exp (w (l + 1) n 0 +
      ∑ i in Finset.range (fan (l + 1)), w (l + 1) n (i + 1) * activationRef exp w fan x l i)

/-! ## Underflow of the exponential -/

/-- An exponential with the underflow of the function `exp` of `math.h` on doubles: for
an argument below -746 the exact value is smaller than half of the smallest positive
double and the result is 0; elsewhere the result is the value of `exp`. -/
def expUnderflow (exp : α → α) (x : α) : α :=
  if x < -746 then 0 else exp x

/-- A network of two layers of one node each on two inputs, with the translator of the
characters `'0'` and `'1'`: the node of the first layer has the bias 800 and the weights
0, the node of the second layer the bias 0 and the weight 0. -/
def saturatedNet : network α :=
  { inputLen := 2, layerCount := 2, nodeCounts := [1, 1], outputs := [[0], [0]],
    weights := [[[800, 0, 0]], [[0, 0]]], translations := [⟨2, [48, 49]⟩] }

/-- A record whose desired character `'2'` is not an entry of the translator of `'0'`
and `'1'`. -/
def unknownRecord : IOData := ⟨[48, 49], [50]⟩

/-! ## General facts about the execution model -/

@[simp] theorem rd_some {β : Type} (b : β) : rd (some b) = .ok b := rfl

@[simp] theorem rd_none {β : Type} : rd (none : Option β) = .error .fault := rfl

@[simp] theorem ok_bind {β γ : Type} (b : β) (f : β → Exec γ) :
    ((Except.ok b : Exec β) >>= f) = f b := rfl

@[simp] theorem error_bind {β γ : Type} (e : Abort) (f : β → Exec γ) :
    ((Except.error e : Exec β) >>= f) = .error e := rfl

theorem rd_getElem {β : Type} (xs : List β) (i : Nat) (h : i < xs.length) :
    rd xs[i]? = .ok xs[i] := by
  simp [List.getElem?_eq_getElem h]

theorem wr_ok {β : Type} (xs : List β) (i : Nat) (v : β) (h : i < xs.length) :
    wr xs i v = .ok (xs.set i v) := by
  simp [wr, h]

/-- Hoare rule for the ascending loop: an invariant that every round keeps, without
fault, holds at the end, and the loop ends normally. -/
theorem forLoop_inv {σ : Type} (P : Nat → σ → Prop) (body : Nat → σ → Exec σ) (n : Nat) (s : σ)
    (h0 : P 0 s)
    (hstep : ∀ i t, i < n → P i t → ∃ t', body i t = .ok t' ∧ P (i + 1) t') :
    ∃ t, forLoop body n s = .ok t ∧ P n t := by
  induction n with
  | zero => exact ⟨s, rfl, h0⟩
  | succ n ih =>
    obtain ⟨t, ht, hP⟩ := ih (fun i t hi hp => hstep i t (Nat.lt_succ_of_lt hi) hp)
    obtain ⟨t', ht', hP'⟩ := hstep n t (Nat.lt_succ_self n) hP
    exact ⟨t', by simp [forLoop, ht, ht'], hP'⟩

/-- Hoare rule for the descending loop; `P i` holds before round `i - 1`. -/
theorem forDown_inv {σ : Type} (P : Nat → σ → Prop) (body : Nat → σ → Exec σ) (n : Nat) (s : σ)
    (h0 : P n s)
    (hstep : ∀ i t, i < n → P (i + 1) t → ∃ t', body i t = .ok t' ∧ P i t') :
    ∃ t, forDown body n s = .ok t ∧ P 0 t := by
  induction n generalizing s with
  | zero => exact ⟨s, rfl, h0⟩
  | succ n ih =>
    obtain ⟨t', ht', hP'⟩ := hstep n s (Nat.lt_succ_self n) h0
    obtain ⟨t, ht, hP⟩ := ih t' hP' (fun i t hi hp => hstep i t (Nat.lt_succ_of_lt hi) hp)
    exact ⟨t, by simp [forDown, ht', ht], hP⟩

/-! ## Translators: `translateOutput` -/

/-- The search loop returns the bucket centre of the first index holding `c`. -/
theorem translateOutput_loop_found (c : Symbol) (ts : translation) (t : Nat)
    (ht : t < ts.entries.length) (hc : ts.entries[t] = c) :
    ∀ (fuel t_i : Nat), t_i ≤ t → t < t_i + fuel →
      (∀ j (hj : j < ts.entries.length), t_i ≤ j → j < t → ts.entries[j] ≠ c) →
      (translateOutput.loop c ts fuel t_i : Exec α)
        = .ok (((t : α) + 0.5) / (ts.count : α)) := by
  intro fuel
  induction fuel with
  | zero => intro t_i h1 h2; omega
  | succ fuel ih =>
    intro t_i h1 h2 hfirst
    have hti : t_i < ts.entries.length := by omega
    rw [translateOutput.loop, rd_getElem _ _ hti]
    by_cases heq : t_i = t
    · subst heq
      simp [hc]
    · have hne : c ≠ ts.entries[t_i] := fun h => hfirst t_i hti le_rfl (by omega) h.symm
      simp only [ok_bind, if_neg hne]
      exact ih (t_i + 1) (by omega) (by omega) (fun j hj h3 h4 => hfirst j hj (by omega) h4)

/-- The search loop returns the sentinel when no index it visits holds `c`. -/
theorem translateOutput_loop_missing (c : Symbol) (ts : translation) :
    ∀ (fuel t_i : Nat), t_i + fuel ≤ ts.entries.length →
      (∀ j (hj : j < ts.entries.length), t_i ≤ j → ts.entries[j] ≠ c) →
      (translateOutput.loop c ts fuel t_i : Exec α) = .ok (-1) := by
  intro fuel
  induction fuel with
  | zero => intro t_i _ _; rfl
  | succ fuel ih =>
    intro t_i h1 hall
    have hti : t_i < ts.entries.length := by omega
    have hne : c ≠ ts.entries[t_i] := fun h => hall t_i hti le_rfl h.symm
    rw [translateOutput.loop, rd_getElem _ _ hti]
    simp only [ok_bind, if_neg hne]
    exact ih (t_i + 1) (by omega) (fun j hj h3 => hall j hj (by omega))

/-- Bucket centres are positive. -/
theorem bucket_pos (t count : Nat) (h : t < count) :
    (0 : α) < ((t : α) + 0.5) / (count : α) := by
  have h1 : (0 : α) < (count : α) := by exact_mod_cast (by omega : 0 < count)
  have h2 : (0 : α) ≤ (t : α) := Nat.cast_nonneg t
  apply div_pos _ h1
  norm_num
  linarith

/-- With distinct entries, `translateOutput` maps the entry at index `t` to the centre of
bucket `t`. -/
theorem translateOutput_of_index (ts : translation) (c : Symbol)
    (hcount : ts.count = ts.entries.length) (hnodup : ts.entries.Nodup)
    (t : Nat) (h : t < ts.entries.length) (hc : ts.entries[t] = c) :
    translateOutput c ts = (.ok (((t : α) + 0.5) / (ts.count : α)) : Exec α) := by
  apply translateOutput_loop_found c ts t h hc ts.count 0 (Nat.zero_le t) (by omega)
  intro j hj _ hjt heq
  have := (List.Nodup.getElem_inj_iff hnodup).1 (heq.trans hc.symm)
  omega

/-- A character outside the entries is answered by the sentinel `-1`. -/
theorem translateOutput_of_not_mem (ts : translation) (c : Symbol)
    (hcount : ts.count = ts.entries.length) (hc : c ∉ ts.entries) :
    translateOutput c ts = (.ok (-1) : Exec α) := by
  apply translateOutput_loop_missing c ts ts.count 0 (by omega)
  intro j hj _ heq
  exact hc (heq ▸ List.getElem_mem hj)

/-- C8. Encoding: for a translator whose `count` is the number of its (distinct) entries,
`translateOutput` returns `(t + 0.5) / count` for the entry at ordinal index `t`; it
always returns, and the value it returns is the sentinel `-1`, the only negative value
it can give, exactly when the character is not among the entries. -/
theorem translateOutput_encoding (ts : translation) (c : Symbol)
    (hcount : ts.count = ts.entries.length) (hnodup : ts.entries.Nodup) :
    (∀ (t : Nat) (h : t < ts.entries.length), ts.entries[t] = c →
        translateOutput c ts = (.ok (((t : α) + 0.5) / (ts.count : α)) : Exec α)) ∧
    (translateOutput c ts = (.ok (-1) : Exec α) ↔ c ∉ ts.entries) ∧
    (∃ v : α, translateOutput c ts = .ok v ∧ (v < 0 ↔ c ∉ ts.entries)) := by
  refine ⟨fun t h hc => translateOutput_of_index ts c hcount hnodup t h hc, ?_, ?_⟩
  · constructor
    · intro hres hmem
      obtain ⟨t, ht, hc⟩ := List.mem_iff_getElem.1 hmem
      have h1 := translateOutput_of_index (α := α) ts c hcount hnodup t ht hc
      rw [h1] at hres
      have h2 : (((t : α) + 0.5) / (ts.count : α)) = -1 := by injection hres
      have h3 := bucket_pos (α := α) t ts.count (by omega)
      linarith
    · exact translateOutput_of_not_mem ts c hcount
  · by_cases hmem : c ∈ ts.entries
    · obtain ⟨t, ht, hc⟩ := List.mem_iff_getElem.1 hmem
      refine ⟨_, translateOutput_of_index ts c hcount hnodup t ht hc, ?_⟩
      have h3 := bucket_pos (α := α) t ts.count (by omega)
      constructor
      · intro h; linarith
      · intro h; exact absurd hmem h
    · refine ⟨-1, translateOutput_of_not_mem ts c hcount hmem, ?_⟩
      simp [hmem]

/-- Witness for C8: the translator of the characters `'0'` and `'1'`, asked for `'1'`. -/
theorem translateOutput_encoding_witness :
    (∀ (t : Nat) (h : t < [(48 : Symbol), 49].length), [(48 : Symbol), 49][t] = 49 →
        translateOutput 49 ⟨2, [48, 49]⟩ = (.ok (((t : ℚ) + 0.5) / ((2 : Nat) : ℚ)) : Exec ℚ)) ∧
    (translateOutput 49 ⟨2, [48, 49]⟩ = (.ok (-1) : Exec ℚ) ↔ (49 : Symbol) ∉ [(48 : Symbol), 49]) ∧
    (∃ v : ℚ, translateOutput 49 ⟨2, [48, 49]⟩ = .ok v ∧
      (v < 0 ↔ (49 : Symbol) ∉ [(48 : Symbol), 49])) :=
  translateOutput_encoding (α := ℚ) ⟨2, [48, 49]⟩ 49 rfl (by decide)

/-! ## Translators: `buildTranslationMatrix` -/

theorem set_replicate_self {β : Type} (n i : Nat) (a : β) :
    (List.replicate n a).set i a = List.replicate n a := by
  apply List.ext_getElem?
  intro j
  simp only [List.getElem?_set, List.getElem?_replicate, List.length_replicate]
  split_ifs <;> first | rfl | omega

/-- The table of flags after the clearing loop. -/
theorem clear_loop :
    forLoop (fun e_i es => wr es e_i (0 : Nat)) 256 (List.replicate 256 0)
      = .ok (List.replicate 256 0) := by
  obtain ⟨t, ht, hP⟩ := forLoop_inv (fun _ es => es = List.replicate 256 (0 : Nat))
    (fun e_i es => wr es e_i (0 : Nat)) 256 (List.replicate 256 0) rfl
    (by
      intro i t hi hP
      subst hP
      exact ⟨_, wr_ok _ _ _ (by rw [List.length_replicate]; exact hi),
        set_replicate_self _ _ _⟩)
  rw [ht, hP]

/-- The value of a character below 128 is its byte, and a write at this value is a
write at the byte. -/
theorem charValue_low (c : Symbol) (h : c.val < 128) : charValue c = (c.val : Int) := by
  rw [charValue, if_pos h]

theorem wrIdx_low {β : Type} (xs : List β) (c : Symbol) (h : c.val < 128) (v : β) :
    wrIdx xs (charValue c) v = wr xs c.val v := by
  rw [charValue_low c h, wrIdx, if_pos (Int.natCast_nonneg _), Int.toNat_natCast]

/-- A character from 128 on has a negative value, and a write at this value is outside
every array. -/
theorem wrIdx_high {β : Type} (xs : List β) (c : Symbol) (h : 128 ≤ c.val) (v : β) :
    wrIdx xs (charValue c) v = .error .fault := by
  have hc : c.val < 256 := c.isLt
  rw [charValue, if_neg (by omega), wrIdx, if_neg (by omega)]

/-- The table of flags after the flagging loop, for records whose output characters are
below 128: a flag is `1` where a record has the character at position `o`, and `0`
elsewhere. -/
theorem flag_loop (IOCount : Nat) (ios : List IOData) (o : Nat)
    (hio : IOCount ≤ ios.length) (hlen : ∀ r ∈ ios, o < r.output.length)
    (hlow : ∀ r ∈ ios, ∀ c ∈ r.output, c.val < 128) :
    ∃ es : List Nat, forLoop (fun io_i es => do
        let r ← rd ios[io_i]?
        let c ← rd r.output[o]?
        wrIdx es (charValue c) 1) IOCount (List.replicate 256 0) = .ok es ∧
      es.length = 256 ∧
      ∀ s : Symbol, (es[s.val]? = some 1 ∧ occursAt IOCount ios o s) ∨
        (es[s.val]? = some 0 ∧ ¬ occursAt IOCount ios o s) := by
  apply forLoop_inv (fun k (es : List Nat) => es.length = 256 ∧
      ∀ s : Symbol, (es[s.val]? = some 1 ∧ occursAt k ios o s) ∨
        (es[s.val]? = some 0 ∧ ¬ occursAt k ios o s))
  · refine ⟨List.length_replicate _ _, fun s => Or.inr ⟨?_, ?_⟩⟩
    · rw [List.getElem?_replicate, if_pos s.isLt]
    · rintro ⟨i, hi, _⟩
      omega
  · rintro i es hi ⟨hl, hP⟩
    have hi' : i < ios.length := by omega
    have ho : o < (ios[i]).output.length := hlen _ (List.getElem_mem hi')
    refine ⟨es.set ((ios[i]).output[o]).val 1, ?_, by simpa using hl, ?_⟩
    · rw [rd_getElem _ _ hi']
      simp only [ok_bind]
      rw [rd_getElem _ _ ho]
      simp only [ok_bind]
      rw [wrIdx_low _ _ (hlow _ (List.getElem_mem hi') _ (List.getElem_mem ho))]
      exact wr_ok _ _ _ (by rw [hl]; exact Fin.isLt _)
    · intro s
      by_cases hs : (ios[i]).output[o] = s
      · left
        refine ⟨?_, i, Nat.lt_succ_self i, ios[i], List.getElem?_eq_getElem hi', ?_⟩
        · rw [List.getElem?_set, hs]
          simp [hl, s.isLt]
        · rw [List.getElem?_eq_getElem ho, hs]
      · have hne : ((ios[i]).output[o]).val ≠ s.val := fun h => hs (Fin.ext h)
        have hocc : occursAt (i + 1) ios o s ↔ occursAt i ios o s := by
          constructor
          · rintro ⟨j, hj, r, hr, hrs⟩
            rcases Nat.lt_succ_iff_lt_or_eq.1 hj with h | h
            · exact ⟨j, h, r, hr, hrs⟩
            · subst h
              rw [List.getElem?_eq_getElem hi'] at hr
              injection hr with hr
              subst hr
              rw [List.getElem?_eq_getElem ho] at hrs
              injection hrs with hrs
              exact absurd hrs hs
          · rintro ⟨j, hj, rest⟩
            exact ⟨j, Nat.lt_succ_of_lt hj, rest⟩
        rw [List.getElem?_set, if_neg hne, hocc]
        exact hP s

/-- The flag test `entries[e_i]` of the counting and storing loops. -/
theorem flag_read (es : List Nat) (hl : es.length = 256)
    (hflag : ∀ s : Symbol, es[s.val]? = some 1 ∨ es[s.val]? = some 0)
    (e : Nat) (he : e < 256) :
    ∃ f, rd es[e]? = .ok f ∧ (f ≠ 0 ↔ es[e]? = some 1) := by
  rcases hflag ⟨e, he⟩ with h | h
  · exact ⟨1, by simp only [] at h; rw [h]; rfl, by simp only [] at h; simp [h]⟩
  · exact ⟨0, by simp only [] at h; rw [h]; rfl, by simp only [] at h; simp [h]⟩

/-- The counting loop counts the flags that are set. -/
theorem count_loop (es : List Nat) (hl : es.length = 256)
    (hflag : ∀ s : Symbol, es[s.val]? = some 1 ∨ es[s.val]? = some 0) :
    forLoop (fun e_i (cnt : Nat) => do
        let f ← rd es[e_i]?
        if f ≠ 0 then .ok (cnt + 1) else .ok cnt) 256 0
      = .ok ((List.range 256).filter (fun e => decide (es[e]? = some 1))).length := by
  obtain ⟨t, ht, hP⟩ := forLoop_inv
    (fun k (cnt : Nat) => cnt = ((List.range k).filter (fun e => decide (es[e]? = some 1))).length)
    (fun e_i (cnt : Nat) => do
        let f ← rd es[e_i]?
        if f ≠ 0 then .ok (cnt + 1) else .ok cnt) 256 0 rfl
    (by
      intro i cnt hi hP
      obtain ⟨f, hf, hiff⟩ := flag_read es hl hflag i hi
      simp only [hf, ok_bind, List.range_succ, List.filter_append, List.length_append]
      by_cases h1 : es[i]? = some 1
      · exact ⟨cnt + 1, by rw [if_pos (hiff.2 h1)], by simp [List.filter, h1, hP]⟩
      · exact ⟨cnt, by rw [if_neg (fun h => h1 (hiff.1 h))], by simp [List.filter, h1, hP]⟩)
  rw [ht, hP]

theorem take_set_of_le {β : Type} (l : List β) (m n : Nat) (a : β) (h : m ≤ n) :
    (l.set n a).take m = l.take m := by
  apply List.ext_getElem?
  intro j
  simp only [List.getElem?_take, List.getElem?_set]
  split_ifs <;> first | rfl | omega

theorem filter_range_length_le (p : Nat → Bool) (k n : Nat) (h : k ≤ n) :
    ((List.range k).filter p).length ≤ ((List.range n).filter p).length :=
  ((List.range_sublist.2 h).filter p).length_le

/-- The storing loop writes the flagged byte values, in ascending order, into the
array of `count` characters. -/
theorem store_loop (es : List Nat) (hl : es.length = 256)
    (hflag : ∀ s : Symbol, es[s.val]? = some 1 ∨ es[s.val]? = some 0) :
    ∃ st : Nat × List Symbol, forLoop (fun e_i (st : Nat × List Symbol) => do
        let f ← rd es[e_i]?
        if f ≠ 0 then do
          let ent ← wr st.2 st.1 (Fin.ofNat e_i)
          .ok (st.1 + 1, ent)
        else .ok st) 256
        (0, List.replicate ((List.range 256).filter (fun e => decide (es[e]? = some 1))).length
          (0 : Symbol)) = .ok st ∧
      st.2 = ((List.range 256).filter (fun e => decide (es[e]? = some 1))).map Fin.ofNat := by
  obtain ⟨st, hst, h1, h2, h3⟩ := forLoop_inv
    (fun k (st : Nat × List Symbol) =>
      st.1 = ((List.range k).filter (fun e => decide (es[e]? = some 1))).length ∧
      st.2.length = ((List.range 256).filter (fun e => decide (es[e]? = some 1))).length ∧
      st.2.take st.1 = ((List.range k).filter (fun e => decide (es[e]? = some 1))).map Fin.ofNat)
    (fun e_i (st : Nat × List Symbol) => do
        let f ← rd es[e_i]?
        if f ≠ 0 then do
          let ent ← wr st.2 st.1 (Fin.ofNat e_i)
          .ok (st.1 + 1, ent)
        else .ok st) 256
    (0, List.replicate ((List.range 256).filter (fun e => decide (es[e]? = some 1))).length
          (0 : Symbol))
    ⟨rfl, List.length_replicate _ _, rfl⟩
    (by
      rintro i ⟨t_i, ent⟩ hi ⟨h1, h2, h3⟩
      simp only [] at h1 h2 h3
      obtain ⟨f, hf, hiff⟩ := flag_read es hl hflag i hi
      simp only [hf, ok_bind]
      by_cases hset : es[i]? = some 1
      · have hfilt : (List.range (i + 1)).filter (fun e => decide (es[e]? = some 1))
            = (List.range i).filter (fun e => decide (es[e]? = some 1)) ++ [i] := by
          simp [List.range_succ, List.filter_append, List.filter, hset]
        have hlt : t_i < ent.length := by
          have := filter_range_length_le (fun e => decide (es[e]? = some 1)) (i + 1) 256 hi
          rw [hfilt, List.length_append, List.length_singleton] at this
          omega
        refine ⟨(t_i + 1, ent.set t_i (Fin.ofNat i)), ?_, ?_, ?_, ?_⟩
        · rw [if_pos (hiff.2 hset), wr_ok _ _ _ hlt]
          rfl
        · simp [hfilt, h1]
        · simpa using h2
        · simp only []
          rw [hfilt, List.map_append, List.take_succ, take_set_of_le _ _ _ _ le_rfl, h3]
          simp [List.getElem?_set, hlt]
      · have hfilt : (List.range (i + 1)).filter (fun e => decide (es[e]? = some 1))
            = (List.range i).filter (fun e => decide (es[e]? = some 1)) := by
          simp [List.range_succ, List.filter_append, List.filter, hset]
        refine ⟨(t_i, ent), ?_, ?_, h2, ?_⟩
        · rw [if_neg (fun h => hset (hiff.1 h))]
        · rw [hfilt]; exact h1
        · rw [hfilt]; exact h3)
  refine ⟨st, hst, ?_⟩
  rw [← h3, h1, ← h2, List.take_length]

/-- What `buildTranslationMatrix` stores for output position `o`, for records whose
output characters are below 128: the characters that occur there, in strictly ascending
order, and their number. -/
theorem position_spec (IOCount : Nat) (ios : List IOData) (o : Nat)
    (translations : List translation)
    (hio : IOCount ≤ ios.length) (hlen : ∀ r ∈ ios, o < r.output.length)
    (hlow : ∀ r ∈ ios, ∀ c ∈ r.output, c.val < 128)
    (ho : o < translations.length) :
    ∃ t : translation,
      buildTranslationMatrix.position IOCount ios o translations = .ok (translations.set o t) ∧
      (∀ s : Symbol, s ∈ t.entries ↔ occursAt IOCount ios o s) ∧
      t.entries.Pairwise (fun a b => a < b) ∧ t.count = t.entries.length := by
  obtain ⟨es, hes, hl, hflag⟩ := flag_loop IOCount ios o hio hlen hlow
  have hflag' : ∀ s : Symbol, es[s.val]? = some 1 ∨ es[s.val]? = some 0 := fun s =>
    (hflag s).elim (fun h => Or.inl h.1) (fun h => Or.inr h.1)
  obtain ⟨st, hst, hent⟩ := store_loop es hl hflag'
  refine ⟨{ count := ((List.range 256).filter (fun e => decide (es[e]? = some 1))).length,
            entries := st.2 }, ?_, ?_, ?_, ?_⟩
  · simp only [buildTranslationMatrix.position, clear_loop, ok_bind, hes, count_loop es hl hflag',
      hst]
    exact wr_ok _ _ _ ho
  · intro s
    simp only [hent, List.mem_map, List.mem_filter, List.mem_range, decide_eq_true_eq]
    constructor
    · rintro ⟨e, ⟨he, hset⟩, rfl⟩
      have hval : (Fin.ofNat e : Symbol).val = e := Nat.mod_eq_of_lt he
      rcases hflag (Fin.ofNat e) with h | h
      · exact h.2
      · rw [hval, hset] at h
        exact absurd h.1 (by decide)
    · intro hocc
      refine ⟨s.val, ⟨s.isLt, ?_⟩, Fin.ext (Nat.mod_eq_of_lt s.isLt)⟩
      rcases hflag s with h | h
      · exact h.1
      · exact absurd hocc h.2
  · simp only [hent]
    rw [List.pairwise_map]
    apply List.Pairwise.imp_of_mem _ ((List.pairwise_lt_range 256).filter _)
    intro a b ha hb hab
    have ha' : a < 256 := List.mem_range.1 (List.mem_filter.1 ha).1
    have hb' : b < 256 := List.mem_range.1 (List.mem_filter.1 hb).1
    show (Fin.ofNat a : Symbol).val < (Fin.ofNat b : Symbol).val
    have h1 : (Fin.ofNat a : Symbol).val = a := Nat.mod_eq_of_lt ha'
    have h2 : (Fin.ofNat b : Symbol).val = b := Nat.mod_eq_of_lt hb'
    omega
  · simp only [hent, List.length_map]

/-- What `buildTranslationMatrix` returns for records whose output characters are below
128: a translator for every output position, with the characters that occur there in
ascending order. -/
theorem buildTranslationMatrix_built (IOCount outputLen : Nat) (ios : List IOData)
    (translations : List translation)
    (hio : IOCount ≤ ios.length)
    (hlen : ∀ r ∈ ios, outputLen ≤ r.output.length)
    (hlow : ∀ r ∈ ios, ∀ c ∈ r.output, c.val < 128)
    (harr : translations.length = outputLen) :
    ∃ ts : List translation,
      buildTranslationMatrix IOCount outputLen ios translations = .ok (0, ts) ∧
      ts.length = outputLen ∧
      ∀ o, o < outputLen → ∃ t : translation, ts[o]? = some t ∧
        (∀ s : Symbol, s ∈ t.entries ↔ occursAt IOCount ios o s) ∧
        t.entries.Pairwise (fun a b => a < b) ∧ t.count = t.entries.length := by
  obtain ⟨ts, hts, hl, hP⟩ := forLoop_inv
    (fun k (ts : List translation) => ts.length = outputLen ∧
      ∀ o, o < k → ∃ t : translation, ts[o]? = some t ∧
        (∀ s : Symbol, s ∈ t.entries ↔ occursAt IOCount ios o s) ∧
        t.entries.Pairwise (fun a b => a < b) ∧ t.count = t.entries.length)
    (buildTranslationMatrix.position IOCount ios) outputLen translations
    ⟨harr, fun o ho => absurd ho (Nat.not_lt_zero o)⟩
    (by
      rintro k ts hk ⟨hl, hP⟩
      obtain ⟨t, ht, hgood⟩ := position_spec IOCount ios k ts hio
        (fun r hr => lt_of_lt_of_le hk (hlen r hr)) hlow (by omega)
      refine ⟨ts.set k t, ht, by simpa using hl, ?_⟩
      intro o ho
      by_cases hok : o = k
      · subst hok
        exact ⟨t, by simp [List.getElem?_set, hl, hk], hgood⟩
      · obtain ⟨t', ht', hgood'⟩ := hP o (by omega)
        exact ⟨t', by rw [List.getElem?_set, if_neg (Ne.symm hok)]; exact ht', hgood'⟩)
  exact ⟨ts, by simp [buildTranslationMatrix, hts], hl, hP⟩

/-- Translator construction for characters below 128: with at least one record, every
record holding an output vector of `outputLen` characters, all of them below 128,
`buildTranslationMatrix` returns 0 and the translator of every output position `o`
holds exactly the characters that occur at position `o` in some record, each once, in
strictly ascending byte-value order, with `count` the number of entries and
`count ≥ 1`. -/
theorem buildTranslationMatrix_low (IOCount outputLen : Nat) (ios : List IOData)
    (translations : List translation)
    (hpos : 1 ≤ IOCount) (hio : IOCount ≤ ios.length)
    (hlen : ∀ r ∈ ios, outputLen ≤ r.output.length)
    (hlow : ∀ r ∈ ios, ∀ c ∈ r.output, c.val < 128)
    (harr : translations.length = outputLen) :
    ∃ ts : List translation,
      buildTranslationMatrix IOCount outputLen ios translations = .ok (0, ts) ∧
      ts.length = outputLen ∧
      ∀ o, o < outputLen → ∃ t : translation, ts[o]? = some t ∧
        (∀ s : Symbol, s ∈ t.entries ↔ occursAt IOCount ios o s) ∧
        t.entries.Pairwise (fun a b => a < b) ∧ t.entries.Nodup ∧
        t.count = t.entries.length ∧ 1 ≤ t.count := by
  obtain ⟨ts, hts, hl, hP⟩ :=
    buildTranslationMatrix_built IOCount outputLen ios translations hio hlen hlow harr
  refine ⟨ts, hts, hl, ?_⟩
  intro o ho
  obtain ⟨t, ht, hmem, hsorted, hcount⟩ := hP o ho
  refine ⟨t, ht, hmem, hsorted, hsorted.imp (fun h => ne_of_lt h), hcount, ?_⟩
  -- the first record puts its character at position `o` among the entries
  have h0 : 0 < ios.length := by omega
  have h1 : o < (ios[0]).output.length := lt_of_lt_of_le ho (hlen _ (List.getElem_mem h0))
  have hin : (ios[0]).output[o] ∈ t.entries :=
    (hmem _).2 ⟨0, by omega, ios[0], List.getElem?_eq_getElem h0, List.getElem?_eq_getElem h1⟩
  rw [hcount]
  exact List.length_pos_of_mem hin

theorem sample_records_low :
    ∀ r ∈ ([⟨[48, 48], [48]⟩, ⟨[49, 49], [49]⟩] : List IOData), ∀ c ∈ r.output, c.val < 128 := by
  intro r hr c hc
  simp only [List.mem_cons, List.mem_singleton, List.not_mem_nil, or_false] at hr
  rcases hr with rfl | rfl
  · rw [List.mem_singleton.1 hc]
    decide
  · rw [List.mem_singleton.1 hc]
    decide

/-- Two records with one output character each, `'0'` and `'1'`: the translator holds
both. -/
theorem buildTranslationMatrix_low_example :
    ∃ ts : List translation,
      buildTranslationMatrix 2 1 [⟨[48, 48], [48]⟩, ⟨[49, 49], [49]⟩] [⟨0, []⟩] = .ok (0, ts) ∧
      ts.length = 1 ∧
      ∀ o, o < 1 → ∃ t : translation, ts[o]? = some t ∧
        (∀ s : Symbol, s ∈ t.entries ↔
          occursAt 2 [⟨[48, 48], [48]⟩, ⟨[49, 49], [49]⟩] o s) ∧
        t.entries.Pairwise (fun a b => a < b) ∧ t.entries.Nodup ∧
        t.count = t.entries.length ∧ 1 ≤ t.count :=
  buildTranslationMatrix_low 2 1 [⟨[48, 48], [48]⟩, ⟨[49, 49], [49]⟩] [⟨0, []⟩]
    (by decide) (by decide) (by decide) sample_records_low rfl

/-! ## Translators: decoding -/

/-- The conversion `(int) x` is the floor for `x ≥ 0`. -/
theorem truncToInt_of_nonneg (x : α) (h : 0 ≤ x) : truncToInt x = ⌊x⌋ := by
  simp [truncToInt, h]

/-- The conversion `(int) x` is `0` for `-1 < x ≤ 0`. -/
theorem truncToInt_of_small (x : α) (h1 : -1 < x) (h2 : x ≤ 0) : truncToInt x = 0 := by
  rcases eq_or_lt_of_le h2 with h | h
  · simp [truncToInt, h]
  · rw [truncToInt, if_neg (not_le.2 h), Int.ceil_eq_iff]
    constructor
    · push_cast; linarith
    · push_cast; linarith

/-- Decoding the centre of bucket `i` gives entry `i`. -/
theorem decode_bucket (t : translation) (hcount : t.count = t.entries.length)
    (i : Nat) (hi : i < t.entries.length) :
    runForward.decode t (((i : α) + 0.5) / (t.count : α)) = .ok t.entries[i] := by
  have hc : (0 : α) < (t.count : α) := by exact_mod_cast (by omega : 0 < t.count)
  have hx : (t.count : α) * (((i : α) + 0.5) / (t.count : α)) = (i : α) + 0.5 := by
    field_simp
  have hi0 : (0 : α) ≤ (i : α) := Nat.cast_nonneg i
  have hfloor : ⌊(i : α) + 0.5⌋ = (i : Int) := by
    rw [Int.floor_eq_iff]
    constructor
    · push_cast; norm_num
    · push_cast; norm_num
  have htr : truncToInt ((i : α) + 0.5) = (i : Int) := by
    rw [truncToInt_of_nonneg _ (by norm_num; linarith), hfloor]
  simp only [runForward.decode, hx, htr]
  rw [if_pos (Int.natCast_nonneg i), Int.toNat_natCast, rd_getElem _ _ hi]

/-- Translator round trip for characters below 128: for the translator that
`buildTranslationMatrix` builds for output position `o` from records whose output
characters are below 128, every character `s` occurring at position `o` in some record
is encoded by `translateOutput` to a value `v` that the decoding of `runForward` maps
back to `s`. -/
theorem translator_round_trip_low (IOCount outputLen : Nat) (ios : List IOData)
    (translations : List translation)
    (hpos : 1 ≤ IOCount) (hio : IOCount ≤ ios.length)
    (hlen : ∀ r ∈ ios, outputLen ≤ r.output.length)
    (hlow : ∀ r ∈ ios, ∀ c ∈ r.output, c.val < 128)
    (harr : translations.length = outputLen)
    (o : Nat) (ho : o < outputLen) (s : Symbol) (hs : occursAt IOCount ios o s) :
    ∃ (ts : List translation) (t : translation),
      buildTranslationMatrix IOCount outputLen ios translations = .ok (0, ts) ∧
      ts[o]? = some t ∧
      ∃ v : α, translateOutput s t = .ok v ∧ runForward.decode t v = .ok s := by
  obtain ⟨ts, hts, _, hP⟩ :=
    buildTranslationMatrix_built IOCount outputLen ios translations hio hlen hlow harr
  obtain ⟨t, ht, hmem, hsorted, hcount⟩ := hP o ho
  have hnodup : t.entries.Nodup := hsorted.imp (fun h => ne_of_lt h)
  obtain ⟨i, hi, hsi⟩ := List.mem_iff_getElem.1 ((hmem s).2 hs)
  refine ⟨ts, t, hts, ht, _, translateOutput_of_index t s hcount hnodup i hi hsi, ?_⟩
  rw [decode_bucket t hcount i hi, hsi]

/-- The round trip of the character `'1'` of the second of two records. -/
theorem translator_round_trip_low_example :
    ∃ (ts : List translation) (t : translation),
      buildTranslationMatrix 2 1 [⟨[48, 48], [48]⟩, ⟨[49, 49], [49]⟩] [⟨0, []⟩] = .ok (0, ts) ∧
      ts[0]? = some t ∧
      ∃ v : ℚ, translateOutput 49 t = .ok v ∧ runForward.decode t v = .ok 49 :=
  translator_round_trip_low (α := ℚ) 2 1 [⟨[48, 48], [48]⟩, ⟨[49, 49], [49]⟩] [⟨0, []⟩]
    (by decide) (by decide) (by decide) sample_records_low rfl 0 (by decide) 49
    ⟨1, by decide, ⟨[49, 49], [49]⟩, rfl, rfl⟩

/-! ## Translators: characters from 128 on -/

/-- A loop whose round `i` faults ends in this fault, whatever its bound above `i`. -/
theorem forLoop_error {σ : Type} (body : Nat → σ → Exec σ) (e : Abort) (i : Nat) (s t : σ)
    (hrun : forLoop body i s = .ok t) (hbody : body i t = .error e) :
    ∀ n, i < n → forLoop body n s = .error e := by
  intro n
  induction n with
  | zero => intro h; omega
  | succ n ih =>
    intro hn
    rcases Nat.lt_succ_iff_lt_or_eq.1 hn with h | h
    · rw [forLoop, ih h]
      rfl
    · subst h
      rw [forLoop, hrun]
      exact hbody

/-- Round `o` of `buildTranslationMatrix` on records of which the first has a character
from 128 on at output position `o`: the statement `entries[(int)c] = 1` writes at a
negative index, outside the table of flags. -/
theorem position_high (IOCount : Nat) (ios : List IOData) (o : Nat)
    (translations : List translation) (r : IOData) (c : Symbol) (hpos : 0 < IOCount)
    (hr : ios[0]? = some r) (hc : r.output[o]? = some c) (hhigh : 128 ≤ c.val) :
    buildTranslationMatrix.position IOCount ios o translations = .error .fault := by
  have hflag := forLoop_error (fun io_i (es : List Nat) => do
      let r ← rd ios[io_i]?
      let c ← rd r.output[o]?
      wrIdx es (charValue c) 1) .fault 0 (List.replicate 256 0) (List.replicate 256 0) rfl
    (by simp only [hr, rd_some, ok_bind, hc, wrIdx_high _ c hhigh]) IOCount hpos
  simp only [buildTranslationMatrix.position, clear_loop, ok_bind, hflag]
  rfl

/-- Function `buildTranslationMatrix` on records of which the first has a character from
128 on at the first output position. -/
theorem buildTranslationMatrix_high (IOCount outputLen : Nat) (ios : List IOData)
    (translations : List translation) (r : IOData) (c : Symbol) (hpos : 0 < IOCount)
    (hout : 0 < outputLen) (hr : ios[0]? = some r) (hc : r.output[0]? = some c)
    (hhigh : 128 ≤ c.val) :
    buildTranslationMatrix IOCount outputLen ios translations = .error .fault := by
  have h := forLoop_error (buildTranslationMatrix.position IOCount ios) .fault 0 translations
    translations rfl (position_high IOCount ios 0 translations r c hpos hr hc hhigh) outputLen hout
  simp only [buildTranslationMatrix, h]
  rfl

/-- C10. Translator construction, on two records of which one has the byte 200 as its
output character: the flag of the character would be `entries[-56]`, so
`buildTranslationMatrix` writes outside its table of 256 flags instead of returning
the translator of the characters 200 and `'0'`. -/
theorem buildTranslationMatrix_high_byte :
    buildTranslationMatrix 2 1 [⟨[49, 49], [200]⟩, ⟨[48, 48], [48]⟩] [⟨0, []⟩]
      = .error .fault ∧ charValue 200 = -56 :=
  ⟨buildTranslationMatrix_high 2 1 _ _ ⟨[49, 49], [200]⟩ 200 (by decide) (by decide) rfl rfl
    (by decide), by decide⟩

/-- C1. Translator round trip, for the byte 200 as the output character of a record:
`buildTranslationMatrix` writes outside its table of flags, and for a translator that
holds the other character only, as the table is left when the write goes astray,
`translateOutput` answers the byte 200 with the sentinel -1, which the decoding of
`runForward` turns into the index -1, outside the entries. -/
theorem translator_round_trip_high_byte :
    buildTranslationMatrix 2 1 [⟨[48, 49], [200]⟩, ⟨[49, 48], [48]⟩] [⟨0, []⟩]
      = .error .fault ∧
    translateOutput 200 ⟨1, [48]⟩ = (.ok (-1) : Exec ℚ) ∧
    truncToInt (((1 : Nat) : ℚ) * (-1)) = -1 ∧
    runForward.decode ⟨1, [48]⟩ (-1 : ℚ) = .error .fault := by
  have h1 : ((1 : Nat) : ℚ) * (-1) = -1 := by norm_num
  have htr : truncToInt (((1 : Nat) : ℚ) * (-1)) = -1 := by
    rw [h1, truncToInt, if_neg (by norm_num), Int.ceil_neg, Int.floor_one]
  refine ⟨buildTranslationMatrix_high 2 1 _ _ ⟨[48, 49], [200]⟩ 200 (by decide) (by decide) rfl
    rfl (by decide), translateOutput_of_not_mem ⟨1, [48]⟩ 200 rfl (by decide), htr, ?_⟩
  simp only [runForward.decode, htr]
  rfl

/-- Decoding an activation `a` with `-1 < count * a` and `a < 1` reads inside the
entries, at the index `clamp(floor(a * count), 0, count - 1)`. -/
theorem decode_of_range (t : translation) (hcount : t.count = t.entries.length)
    (hpos : 1 ≤ t.count) (a : α) (hlo : -1 < (t.count : α) * a) (hhi : a < 1) :
    ∃ (i : Nat) (hi : i < t.entries.length), runForward.decode t a = .ok t.entries[i] ∧
      (i : Int) = max 0 (min ⌊(t.count : α) * a⌋ ((t.count : Int) - 1)) := by
  have hc : (0 : α) < (t.count : α) := by exact_mod_cast (by omega : 0 < t.count)
  have hlt : (t.count : α) * a < (t.count : α) := by nlinarith
  rcases le_or_lt 0 ((t.count : α) * a) with h0 | h0
  · have hf0 : 0 ≤ ⌊(t.count : α) * a⌋ := Int.floor_nonneg.2 h0
    have hf1 : ⌊(t.count : α) * a⌋ < (t.count : Int) := by
      rw [Int.floor_lt]; exact_mod_cast hlt
    have hclamp : max 0 (min ⌊(t.count : α) * a⌋ ((t.count : Int) - 1)) = ⌊(t.count : α) * a⌋ := by
      rw [min_eq_left (by omega), max_eq_right hf0]
    have hidx : (⌊(t.count : α) * a⌋).toNat < t.entries.length := by
      rw [← hcount]; omega
    refine ⟨(⌊(t.count : α) * a⌋).toNat, hidx, ?_, ?_⟩
    · simp only [runForward.decode, truncToInt_of_nonneg _ h0]
      rw [if_pos hf0, rd_getElem _ _ hidx]
    · rw [hclamp, Int.toNat_of_nonneg hf0]
  · have hfl : ⌊(t.count : α) * a⌋ = -1 := by
      rw [Int.floor_eq_iff]
      constructor
      · push_cast; linarith
      · push_cast; linarith
    have hclamp : max 0 (min ⌊(t.count : α) * a⌋ ((t.count : Int) - 1)) = 0 := by
      rw [hfl, min_eq_left (by omega), max_eq_left (by omega)]
    have hidx : 0 < t.entries.length := by omega
    refine ⟨0, hidx, ?_, ?_⟩
    · simp only [runForward.decode, truncToInt_of_small _ hlo (le_of_lt h0)]
      rw [if_pos le_rfl]
      exact rd_getElem _ _ hidx
    · rw [hclamp]; rfl

theorem getD_eq_getElem {β : Type} (xs : List β) (i : Nat) (d : β) (h : i < xs.length) :
    xs.getD i d = xs[i] := by
  simp [List.getD_eq_getElem?_getD, List.getElem?_eq_getElem h]

theorem lt_length_of_getD {β : Type} (m : List (List β)) (l n : Nat)
    (h : n < (m.getD l []).length) : l < m.length := by
  by_contra hl
  rw [List.getD_eq_getElem?_getD, List.getElem?_eq_none (not_lt.1 hl)] at h
  simp at h

theorem get2_eq (m : List (List α)) (l n : Nat) (h : n < (m.getD l []).length) :
    get2 m l n = some (at2 m l n) := by
  have hl := lt_length_of_getD m l n h
  rw [getD_eq_getElem _ _ _ hl] at h
  simp [get2, at2, List.getElem?_eq_getElem hl, getD_eq_getElem _ _ _ hl,
    List.getElem?_eq_getElem h, getD_eq_getElem _ _ _ h]

theorem set2_eq {β : Type} (m : List (List β)) (l n : Nat) (v : β)
    (h : n < (m.getD l []).length) : set2 m l n v = .ok (put2 m l n v) := by
  have hl := lt_length_of_getD m l n h
  rw [getD_eq_getElem _ _ _ hl] at h
  simp [set2, put2, List.getElem?_eq_getElem hl, getD_eq_getElem _ _ _ hl, wr, h, hl]

theorem dims2_put2 {β : Type} (m : List (List β)) (l n : Nat) (v : β) :
    dims2 (put2 m l n v) = dims2 m := by
  apply List.ext_getElem?
  intro j
  simp only [dims2, put2, List.getElem?_map, List.getElem?_set, List.getD_eq_getElem?_getD]
  by_cases hj : l = j
  · subst hj
    by_cases hl : l < m.length
    · simp [hl, List.getElem?_eq_getElem hl]
    · simp [hl, List.getElem?_eq_none (not_lt.1 hl)]
  · simp [hj]

theorem length_getD_of_dims2 {β γ : Type} (m : List (List β)) (m' : List (List γ))
    (h : dims2 m = dims2 m') (l : Nat) : (m.getD l []).length = (m'.getD l []).length := by
  have h1 : (dims2 m)[l]? = (dims2 m')[l]? := by rw [h]
  simp only [dims2, List.getElem?_map] at h1
  simp only [List.getD_eq_getElem?_getD]
  cases hm : m[l]? <;> cases hm' : m'[l]? <;> simp_all

theorem length_of_dims2 {β γ : Type} (m : List (List β)) (m' : List (List γ))
    (h : dims2 m = dims2 m') : m.length = m'.length := by
  have := congrArg List.length h
  simpa [dims2] using this

theorem getD_put2_ne {β : Type} (m : List (List β)) (l n : Nat) (v : β) (l' : Nat)
    (h : l' ≠ l) : (put2 m l n v).getD l' [] = m.getD l' [] := by
  rw [put2, List.getD_eq_getElem?_getD, List.getElem?_set, if_neg (Ne.symm h),
    ← List.getD_eq_getElem?_getD]

theorem getD_of_ge {β : Type} (xs : List β) (i : Nat) (d : β) (h : xs.length ≤ i) :
    xs.getD i d = d := by
  simp [List.getD_eq_getElem?_getD, List.getElem?_eq_none h]

theorem getD_set_same {β : Type} (xs : List β) (i : Nat) (v d : β) (h : i < xs.length) :
    (xs.set i v).getD i d = v := by
  simp [List.getD_eq_getElem?_getD, List.getElem?_set, h]

theorem getD_set_ne {β : Type} (xs : List β) (i j : Nat) (v d : β) (h : i ≠ j) :
    (xs.set i v).getD j d = xs.getD j d := by
  simp [List.getD_eq_getElem?_getD, List.getElem?_set, h]

theorem getD_put2_same {β : Type} (m : List (List β)) (l n : Nat) (v : β)
    (h : l < m.length) : (put2 m l n v).getD l [] = (m.getD l []).set n v :=
  getD_set_same _ _ _ _ h

theorem put2_of_ge {β : Type} (m : List (List β)) (l n : Nat) (v : β)
    (h : m.length ≤ l) : put2 m l n v = m := by
  rw [put2, List.set_eq_of_length_le h]

theorem at2_put2_same (m : List (List α)) (l n : Nat) (v : α)
    (h : n < (m.getD l []).length) : at2 (put2 m l n v) l n = v := by
  have hl := lt_length_of_getD m l n h
  rw [at2, getD_put2_same _ _ _ _ hl, getD_set_same _ _ _ _ h]

theorem at2_put2_ne (m : List (List α)) (l n : Nat) (v : α) (l' n' : Nat)
    (h : l' ≠ l ∨ n' ≠ n) : at2 (put2 m l n v) l' n' = at2 m l' n' := by
  by_cases hl : l' = l
  · subst hl
    have hn : n' ≠ n := h.resolve_left (fun h => h rfl)
    by_cases hlen : l' < m.length
    · rw [at2, getD_put2_same _ _ _ _ hlen, getD_set_ne _ _ _ _ _ (Ne.symm hn), at2]
    · rw [put2_of_ge _ _ _ _ (not_lt.1 hlen)]
  · rw [at2, getD_put2_ne m l n v l' hl, at2]

theorem lt_length_of_getD3 {β : Type} (w : List (List (List β))) (l n i : Nat)
    (h : i < ((w.getD l []).getD n []).length) : l < w.length := by
  by_contra hl
  rw [getD_of_ge w l [] (not_lt.1 hl)] at h
  simp at h

theorem get3_eq (w : List (List (List α))) (l n i : Nat)
    (h : i < ((w.getD l []).getD n []).length) : get3 w l n i = some (at3 w l n i) := by
  have hl := lt_length_of_getD3 w l n i h
  rw [get3, List.getElem?_eq_getElem hl, at3, getD_eq_getElem _ _ _ hl]
  rw [getD_eq_getElem _ _ _ hl] at h
  exact get2_eq _ _ _ h

theorem set3_eq {β : Type} (w : List (List (List β))) (l n i : Nat) (v : β)
    (h : i < ((w.getD l []).getD n []).length) : set3 w l n i v = .ok (put3 w l n i v) := by
  have hl := lt_length_of_getD3 w l n i h
  rw [set3, List.getElem?_eq_getElem hl, put3, getD_eq_getElem _ _ _ hl]
  rw [getD_eq_getElem _ _ _ hl] at h
  simp [set2_eq _ _ _ _ h, wr, hl]

theorem getD_put3_ne {β : Type} (w : List (List (List β))) (l n i : Nat) (v : β) (l' : Nat)
    (h : l' ≠ l) : (put3 w l n i v).getD l' [] = w.getD l' [] := by
  rw [put3, List.getD_eq_getElem?_getD, List.getElem?_set, if_neg (Ne.symm h),
    ← List.getD_eq_getElem?_getD]

theorem getD_put3_same {β : Type} (w : List (List (List β))) (l n i : Nat) (v : β)
    (h : l < w.length) : (put3 w l n i v).getD l [] = put2 (w.getD l []) n i v :=
  getD_set_same _ _ _ _ h

theorem put3_of_ge {β : Type} (w : List (List (List β))) (l n i : Nat) (v : β)
    (h : w.length ≤ l) : put3 w l n i v = w := by
  rw [put3, List.set_eq_of_length_le h]

theorem dims3_put3 {β : Type} (w : List (List (List β))) (l n i : Nat) (v : β) :
    dims3 (put3 w l n i v) = dims3 w := by
  apply List.ext_getElem?
  intro j
  simp only [dims3, put3, List.getElem?_map, List.getElem?_set]
  by_cases hj : l = j
  · subst hj
    by_cases hl : l < w.length
    · simp [hl, List.getElem?_eq_getElem hl, dims2_put2, getD_eq_getElem _ _ _ hl]
    · simp [hl, List.getElem?_eq_none (not_lt.1 hl)]
  · simp [hj]

theorem at3_put3_same (w : List (List (List α))) (l n i : Nat) (v : α)
    (h : i < ((w.getD l []).getD n []).length) : at3 (put3 w l n i v) l n i = v := by
  have hl := lt_length_of_getD3 w l n i h
  rw [at3, getD_put3_same _ _ _ _ _ hl]
  exact at2_put2_same _ _ _ _ h

theorem at3_put3_ne (w : List (List (List α))) (l n i : Nat) (v : α) (l' n' i' : Nat)
    (h : l' ≠ l ∨ n' ≠ n ∨ i' ≠ i) : at3 (put3 w l n i v) l' n' i' = at3 w l' n' i' := by
  by_cases hl : l' = l
  · subst hl
    have h' : n' ≠ n ∨ i' ≠ i := h.resolve_left (fun h => h rfl)
    by_cases hlen : l' < w.length
    · rw [at3, getD_put3_same _ _ _ _ _ hlen]
      exact at2_put2_ne _ _ _ _ _ _ h'
    · rw [put3_of_ge _ _ _ _ _ (not_lt.1 hlen)]
  · rw [at3, getD_put3_ne w l n i v l' hl, at3]

theorem dims2_getD_of_dims3 {β γ : Type} (w : List (List (List β))) (w' : List (List (List γ)))
    (h : dims3 w = dims3 w') (l : Nat) : dims2 (w.getD l []) = dims2 (w'.getD l []) := by
  have h1 : (dims3 w)[l]? = (dims3 w')[l]? := by rw [h]
  simp only [dims3, List.getElem?_map] at h1
  simp only [List.getD_eq_getElem?_getD]
  cases hm : w[l]? <;> cases hm' : w'[l]? <;> simp_all [dims2]

theorem length_of_dims3 {β γ : Type} (w : List (List (List β))) (w' : List (List (List γ)))
    (h : dims3 w = dims3 w') : w.length = w'.length := by
  have := congrArg List.length h
  simpa [dims3] using this

/-! ## Reading the shape of a network -/

theorem rd_nodeCounts (net : network α) (hs : ShapeInv net) (l : Nat)
    (hl : l < net.layerCount) : rd net.nodeCounts[l]? = .ok (nodesOf net l) := by
  have h : l < net.nodeCounts.length := by rw [hs.nodeCounts_len]; exact hl
  rw [rd_getElem _ _ h, nodesOf, getD_eq_getElem _ _ _ h]

theorem fanIn_eq (net : network α) (hs : ShapeInv net) (l : Nat)
    (hl : l < net.layerCount) : fanIn net l = .ok (fanInOf net l) := by
  by_cases h0 : l = 0
  · simp [fanIn, fanInOf, h0]
  · have h : l - 1 < net.nodeCounts.length := by rw [hs.nodeCounts_len]; omega
    rw [fanIn, if_neg h0, fanInOf, if_neg h0, rd_getElem _ _ h, getD_eq_getElem _ _ _ h]

theorem fanInOf_succ (net : network α) (l : Nat) : fanInOf net (l + 1) = nodesOf net l := by
  simp [fanInOf, nodesOf]

theorem weight_lt (net : network α) (hs : ShapeInv net) (l n i : Nat)
    (hl : l < net.layerCount) (hn : n < nodesOf net l) (hi : i ≤ fanInOf net l) :
    i < ((net.weights.getD l []).getD n []).length := by
  rw [hs.weights_node l hl n hn]; omega

theorem output_lt (net : network α) (hs : ShapeInv net) (m : List (List α))
    (hm : dims2 m = dims2 net.outputs) (l n : Nat)
    (hl : l < net.layerCount) (hn : n < nodesOf net l) : n < (m.getD l []).length := by
  rw [length_getD_of_dims2 m net.outputs hm l, hs.outputs_row l hl]; exact hn

/-! ## `runForward` -/

theorem put2_put2 {β : Type} (m : List (List β)) (l n : Nat) (a b : β) :
    put2 (put2 m l n a) l n b = put2 m l n b := by
  by_cases hl : l < m.length
  · rw [put2, getD_put2_same _ _ _ _ hl, put2, put2, List.set_set, List.set_set]
  · rw [put2_of_ge m l n a (not_lt.1 hl)]

theorem sourceOf_eq (net : network α) (hs : ShapeInv net) (m : List (List α))
    (hm : dims2 m = dims2 net.outputs) (input : List Symbol)
    (hin : net.inputLen ≤ input.length) (l : Nat) (hl : l < net.layerCount)
    (i : Nat) (hi : i < fanInOf net l) :
    sourceOf m input l (i + 1) = .ok (sourceAt m input l i) := by
  by_cases h0 : l = 0
  · subst h0
    have h : i < input.length := by
      simp only [fanInOf, if_true] at hi
      omega
    rw [sourceOf, sourceAt, if_pos rfl, if_pos rfl, Nat.add_sub_cancel, rd_getElem _ _ h,
      getD_eq_getElem _ _ _ h]
    rfl
  · obtain ⟨l', rfl⟩ := Nat.exists_eq_succ_of_ne_zero h0
    rw [fanInOf_succ] at hi
    have h := output_lt net hs m hm l' i (by omega) hi
    simp [sourceOf, sourceAt, get2_eq _ _ _ h]

theorem sourceAt_congr (m m' : List (List α)) (input : List Symbol) (l i : Nat)
    (h : ∀ l', l' + 1 = l → m.getD l' [] = m'.getD l' []) :
    sourceAt m input l i = sourceAt m' input l i := by
  by_cases h0 : l = 0
  · simp [sourceAt, h0]
  · simp only [sourceAt, if_neg h0, at2]
    rw [h (l - 1) (by omega)]

theorem weightedSum_congr (net : network α) (m m' : List (List α)) (input : List Symbol)
    (l n : Nat) (h : ∀ l', l' + 1 = l → m.getD l' [] = m'.getD l' []) :
    weightedSum net m input l n = weightedSum net m' input l n := by
  simp only [weightedSum]
  congr 1
  apply Finset.sum_congr rfl
  intro i _
  rw [sourceAt_congr m m' input l i h]

/-- The `w_i` loop of `runForward`, after `k + 1` rounds: the bias plus the first `k`
products are in `outputs[l][n]`. -/
theorem runForward_weight_loop (net : network α) (hs : ShapeInv net) (m : List (List α))
    (hm : dims2 m = dims2 net.outputs) (input : List Symbol)
    (hin : net.inputLen ≤ input.length) (l n : Nat) (hl : l < net.layerCount)
    (hn : n < nodesOf net l) (k : Nat) (hk : k ≤ fanInOf net l) :
    forLoop (runForward.weight net input l n) (k + 1) m
      = .ok (put2 m l n (at3 net.weights l n 0 +
          ∑ i in Finset.range k, at3 net.weights l n (i + 1) * sourceAt m input l i)) := by
  have hcell := output_lt net hs m hm l n hl hn
  induction k with
  | zero =>
    have hw := weight_lt net hs l n 0 hl hn (Nat.zero_le _)
    simp [forLoop, runForward.weight, get3_eq _ _ _ _ hw, set2_eq _ _ _ _ hcell]
  | succ k ih =>
    have hw := weight_lt net hs l n (k + 1) hl hn hk
    rw [forLoop, ih (by omega)]
    set st := put2 m l n (at3 net.weights l n 0 +
          ∑ i in Finset.range k, at3 net.weights l n (i + 1) * sourceAt m input l i) with hst
    have hdims : dims2 st = dims2 net.outputs := by rw [hst, dims2_put2]; exact hm
    have hcell' := output_lt net hs st hdims l n hl hn
    have hsrc : sourceAt st input l k = sourceAt m input l k :=
      sourceAt_congr st m input l k (fun l' hl' => getD_put2_ne m l n _ l' (by omega))
    simp only [ok_bind, runForward.weight, get3_eq _ _ _ _ hw, rd_some, Nat.succ_ne_zero,
      if_false, sourceOf_eq net hs st hdims input hin l hl k (by omega),
      get2_eq _ _ _ hcell', set2_eq _ _ _ _ hcell', hsrc]
    rw [hst, at2_put2_same _ _ _ _ hcell, put2_put2, Finset.sum_range_succ, add_assoc]

/-- One round of the `n_i` loop of `runForward` stores the sigmoid of the weighted sum of
the node. -/
theorem runForward_node (exp : α → α) (net : network α) (hs : ShapeInv net)
    (m : List (List α)) (hm : dims2 m = dims2 net.outputs) (input : List Symbol)
    (hin : net.inputLen ≤ input.length) (l n : Nat) (hl : l < net.layerCount)
    (hn : n < nodesOf net l) :
    runForward.node exp net input l n m
      = .ok (put2 m l n (sigmoid exp (weightedSum net m input l n))) := by
  have hcell := output_lt net hs m hm l n hl hn
  rw [runForward.node, fanIn_eq net hs l hl]
  simp only [ok_bind]
  rw [runForward_weight_loop net hs m hm input hin l n hl hn _ le_rfl]
  have hdims : dims2 (put2 m l n (weightedSum net m input l n)) = dims2 net.outputs := by
    rw [dims2_put2]; exact hm
  have hcell' := output_lt net hs _ hdims l n hl hn
  show (do
      let cur ← rd (get2 (put2 m l n (weightedSum net m input l n)) l n)
      set2 (put2 m l n (weightedSum net m input l n)) l n (sigmoid exp cur)) = _
  simp only [ok_bind, get2_eq _ _ _ hcell', rd_some, set2_eq _ _ _ _ hcell',
    put2_put2, at2_put2_same _ _ _ _ hcell]

/-- The `n_i` loop of `runForward` for layer `l`: every node of the layer gets the
sigmoid of its weighted sum, the other layers of the buffer are left alone. -/
theorem runForward_layer (exp : α → α) (net : network α) (hs : ShapeInv net)
    (m : List (List α)) (hm : dims2 m = dims2 net.outputs) (input : List Symbol)
    (hin : net.inputLen ≤ input.length) (l : Nat) (hl : l < net.layerCount) :
    ∃ m', forLoop (runForward.node exp net input l) (nodesOf net l) m = .ok m' ∧
      dims2 m' = dims2 net.outputs ∧
      (∀ l', l' ≠ l → m'.getD l' [] = m.getD l' []) ∧
      ∀ n, n < nodesOf net l → at2 m' l n = sigmoid exp (weightedSum net m input l n) := by
  apply forLoop_inv (fun k st => dims2 st = dims2 net.outputs ∧
      (∀ l', l' ≠ l → st.getD l' [] = m.getD l' []) ∧
      ∀ n, n < k → at2 st l n = sigmoid exp (weightedSum net m input l n))
  · exact ⟨hm, fun _ _ => rfl, fun n hn => absurd hn (Nat.not_lt_zero n)⟩
  · rintro k st hk ⟨hdims, hrows, hvals⟩
    refine ⟨_, runForward_node exp net hs st hdims input hin l k hl hk, ?_, ?_, ?_⟩
    · rw [dims2_put2]; exact hdims
    · intro l' hl'
      rw [getD_put2_ne _ _ _ _ _ hl', hrows l' hl']
    · intro n hn
      have hsum : weightedSum net st input l k = weightedSum net m input l k :=
        weightedSum_congr net st m input l k (fun l' hl' => hrows l' (by omega))
      by_cases hnk : n = k
      · subst hnk
        rw [at2_put2_same _ _ _ _ (output_lt net hs st hdims l n hl hk), hsum]
      · rw [at2_put2_ne _ _ _ _ _ _ (Or.inr hnk)]
        exact hvals n (by omega)

/-- The layer loop of `runForward`: it ends normally and every activation of the buffer
is the sigmoid of the weighted sum of its node, the sources of a later layer being
the activations of the layer before in the same buffer. -/
theorem runForward_layers_spec (exp : α → α) (net : network α) (hs : ShapeInv net)
    (input : List Symbol) (hin : net.inputLen ≤ input.length) :
    ∃ m, runForward.layers exp net input = .ok m ∧ dims2 m = dims2 net.outputs ∧
      ∀ l n, l < net.layerCount → n < nodesOf net l →
        at2 m l n = sigmoid exp (weightedSum net m input l n) := by
  apply forLoop_inv (fun k st => dims2 st = dims2 net.outputs ∧
      ∀ l n, l < k → n < nodesOf net l →
        at2 st l n = sigmoid exp (weightedSum net st input l n))
  · exact ⟨rfl, fun l n hl => absurd hl (Nat.not_lt_zero l)⟩
  · rintro k st hk ⟨hdims, hvals⟩
    obtain ⟨m', hrun, hdims', hrows, hnew⟩ := runForward_layer exp net hs st hdims input hin k hk
    refine ⟨m', ?_, hdims', ?_⟩
    · simp only [rd_nodeCounts net hs k hk, ok_bind, hrun]
    · intro l n hl hn
      have hsum : weightedSum net m' input l n = weightedSum net st input l n :=
        weightedSum_congr net m' st input l n (fun l' hl' => hrows l' (by omega))
      rw [hsum]
      by_cases hlk : l = k
      · subst hlk
        exact hnew n hn
      · rw [at2, hrows l hlk]
        exact hvals l n (by omega) hn

/-- With a positive exponential the sigmoid lies strictly between 0 and 1. -/
theorem sigmoid_mem (exp : α → α) (hexp : ∀ x, 0 < exp x) (x : α) :
    0 < sigmoid exp x ∧ sigmoid exp x < 1 := by
  have h := hexp (0.0 - x)
  have h10 : (1.0 : α) = 1 := by norm_num
  have h1 : (0 : α) < 1.0 + exp (0.0 - x) := by rw [h10]; linarith
  constructor
  · exact div_pos (by norm_num) h1
  · rw [sigmoid, div_lt_one h1, h10]
    linarith

/-- The decoding loop of `runForward`: with activations in the range of the sigmoid every
output node is decoded without fault. -/
theorem runForward_decode_loop (net : network α) (ht : TranslatorsInv net)
    (m : List (List α)) (output : List Symbol)
    (hout : nodesOf net (net.layerCount - 1) ≤ output.length)
    (hrange : ∀ o, o < nodesOf net (net.layerCount - 1) →
      get2 m (net.layerCount - 1) o = some (at2 m (net.layerCount - 1) o) ∧
      0 < at2 m (net.layerCount - 1) o ∧ at2 m (net.layerCount - 1) o < 1) :
    ∃ out, forLoop (fun o_i out => do
        let t ← rd net.translations[o_i]?
        let a ← rd (get2 m (net.layerCount - 1) o_i)
        let c ← runForward.decode t a
        wr out o_i c) (nodesOf net (net.layerCount - 1)) output = .ok out ∧
      out.length = output.length ∧
      ∀ o, o < nodesOf net (net.layerCount - 1) →
        ∃ t, net.translations[o]? = some t ∧
          runForward.decode t (at2 m (net.layerCount - 1) o) = rd out[o]? := by
  apply forLoop_inv (fun k (out : List Symbol) => out.length = output.length ∧
      ∀ o, o < k → ∃ t, net.translations[o]? = some t ∧
          runForward.decode t (at2 m (net.layerCount - 1) o) = rd out[o]?)
  · exact ⟨rfl, fun o ho => absurd ho (Nat.not_lt_zero o)⟩
  · rintro k out hk ⟨hlen, hvals⟩
    have hkt : k < net.translations.length := by rw [ht.translations_len]; exact hk
    obtain ⟨hget, h0, h1⟩ := hrange k hk
    obtain ⟨hcount, hpos⟩ := ht.counts _ (List.getElem_mem hkt)
    have hc : (0 : α) < ((net.translations[k]).count : α) := by
      exact_mod_cast (by omega : 0 < (net.translations[k]).count)
    obtain ⟨i, hi, hc1, _⟩ := decode_of_range (net.translations[k]) hcount hpos
      (at2 m (net.layerCount - 1) k) (by nlinarith) h1
    have hko : k < out.length := by omega
    refine ⟨out.set k (net.translations[k]).entries[i], ?_, by simpa using hlen, ?_⟩
    · simp only [rd_getElem _ _ hkt, ok_bind, hget, rd_some, hc1, wr_ok _ _ _ hko]
    · intro o ho
      by_cases hok : o = k
      · subst hok
        refine ⟨_, List.getElem?_eq_getElem hkt, ?_⟩
        rw [hc1, List.getElem?_set, if_pos rfl, if_pos hko]
        rfl
      · obtain ⟨t, ht1, ht2⟩ := hvals o (by omega)
        exact ⟨t, ht1, by rw [List.getElem?_set, if_neg (Ne.symm hok)]; exact ht2⟩

/-- Function `runForward` on a well-shaped network: it ends normally, only the activation
buffer of the network changes, and the buffer and the decoded characters are as the
loops leave them. -/
theorem runForward_ok (exp : α → α) (hexp : ∀ x, 0 < exp x) (net : network α)
    (hs : ShapeInv net) (ht : TranslatorsInv net) (hlayers : 1 ≤ net.layerCount)
    (input output : List Symbol) (hin : net.inputLen ≤ input.length)
    (hout : nodesOf net (net.layerCount - 1) ≤ output.length) :
    ∃ m out, runForward exp net input output = .ok ({ net with outputs := m }, out) ∧
      runForward.layers exp net input = .ok m ∧
      dims2 m = dims2 net.outputs ∧
      (∀ l n, l < net.layerCount → n < nodesOf net l →
        at2 m l n = sigmoid exp (weightedSum net m input l n)) ∧
      out.length = output.length ∧
      ∀ o, o < nodesOf net (net.layerCount - 1) →
        ∃ t, net.translations[o]? = some t ∧
          runForward.decode t (at2 m (net.layerCount - 1) o) = rd out[o]? := by
  obtain ⟨m, hm, hdims, hvals⟩ := runForward_layers_spec exp net hs input hin
  have hrange : ∀ o, o < nodesOf net (net.layerCount - 1) →
      get2 m (net.layerCount - 1) o = some (at2 m (net.layerCount - 1) o) ∧
      0 < at2 m (net.layerCount - 1) o ∧ at2 m (net.layerCount - 1) o < 1 := by
    intro o ho
    refine ⟨get2_eq _ _ _ (output_lt net hs m hdims _ o (by omega) ho), ?_⟩
    rw [hvals _ o (by omega) ho]
    exact sigmoid_mem exp hexp _
  obtain ⟨out, hloop, hlen, hdec⟩ := runForward_decode_loop net ht m output hout hrange
  refine ⟨m, out, ?_, hm, hdims, hvals, hlen, hdec⟩
  have h0 : net.layerCount ≠ 0 := by omega
  simp only [runForward, hm, ok_bind, if_neg h0, rd_nodeCounts net hs _ (by omega : net.layerCount - 1 < net.layerCount), hloop]

theorem sampleNet_shape : ShapeInv sampleNet :=
  ⟨rfl, rfl, rfl, by decide, by decide, by decide⟩

theorem sampleNet_translators : TranslatorsInv sampleNet :=
  ⟨rfl, by decide⟩

theorem sampleExp_pos (x : ℚ) : 0 < sampleExp x := by
  unfold sampleExp
  nlinarith [mul_self_nonneg x]

/-- C3. Forward pass equals its reference definition: on a network that satisfies the
shape invariant, with an input of at least `inputLen` characters, `runForward` ends
normally and afterwards the activation of every layer `l` and node `n` is
`sigmoid(w[l][n][0] + Σ_{i < fan-in} w[l][n][i+1] * source(i))`, where `source(i)` is
`translateInput(input[i])` for `l = 0` and otherwise the activation of node `i` of layer
`l - 1` in the same buffer. -/
theorem runForward_reference (exp : α → α) (hexp : ∀ x, 0 < exp x) (net : network α)
    (hs : ShapeInv net) (ht : TranslatorsInv net) (hlayers : 1 ≤ net.layerCount)
    (input output : List Symbol) (hin : net.inputLen ≤ input.length)
    (hout : nodesOf net (net.layerCount - 1) ≤ output.length) :
    ∃ net' out, runForward exp net input output = .ok (net', out) ∧
      net'.weights = net.weights ∧
      ∀ l n, l < net.layerCount → n < nodesOf net l →
        get2 net'.outputs l n = some (sigmoid exp (at3 net.weights l n 0 +
          ∑ i in Finset.range (fanInOf net l), at3 net.weights l n (i + 1) *
            (if l = 0 then translateInput (input.getD i 0)
              else at2 net'.outputs (l - 1) i))) := by
  obtain ⟨m, out, hrun, _, hdims, hvals, _, _⟩ :=
    runForward_ok exp hexp net hs ht hlayers input output hin hout
  refine ⟨_, out, hrun, rfl, ?_⟩
  intro l n hl hn
  show get2 m l n = _
  rw [get2_eq _ _ _ (output_lt net hs m hdims l n hl hn), hvals l n hl hn]
  rfl

/-- Witness for C3: the sample network on the input `"01"`. -/
theorem runForward_reference_witness :
    ∃ net' out, runForward sampleExp sampleNet [48, 49] [0] = .ok (net', out) ∧
      net'.weights = sampleNet.weights ∧
      ∀ l n, l < sampleNet.layerCount → n < nodesOf sampleNet l →
        get2 net'.outputs l n = some (sigmoid sampleExp (at3 sampleNet.weights l n 0 +
          ∑ i in Finset.range (fanInOf sampleNet l), at3 sampleNet.weights l n (i + 1) *
            (if l = 0 then translateInput (([48, 49] : List Symbol).getD i 0)
              else at2 net'.outputs (l - 1) i))) :=
  runForward_reference sampleExp sampleExp_pos sampleNet sampleNet_shape sampleNet_translators
    (by decide) [48, 49] [0] (by decide) (by decide)

/-! ## `BPandWeightUpdate`: the deltas -/

theorem one_lit : (1.0 : α) = 1 := by norm_num

theorem zero_lit : (0.0 : α) = 0 := by norm_num

/-- Rule for a loop that stops with `return -1`: when every round either keeps the
invariant or fails, and one round fails for sure, the loop fails. -/
theorem forLoop_fail {σ : Type} (P : Nat → σ → Prop) (body : Nat → σ → Exec σ) (n : Nat) (s : σ)
    (h0 : P 0 s)
    (hstep : ∀ i t, i < n → P i t →
      (∃ t', body i t = .ok t' ∧ P (i + 1) t') ∨ body i t = .error .failure)
    (k : Nat) (hk : k < n) (hfail : ∀ t, P k t → body k t = .error .failure) :
    forLoop body n s = .error .failure := by
  have key : ∀ j, j ≤ k → (∃ t, forLoop body j s = .ok t ∧ P j t) ∨
      forLoop body j s = .error .failure := by
    intro j
    induction j with
    | zero => intro _; exact Or.inl ⟨s, rfl, h0⟩
    | succ j ih =>
      intro hj
      rcases ih (by omega) with ⟨t, ht, hP⟩ | hf
      · rcases hstep j t (by omega) hP with ⟨t', ht', hP'⟩ | hf
        · exact Or.inl ⟨t', by simp [forLoop, ht, ht'], hP'⟩
        · exact Or.inr (by simp [forLoop, ht, hf])
      · exact Or.inr (by simp [forLoop, hf])
  have after : ∀ j, k < j → forLoop body j s = .error .failure := by
    intro j
    induction j with
    | zero => intro h; omega
    | succ j ih =>
      intro hj
      rcases Nat.lt_succ_iff_lt_or_eq.1 hj with h | h
      · simp [forLoop, ih h]
      · subst h
        rcases key k le_rfl with ⟨t, ht, hP⟩ | hf
        · simp [forLoop, ht, hfail t hP]
        · simp [forLoop, hf]
  exact after n hk

/-- With `count` the number of entries, `translateOutput` always returns: a positive
bucket centre for a known character, the sentinel `-1` for an unknown one. -/
theorem translateOutput_total (ts : translation) (c : Symbol)
    (hcount : ts.count = ts.entries.length) :
    ∃ f : α, translateOutput c ts = .ok f ∧
      ((c ∈ ts.entries ∧ 0 < f) ∨ (c ∉ ts.entries ∧ f = -1)) := by
  by_cases hmem : c ∈ ts.entries
  · have hex : ∃ i, ∃ h : i < ts.entries.length, ts.entries[i] = c := List.mem_iff_getElem.1 hmem
    classical
    obtain ⟨hi, hc⟩ := Nat.find_spec hex
    refine ⟨_, translateOutput_loop_found c ts (Nat.find hex) hi hc ts.count 0 (Nat.zero_le _)
      (by omega) ?_, Or.inl ⟨hmem, bucket_pos _ _ (by omega)⟩⟩
    intro j hj _ hlt heq
    exact Nat.find_min hex hlt ⟨hj, heq⟩
  · exact ⟨-1, translateOutput_of_not_mem ts c hcount hmem, Or.inr ⟨hmem, rfl⟩⟩

/-- Function `sumDeltasNextLayer` returns the sum of weight times delta over the
nodes of the next layer. -/
theorem sumDeltasNextLayer_eq (currentNode : Nat) (weights : List (List α)) (deltas : List α)
    (count : Nat) (hd : count ≤ deltas.length)
    (hrows : ∀ m, m < count → currentNode + 1 < (weights.getD m []).length) :
    sumDeltasNextLayer currentNode weights deltas count
      = .ok (∑ m in Finset.range count, at2 weights m (currentNode + 1) * deltas.getD m 0) := by
  obtain ⟨t, ht, hP⟩ := forLoop_inv
    (fun k (sum : α) =>
      sum = ∑ m in Finset.range k, at2 weights m (currentNode + 1) * deltas.getD m 0)
    (fun d_i sum => do
      let w ← rd (get2 weights d_i (currentNode + 1))
      let d ← rd deltas[d_i]?
      .ok (sum + w * d)) count (0.0 : α) (by simp [zero_lit])
    (by
      intro i t hi hP
      have hdi : i < deltas.length := by omega
      refine ⟨t + at2 weights i (currentNode + 1) * deltas[i], ?_, ?_⟩
      · simp only [get2_eq _ _ _ (hrows i hi), rd_some, ok_bind, rd_getElem _ _ hdi]
      · show t + at2 weights i (currentNode + 1) * deltas[i] = _
        rw [Finset.sum_range_succ, hP, getD_eq_getElem _ _ _ hdi])
  rw [sumDeltasNextLayer, ht, hP]

theorem rd_outputs (net : network α) (hs : ShapeInv net) (l n : Nat)
    (hl : l < net.layerCount) (hn : n < nodesOf net l) :
    rd (get2 net.outputs l n) = .ok (at2 net.outputs l n) := by
  rw [get2_eq _ _ _ (output_lt net hs net.outputs rfl l n hl hn), rd_some]

theorem rd_getD {β : Type} (xs : List (List β)) (i : Nat) (h : i < xs.length) :
    rd xs[i]? = .ok (xs.getD i []) := by
  rw [rd_getElem _ _ h, getD_eq_getElem _ _ _ h]

/-- The delta of a node of a hidden layer, as one round of the `n_i` loop stores it. -/
theorem node_hidden (net : network α) (hs : ShapeInv net) (desiredOutput : List Symbol)
    (l n : Nat) (hl : l + 1 < net.layerCount) (hn : n < nodesOf net l)
    (st : List (List α)) (hlen : st.length = net.layerCount)
    (hcell : n < (st.getD l []).length)
    (hnext : (st.getD (l + 1) []).length = nodesOf net (l + 1)) :
    BPandWeightUpdate.node net desiredOutput l n st
      = .ok (put2 st l n (at2 net.outputs l n * (1.0 - at2 net.outputs l n) *
          ∑ m in Finset.range (nodesOf net (l + 1)),
            at3 net.weights (l + 1) m (n + 1) * at2 st (l + 1) m)) := by
  have hne : l + 1 ≠ net.layerCount := by omega
  have hsum := sumDeltasNextLayer_eq n (net.weights.getD (l + 1) []) (st.getD (l + 1) [])
    (nodesOf net (l + 1)) (by omega)
    (fun m hm => by
      rw [hs.weights_node (l + 1) hl m hm, fanInOf_succ]
      omega)
  simp only [BPandWeightUpdate.node, BPandWeightUpdate.factor, if_neg hne,
    rd_getD net.weights (l + 1) (by rw [hs.weights_len]; exact hl),
    rd_getD st (l + 1) (by rw [hlen]; exact hl), rd_nodeCounts net hs (l + 1) hl, ok_bind, hsum,
    rd_outputs net hs l n (by omega) hn, set2_eq _ _ _ _ hcell]
  rfl

/-- The delta of a node of the last layer, as one round of the `n_i` loop stores it;
an unknown desired character ends the call with `return -1`. -/
theorem node_output (net : network α) (hs : ShapeInv net) (ht : TranslatorsInv net)
    (desiredOutput : List Symbol)
    (hdes : nodesOf net (net.layerCount - 1) ≤ desiredOutput.length)
    (l n : Nat) (hl : l + 1 = net.layerCount) (hn : n < nodesOf net l)
    (st : List (List α)) (hcell : n < (st.getD l []).length) :
    ∃ (c : Symbol) (t : translation) (f : α),
      desiredOutput[n]? = some c ∧ net.translations[n]? = some t ∧
      translateOutput c t = .ok f ∧
      ((c ∈ t.entries ∧ 0 ≤ f ∧ BPandWeightUpdate.node net desiredOutput l n st
          = .ok (put2 st l n (at2 net.outputs l n * (1.0 - at2 net.outputs l n) *
              (f - at2 net.outputs l n)))) ∨
       (c ∉ t.entries ∧ BPandWeightUpdate.node net desiredOutput l n st = .error .failure)) := by
  have hl' : net.layerCount - 1 = l := by omega
  rw [hl'] at hdes
  have hnd : n < desiredOutput.length := by omega
  have hnt : n < net.translations.length := by rw [ht.translations_len, hl']; exact hn
  obtain ⟨hcount, _⟩ := ht.counts _ (List.getElem_mem hnt)
  obtain ⟨f, hf, hcase⟩ := translateOutput_total (α := α) (net.translations[n]) (desiredOutput[n])
    hcount
  refine ⟨desiredOutput[n], net.translations[n], f, List.getElem?_eq_getElem hnd,
    List.getElem?_eq_getElem hnt, hf, ?_⟩
  rcases hcase with ⟨hmem, hpos⟩ | ⟨hmem, hneg⟩
  · left
    refine ⟨hmem, le_of_lt hpos, ?_⟩
    simp only [BPandWeightUpdate.node, BPandWeightUpdate.factor, if_pos hl, rd_getElem _ _ hnd,
      rd_getElem _ _ hnt, ok_bind, hf, if_neg (not_lt.2 (le_of_lt hpos)),
      rd_outputs net hs l n (by omega) hn, set2_eq _ _ _ _ hcell]
  · right
    refine ⟨hmem, ?_⟩
    have hlt : f < 0 := by rw [hneg]; norm_num
    simp only [BPandWeightUpdate.node, BPandWeightUpdate.factor, if_pos hl, rd_getElem _ _ hnd,
      rd_getElem _ _ hnt, ok_bind, hf, if_pos hlt, error_bind]

theorem at2_of_row (m m' : List (List α)) (l n : Nat) (h : m.getD l [] = m'.getD l []) :
    at2 m l n = at2 m' l n := by
  rw [at2, h, at2]

/-- The `n_i` loop of the deltas for a hidden layer. -/
theorem deltas_hidden_layer (net : network α) (hs : ShapeInv net) (desiredOutput : List Symbol)
    (l : Nat) (hl : l + 1 < net.layerCount)
    (st : List (List α)) (hlen : st.length = net.layerCount)
    (hrow : (st.getD l []).length = nodesOf net l)
    (hnext : (st.getD (l + 1) []).length = nodesOf net (l + 1)) :
    ∃ st', forLoop (BPandWeightUpdate.node net desiredOutput l) (nodesOf net l) st = .ok st' ∧
      dims2 st' = dims2 st ∧ (∀ l', l' ≠ l → st'.getD l' [] = st.getD l' []) ∧
      ∀ n, n < nodesOf net l →
        at2 st' l n = at2 net.outputs l n * (1.0 - at2 net.outputs l n) *
          ∑ m in Finset.range (nodesOf net (l + 1)),
            at3 net.weights (l + 1) m (n + 1) * at2 st (l + 1) m := by
  apply forLoop_inv (fun k st' => dims2 st' = dims2 st ∧
      (∀ l', l' ≠ l → st'.getD l' [] = st.getD l' []) ∧
      ∀ n, n < k →
        at2 st' l n = at2 net.outputs l n * (1.0 - at2 net.outputs l n) *
          ∑ m in Finset.range (nodesOf net (l + 1)),
            at3 net.weights (l + 1) m (n + 1) * at2 st (l + 1) m)
  · exact ⟨rfl, fun _ _ => rfl, fun n hn => absurd hn (Nat.not_lt_zero n)⟩
  · rintro k st' hk ⟨hdims, hrows, hvals⟩
    have hcell : k < (st'.getD l []).length := by
      rw [length_getD_of_dims2 st' st hdims l, hrow]; exact hk
    have hnext' : (st'.getD (l + 1) []).length = nodesOf net (l + 1) := by
      rw [hrows (l + 1) (by omega)]; exact hnext
    have hlen' : st'.length = net.layerCount := by
      rw [length_of_dims2 st' st hdims]; exact hlen
    refine ⟨_, node_hidden net hs desiredOutput l k hl hk st' hlen' hcell hnext', ?_, ?_, ?_⟩
    · rw [dims2_put2]; exact hdims
    · intro l' hl'
      rw [getD_put2_ne _ _ _ _ _ hl', hrows l' hl']
    · intro n hn
      by_cases hnk : n = k
      · subst hnk
        rw [at2_put2_same _ _ _ _ hcell]
        congr 1
        apply Finset.sum_congr rfl
        intro m _
        rw [at2_of_row st' st (l + 1) m (hrows (l + 1) (by omega))]
      · rw [at2_put2_ne _ _ _ _ _ _ (Or.inr hnk)]
        exact hvals n (by omega)

/-- The `n_i` loop of the deltas for the last layer, all desired characters known. -/
theorem deltas_output_layer (net : network α) (hs : ShapeInv net) (ht : TranslatorsInv net)
    (desiredOutput : List Symbol)
    (hdes : nodesOf net (net.layerCount - 1) ≤ desiredOutput.length)
    (hknown : KnownSymbols net desiredOutput)
    (l : Nat) (hl : l + 1 = net.layerCount)
    (st : List (List α)) (hrow : (st.getD l []).length = nodesOf net l) :
    ∃ st', forLoop (BPandWeightUpdate.node net desiredOutput l) (nodesOf net l) st = .ok st' ∧
      dims2 st' = dims2 st ∧ (∀ l', l' ≠ l → st'.getD l' [] = st.getD l' []) ∧
      ∀ n, n < nodesOf net l →
        ∃ (c : Symbol) (t : translation) (f : α),
          desiredOutput[n]? = some c ∧ net.translations[n]? = some t ∧
          translateOutput c t = .ok f ∧ 0 ≤ f ∧
          at2 st' l n = at2 net.outputs l n * (1.0 - at2 net.outputs l n) *
            (f - at2 net.outputs l n) := by
  have hl' : net.layerCount - 1 = l := by omega
  apply forLoop_inv (fun k st' => dims2 st' = dims2 st ∧
      (∀ l', l' ≠ l → st'.getD l' [] = st.getD l' []) ∧
      ∀ n, n < k →
        ∃ (c : Symbol) (t : translation) (f : α),
          desiredOutput[n]? = some c ∧ net.translations[n]? = some t ∧
          translateOutput c t = .ok f ∧ 0 ≤ f ∧
          at2 st' l n = at2 net.outputs l n * (1.0 - at2 net.outputs l n) *
            (f - at2 net.outputs l n))
  · exact ⟨rfl, fun _ _ => rfl, fun n hn => absurd hn (Nat.not_lt_zero n)⟩
  · rintro k st' hk ⟨hdims, hrows, hvals⟩
    have hcell : k < (st'.getD l []).length := by
      rw [length_getD_of_dims2 st' st hdims l, hrow]; exact hk
    obtain ⟨c, t, f, hc, htr, hf, hcase⟩ :=
      node_output net hs ht desiredOutput hdes l k hl hk st' hcell
    obtain ⟨c', t', hc', htr', hmem⟩ := hknown k (by rw [hl']; exact hk)
    rw [hc] at hc'
    rw [htr] at htr'
    injection hc' with hc'
    injection htr' with htr'
    subst hc' htr'
    rcases hcase with ⟨_, hf0, hnode⟩ | ⟨hnot, _⟩
    · refine ⟨_, hnode, ?_, ?_, ?_⟩
      · rw [dims2_put2]; exact hdims
      · intro l' hl'
        rw [getD_put2_ne _ _ _ _ _ hl', hrows l' hl']
      · intro n hn
        by_cases hnk : n = k
        · subst hnk
          exact ⟨c, t, f, hc, htr, hf, hf0, at2_put2_same _ _ _ _ hcell⟩
        · obtain ⟨c2, t2, f2, h1, h2, h3, h4, h5⟩ := hvals n (by omega)
          exact ⟨c2, t2, f2, h1, h2, h3, h4, by rw [at2_put2_ne _ _ _ _ _ _ (Or.inr hnk)]; exact h5⟩
    · exact absurd hmem hnot

theorem dims2_eq_of {β γ : Type} (m : List (List β)) (m' : List (List γ))
    (hlen : m.length = m'.length)
    (hrows : ∀ l, l < m.length → (m.getD l []).length = (m'.getD l []).length) :
    dims2 m = dims2 m' := by
  apply List.ext_getElem
  · simp [dims2, hlen]
  · intro l h1 h2
    have hl : l < m.length := by simpa [dims2] using h1
    have hl' : l < m'.length := by simpa [dims2] using h2
    have := hrows l hl
    rw [getD_eq_getElem _ _ _ hl, getD_eq_getElem _ _ _ hl'] at this
    simpa [dims2] using this

/-- One round of the layer loop of the deltas: the layers `i` and above satisfy the
reference definition afterwards. -/
theorem deltas_step (net : network α) (hs : ShapeInv net) (ht : TranslatorsInv net)
    (desiredOutput : List Symbol)
    (hdes : nodesOf net (net.layerCount - 1) ≤ desiredOutput.length)
    (hknown : KnownSymbols net desiredOutput)
    (i : Nat) (hi : i < net.layerCount) (st : List (List α))
    (hlen : st.length = net.layerCount)
    (hrows : ∀ l, i + 1 ≤ l → l < net.layerCount → (st.getD l []).length = nodesOf net l)
    (hspec : DeltaSpecFrom (i + 1) net desiredOutput st) :
    ∃ st', (do
        let cnt ← rd net.nodeCounts[i]?
        let delta ← wr st i (List.replicate cnt 0)
        forLoop (BPandWeightUpdate.node net desiredOutput i) cnt delta) = .ok st' ∧
      st'.length = net.layerCount ∧
      (∀ l, i ≤ l → l < net.layerCount → (st'.getD l []).length = nodesOf net l) ∧
      DeltaSpecFrom i net desiredOutput st' := by
  have hist : i < st.length := by rw [hlen]; exact hi
  have hlen0 : (st.set i (List.replicate (nodesOf net i) (0 : α))).length = net.layerCount := by
    rw [List.length_set]; exact hlen
  have hrow0 : ((st.set i (List.replicate (nodesOf net i) (0 : α))).getD i []).length
      = nodesOf net i := by
    rw [getD_set_same _ _ _ _ hist, List.length_replicate]
  have hother0 : ∀ l, l ≠ i →
      (st.set i (List.replicate (nodesOf net i) (0 : α))).getD l [] = st.getD l [] :=
    fun l hl => getD_set_ne _ _ _ _ _ (Ne.symm hl)
  simp only [rd_nodeCounts net hs i hi, ok_bind, wr_ok _ _ _ hist]
  by_cases hlast : i + 1 = net.layerCount
  · obtain ⟨st', hrun, hdims, hsame, hvals⟩ := deltas_output_layer net hs ht desiredOutput hdes
      hknown i hlast _ hrow0
    refine ⟨st', hrun, ?_, ?_, ?_, ?_⟩
    · rw [length_of_dims2 st' _ hdims]; exact hlen0
    · intro l h1 h2
      have : l = i := by omega
      subst this
      rw [length_getD_of_dims2 st' _ hdims l]; exact hrow0
    · intro _ n hn
      have hl' : net.layerCount - 1 = i := by omega
      rw [hl'] at hn ⊢
      obtain ⟨c, t, f, h1, h2, h3, h4, h5⟩ := hvals n hn
      exact ⟨c, t, f, h1, h2, h3, h4, by rw [h5, one_lit]⟩
    · intro l n h1 h2 _
      omega
  · have hhid : i + 1 < net.layerCount := by omega
    have hnext0 : ((st.set i (List.replicate (nodesOf net i) (0 : α))).getD (i + 1) []).length
        = nodesOf net (i + 1) := by
      rw [hother0 (i + 1) (by omega)]; exact hrows (i + 1) le_rfl hhid
    obtain ⟨st', hrun, hdims, hsame, hvals⟩ := deltas_hidden_layer net hs desiredOutput i hhid
      _ hlen0 hrow0 hnext0
    have hkeep : ∀ l, l ≠ i → st'.getD l [] = st.getD l [] := fun l hl => by
      rw [hsame l hl, hother0 l hl]
    refine ⟨st', hrun, ?_, ?_, ?_, ?_⟩
    · rw [length_of_dims2 st' _ hdims]; exact hlen0
    · intro l h1 h2
      by_cases hli : l = i
      · subst hli
        rw [length_getD_of_dims2 st' _ hdims l]; exact hrow0
      · rw [hkeep l hli]; exact hrows l (by omega) h2
    · intro _ n hn
      obtain ⟨c, t, f, h1, h2, h3, h4, h5⟩ := hspec.1 (by omega) n hn
      refine ⟨c, t, f, h1, h2, h3, h4, ?_⟩
      rw [at2_of_row st' st _ n (hkeep _ (by omega))]; exact h5
    · intro l n h1 h2 hn
      by_cases hli : l = i
      · subst hli
        rw [hvals n hn, one_lit]
        congr 1
        apply Finset.sum_congr rfl
        intro m _
        rw [at2_of_row st' st (l + 1) m (hkeep _ (by omega)),
          at2_of_row _ st (l + 1) m (hother0 _ (by omega)), mul_comm]
      · rw [at2_of_row st' st l n (hkeep _ hli), hspec.2 l n (by omega) h2 hn]
        congr 1
        apply Finset.sum_congr rfl
        intro m _
        rw [at2_of_row st' st (l + 1) m (hkeep _ (by omega))]

/-- The first loop nest of `BPandWeightUpdate` ends normally when all desired characters
are known, and the delta matrix it leaves satisfies the reference definition. -/
theorem deltas_ok (net : network α) (hs : ShapeInv net) (ht : TranslatorsInv net)
    (desiredOutput : List Symbol)
    (hdes : nodesOf net (net.layerCount - 1) ≤ desiredOutput.length)
    (hknown : KnownSymbols net desiredOutput) :
    ∃ delta, BPandWeightUpdate.deltas net desiredOutput = .ok delta ∧
      dims2 delta = dims2 net.outputs ∧ DeltaSpecFrom 0 net desiredOutput delta := by
  obtain ⟨delta, hrun, hlen, hrows, hspec⟩ := forDown_inv
    (fun k (st : List (List α)) => st.length = net.layerCount ∧
      (∀ l, k ≤ l → l < net.layerCount → (st.getD l []).length = nodesOf net l) ∧
      DeltaSpecFrom k net desiredOutput st)
    (fun l_i delta => do
      let cnt ← rd net.nodeCounts[l_i]?
      let delta ← wr delta l_i (List.replicate cnt 0)
      forLoop (BPandWeightUpdate.node net desiredOutput l_i) cnt delta)
    net.layerCount (List.replicate net.layerCount [])
    ⟨List.length_replicate _ _, fun l h1 h2 => by omega,
      fun h => by omega, fun l n h1 h2 => by omega⟩
    (fun i st hi ⟨hlen, hrows, hspec⟩ =>
      deltas_step net hs ht desiredOutput hdes hknown i hi st hlen hrows hspec)
  refine ⟨delta, hrun, ?_, hspec⟩
  apply dims2_eq_of
  · rw [hlen, hs.outputs_len]
  · intro l hl
    rw [hlen] at hl
    rw [hrows l (Nat.zero_le l) hl, hs.outputs_row l hl]

/-- The first loop nest of `BPandWeightUpdate` stops with `return -1` when a desired
character is unknown. -/
theorem deltas_fail (net : network α) (hs : ShapeInv net) (ht : TranslatorsInv net)
    (hlayers : 1 ≤ net.layerCount) (desiredOutput : List Symbol)
    (hdes : nodesOf net (net.layerCount - 1) ≤ desiredOutput.length)
    (hunknown : ∃ n, n < nodesOf net (net.layerCount - 1) ∧
      ∃ c t, desiredOutput[n]? = some c ∧ net.translations[n]? = some t ∧ c ∉ t.entries) :
    BPandWeightUpdate.deltas net desiredOutput = .error .failure := by
  obtain ⟨k, hk⟩ : ∃ k, net.layerCount = k + 1 := ⟨net.layerCount - 1, by omega⟩
  obtain ⟨n0, hn0, c0, t0, hc0, ht0, hnot⟩ := hunknown
  have hk1 : net.layerCount - 1 = k := by omega
  rw [hk1] at hn0
  have hkl : k < net.layerCount := by omega
  have hkr : k < (List.replicate net.layerCount ([] : List α)).length := by
    rw [List.length_replicate]; exact hkl
  have hrow0 : (((List.replicate net.layerCount ([] : List α)).set k
      (List.replicate (nodesOf net k) (0 : α))).getD k []).length = nodesOf net k := by
    rw [getD_set_same _ _ _ _ hkr, List.length_replicate]
  have hloop : forLoop (BPandWeightUpdate.node net desiredOutput k) (nodesOf net k)
      ((List.replicate net.layerCount ([] : List α)).set k
        (List.replicate (nodesOf net k) (0 : α))) = .error .failure := by
    apply forLoop_fail (fun _ st' => dims2 st' = dims2
      ((List.replicate net.layerCount ([] : List α)).set k
        (List.replicate (nodesOf net k) (0 : α)))) _ _ _ rfl _ n0 hn0
    · intro st' hdims
      have hcell : n0 < (st'.getD k []).length := by
        rw [length_getD_of_dims2 st' _ hdims k, hrow0]; exact hn0
      obtain ⟨c, t, f, hc, htr, -, hcase⟩ :=
        node_output net hs ht desiredOutput hdes k n0 (by omega) hn0 st' hcell
      rw [hc0] at hc
      rw [ht0] at htr
      injection hc with hc
      injection htr with htr
      subst hc htr
      rcases hcase with ⟨hmem, -⟩ | ⟨-, hfail⟩
      · exact absurd hmem hnot
      · exact hfail
    · intro i st' hi hdims
      have hcell : i < (st'.getD k []).length := by
        rw [length_getD_of_dims2 st' _ hdims k, hrow0]; exact hi
      obtain ⟨c, t, f, -, -, -, hcase⟩ :=
        node_output net hs ht desiredOutput hdes k i (by omega) hi st' hcell
      rcases hcase with ⟨-, -, hnode⟩ | ⟨-, hfail⟩
      · exact Or.inl ⟨_, hnode, (dims2_put2 _ _ _ _).trans hdims⟩
      · exact Or.inr hfail
  rw [BPandWeightUpdate.deltas, hk, forDown]
  simp only [rd_nodeCounts net hs k hkl, ok_bind]
  rw [← hk, wr_ok _ _ _ hkr]
  simp only [ok_bind, hloop, error_bind]

/-- C2. Atomic failure on an unknown symbol: on a well-shaped network with at least one
layer, when some desired character is absent from the entries of the translator of its
output position, `BPandWeightUpdate` returns `-1` and the network, every weight
included, is as it was before the call. -/
theorem BPandWeightUpdate_unknown_symbol (net : network α) (hs : ShapeInv net)
    (ht : TranslatorsInv net) (hlayers : 1 ≤ net.layerCount)
    (input desiredOutput : List Symbol) (learningRate : α)
    (hdes : nodesOf net (net.layerCount - 1) ≤ desiredOutput.length)
    (hunknown : ∃ n, n < nodesOf net (net.layerCount - 1) ∧
      ∃ c t, desiredOutput[n]? = some c ∧ net.translations[n]? = some t ∧ c ∉ t.entries) :
    BPandWeightUpdate net input desiredOutput learningRate = .ok (-1, net) := by
  -- the first loop nest stops at the unknown character, before any weight is written
  have hfail : BPandWeightUpdate.deltas net desiredOutput = .error .failure :=
    deltas_fail net hs ht hlayers desiredOutput hdes hunknown
  unfold BPandWeightUpdate
  rw [hfail]

/-- Witness for C2: the sample network asked to learn the character `'2'`, which its
translator does not hold. -/
theorem BPandWeightUpdate_unknown_symbol_witness :
    BPandWeightUpdate sampleNet [48, 49] [50] (1 / 2) = .ok (-1, sampleNet) :=
  BPandWeightUpdate_unknown_symbol sampleNet sampleNet_shape sampleNet_translators
    (by decide) [48, 49] [50] (1 / 2) (by decide)
    ⟨0, by decide, 50, ⟨2, [48, 49]⟩, rfl, rfl, by decide⟩

/-! ## `BPandWeightUpdate`: the weight update -/

theorem weight_lt_of_dims3 (net : network α) (hs : ShapeInv net) (w : List (List (List α)))
    (hw : dims3 w = dims3 net.weights) (l n i : Nat)
    (hl : l < net.layerCount) (hn : n < nodesOf net l) (hi : i ≤ fanInOf net l) :
    i < ((w.getD l []).getD n []).length := by
  rw [length_getD_of_dims2 _ _ (dims2_getD_of_dims3 w net.weights hw l) n]
  exact weight_lt net hs l n i hl hn hi

/-- The statement `weights[l][n][i] += learningRate*in*delta[l][n]`. -/
theorem weight_step (net : network α) (hs : ShapeInv net) (input : List Symbol)
    (hin : net.inputLen ≤ input.length) (learningRate : α) (delta : List (List α))
    (hdelta : dims2 delta = dims2 net.outputs) (w : List (List (List α)))
    (hw : dims3 w = dims3 net.weights) (l n i : Nat)
    (hl : l < net.layerCount) (hn : n < nodesOf net l) (hi : i ≤ fanInOf net l) :
    BPandWeightUpdate.weight net input learningRate delta l n i w
      = .ok (put3 w l n i (updatedWeight net input learningRate delta w l n i)) := by
  have hcell := weight_lt_of_dims3 net hs w hw l n i hl hn hi
  by_cases h0 : i = 0
  · simp only [BPandWeightUpdate.weight, h0, if_true, ok_bind,
      get2_eq _ _ _ (output_lt net hs delta hdelta l n hl hn), rd_some,
      get3_eq _ _ _ _ (h0 ▸ hcell), set3_eq _ _ _ _ _ (h0 ▸ hcell), updatedWeight,
      sourceActivation]
  · obtain ⟨j, rfl⟩ := Nat.exists_eq_succ_of_ne_zero h0
    have hsrc : sourceOf net.outputs input l (j + 1) = .ok (sourceActivation net input l (j + 1)) := by
      rw [sourceActivation, if_neg h0]
      exact sourceOf_eq net hs net.outputs rfl input hin l hl j (by omega)
    simp only [BPandWeightUpdate.weight, if_neg h0, hsrc, ok_bind,
      get2_eq _ _ _ (output_lt net hs delta hdelta l n hl hn), rd_some,
      get3_eq _ _ _ _ hcell, set3_eq _ _ _ _ _ hcell, updatedWeight]

/-- The `w_i` loop of the weight update for node `(l, n)`. -/
theorem weight_loop (net : network α) (hs : ShapeInv net) (input : List Symbol)
    (hin : net.inputLen ≤ input.length) (learningRate : α) (delta : List (List α))
    (hdelta : dims2 delta = dims2 net.outputs) (w : List (List (List α)))
    (hw : dims3 w = dims3 net.weights) (l n : Nat)
    (hl : l < net.layerCount) (hn : n < nodesOf net l) :
    ∃ w', forLoop (BPandWeightUpdate.weight net input learningRate delta l n)
        (fanInOf net l + 1) w = .ok w' ∧
      dims3 w' = dims3 net.weights ∧
      (∀ i, i ≤ fanInOf net l →
        at3 w' l n i = updatedWeight net input learningRate delta w l n i) ∧
      (∀ l' n' i', ¬ (l' = l ∧ n' = n ∧ i' ≤ fanInOf net l) →
        at3 w' l' n' i' = at3 w l' n' i') := by
  obtain ⟨w', hrun, hdims, hin', hout'⟩ := forLoop_inv
    (fun k w' => dims3 w' = dims3 net.weights ∧
      (∀ i, i < k → at3 w' l n i = updatedWeight net input learningRate delta w l n i) ∧
      (∀ l' n' i', ¬ (l' = l ∧ n' = n ∧ i' < k) → at3 w' l' n' i' = at3 w l' n' i'))
    (BPandWeightUpdate.weight net input learningRate delta l n) (fanInOf net l + 1) w
    ⟨hw, fun i hi => absurd hi (Nat.not_lt_zero i), fun _ _ _ _ => rfl⟩
    (by
      rintro k st hk ⟨hdims, hdone, hrest⟩
      have hk' : k ≤ fanInOf net l := by omega
      have hcell := weight_lt_of_dims3 net hs st hdims l n k hl hn hk'
      refine ⟨_, weight_step net hs input hin learningRate delta hdelta st hdims l n k hl hn hk',
        ?_, ?_, ?_⟩
      · rw [dims3_put3]; exact hdims
      · intro i hi
        by_cases hik : i = k
        · subst hik
          rw [at3_put3_same _ _ _ _ _ hcell, updatedWeight, updatedWeight,
            hrest l n i (fun h => by omega)]
        · rw [at3_put3_ne _ _ _ _ _ _ _ _ (Or.inr (Or.inr hik))]
          exact hdone i (by omega)
      · intro l' n' i' hnot
        have hne : l' ≠ l ∨ n' ≠ n ∨ i' ≠ k := by
          by_contra hcon
          push_neg at hcon
          exact hnot ⟨hcon.1, hcon.2.1, by omega⟩
        rw [at3_put3_ne _ _ _ _ _ _ _ _ hne]
        exact hrest l' n' i' (fun h => hnot ⟨h.1, h.2.1, by omega⟩))
  exact ⟨w', hrun, hdims, fun i hi => hin' i (by omega),
    fun l' n' i' hnot => hout' l' n' i' (fun h => hnot ⟨h.1, h.2.1, by omega⟩)⟩

/-- The body of the layer loop of the weight update: every weight of layer `l` is
updated, the other layers are left alone. -/
theorem layer_step (net : network α) (hs : ShapeInv net) (input : List Symbol)
    (hin : net.inputLen ≤ input.length) (learningRate : α) (delta : List (List α))
    (hdelta : dims2 delta = dims2 net.outputs) (w : List (List (List α)))
    (hw : dims3 w = dims3 net.weights) (l : Nat) (hl : l < net.layerCount) :
    ∃ w', BPandWeightUpdate.layer net input learningRate delta l w = .ok w' ∧
      dims3 w' = dims3 net.weights ∧
      (∀ n i, n < nodesOf net l → i ≤ fanInOf net l →
        at3 w' l n i = updatedWeight net input learningRate delta w l n i) ∧
      (∀ l' n' i', ¬ (l' = l ∧ n' < nodesOf net l ∧ i' ≤ fanInOf net l) →
        at3 w' l' n' i' = at3 w l' n' i') := by
  obtain ⟨w', hrun, hdims, hin', hout'⟩ := forLoop_inv
    (fun k w' => dims3 w' = dims3 net.weights ∧
      (∀ n i, n < k → i ≤ fanInOf net l →
        at3 w' l n i = updatedWeight net input learningRate delta w l n i) ∧
      (∀ l' n' i', ¬ (l' = l ∧ n' < k ∧ i' ≤ fanInOf net l) → at3 w' l' n' i' = at3 w l' n' i'))
    (fun n_i weights => do
      let bound ← fanIn net l
      forLoop (BPandWeightUpdate.weight net input learningRate delta l n_i) (bound + 1) weights)
    (nodesOf net l) w
    ⟨hw, fun n i hn => absurd hn (Nat.not_lt_zero n), fun _ _ _ _ => rfl⟩
    (by
      rintro k st hk ⟨hdims, hdone, hrest⟩
      obtain ⟨st', hrun, hdims', hnew, hold⟩ :=
        weight_loop net hs input hin learningRate delta hdelta st hdims l k hl hk
      refine ⟨st', ?_, hdims', ?_, ?_⟩
      · simp only [fanIn_eq net hs l hl, ok_bind, hrun]
      · intro n i hn hi
        by_cases hnk : n = k
        · subst hnk
          rw [hnew i hi, updatedWeight, updatedWeight, hrest l n i (fun h => by omega)]
        · rw [hold l n i (fun h => hnk h.2.1)]
          exact hdone n i (by omega) hi
      · intro l' n' i' hnot
        rw [hold l' n' i' (fun h => hnot ⟨h.1, by omega, h.2.2⟩)]
        exact hrest l' n' i' (fun h => hnot ⟨h.1, by omega, h.2.2⟩))
  refine ⟨w', ?_, hdims, hin', hout'⟩
  simp only [BPandWeightUpdate.layer, rd_nodeCounts net hs l hl, ok_bind, hrun]

/-- The descending loop visits the indices in the order of the reversed range. -/
theorem forDown_eq_forEach {σ : Type} (body : Nat → σ → Exec σ) (n : Nat) (s : σ) :
    forDown body n s = forEach body (List.range n).reverse s := by
  induction n generalizing s with
  | zero => rfl
  | succ n ih =>
    rw [List.range_succ, List.reverse_append, List.reverse_singleton, List.singleton_append,
      forDown, forEach]
    cases h : body n s with
    | error e => rfl
    | ok t => exact ih t

/-- The weight update over a list of layers without repetition: the weights of the
layers of the list are updated once, from the weights before the call, and all other
weights are left alone. -/
theorem update_in_order (net : network α) (hs : ShapeInv net) (input : List Symbol)
    (hin : net.inputLen ≤ input.length) (learningRate : α) (delta : List (List α))
    (hdelta : dims2 delta = dims2 net.outputs) :
    ∀ (order done : List Nat) (w : List (List (List α))),
      (done ++ order).Nodup → (∀ l, l ∈ order → l < net.layerCount) →
      dims3 w = dims3 net.weights →
      (∀ l n i, l ∈ done → n < nodesOf net l → i ≤ fanInOf net l →
        at3 w l n i = updatedWeight net input learningRate delta net.weights l n i) →
      (∀ l n i, ¬ (l ∈ done ∧ n < nodesOf net l ∧ i ≤ fanInOf net l) →
        at3 w l n i = at3 net.weights l n i) →
      ∃ w', forEach (BPandWeightUpdate.layer net input learningRate delta) order w = .ok w' ∧
        dims3 w' = dims3 net.weights ∧
        (∀ l n i, l ∈ done ++ order → n < nodesOf net l → i ≤ fanInOf net l →
          at3 w' l n i = updatedWeight net input learningRate delta net.weights l n i) ∧
        (∀ l n i, ¬ (l ∈ done ++ order ∧ n < nodesOf net l ∧ i ≤ fanInOf net l) →
          at3 w' l n i = at3 net.weights l n i) := by
  intro order
  induction order with
  | nil =>
    intro done w _ _ hw hdone hrest
    exact ⟨w, rfl, hw, by simpa using hdone, by simpa using hrest⟩
  | cons l0 rest ih =>
    intro done w hnodup hlt hw hdone hrest
    have hl0 : l0 < net.layerCount := hlt l0 (List.mem_cons_self _ _)
    have hfresh : l0 ∉ done := by
      intro hmem
      have := List.nodup_append.1 hnodup
      exact this.2.2 hmem (List.mem_cons_self _ _)
    obtain ⟨w1, hrun1, hdims1, hnew1, hold1⟩ :=
      layer_step net hs input hin learningRate delta hdelta w hw l0 hl0
    have hnodup' : ((done ++ [l0]) ++ rest).Nodup := by
      rw [List.append_assoc]; exact hnodup
    obtain ⟨w', hrun, hdims, hnew, hold⟩ := ih (done ++ [l0]) w1 hnodup'
      (fun l hl => hlt l (List.mem_cons_of_mem _ hl)) hdims1
      (by
        intro l n i hl hn hi
        by_cases hll : l = l0
        · subst hll
          rw [hnew1 n i hn hi, updatedWeight, updatedWeight,
            hrest l n i (fun h => hfresh h.1)]
        · have hld : l ∈ done := by
            rcases List.mem_append.1 hl with h | h
            · exact h
            · exact absurd (List.mem_singleton.1 h) hll
          rw [hold1 l n i (fun h => hll h.1)]
          exact hdone l n i hld hn hi)
      (by
        intro l n i hnot
        have hll : ¬ (l = l0 ∧ n < nodesOf net l0 ∧ i ≤ fanInOf net l0) := by
          rintro ⟨rfl, h1, h2⟩
          exact hnot ⟨List.mem_append_right _ (List.mem_singleton_self _), h1, h2⟩
        rw [hold1 l n i hll]
        exact hrest l n i (fun h => hnot ⟨List.mem_append_left _ h.1, h.2⟩))
    refine ⟨w', ?_, hdims, ?_, ?_⟩
    · rw [forEach, hrun1]
      exact hrun
    · intro l n i hl
      exact hnew l n i (by simpa [List.append_assoc] using hl)
    · intro l n i hnot
      exact hold l n i (fun h => hnot ⟨by simpa [List.append_assoc] using h.1, h.2⟩)

/-- Two tensors of the same shape with the same entries are equal. -/
theorem matrix_ext (m m' : List (List α)) (hd : dims2 m = dims2 m')
    (hv : ∀ n i, at2 m n i = at2 m' n i) : m = m' := by
  have hlen := length_of_dims2 m m' hd
  apply List.ext_getElem hlen
  intro n h1 h2
  have hrow := length_getD_of_dims2 m m' hd n
  rw [getD_eq_getElem _ _ _ h1, getD_eq_getElem _ _ _ h2] at hrow
  apply List.ext_getElem hrow
  intro i h3 h4
  have := hv n i
  rw [at2, at2, getD_eq_getElem _ _ _ h1, getD_eq_getElem _ _ _ h2,
    getD_eq_getElem _ _ _ h3, getD_eq_getElem _ _ _ h4] at this
  exact this

theorem tensor_ext (w w' : List (List (List α))) (hd : dims3 w = dims3 w')
    (hv : ∀ l n i, at3 w l n i = at3 w' l n i) : w = w' := by
  have hlen := length_of_dims3 w w' hd
  apply List.ext_getElem hlen
  intro l h1 h2
  have hm := dims2_getD_of_dims3 w w' hd l
  have hv' := hv l
  simp only [at3] at hv'
  rw [getD_eq_getElem _ _ _ h1, getD_eq_getElem _ _ _ h2] at hm hv'
  exact matrix_ext _ _ hm hv'

/-- The weight update in any order of the layers: it ends normally, keeps the shape and
adds `learningRate * source * delta` once to every weight. -/
theorem update_any_order (net : network α) (hs : ShapeInv net) (input : List Symbol)
    (hin : net.inputLen ≤ input.length) (learningRate : α) (delta : List (List α))
    (hdelta : dims2 delta = dims2 net.outputs) (order : List Nat)
    (hperm : order.Perm (List.range net.layerCount)) :
    ∃ w', forEach (BPandWeightUpdate.layer net input learningRate delta) order net.weights
        = .ok w' ∧
      dims3 w' = dims3 net.weights ∧
      (∀ l n i, l < net.layerCount → n < nodesOf net l → i ≤ fanInOf net l →
        at3 w' l n i = updatedWeight net input learningRate delta net.weights l n i) ∧
      (∀ l n i, ¬ (l < net.layerCount ∧ n < nodesOf net l ∧ i ≤ fanInOf net l) →
        at3 w' l n i = at3 net.weights l n i) := by
  have hmem : ∀ l, l ∈ order ↔ l < net.layerCount := fun l => by
    rw [hperm.mem_iff, List.mem_range]
  obtain ⟨w', hrun, hdims, hnew, hold⟩ := update_in_order net hs input hin learningRate delta
    hdelta order [] net.weights
    (by
      rw [List.nil_append]
      exact hperm.nodup_iff.2 (List.nodup_range _))
    (fun l hl => (hmem l).1 hl) rfl
    (fun l n i hl => absurd hl (List.not_mem_nil l))
    (fun _ _ _ _ => rfl)
  refine ⟨w', hrun, hdims, ?_, ?_⟩
  · intro l n i hl
    exact hnew l n i (by simpa using (hmem l).2 hl)
  · intro l n i hnot
    exact hold l n i (fun h => hnot ⟨(hmem l).1 (by simpa using h.1), h.2⟩)

/-- The second loop nest of `BPandWeightUpdate` is the weight update in the order
"last layer first". -/
theorem update_eq_forEach (net : network α) (input : List Symbol) (learningRate : α)
    (delta : List (List α)) :
    BPandWeightUpdate.update net input learningRate delta
      = forEach (BPandWeightUpdate.layer net input learningRate delta)
          (List.range net.layerCount).reverse net.weights :=
  forDown_eq_forEach _ _ _

/-! ## `BPandWeightUpdate`: the whole call -/

theorem layers_pos_of_node (net : network α) (hs : ShapeInv net) (n : Nat)
    (hn : n < nodesOf net (net.layerCount - 1)) : 1 ≤ net.layerCount := by
  by_contra h
  have h0 : net.nodeCounts.length ≤ net.layerCount - 1 := by
    rw [hs.nodeCounts_len]; omega
  rw [nodesOf, getD_of_ge _ _ _ h0] at hn
  omega

/-- Either all desired characters are known or one of them is unknown. -/
theorem known_or_unknown (net : network α) (ht : TranslatorsInv net)
    (desiredOutput : List Symbol)
    (hdes : nodesOf net (net.layerCount - 1) ≤ desiredOutput.length) :
    KnownSymbols net desiredOutput ∨
      ∃ n, n < nodesOf net (net.layerCount - 1) ∧
        ∃ c t, desiredOutput[n]? = some c ∧ net.translations[n]? = some t ∧ c ∉ t.entries := by
  by_cases hknown : KnownSymbols net desiredOutput
  · exact Or.inl hknown
  · right
    unfold KnownSymbols at hknown
    push_neg at hknown
    obtain ⟨n, hn, hnot⟩ := hknown
    have hnd : n < desiredOutput.length := by omega
    have hnt : n < net.translations.length := by rw [ht.translations_len]; exact hn
    exact ⟨n, hn, desiredOutput[n], net.translations[n], List.getElem?_eq_getElem hnd,
      List.getElem?_eq_getElem hnt,
      hnot _ _ (List.getElem?_eq_getElem hnd) (List.getElem?_eq_getElem hnt)⟩

/-- With all desired characters known `BPandWeightUpdate` returns 0: the deltas satisfy
their reference definition and the weights come from the weight update. -/
theorem BPandWeightUpdate_ok (net : network α) (hs : ShapeInv net) (ht : TranslatorsInv net)
    (input desiredOutput : List Symbol) (learningRate : α)
    (hin : net.inputLen ≤ input.length)
    (hdes : nodesOf net (net.layerCount - 1) ≤ desiredOutput.length)
    (hknown : KnownSymbols net desiredOutput) :
    ∃ delta w', BPandWeightUpdate.deltas net desiredOutput = .ok delta ∧
      dims2 delta = dims2 net.outputs ∧ DeltaSpecFrom 0 net desiredOutput delta ∧
      BPandWeightUpdate.update net input learningRate delta = .ok w' ∧
      BPandWeightUpdate net input desiredOutput learningRate
        = .ok (0, { net with weights := w' }) := by
  obtain ⟨delta, hdel, hdims, hspec⟩ := deltas_ok net hs ht desiredOutput hdes hknown
  obtain ⟨w', hrun, -⟩ := update_any_order net hs input hin learningRate delta hdims
    (List.range net.layerCount).reverse (List.reverse_perm _)
  rw [← update_eq_forEach] at hrun
  refine ⟨delta, w', hdel, hdims, hspec, hrun, ?_⟩
  simp only [BPandWeightUpdate, hdel, hrun, ok_bind]

/-- A call of `BPandWeightUpdate` that returns 0 had all desired characters known, and
its result is the weight update with the deltas of its first loop nest. -/
theorem BPandWeightUpdate_success (net : network α) (hs : ShapeInv net)
    (ht : TranslatorsInv net) (input desiredOutput : List Symbol) (learningRate : α)
    (hin : net.inputLen ≤ input.length)
    (hdes : nodesOf net (net.layerCount - 1) ≤ desiredOutput.length)
    (net' : network α)
    (hcall : BPandWeightUpdate net input desiredOutput learningRate = .ok (0, net')) :
    ∃ delta, BPandWeightUpdate.deltas net desiredOutput = .ok delta ∧
      dims2 delta = dims2 net.outputs ∧ DeltaSpecFrom 0 net desiredOutput delta ∧
      BPandWeightUpdate.update net input learningRate delta = .ok net'.weights ∧
      net' = { net with weights := net'.weights } := by
  rcases known_or_unknown net ht desiredOutput hdes with hknown | hunknown
  · obtain ⟨delta, w', hdel, hdims, hspec, hrun, hres⟩ :=
      BPandWeightUpdate_ok net hs ht input desiredOutput learningRate hin hdes hknown
    rw [hres] at hcall
    injection hcall with hcall
    injection hcall with _ hnet
    subst hnet
    exact ⟨delta, hdel, hdims, hspec, hrun, rfl⟩
  · obtain ⟨n, hn, -⟩ := id hunknown
    have hlayers := layers_pos_of_node net hs n hn
    have hfail := deltas_fail net hs ht hlayers desiredOutput hdes hunknown
    simp only [BPandWeightUpdate, hfail] at hcall
    injection hcall with hcall
    injection hcall with hcode _
    exact absurd hcode (by decide)

theorem sampleNet_known : KnownSymbols sampleNet [49] := by
  intro n hn
  have h0 : n = 0 := by
    have : nodesOf sampleNet (sampleNet.layerCount - 1) = 1 := rfl
    omega
  subst h0
  exact ⟨49, ⟨2, [48, 49]⟩, rfl, rfl, by decide⟩

/-- C4. Delta computation equals its reference definition: in a call of
`BPandWeightUpdate` that returns 0, the delta used for node `n` of the last layer is
`a * (1 - a) * (translateOutput(desiredOutput[n], translations[n]) - a)` and the delta used
for node `n` of a hidden layer `l` is `a * (1 - a)` times the sum over the nodes `m` of
layer `l + 1` of `delta[l+1][m] * w[l+1][m][n+1]`, with `a` the activation of the node in
the buffer and `w` the weights before the call; the weights after the call are the
weight update with these deltas. -/
theorem BPandWeightUpdate_deltas (net : network α) (hs : ShapeInv net)
    (ht : TranslatorsInv net) (input desiredOutput : List Symbol) (learningRate : α)
    (hin : net.inputLen ≤ input.length)
    (hdes : nodesOf net (net.layerCount - 1) ≤ desiredOutput.length)
    (net' : network α)
    (hcall : BPandWeightUpdate net input desiredOutput learningRate = .ok (0, net')) :
    ∃ delta, BPandWeightUpdate.deltas net desiredOutput = .ok delta ∧
      BPandWeightUpdate.update net input learningRate delta = .ok net'.weights ∧
      (∀ n, n < nodesOf net (net.layerCount - 1) →
        ∃ c t f, desiredOutput[n]? = some c ∧ net.translations[n]? = some t ∧
          translateOutput c t = .ok f ∧
          get2 delta (net.layerCount - 1) n = some
            (at2 net.outputs (net.layerCount - 1) n *
              (1 - at2 net.outputs (net.layerCount - 1) n) *
              (f - at2 net.outputs (net.layerCount - 1) n))) ∧
      (∀ l n, l + 1 < net.layerCount → n < nodesOf net l →
        get2 delta l n = some (at2 net.outputs l n * (1 - at2 net.outputs l n) *
          ∑ m in Finset.range (nodesOf net (l + 1)),
            at2 delta (l + 1) m * at3 net.weights (l + 1) m (n + 1))) := by
  obtain ⟨delta, hdel, hdims, hspec, hrun, -⟩ :=
    BPandWeightUpdate_success net hs ht input desiredOutput learningRate hin hdes net' hcall
  refine ⟨delta, hdel, hrun, ?_, ?_⟩
  · intro n hn
    have hlayers := layers_pos_of_node net hs n hn
    obtain ⟨c, t, f, h1, h2, h3, -, h5⟩ := hspec.1 (by omega) n hn
    refine ⟨c, t, f, h1, h2, h3, ?_⟩
    rw [get2_eq _ _ _ (output_lt net hs delta hdims _ n (by omega) hn), h5]
  · intro l n hl hn
    rw [get2_eq _ _ _ (output_lt net hs delta hdims l n (by omega) hn),
      hspec.2 l n (Nat.zero_le l) hl hn]

/-- Witness for C4: the sample network learning the character `'1'`. -/
theorem BPandWeightUpdate_deltas_witness :
    ∃ net', BPandWeightUpdate sampleNet [48, 49] [49] (1 / 2) = .ok (0, net') ∧
      ∃ delta, BPandWeightUpdate.deltas sampleNet [49] = .ok delta ∧
        BPandWeightUpdate.update sampleNet [48, 49] (1 / 2) delta = .ok net'.weights ∧
        (∀ n, n < nodesOf sampleNet (sampleNet.layerCount - 1) →
          ∃ c t f, ([49] : List Symbol)[n]? = some c ∧ sampleNet.translations[n]? = some t ∧
            translateOutput c t = .ok f ∧
            get2 delta (sampleNet.layerCount - 1) n = some
              (at2 sampleNet.outputs (sampleNet.layerCount - 1) n *
                (1 - at2 sampleNet.outputs (sampleNet.layerCount - 1) n) *
                (f - at2 sampleNet.outputs (sampleNet.layerCount - 1) n))) ∧
        (∀ l n, l + 1 < sampleNet.layerCount → n < nodesOf sampleNet l →
          get2 delta l n = some (at2 sampleNet.outputs l n * (1 - at2 sampleNet.outputs l n) *
            ∑ m in Finset.range (nodesOf sampleNet (l + 1)),
              at2 delta (l + 1) m * at3 sampleNet.weights (l + 1) m (n + 1))) := by
  obtain ⟨_, w', _, _, _, _, hcall⟩ := BPandWeightUpdate_ok sampleNet sampleNet_shape
    sampleNet_translators [48, 49] [49] (1 / 2) (by decide) (by decide) sampleNet_known
  exact ⟨_, hcall, BPandWeightUpdate_deltas sampleNet sampleNet_shape sampleNet_translators
    [48, 49] [49] (1 / 2) (by decide) (by decide) _ hcall⟩

/-- C5. Weight update equals its reference definition: in a call of `BPandWeightUpdate`
that returns 0 the weight tensor keeps its shape and every weight satisfies
`w'[l][n][i] = w[l][n][i] + learningRate * src(l,i) * delta[l][n]`, one increment of the
value before the call, where `src(l,0) = 1`, `src(0,i) = translateInput(input[i-1])` and
`src(l,i) = activation[l-1][i-1]` for `l > 0`, `i > 0`, and `delta` are the deltas of the
first loop nest; nothing but the weights changes in the network. -/
theorem BPandWeightUpdate_weights (net : network α) (hs : ShapeInv net)
    (ht : TranslatorsInv net) (input desiredOutput : List Symbol) (learningRate : α)
    (hin : net.inputLen ≤ input.length)
    (hdes : nodesOf net (net.layerCount - 1) ≤ desiredOutput.length)
    (net' : network α)
    (hcall : BPandWeightUpdate net input desiredOutput learningRate = .ok (0, net')) :
    ∃ delta, BPandWeightUpdate.deltas net desiredOutput = .ok delta ∧
      net' = { net with weights := net'.weights } ∧
      dims3 net'.weights = dims3 net.weights ∧
      ∀ l n i, l < net.layerCount → n < nodesOf net l → i ≤ fanInOf net l →
        get3 net'.weights l n i = some (at3 net.weights l n i +
          learningRate *
            (if i = 0 then 1
              else if l = 0 then translateInput (input.getD (i - 1) 0)
              else at2 net.outputs (l - 1) (i - 1)) *
            at2 delta l n) := by
  obtain ⟨delta, hdel, hdims, -, hrun, hnet⟩ :=
    BPandWeightUpdate_success net hs ht input desiredOutput learningRate hin hdes net' hcall
  obtain ⟨w', hrun', hdims', hnew, -⟩ := update_any_order net hs input hin learningRate delta
    hdims (List.range net.layerCount).reverse (List.reverse_perm _)
  rw [← update_eq_forEach, hrun] at hrun'
  injection hrun' with hw
  subst hw
  refine ⟨delta, hdel, hnet, hdims', ?_⟩
  intro l n i hl hn hi
  rw [get3_eq _ _ _ _ (weight_lt_of_dims3 net hs _ hdims' l n i hl hn hi), hnew l n i hl hn hi]
  rfl

/-- Witness for C5: the sample network learning the character `'1'`. -/
theorem BPandWeightUpdate_weights_witness :
    ∃ net', BPandWeightUpdate sampleNet [48, 49] [49] (1 / 2) = .ok (0, net') ∧
      ∃ delta, BPandWeightUpdate.deltas sampleNet [49] = .ok delta ∧
        net' = { sampleNet with weights := net'.weights } ∧
        dims3 net'.weights = dims3 sampleNet.weights ∧
        ∀ l n i, l < sampleNet.layerCount → n < nodesOf sampleNet l →
          i ≤ fanInOf sampleNet l →
          get3 net'.weights l n i = some (at3 sampleNet.weights l n i +
            (1 / 2) *
              (if i = 0 then 1
                else if l = 0 then translateInput (([48, 49] : List Symbol).getD (i - 1) 0)
                else at2 sampleNet.outputs (l - 1) (i - 1)) *
              at2 delta l n) := by
  obtain ⟨_, w', _, _, _, _, hcall⟩ := BPandWeightUpdate_ok sampleNet sampleNet_shape
    sampleNet_translators [48, 49] [49] (1 / 2) (by decide) (by decide) sampleNet_known
  exact ⟨_, hcall, BPandWeightUpdate_weights sampleNet sampleNet_shape sampleNet_translators
    [48, 49] [49] (1 / 2) (by decide) (by decide) _ hcall⟩

/-- C6. Two-phase update isolation: the deltas are computed from the network as it is
before the call, so the variant of `BPandWeightUpdate` whose weight update visits the
layers in any other order (any permutation of `0 .. layerCount-1`, ascending for
instance) gives the same return code and the same network as `BPandWeightUpdate`. -/
theorem BPandWeightUpdate_order_independent (net : network α) (hs : ShapeInv net)
    (ht : TranslatorsInv net) (input desiredOutput : List Symbol) (learningRate : α)
    (hin : net.inputLen ≤ input.length)
    (hdes : nodesOf net (net.layerCount - 1) ≤ desiredOutput.length)
    (order : List Nat) (hperm : order.Perm (List.range net.layerCount)) :
    BPandWeightUpdateInOrder order net input desiredOutput learningRate
      = BPandWeightUpdate net input desiredOutput learningRate := by
  rcases known_or_unknown net ht desiredOutput hdes with hknown | hunknown
  · obtain ⟨delta, hdel, hdims, -⟩ := deltas_ok net hs ht desiredOutput hdes hknown
    obtain ⟨w1, hrun1, hdims1, hnew1, hold1⟩ := update_any_order net hs input hin learningRate
      delta hdims order hperm
    obtain ⟨w2, hrun2, hdims2, hnew2, hold2⟩ := update_any_order net hs input hin learningRate
      delta hdims (List.range net.layerCount).reverse (List.reverse_perm _)
    have hw : w1 = w2 := by
      apply tensor_ext _ _ (hdims1.trans hdims2.symm)
      intro l n i
      by_cases hreg : l < net.layerCount ∧ n < nodesOf net l ∧ i ≤ fanInOf net l
      · rw [hnew1 l n i hreg.1 hreg.2.1 hreg.2.2, hnew2 l n i hreg.1 hreg.2.1 hreg.2.2]
      · rw [hold1 l n i hreg, hold2 l n i hreg]
    rw [← update_eq_forEach] at hrun2
    simp only [BPandWeightUpdateInOrder, BPandWeightUpdate, hdel, hrun1, hrun2, ok_bind, hw]
  · obtain ⟨n, hn, -⟩ := id hunknown
    have hlayers := layers_pos_of_node net hs n hn
    have hfail := deltas_fail net hs ht hlayers desiredOutput hdes hunknown
    simp only [BPandWeightUpdateInOrder, BPandWeightUpdate, hfail]

/-- Witness for C6: the sample network with the weight update in ascending order. -/
theorem BPandWeightUpdate_order_independent_witness :
    BPandWeightUpdateInOrder [0, 1] sampleNet [48, 49] [49] (1 / 2)
      = BPandWeightUpdate sampleNet [48, 49] [49] (1 / 2) :=
  BPandWeightUpdate_order_independent sampleNet sampleNet_shape sampleNet_translators
    [48, 49] [49] (1 / 2) (by decide) (by decide) [0, 1] (by decide)

/-! ## `buildNetwork` and the shape invariant -/

theorem rd_nodeCounts_of_len (net : network α) (l : Nat) (hl : l < net.nodeCounts.length) :
    rd net.nodeCounts[l]? = .ok (nodesOf net l) := by
  rw [rd_getElem _ _ hl, nodesOf, getD_eq_getElem _ _ _ hl]

theorem fanIn_of_len (net : network α) (l : Nat) (hl : l ≤ net.nodeCounts.length) :
    fanIn net l = .ok (fanInOf net l) := by
  by_cases h0 : l = 0
  · simp [fanIn, fanInOf, h0]
  · have h : l - 1 < net.nodeCounts.length := by omega
    rw [fanIn, if_neg h0, fanInOf, if_neg h0, rd_getElem _ _ h, getD_eq_getElem _ _ _ h]

/-- The loop "build nodes": every layer of `outputs` and of `weights` gets
`nodeCounts[l]` nodes. -/
theorem buildNetwork_nodes (net : network α) (hnc : net.nodeCounts.length = net.layerCount)
    (hout : net.outputs.length = net.layerCount) (hw : net.weights.length = net.layerCount) :
    ∃ st, buildNetwork.nodes net = .ok st ∧
      st.1.length = net.layerCount ∧ st.2.length = net.layerCount ∧
      ∀ l, l < net.layerCount →
        (st.1.getD l []).length = nodesOf net l ∧ (st.2.getD l []).length = nodesOf net l := by
  apply forLoop_inv (fun k (st : List (List α) × List (List (List α))) =>
      st.1.length = net.layerCount ∧ st.2.length = net.layerCount ∧
      ∀ l, l < k →
        (st.1.getD l []).length = nodesOf net l ∧ (st.2.getD l []).length = nodesOf net l)
  · exact ⟨hout, hw, fun l hl => absurd hl (Nat.not_lt_zero l)⟩
  · rintro k ⟨o, w⟩ hk ⟨ho, hw', hdone⟩
    simp only [] at ho hw' hdone
    have hko : k < o.length := by rw [ho]; exact hk
    have hkw : k < w.length := by rw [hw']; exact hk
    refine ⟨(o.set k (List.replicate (nodesOf net k) 0),
      w.set k (List.replicate (nodesOf net k) [])), ?_, ?_, ?_, ?_⟩
    · simp only [rd_nodeCounts_of_len net k (by rw [hnc]; exact hk), ok_bind, wr_ok _ _ _ hko,
        wr_ok _ _ _ hkw]
    · simp only [List.length_set]; exact ho
    · simp only [List.length_set]; exact hw'
    · intro l hl
      by_cases hlk : l = k
      · subst hlk
        simp only [getD_set_same _ _ _ _ hko, getD_set_same _ _ _ _ hkw, List.length_replicate,
          and_self]
      · simp only [getD_set_ne _ _ _ _ _ (Ne.symm hlk)]
        exact hdone l (by omega)

/-- The loop "build weights": every node gets a weight vector with one entry for the
bias and one for each of its inputs. -/
theorem buildNetwork_vectors (net : network α) (hnc : net.nodeCounts.length = net.layerCount)
    (w : List (List (List α))) (hlen : w.length = net.layerCount)
    (hrows : ∀ l, l < net.layerCount → (w.getD l []).length = nodesOf net l) :
    ∃ w', buildNetwork.vectors net w = .ok w' ∧ dims2 w' = dims2 w ∧
      ∀ l, l < net.layerCount → ∀ n, n < nodesOf net l →
        ((w'.getD l []).getD n []).length = fanInOf net l + 1 := by
  apply forLoop_inv (fun k (st : List (List (List α))) => dims2 st = dims2 w ∧
      ∀ l, l < k → ∀ n, n < nodesOf net l →
        ((st.getD l []).getD n []).length = fanInOf net l + 1)
  · exact ⟨rfl, fun l hl => absurd hl (Nat.not_lt_zero l)⟩
  · rintro k st hk ⟨hdims, hdone⟩
    obtain ⟨st', hrun, hdims', hold, hnew⟩ := forLoop_inv
      (fun j (st' : List (List (List α))) => dims2 st' = dims2 w ∧
        (∀ l, l < k → ∀ n, n < nodesOf net l →
          ((st'.getD l []).getD n []).length = fanInOf net l + 1) ∧
        ∀ n, n < j → ((st'.getD k []).getD n []).length = fanInOf net k + 1)
      (fun n_i (weights : List (List (List α))) => do
        let bound ← fanIn net k
        set2 weights k n_i (List.replicate (bound + 1) 0)) (nodesOf net k) st
      ⟨hdims, hdone, fun n hn => absurd hn (Nat.not_lt_zero n)⟩
      (by
        rintro j st' hj ⟨hd, hold, hnew⟩
        have hcell : j < (st'.getD k []).length := by
          rw [length_getD_of_dims2 st' w hd k, hrows k hk]; exact hj
        have hkl : k < st'.length := lt_length_of_getD st' k j hcell
        refine ⟨put2 st' k j (List.replicate (fanInOf net k + 1) 0), ?_, ?_, ?_, ?_⟩
        · simp only [fanIn_of_len net k (by omega), ok_bind, set2_eq _ _ _ _ hcell]
        · rw [dims2_put2]; exact hd
        · intro l hl n hn
          rw [getD_put2_ne _ _ _ _ _ (by omega : l ≠ k)]
          exact hold l hl n hn
        · intro n hn
          rw [getD_put2_same _ _ _ _ hkl]
          by_cases hnj : n = j
          · subst hnj
            rw [getD_set_same _ _ _ _ hcell, List.length_replicate]
          · rw [getD_set_ne _ _ _ _ _ (Ne.symm hnj)]
            exact hnew n (by omega))
    refine ⟨st', ?_, hdims', ?_⟩
    · simp only [rd_nodeCounts_of_len net k (by rw [hnc]; exact hk), ok_bind, hrun]
    · intro l hl n hn
      by_cases hlk : l = k
      · subst hlk
        exact hnew n hn
      · exact hold l (by omega) n hn

/-- The loop "randomize weights" writes inside the tensor: its shape is kept. -/
theorem buildNetwork_randomize (rand : Nat → Nat) (RAND_MAX : Nat) (net : network α)
    (hnc : net.nodeCounts.length = net.layerCount) (w : List (List (List α)))
    (hrows : ∀ l, l < net.layerCount → (w.getD l []).length = nodesOf net l)
    (hvec : ∀ l, l < net.layerCount → ∀ n, n < nodesOf net l →
      ((w.getD l []).getD n []).length = fanInOf net l + 1) :
    ∃ r, buildNetwork.randomize rand RAND_MAX net w = .ok r ∧ dims3 r.1 = dims3 w := by
  have hcell : ∀ (st : List (List (List α))), dims3 st = dims3 w → ∀ l n i,
      l < net.layerCount → n < nodesOf net l → i ≤ fanInOf net l →
      i < ((st.getD l []).getD n []).length := by
    intro st hd l n i hl hn hi
    rw [length_getD_of_dims2 _ _ (dims2_getD_of_dims3 st w hd l) n, hvec l hl n hn]
    omega
  apply forLoop_inv (fun _ (st : List (List (List α)) × Nat) => dims3 st.1 = dims3 w)
  · rfl
  · rintro l st hl hd
    obtain ⟨st', hrun, hd'⟩ := forLoop_inv
      (fun _ (st : List (List (List α)) × Nat) => dims3 st.1 = dims3 w)
      (fun n_i st => do
        let bound ← fanIn net l
        forLoop (fun w_i (st : List (List (List α)) × Nat) => do
          let weights ← set3 st.1 l n_i w_i
            ((((rand st.2 : α) / (RAND_MAX : α)) * 2) - 1)
          .ok (weights, st.2 + 1)) (bound + 1) st) (nodesOf net l) st hd
      (by
        rintro n st1 hn hd1
        obtain ⟨st2, hrun2, hd2⟩ := forLoop_inv
          (fun _ (st : List (List (List α)) × Nat) => dims3 st.1 = dims3 w)
          (fun w_i (st : List (List (List α)) × Nat) => do
            let weights ← set3 st.1 l n w_i
              ((((rand st.2 : α) / (RAND_MAX : α)) * 2) - 1)
            .ok (weights, st.2 + 1)) (fanInOf net l + 1) st1 hd1
          (by
            rintro i st3 hi hd3
            refine ⟨(put3 st3.1 l n i ((((rand st3.2 : α) / (RAND_MAX : α)) * 2) - 1),
              st3.2 + 1), ?_, ?_⟩
            · simp only [set3_eq _ _ _ _ _ (hcell st3.1 hd3 l n i hl hn (by omega)), ok_bind]
            · exact (dims3_put3 _ _ _ _ _).trans hd3)
        exact ⟨st2, by simp only [fanIn_of_len net l (by omega), ok_bind, hrun2], hd2⟩)
    exact ⟨st', by
      simp only [rd_nodeCounts_of_len net l (by rw [hnc]; exact hl), ok_bind, hrun], hd'⟩

/-- The shape invariant passes to a network with the same topology, an activation buffer
of the same row lengths and a weight tensor of the same shape. -/
theorem ShapeInv_of_dims (net net' : network α) (hs : ShapeInv net)
    (h1 : net'.inputLen = net.inputLen) (h2 : net'.layerCount = net.layerCount)
    (h3 : net'.nodeCounts = net.nodeCounts)
    (ho : dims2 net'.outputs = dims2 net.outputs)
    (hw : dims3 net'.weights = dims3 net.weights) : ShapeInv net' := by
  have hnodes : ∀ l, nodesOf net' l = nodesOf net l := fun l => by rw [nodesOf, nodesOf, h3]
  have hfan : ∀ l, fanInOf net' l = fanInOf net l := fun l => by
    rw [fanInOf, fanInOf, h1, h3]
  refine ⟨?_, ?_, ?_, ?_, ?_, ?_⟩
  · rw [h3, h2]; exact hs.nodeCounts_len
  · rw [length_of_dims2 _ _ ho, h2]; exact hs.outputs_len
  · rw [length_of_dims3 _ _ hw, h2]; exact hs.weights_len
  · intro l hl
    rw [length_getD_of_dims2 _ _ ho l, hnodes]
    exact hs.outputs_row l (h2 ▸ hl)
  · intro l hl
    rw [length_of_dims2 _ _ (dims2_getD_of_dims3 _ _ hw l), hnodes]
    exact hs.weights_layer l (h2 ▸ hl)
  · intro l hl n hn
    rw [length_getD_of_dims2 _ _ (dims2_getD_of_dims3 _ _ hw l) n, hfan]
    exact hs.weights_node l (h2 ▸ hl) n (hnodes l ▸ hn)

/-- Function `buildNetwork` returns 0 and a network with the given topology that satisfies
the shape invariant. -/
theorem buildNetwork_ok (rand : Nat → Nat) (RAND_MAX : Nat) (inputLen layerCount : Nat)
    (nodeCounts : List Nat) (translations : List translation)
    (hnc : nodeCounts.length = layerCount) :
    ∃ net : network α,
      buildNetwork rand RAND_MAX inputLen layerCount nodeCounts translations = .ok (0, net) ∧
      net.inputLen = inputLen ∧ net.layerCount = layerCount ∧ net.nodeCounts = nodeCounts ∧
      net.translations = translations ∧ ShapeInv net := by
  obtain ⟨st, hst, ho, hw, hrows⟩ := buildNetwork_nodes
    ({ inputLen := inputLen, layerCount := layerCount, nodeCounts := nodeCounts,
       outputs := List.replicate layerCount [], weights := List.replicate layerCount [],
       translations := translations } : network α)
    hnc (List.length_replicate _ _) (List.length_replicate _ _)
  obtain ⟨w', hw', hd, hvec⟩ := buildNetwork_vectors _ hnc st.2 hw (fun l hl => (hrows l hl).2)
  have hrows' : ∀ l, l < layerCount → (w'.getD l []).length = nodesOf
      ({ inputLen := inputLen, layerCount := layerCount, nodeCounts := nodeCounts,
         outputs := List.replicate layerCount [], weights := List.replicate layerCount [],
         translations := translations } : network α) l := fun l hl => by
    rw [length_getD_of_dims2 w' st.2 hd l]; exact (hrows l hl).2
  obtain ⟨r, hr, hd3⟩ := buildNetwork_randomize rand RAND_MAX _ hnc w' hrows' hvec
  refine ⟨{ inputLen := inputLen, layerCount := layerCount, nodeCounts := nodeCounts,
            outputs := st.1, weights := r.1, translations := translations },
    by simp only [buildNetwork, hst, hw', hr, ok_bind], rfl, rfl, rfl, rfl, ?_⟩
  refine ⟨hnc, ho, ?_, fun l hl => (hrows l hl).1, ?_, ?_⟩
  · show r.1.length = layerCount
    rw [length_of_dims3 _ _ hd3, length_of_dims2 _ _ hd]; exact hw
  · intro l hl
    show (r.1.getD l []).length = _
    rw [length_of_dims2 _ _ (dims2_getD_of_dims3 _ _ hd3 l)]
    exact hrows' l hl
  · intro l hl n hn
    show ((r.1.getD l []).getD n []).length = _
    rw [length_getD_of_dims2 _ _ (dims2_getD_of_dims3 _ _ hd3 l) n]
    exact hvec l hl n hn

/-- Function `BPandWeightUpdate` on a well-shaped network always returns, with code 0 or
-1, and leaves the topology, the activation buffer and the shape of the weight tensor
as they were. -/
theorem BPandWeightUpdate_shape (net : network α) (hs : ShapeInv net) (ht : TranslatorsInv net)
    (input desiredOutput : List Symbol) (learningRate : α)
    (hin : net.inputLen ≤ input.length)
    (hdes : nodesOf net (net.layerCount - 1) ≤ desiredOutput.length) :
    ∃ code net', BPandWeightUpdate net input desiredOutput learningRate = .ok (code, net') ∧
      (code = 0 ∨ code = -1) ∧
      net' = { net with weights := net'.weights } ∧
      dims3 net'.weights = dims3 net.weights := by
  rcases known_or_unknown net ht desiredOutput hdes with hknown | hunknown
  · obtain ⟨delta, hdel, hdims, -⟩ := deltas_ok net hs ht desiredOutput hdes hknown
    obtain ⟨w', hrun, hdims', -⟩ := update_any_order net hs input hin learningRate delta hdims
      (List.range net.layerCount).reverse (List.reverse_perm _)
    rw [← update_eq_forEach] at hrun
    refine ⟨0, { net with weights := w' }, ?_, Or.inl rfl, rfl, hdims'⟩
    simp only [BPandWeightUpdate, hdel, hrun, ok_bind]
  · obtain ⟨n, hn, -⟩ := id hunknown
    have hlayers := layers_pos_of_node net hs n hn
    have hfail := deltas_fail net hs ht hlayers desiredOutput hdes hunknown
    refine ⟨-1, net, ?_, Or.inr rfl, rfl, rfl⟩
    simp only [BPandWeightUpdate, hfail]

/-- C7. Shape invariant: `buildNetwork` returns 0 and a network in which the weight vector
of every node `(l, n)` has length `(l == 0 ? inputLen : nodeCounts[l-1]) + 1` and the
activation row of every layer `l` has length `nodeCounts[l]`; on a network with these
lengths `runForward` and `BPandWeightUpdate` end normally and leave every row of the
activation buffer and every layer and vector of the weight tensor with the length it
had, so the invariant holds afterwards. -/
theorem shape_invariant (rand : Nat → Nat) (RAND_MAX : Nat) (inputLen layerCount : Nat)
    (nodeCounts : List Nat) (translations : List translation)
    (hnc : nodeCounts.length = layerCount)
    (exp : α → α) (hexp : ∀ x, 0 < exp x) (net : network α)
    (hs : ShapeInv net) (ht : TranslatorsInv net) (hlayers : 1 ≤ net.layerCount)
    (input output desiredOutput : List Symbol) (learningRate : α)
    (hin : net.inputLen ≤ input.length)
    (hout : nodesOf net (net.layerCount - 1) ≤ output.length)
    (hdes : nodesOf net (net.layerCount - 1) ≤ desiredOutput.length) :
    (∃ built : network α,
      buildNetwork rand RAND_MAX inputLen layerCount nodeCounts translations = .ok (0, built) ∧
      built.inputLen = inputLen ∧ built.layerCount = layerCount ∧
      built.nodeCounts = nodeCounts ∧ ShapeInv built) ∧
    (∃ net' out, runForward exp net input output = .ok (net', out) ∧
      dims2 net'.outputs = dims2 net.outputs ∧ dims3 net'.weights = dims3 net.weights ∧
      ShapeInv net') ∧
    (∃ code net', BPandWeightUpdate net input desiredOutput learningRate = .ok (code, net') ∧
      dims2 net'.outputs = dims2 net.outputs ∧ dims3 net'.weights = dims3 net.weights ∧
      ShapeInv net') := by
  refine ⟨?_, ?_, ?_⟩
  · obtain ⟨built, h1, h2, h3, h4, -, h6⟩ :=
      buildNetwork_ok (α := α) rand RAND_MAX inputLen layerCount nodeCounts translations hnc
    exact ⟨built, h1, h2, h3, h4, h6⟩
  · obtain ⟨m, out, hrun, -, hdims, -⟩ :=
      runForward_ok exp hexp net hs ht hlayers input output hin hout
    exact ⟨_, out, hrun, hdims, rfl, ShapeInv_of_dims net _ hs rfl rfl rfl hdims rfl⟩
  · obtain ⟨code, net', hrun, -, hnet, hdims⟩ :=
      BPandWeightUpdate_shape net hs ht input desiredOutput learningRate hin hdes
    have ho : net'.outputs = net.outputs := by rw [hnet]
    refine ⟨code, net', hrun, by rw [ho], hdims, ?_⟩
    exact ShapeInv_of_dims net net' hs (by rw [hnet]) (by rw [hnet]) (by rw [hnet])
      (by rw [ho]) hdims

/-- Witness for C7: a topology of two layers, and the sample network on the input `"01"`
with the desired output `'1'`. -/
theorem shape_invariant_witness :
    (∃ built : network ℚ,
      buildNetwork (fun k => k) 7 2 2 [2, 1] [⟨2, [48, 49]⟩] = .ok (0, built) ∧
      built.inputLen = 2 ∧ built.layerCount = 2 ∧
      built.nodeCounts = [2, 1] ∧ ShapeInv built) ∧
    (∃ net' out, runForward sampleExp sampleNet [48, 49] [0] = .ok (net', out) ∧
      dims2 net'.outputs = dims2 sampleNet.outputs ∧
      dims3 net'.weights = dims3 sampleNet.weights ∧ ShapeInv net') ∧
    (∃ code net', BPandWeightUpdate sampleNet [48, 49] [49] (1 / 2) = .ok (code, net') ∧
      dims2 net'.outputs = dims2 sampleNet.outputs ∧
      dims3 net'.weights = dims3 sampleNet.weights ∧ ShapeInv net') :=
  shape_invariant (fun k => k) 7 2 2 [2, 1] [⟨2, [48, 49]⟩] rfl sampleExp sampleExp_pos
    sampleNet sampleNet_shape sampleNet_translators (by decide) [48, 49] [0] [49] (1 / 2)
    (by decide) (by decide) (by decide)

/-! ## The output vector of `runForward` -/

theorem rd_eq_ok {β : Type} (o : Option β) (b : β) (h : rd o = .ok b) : o = some b := by
  cases o with
  | none => simp at h
  | some x =>
    simp only [rd_some] at h
    injection h with h
    rw [h]

theorem mem_of_getElem?_eq {β : Type} (xs : List β) (i : Nat) (x : β) (h : xs[i]? = some x) :
    x ∈ xs := by
  obtain ⟨hi, hx⟩ := List.getElem?_eq_some.1 h
  exact hx ▸ List.getElem_mem hi

/-- Decoding an activation of the range `[0, 1)` reads the entry at the floor of
`count * a`, inside the entries. -/
theorem decode_of_unit (t : translation) (hcount : t.count = t.entries.length)
    (hpos : 1 ≤ t.count) (a : α) (h0 : 0 ≤ a) (h1 : a < 1) :
    ∃ (i : Nat) (hi : i < t.entries.length), runForward.decode t a = .ok t.entries[i] ∧
      (i : Int) = ⌊(t.count : α) * a⌋ := by
  have hc : (0 : α) < (t.count : α) := by exact_mod_cast (by omega : 0 < t.count)
  have hx : 0 ≤ (t.count : α) * a := mul_nonneg (le_of_lt hc) h0
  have hf0 : 0 ≤ ⌊(t.count : α) * a⌋ := Int.floor_nonneg.2 hx
  have hlt : (t.count : α) * a < (t.count : α) := by nlinarith
  have hf1 : ⌊(t.count : α) * a⌋ < (t.count : Int) := by
    rw [Int.floor_lt]; exact_mod_cast hlt
  have hidx : (⌊(t.count : α) * a⌋).toNat < t.entries.length := by
    rw [← hcount]; omega
  refine ⟨(⌊(t.count : α) * a⌋).toNat, hidx, ?_, Int.toNat_of_nonneg hf0⟩
  simp only [runForward.decode, truncToInt_of_nonneg _ hx]
  rw [if_pos hf0, rd_getElem _ _ hidx]

/-- Function `runForward` on a well-shaped network, with the output vector spelled out:
position `o` of the buffer holds the entry of translator `o` at the floor of `count`
times the activation of output node `o`. -/
theorem runForward_decoded (exp : α → α) (hexp : ∀ x, 0 < exp x) (net : network α)
    (hs : ShapeInv net) (ht : TranslatorsInv net) (hlayers : 1 ≤ net.layerCount)
    (input output : List Symbol) (hin : net.inputLen ≤ input.length)
    (hout : nodesOf net (net.layerCount - 1) ≤ output.length) :
    ∃ m out, runForward exp net input output = .ok ({ net with outputs := m }, out) ∧
      runForward.layers exp net input = .ok m ∧
      dims2 m = dims2 net.outputs ∧
      out.length = output.length ∧
      ∀ o, o < nodesOf net (net.layerCount - 1) →
        ∃ (t : translation) (i : Nat) (hi : i < t.entries.length),
          net.translations[o]? = some t ∧
          (i : Int) = ⌊(t.count : α) * at2 m (net.layerCount - 1) o⌋ ∧
          out[o]? = some t.entries[i] := by
  obtain ⟨m, out, hrun, hlay, hdims, hvals, hlen, hdec⟩ :=
    runForward_ok exp hexp net hs ht hlayers input output hin hout
  refine ⟨m, out, hrun, hlay, hdims, hlen, ?_⟩
  intro o ho
  obtain ⟨t, ht1, ht2⟩ := hdec o ho
  have hmem : t ∈ net.translations := mem_of_getElem?_eq _ _ _ ht1
  obtain ⟨hcount, hpos⟩ := ht.counts t hmem
  have hrange := sigmoid_mem exp hexp (weightedSum net m input (net.layerCount - 1) o)
  rw [← hvals _ o (by omega) ho] at hrange
  obtain ⟨i, hi, hd, hidx⟩ := decode_of_unit t hcount hpos _ (le_of_lt hrange.1) hrange.2
  rw [hd] at ht2
  exact ⟨t, i, hi, ht1, hidx, rd_eq_ok _ _ ht2.symm⟩

/-- The output vector where the exponential is positive everywhere, so that no activation
reaches 1: on a network with the shape invariant, whose translators have `count ≥ 1`
entries, `runForward` fills exactly the `nodeCounts[layerCount-1]` positions of the
output buffer; position `o` holds `entries_o[floor(count_o * a_o)]`, with `a_o` the
activation of node `o` of the last layer, that index lies in `[0, count_o - 1]`, and so
every output character is one of the entries of its translator. -/
theorem runForward_output_positive (exp : α → α) (hexp : ∀ x, 0 < exp x) (net : network α)
    (hs : ShapeInv net) (ht : TranslatorsInv net) (hlayers : 1 ≤ net.layerCount)
    (input output : List Symbol) (hin : net.inputLen ≤ input.length)
    (hout : output.length = nodesOf net (net.layerCount - 1)) :
    ∃ net' out, runForward exp net input output = .ok (net', out) ∧
      out.length = nodesOf net (net.layerCount - 1) ∧
      ∀ o, o < nodesOf net (net.layerCount - 1) →
        ∃ (t : translation) (i : Nat) (s : Symbol),
          net.translations[o]? = some t ∧
          (i : Int) = ⌊(t.count : α) * at2 net'.outputs (net.layerCount - 1) o⌋ ∧
          i < t.count ∧ t.entries[i]? = some s ∧ out[o]? = some s ∧ s ∈ t.entries := by
  obtain ⟨m, out, hrun, -, -, hlen, hdec⟩ :=
    runForward_decoded exp hexp net hs ht hlayers input output hin (le_of_eq hout.symm)
  refine ⟨_, out, hrun, hlen.trans hout, ?_⟩
  intro o ho
  obtain ⟨t, i, hi, ht1, hidx, hval⟩ := hdec o ho
  have hcount := (ht.counts t (mem_of_getElem?_eq _ _ _ ht1)).1
  exact ⟨t, i, t.entries[i], ht1, hidx, by omega, List.getElem?_eq_getElem hi, hval,
    List.getElem_mem hi⟩

/-- The output vector of the sample network on the input `"01"`. -/
theorem runForward_output_positive_example :
    ∃ net' out, runForward sampleExp sampleNet [48, 49] [0] = .ok (net', out) ∧
      out.length = nodesOf sampleNet (sampleNet.layerCount - 1) ∧
      ∀ o, o < nodesOf sampleNet (sampleNet.layerCount - 1) →
        ∃ (t : translation) (i : Nat) (s : Symbol),
          sampleNet.translations[o]? = some t ∧
          (i : Int) = ⌊(t.count : ℚ) * at2 net'.outputs (sampleNet.layerCount - 1) o⌋ ∧
          i < t.count ∧ t.entries[i]? = some s ∧ out[o]? = some s ∧ s ∈ t.entries :=
  runForward_output_positive sampleExp sampleExp_pos sampleNet sampleNet_shape sampleNet_translators
    (by decide) [48, 49] [0] (by decide) rfl

/-! ## Networks of the same topology -/

theorem SameTopology.refl (net : network α) : SameTopology net net := ⟨rfl, rfl, rfl, rfl⟩

theorem SameTopology.trans {net net' net'' : network α} (h : SameTopology net net')
    (h' : SameTopology net' net'') : SameTopology net net'' :=
  ⟨h'.1.trans h.1, h'.2.trans h.2, h'.3.trans h.3, h'.4.trans h.4⟩

theorem nodesOf_same (net net' : network α) (h : SameTopology net net') (l : Nat) :
    nodesOf net' l = nodesOf net l := by
  rw [nodesOf, nodesOf, h.nodeCounts_eq]

theorem outputNodes_same (net net' : network α) (h : SameTopology net net') :
    nodesOf net' (net'.layerCount - 1) = nodesOf net (net.layerCount - 1) := by
  rw [nodesOf_same net net' h, h.layerCount_eq]

/-- The shape and translator invariants pass to a network of the same topology whose
buffer and weight tensor have the same shape. -/
theorem invariants_transfer (net net' : network α) (hs : ShapeInv net) (ht : TranslatorsInv net)
    (h : SameTopology net net') (ho : dims2 net'.outputs = dims2 net.outputs)
    (hw : dims3 net'.weights = dims3 net.weights) : ShapeInv net' ∧ TranslatorsInv net' := by
  refine ⟨ShapeInv_of_dims net net' hs h.1 h.2 h.3 ho hw, ?_, ?_⟩
  · rw [h.translations_eq, outputNodes_same net net' h]
    exact ht.translations_len
  · rw [h.translations_eq]
    exact ht.counts

theorem outputCount_eq (net : network α) (hs : ShapeInv net) (hlayers : 1 ≤ net.layerCount) :
    outputCount net = .ok (nodesOf net (net.layerCount - 1)) := by
  rw [outputCount, if_neg (by omega)]
  exact rd_nodeCounts net hs _ (by omega)

/-! ## The loop "evaluate result" -/

theorem take_succ_getElem {β : Type} (xs : List β) (k : Nat) (h : k < xs.length) :
    xs.take (k + 1) = xs.take k ++ [xs[k]] := by
  rw [List.take_succ, List.getElem?_eq_getElem h]
  rfl

/-- The loop "evaluate result" gives 1 when the first `count` characters of the desired
output and of the output of the network are the same, and 0 otherwise. -/
theorem evaluateResult_eq (count : Nat) (desired output : List Symbol)
    (hd : count ≤ desired.length) (ho : count ≤ output.length) :
    evaluateResult count desired output
      = .ok (if desired.take count = output.take count then 1 else 0) := by
  obtain ⟨c, hc, hP⟩ := forLoop_inv
    (fun k (correct : Int) => correct = if desired.take k = output.take k then 1 else 0)
    (fun r_i (correct : Int) => do
      let d ← rd desired[r_i]?
      let o ← rd output[r_i]?
      if d ≠ o then .ok 0 else .ok correct) count 1 (by simp)
    (by
      intro k c hk hP
      have hkd : k < desired.length := by omega
      have hko : k < output.length := by omega
      have hiff : desired.take (k + 1) = output.take (k + 1) ↔
          desired.take k = output.take k ∧ desired[k] = output[k] := by
        rw [take_succ_getElem _ _ hkd, take_succ_getElem _ _ hko]
        constructor
        · intro h
          have := List.append_inj h (by simp [List.length_take]; omega)
          exact ⟨this.1, by simpa using this.2⟩
        · rintro ⟨h1, h2⟩
          rw [h1, h2]
      simp only [rd_getElem _ _ hkd, rd_getElem _ _ hko, ok_bind]
      by_cases hne : desired[k] = output[k]
      · refine ⟨c, by simp [hne], ?_⟩
        rw [hP]
        by_cases h1 : desired.take k = output.take k
        · rw [if_pos h1, if_pos (hiff.2 ⟨h1, hne⟩)]
        · rw [if_neg h1, if_neg (fun h => h1 (hiff.1 h).1)]
      · refine ⟨0, by simp [hne], ?_⟩
        rw [if_neg (fun h => hne (hiff.1 h).2)])
  rw [evaluateResult, hc, hP]

/-! ## The activations depend on the weights and the input only -/

theorem at2_eq_getD (m : List (List α)) (l n : Nat) : at2 m l n = (m.getD l []).getD n 0 := rfl

/-- Two buffers of the shape of the network that both satisfy the equations of the
forward pass are the same buffer. -/
theorem activations_unique (exp : α → α) (net : network α) (input : List Symbol)
    (m m' : List (List α)) (hd : dims2 m = dims2 net.outputs) (hd' : dims2 m' = dims2 net.outputs)
    (hlen : net.outputs.length = net.layerCount)
    (hrow : ∀ l, l < net.layerCount → (net.outputs.getD l []).length = nodesOf net l)
    (hm : ∀ l n, l < net.layerCount → n < nodesOf net l →
      at2 m l n = sigmoid exp (weightedSum net m input l n))
    (hm' : ∀ l n, l < net.layerCount → n < nodesOf net l →
      at2 m' l n = sigmoid exp (weightedSum net m' input l n)) : m = m' := by
  have hrows : ∀ l, m.getD l [] = m'.getD l [] := by
    intro l
    induction l using Nat.strong_induction_on with
    | _ l ih =>
      have hl1 := length_getD_of_dims2 m net.outputs hd l
      have hl2 := length_getD_of_dims2 m' net.outputs hd' l
      apply List.ext_getElem (hl1.trans hl2.symm)
      intro n h1 h2
      by_cases hl : l < net.layerCount
      · have hn : n < nodesOf net l := by rw [← hrow l hl, ← hl1]; exact h1
        have e1 := hm l n hl hn
        have e2 := hm' l n hl hn
        rw [weightedSum_congr net m m' input l n (fun l' hl' => ih l' (by omega))] at e1
        rw [at2_eq_getD, getD_eq_getElem _ _ _ h1] at e1
        rw [at2_eq_getD, getD_eq_getElem _ _ _ h2] at e2
        rw [e1, e2]
      · have hz : (m.getD l []).length = 0 := by
          rw [hl1, getD_of_ge _ _ _ (by rw [hlen]; omega)]
          rfl
        omega
  apply List.ext_getElem (by rw [length_of_dims2 m _ hd, length_of_dims2 m' _ hd'])
  intro l h1 h2
  have := hrows l
  rw [getD_eq_getElem _ _ _ h1, getD_eq_getElem _ _ _ h2] at this
  exact this

/-- The activation buffer after `runForward` does not depend on the buffer before: two
well-shaped networks with the same topology and weights get the same activations. -/
theorem layers_independent (exp : α → α) (net net' : network α) (hs : ShapeInv net)
    (hs' : ShapeInv net') (h : SameTopology net net') (hw : net'.weights = net.weights)
    (input : List Symbol) (hin : net.inputLen ≤ input.length) :
    runForward.layers exp net' input = runForward.layers exp net input := by
  obtain ⟨m, hm, hd, hv⟩ := runForward_layers_spec exp net hs input hin
  obtain ⟨m', hm', hd', hv'⟩ := runForward_layers_spec exp net' hs' input
    (by rw [h.inputLen_eq]; exact hin)
  have hdo : dims2 net'.outputs = dims2 net.outputs := by
    apply dims2_eq_of
    · rw [hs'.outputs_len, hs.outputs_len, h.layerCount_eq]
    · intro l hl
      rw [hs'.outputs_len] at hl
      rw [hs'.outputs_row l hl, hs.outputs_row l (h.layerCount_eq ▸ hl), nodesOf_same net net' h]
  have hsum : ∀ (x : List (List α)) l n, weightedSum net' x input l n = weightedSum net x input l n := by
    intro x l n
    simp only [weightedSum, hw, fanInOf, h.inputLen_eq, h.nodeCounts_eq]
  have : m' = m := by
    apply activations_unique exp net input m' m (hd'.trans hdo) hd hs.outputs_len hs.outputs_row
    · intro l n hl hn
      rw [hv' l n (by rw [h.layerCount_eq]; exact hl) (by rw [nodesOf_same net net' h]; exact hn),
        hsum]
    · exact hv
  rw [hm, hm', this]

/-- The result of `runForward` depends on the topology, the weights and the input only:
two well-shaped networks with the same topology and weights, run on the same input with
buffers of the length of the last layer, get the same activations and output. -/
theorem runForward_independent (exp : α → α) (hexp : ∀ x, 0 < exp x) (net net' : network α)
    (hs : ShapeInv net) (ht : TranslatorsInv net) (hlayers : 1 ≤ net.layerCount)
    (hs' : ShapeInv net') (h : SameTopology net net') (hw : net'.weights = net.weights)
    (input output output' : List Symbol) (hin : net.inputLen ≤ input.length)
    (hout : output.length = nodesOf net (net.layerCount - 1))
    (hout' : output'.length = nodesOf net (net.layerCount - 1)) :
    ∃ m out, runForward exp net input output = .ok ({ net with outputs := m }, out) ∧
      runForward exp net' input output' = .ok ({ net' with outputs := m }, out) ∧
      dims2 m = dims2 net.outputs ∧ out.length = nodesOf net (net.layerCount - 1) := by
  have ht' : TranslatorsInv net' := by
    refine ⟨?_, ?_⟩
    · rw [h.translations_eq, outputNodes_same net net' h]; exact ht.translations_len
    · rw [h.translations_eq]; exact ht.counts
  have hcnt := outputNodes_same net net' h
  obtain ⟨m, out, hrun, hlay, hdims, hlen, hdec⟩ :=
    runForward_decoded exp hexp net hs ht hlayers input output hin (le_of_eq hout.symm)
  obtain ⟨m', out', hrun', hlay', hdims', hlen', hdec'⟩ :=
    runForward_decoded exp hexp net' hs' ht' (by rw [h.layerCount_eq]; exact hlayers) input
      output' (by rw [h.inputLen_eq]; exact hin) (by rw [hcnt]; exact le_of_eq hout'.symm)
  have hm : m' = m := by
    have := layers_independent exp net net' hs hs' h hw input hin
    rw [hlay, hlay'] at this
    injection this
  subst hm
  have hout_eq : out' = out := by
    apply List.ext_getElem?
    intro o
    by_cases ho : o < nodesOf net (net.layerCount - 1)
    · obtain ⟨t, i, hi, ht1, hidx, hval⟩ := hdec o ho
      obtain ⟨t', i', hi', ht1', hidx', hval'⟩ := hdec' o (by rw [hcnt]; exact ho)
      rw [h.translations_eq, ht1] at ht1'
      injection ht1' with ht1'
      subst ht1'
      rw [h.layerCount_eq, ← hidx] at hidx'
      have hii : i' = i := by exact_mod_cast hidx'
      subst hii
      rw [hval, hval']
    · rw [List.getElem?_eq_none (by omega), List.getElem?_eq_none (by omega)]
  subst hout_eq
  exact ⟨m', out', hrun, hrun', hdims, by omega⟩

/-! ## `trial` -/

/-- One round of the loop of `trial` on a well-shaped network: it ends normally, changes
nothing but the activation buffer and the output buffer, and adds 1 to the accuracy
exactly when the output of the network is the desired output. -/
theorem trial_example_ok (exp : α → α) (hexp : ∀ x, 0 < exp x) (net : network α)
    (hs : ShapeInv net) (ht : TranslatorsInv net) (hlayers : 1 ≤ net.layerCount)
    (ios : List IOData) (hwf : WellFormedExamples net ios) (i : Nat) (hi : i < ios.length)
    (st : network α × List Symbol × Int)
    (hnet : st.1 = { net with outputs := st.1.outputs })
    (hdims : dims2 st.1.outputs = dims2 net.outputs)
    (hbuf : st.2.1.length = nodesOf net (net.layerCount - 1)) :
    ∃ m out, runForward exp net (ios[i]).input (List.replicate (nodesOf net (net.layerCount - 1)) 0)
        = .ok ({ net with outputs := m }, out) ∧
      dims2 m = dims2 net.outputs ∧ out.length = nodesOf net (net.layerCount - 1) ∧
      trial.example exp ios i st = .ok ({ net with outputs := m }, out,
        st.2.2 + (if (ios[i]).output.take (nodesOf net (net.layerCount - 1)) = out
          then 1 else 0)) := by
  obtain ⟨hin, hdes⟩ := hwf _ (List.getElem_mem hi)
  have htop : SameTopology net st.1 := by
    rw [hnet]; exact ⟨rfl, rfl, rfl, rfl⟩
  have hw : st.1.weights = net.weights := by rw [hnet]
  have hs' : ShapeInv st.1 := ShapeInv_of_dims net st.1 hs htop.1 htop.2 htop.3 hdims (by rw [hw])
  obtain ⟨m, out, hrun, hrun', hd, hlen⟩ := runForward_independent exp hexp net st.1 hs ht
    hlayers hs' htop hw (ios[i]).input (List.replicate (nodesOf net (net.layerCount - 1)) 0)
    st.2.1 hin (List.length_replicate _ _) hbuf
  refine ⟨m, out, hrun, hd, hlen, ?_⟩
  have hnet' : ({ st.1 with outputs := m } : network α) = { net with outputs := m } := by
    rw [hnet]
  have hs'' : ShapeInv ({ net with outputs := m } : network α) :=
    ShapeInv_of_dims net _ hs rfl rfl rfl hd rfl
  have hcount : outputCount ({ net with outputs := m } : network α)
      = .ok (nodesOf net (net.layerCount - 1)) := outputCount_eq _ hs'' hlayers
  have heval := evaluateResult_eq (nodesOf net (net.layerCount - 1)) (ios[i]).output out hdes
    (le_of_eq hlen.symm)
  rw [List.take_of_length_le (le_of_eq hlen)] at heval
  simp only [trial.example, rd_getElem _ _ hi, ok_bind, hrun', hnet', hcount, heval]
  by_cases hmatch : (ios[i]).output.take (nodesOf net (net.layerCount - 1)) = out
  · simp [hmatch]
  · simp [hmatch]

theorem outputOf_eq (exp : α → α) (net : network α) (input : List Symbol)
    (fwd : network α × List Symbol)
    (h : runForward exp net input (List.replicate (nodesOf net (net.layerCount - 1)) 0) = .ok fwd) :
    outputOf exp net input = fwd.2 := by
  rw [outputOf, h]

/-- Function `trial` on a well-shaped network: it returns 0, leaves everything but the
activation buffer as it was, and the accuracy it prints is the number of records that
the network classifies correctly. -/
theorem trial_spec (exp : α → α) (hexp : ∀ x, 0 < exp x) (net : network α)
    (hs : ShapeInv net) (ht : TranslatorsInv net) (hlayers : 1 ≤ net.layerCount)
    (ios : List IOData) (hwf : WellFormedExamples net ios) (trialIOCount : Nat)
    (hio : trialIOCount ≤ ios.length) :
    ∃ m, trial exp net ios trialIOCount
        = .ok (0, { net with outputs := m }, (correctCount exp net (ios.take trialIOCount) : Int)) ∧
      dims2 m = dims2 net.outputs := by
  obtain ⟨st, hst, hnet, hdims, hbuf, hacc⟩ := forLoop_inv
    (fun k (st : network α × List Symbol × Int) =>
      st.1 = { net with outputs := st.1.outputs } ∧ dims2 st.1.outputs = dims2 net.outputs ∧
      st.2.1.length = nodesOf net (net.layerCount - 1) ∧
      st.2.2 = (correctCount exp net (ios.take k) : Int))
    (trial.example exp ios) trialIOCount
    (net, List.replicate (nodesOf net (net.layerCount - 1)) 0, 0)
    ⟨rfl, rfl, List.length_replicate _ _, by simp [correctCount]⟩
    (by
      rintro k st hk ⟨hnet, hdims, hbuf, hacc⟩
      have hki : k < ios.length := by omega
      obtain ⟨m, out, hrun, hd, hlen, hstep⟩ :=
        trial_example_ok exp hexp net hs ht hlayers ios hwf k hki st hnet hdims hbuf
      refine ⟨_, hstep, rfl, hd, hlen, ?_⟩
      have hout := outputOf_eq exp net _ _ hrun
      simp only [] at hout
      show st.2.2 + _ = _
      rw [take_succ_getElem _ _ hki, correctCount, List.countP_append, hacc, ← hout]
      simp only [List.countP_cons, List.countP_nil, classifies, correctCount]
      by_cases hm : (ios[k]).output.take (nodesOf net (net.layerCount - 1))
          = outputOf exp net (ios[k]).input
      · simp [hm]
      · simp [hm])
  refine ⟨st.1.outputs, ?_, hdims⟩
  rw [trial, outputCount_eq net hs hlayers]
  simp only [ok_bind, hst]
  rw [← hnet, hacc]

/-- A call of `runForward` that ends normally returns the network it was given with a new
activation buffer: weights, topology and translators are untouched. -/
theorem runForward_frame (exp : α → α) (net : network α) (input output : List Symbol)
    (net' : network α) (out : List Symbol)
    (h : runForward exp net input output = .ok (net', out)) :
    net' = { net with outputs := net'.outputs } := by
  unfold runForward at h
  cases hl : runForward.layers exp net input with
  | error e => simp [hl] at h
  | ok m =>
    simp only [hl, ok_bind] at h
    by_cases h0 : net.layerCount = 0
    · simp [h0] at h
    · simp only [if_neg h0] at h
      cases hc : rd net.nodeCounts[net.layerCount - 1]? with
      | error e => simp [hc] at h
      | ok cnt =>
        simp only [hc, ok_bind] at h
        cases hf : forLoop (fun o_i out => do
            let t ← rd net.translations[o_i]?
            let a ← rd (get2 m (net.layerCount - 1) o_i)
            let c ← runForward.decode t a
            wr out o_i c) cnt output with
        | error e => simp [hf] at h
        | ok o =>
          simp only [hf, ok_bind] at h
          injection h with h
          injection h with h1 h2
          rw [← h1]

/-- C17. Evaluation is read-only on weights: on a well-shaped network `trial` returns 0
and the network it leaves has every weight, the topology and the translators of the
network it was given, only the activation buffer (of unchanged shape) may differ; and
the same holds for every call of `runForward` that ends normally. -/
theorem trial_read_only (exp : α → α) (hexp : ∀ x, 0 < exp x) (net : network α)
    (hs : ShapeInv net) (ht : TranslatorsInv net) (hlayers : 1 ≤ net.layerCount)
    (ios : List IOData) (hwf : WellFormedExamples net ios) (trialIOCount : Nat)
    (hio : trialIOCount ≤ ios.length) :
    (∃ net' acc, trial exp net ios trialIOCount = .ok (0, net', acc) ∧
      net'.weights = net.weights ∧ net'.inputLen = net.inputLen ∧
      net'.layerCount = net.layerCount ∧ net'.nodeCounts = net.nodeCounts ∧
      net'.translations = net.translations ∧ dims2 net'.outputs = dims2 net.outputs) ∧
    (∀ (net1 net2 : network α) (input output out : List Symbol),
      runForward exp net1 input output = .ok (net2, out) →
      net2.weights = net1.weights ∧ net2.inputLen = net1.inputLen ∧
      net2.layerCount = net1.layerCount ∧ net2.nodeCounts = net1.nodeCounts ∧
      net2.translations = net1.translations) := by
  constructor
  · obtain ⟨m, hrun, hdims⟩ := trial_spec exp hexp net hs ht hlayers ios hwf trialIOCount hio
    exact ⟨_, _, hrun, rfl, rfl, rfl, rfl, rfl, hdims⟩
  · intro net1 net2 input output out hrun
    have hframe := runForward_frame exp net1 input output net2 out hrun
    rw [hframe]
    exact ⟨rfl, rfl, rfl, rfl, rfl⟩

theorem sampleNet_examples :
    WellFormedExamples sampleNet [⟨[48, 48], [48]⟩, ⟨[49, 49], [49]⟩] := by
  intro r hr
  simp only [List.mem_cons, List.mem_singleton, List.not_mem_nil, or_false] at hr
  rcases hr with rfl | rfl <;> exact ⟨by decide, by decide⟩

/-- Witness for C17: the sample network tried on two records. -/
theorem trial_read_only_witness :
    (∃ net' acc, trial sampleExp sampleNet [⟨[48, 48], [48]⟩, ⟨[49, 49], [49]⟩] 2
        = .ok (0, net', acc) ∧
      net'.weights = sampleNet.weights ∧ net'.inputLen = sampleNet.inputLen ∧
      net'.layerCount = sampleNet.layerCount ∧ net'.nodeCounts = sampleNet.nodeCounts ∧
      net'.translations = sampleNet.translations ∧
      dims2 net'.outputs = dims2 sampleNet.outputs) ∧
    (∀ (net1 net2 : network ℚ) (input output out : List Symbol),
      runForward sampleExp net1 input output = .ok (net2, out) →
      net2.weights = net1.weights ∧ net2.inputLen = net1.inputLen ∧
      net2.layerCount = net1.layerCount ∧ net2.nodeCounts = net1.nodeCounts ∧
      net2.translations = net1.translations) :=
  trial_read_only sampleExp sampleExp_pos sampleNet sampleNet_shape sampleNet_translators
    (by decide) [⟨[48, 48], [48]⟩, ⟨[49, 49], [49]⟩] sampleNet_examples 2 (by decide)

/-! ## The initial weights -/

/-- The loop "randomize weights" gives every weight of the tensor a value
`(rand() / RAND_MAX) * 2 - 1`, for one of the calls of `rand()`. -/
theorem buildNetwork_randomize_values (rand : Nat → Nat) (RAND_MAX : Nat) (net : network α)
    (hnc : net.nodeCounts.length = net.layerCount) (w : List (List (List α)))
    (hrows : ∀ l, l < net.layerCount → (w.getD l []).length = nodesOf net l)
    (hvec : ∀ l, l < net.layerCount → ∀ n, n < nodesOf net l →
      ((w.getD l []).getD n []).length = fanInOf net l + 1) :
    ∃ r, buildNetwork.randomize rand RAND_MAX net w = .ok r ∧ dims3 r.1 = dims3 w ∧
      ∀ l n i, l < net.layerCount → n < nodesOf net l → i ≤ fanInOf net l →
        ∃ k, at3 r.1 l n i = (((rand k : α) / (RAND_MAX : α)) * 2) - 1 := by
  have hcell : ∀ (st : List (List (List α))), dims3 st = dims3 w → ∀ l n i,
      l < net.layerCount → n < nodesOf net l → i ≤ fanInOf net l →
      i < ((st.getD l []).getD n []).length := by
    intro st hd l n i hl hn hi
    rw [length_getD_of_dims2 _ _ (dims2_getD_of_dims3 st w hd l) n, hvec l hl n hn]
    omega
  -- a write of a random value keeps "every cell of the region holds a random value"
  have hput : ∀ (D : Nat → Nat → Nat → Prop) (st : List (List (List α))) (l n i k : Nat),
      i < ((st.getD l []).getD n []).length →
      (∀ l' n' i', D l' n' i' → ∃ k, at3 st l' n' i' = (((rand k : α) / (RAND_MAX : α)) * 2) - 1) →
      ∀ l' n' i', (D l' n' i' ∨ (l' = l ∧ n' = n ∧ i' = i)) →
        ∃ k', at3 (put3 st l n i ((((rand k : α) / (RAND_MAX : α)) * 2) - 1)) l' n' i'
          = (((rand k' : α) / (RAND_MAX : α)) * 2) - 1 := by
    intro D st l n i k hin hD l' n' i' hcase
    by_cases hsame : l' = l ∧ n' = n ∧ i' = i
    · obtain ⟨rfl, rfl, rfl⟩ := hsame
      exact ⟨k, at3_put3_same _ _ _ _ _ hin⟩
    · have hne : l' ≠ l ∨ n' ≠ n ∨ i' ≠ i := by
        by_contra hcon
        push_neg at hcon
        exact hsame hcon
      rw [at3_put3_ne _ _ _ _ _ _ _ _ hne]
      exact hD l' n' i' (hcase.resolve_right hsame)
  obtain ⟨r, hr, hd, hval⟩ := forLoop_inv
    (fun kl (st : List (List (List α)) × Nat) => dims3 st.1 = dims3 w ∧
      ∀ l n i, (l < kl ∧ n < nodesOf net l ∧ i ≤ fanInOf net l) →
        ∃ k, at3 st.1 l n i = (((rand k : α) / (RAND_MAX : α)) * 2) - 1)
    (fun l_i st => do
      let cnt ← rd net.nodeCounts[l_i]?
      forLoop (fun n_i st => do
        let bound ← fanIn net l_i
        forLoop (fun w_i (st : List (List (List α)) × Nat) => do
          let weights ← set3 st.1 l_i n_i w_i
            ((((rand st.2 : α) / (RAND_MAX : α)) * 2) - 1)
          .ok (weights, st.2 + 1)) (bound + 1) st) cnt st) net.layerCount (w, 0)
    ⟨rfl, fun l n i h => absurd h.1 (Nat.not_lt_zero l)⟩
    (by
      rintro l st hl ⟨hd, hdone⟩
      obtain ⟨st', hrun, hd', hdone'⟩ := forLoop_inv
        (fun kn (st' : List (List (List α)) × Nat) => dims3 st'.1 = dims3 w ∧
          ∀ l' n i, ((l' < l ∧ n < nodesOf net l' ∧ i ≤ fanInOf net l') ∨
              (l' = l ∧ n < kn ∧ i ≤ fanInOf net l)) →
            ∃ k, at3 st'.1 l' n i = (((rand k : α) / (RAND_MAX : α)) * 2) - 1)
        (fun n_i st => do
          let bound ← fanIn net l
          forLoop (fun w_i (st : List (List (List α)) × Nat) => do
            let weights ← set3 st.1 l n_i w_i
              ((((rand st.2 : α) / (RAND_MAX : α)) * 2) - 1)
            .ok (weights, st.2 + 1)) (bound + 1) st) (nodesOf net l) st
        ⟨hd, fun l' n i h => h.elim (fun h1 => hdone l' n i h1)
          (fun h2 => absurd h2.2.1 (Nat.not_lt_zero n))⟩
        (by
          rintro n st1 hn ⟨hd1, hdone1⟩
          obtain ⟨st2, hrun2, hd2, hdone2⟩ := forLoop_inv
            (fun ki (st2 : List (List (List α)) × Nat) => dims3 st2.1 = dims3 w ∧
              ∀ l' n' i, (((l' < l ∧ n' < nodesOf net l' ∧ i ≤ fanInOf net l') ∨
                  (l' = l ∧ n' < n ∧ i ≤ fanInOf net l)) ∨ (l' = l ∧ n' = n ∧ i < ki)) →
                ∃ k, at3 st2.1 l' n' i = (((rand k : α) / (RAND_MAX : α)) * 2) - 1)
            (fun w_i (st : List (List (List α)) × Nat) => do
              let weights ← set3 st.1 l n w_i
                ((((rand st.2 : α) / (RAND_MAX : α)) * 2) - 1)
              .ok (weights, st.2 + 1)) (fanInOf net l + 1) st1
            ⟨hd1, fun l' n' i h => h.elim (fun h1 => hdone1 l' n' i h1)
              (fun h2 => absurd h2.2.2 (Nat.not_lt_zero i))⟩
            (by
              rintro i st3 hi ⟨hd3, hdone3⟩
              have hin := hcell st3.1 hd3 l n i hl hn (by omega)
              refine ⟨(put3 st3.1 l n i ((((rand st3.2 : α) / (RAND_MAX : α)) * 2) - 1),
                st3.2 + 1), ?_, ?_, ?_⟩
              · simp only [set3_eq _ _ _ _ _ hin, ok_bind]
              · exact (dims3_put3 _ _ _ _ _).trans hd3
              · intro l' n' i' hcase
                apply hput (fun l' n' i' => ((l' < l ∧ n' < nodesOf net l' ∧ i' ≤ fanInOf net l') ∨
                  (l' = l ∧ n' < n ∧ i' ≤ fanInOf net l)) ∨ (l' = l ∧ n' = n ∧ i' < i))
                  st3.1 l n i st3.2 hin hdone3 l' n' i'
                rcases hcase with h | ⟨h1, h2, h3⟩
                · exact Or.inl (Or.inl h)
                · rcases Nat.lt_succ_iff_lt_or_eq.1 h3 with h4 | h4
                  · exact Or.inl (Or.inr ⟨h1, h2, h4⟩)
                  · exact Or.inr ⟨h1, h2, h4⟩)
          refine ⟨st2, by simp only [fanIn_of_len net l (by omega), ok_bind, hrun2], hd2, ?_⟩
          intro l' n' i hcase
          apply hdone2 l' n' i
          rcases hcase with h | ⟨h1, h2, h3⟩
          · exact Or.inl (Or.inl h)
          · rcases Nat.lt_succ_iff_lt_or_eq.1 h2 with h4 | h4
            · exact Or.inl (Or.inr ⟨h1, h4, h3⟩)
            · exact Or.inr ⟨h1, h4, by omega⟩)
      refine ⟨st', by
        simp only [rd_nodeCounts_of_len net l (by rw [hnc]; exact hl), ok_bind, hrun], hd', ?_⟩
      rintro l' n i ⟨h1, h2, h3⟩
      apply hdone' l' n i
      rcases Nat.lt_succ_iff_lt_or_eq.1 h1 with h4 | h4
      · exact Or.inl ⟨h4, h2, h3⟩
      · subst h4
        exact Or.inr ⟨rfl, h2, h3⟩)
  exact ⟨r, hr, hd, fun l n i hl hn hi => hval l n i ⟨hl, hn, hi⟩⟩

/-- Function `buildNetwork` returns 0 and a network of the given topology in which every
weight is `(rand() / RAND_MAX) * 2 - 1` for one of the calls of `rand()`. -/
theorem buildNetwork_values (rand : Nat → Nat) (RAND_MAX : Nat) (inputLen layerCount : Nat)
    (nodeCounts : List Nat) (translations : List translation)
    (hnc : nodeCounts.length = layerCount) :
    ∃ net : network α,
      buildNetwork rand RAND_MAX inputLen layerCount nodeCounts translations = .ok (0, net) ∧
      net.inputLen = inputLen ∧ net.layerCount = layerCount ∧ net.nodeCounts = nodeCounts ∧
      net.translations = translations ∧
      ∀ l n i, l < layerCount → n < nodesOf net l → i ≤ fanInOf net l →
        ∃ k, get3 net.weights l n i = some ((((rand k : α) / (RAND_MAX : α)) * 2) - 1) := by
  obtain ⟨st, hst, ho, hw, hrows⟩ := buildNetwork_nodes
    ({ inputLen := inputLen, layerCount := layerCount, nodeCounts := nodeCounts,
       outputs := List.replicate layerCount [], weights := List.replicate layerCount [],
       translations := translations } : network α)
    hnc (List.length_replicate _ _) (List.length_replicate _ _)
  obtain ⟨w', hw', hd, hvec⟩ := buildNetwork_vectors _ hnc st.2 hw (fun l hl => (hrows l hl).2)
  have hrows' : ∀ l, l < layerCount → (w'.getD l []).length = nodesOf
      ({ inputLen := inputLen, layerCount := layerCount, nodeCounts := nodeCounts,
         outputs := List.replicate layerCount [], weights := List.replicate layerCount [],
         translations := translations } : network α) l := fun l hl => by
    rw [length_getD_of_dims2 w' st.2 hd l]; exact (hrows l hl).2
  obtain ⟨r, hr, hd3, hval⟩ := buildNetwork_randomize_values rand RAND_MAX _ hnc w' hrows' hvec
  refine ⟨{ inputLen := inputLen, layerCount := layerCount, nodeCounts := nodeCounts,
            outputs := st.1, weights := r.1, translations := translations },
    by simp only [buildNetwork, hst, hw', hr, ok_bind], rfl, rfl, rfl, rfl, ?_⟩
  intro l n i hl hn hi
  obtain ⟨k, hk⟩ := hval l n i hl hn hi
  refine ⟨k, ?_⟩
  have hcell : i < ((r.1.getD l []).getD n []).length := by
    rw [length_getD_of_dims2 _ _ (dims2_getD_of_dims3 _ _ hd3 l) n]
    rw [hvec l hl n hn]
    exact Nat.lt_succ_of_le hi
  show get3 r.1 l n i = _
  rw [get3_eq _ _ _ _ hcell, hk]

/-- C18. Initial weight range: for every topology and every sequence of values of
`rand()`, each between 0 and `RAND_MAX`, `buildNetwork` returns 0 and every weight of the
network it built lies in the closed interval `[-1, 1]`. -/
theorem buildNetwork_weight_range (rand : Nat → Nat) (RAND_MAX : Nat)
    (hmax : 0 < RAND_MAX) (hrand : ∀ k, rand k ≤ RAND_MAX) (inputLen layerCount : Nat)
    (nodeCounts : List Nat) (translations : List translation)
    (hnc : nodeCounts.length = layerCount) :
    ∃ net : network α,
      buildNetwork rand RAND_MAX inputLen layerCount nodeCounts translations = .ok (0, net) ∧
      ∀ l n i, l < layerCount → n < nodesOf net l → i ≤ fanInOf net l →
        ∃ v, get3 net.weights l n i = some v ∧ -1 ≤ v ∧ v ≤ 1 := by
  obtain ⟨net, hbuild, -, -, -, -, hval⟩ :=
    buildNetwork_values (α := α) rand RAND_MAX inputLen layerCount nodeCounts translations hnc
  refine ⟨net, hbuild, ?_⟩
  intro l n i hl hn hi
  obtain ⟨k, hk⟩ := hval l n i hl hn hi
  refine ⟨_, hk, ?_, ?_⟩
  · have h0 : (0 : α) ≤ (rand k : α) / (RAND_MAX : α) :=
      div_nonneg (Nat.cast_nonneg _) (Nat.cast_nonneg _)
    linarith
  · have hpos : (0 : α) < (RAND_MAX : α) := by exact_mod_cast hmax
    have h1 : (rand k : α) / (RAND_MAX : α) ≤ 1 := by
      rw [div_le_one hpos]
      exact_mod_cast hrand k
    linarith

/-- Witness for C18: a topology of two layers, `rand()` returning `k mod 8` at call `k`,
`RAND_MAX = 7`. -/
theorem buildNetwork_weight_range_witness :
    ∃ net : network ℚ,
      buildNetwork (fun k => k % 8) 7 2 2 [2, 1] [⟨2, [48, 49]⟩] = .ok (0, net) ∧
      ∀ l n i, l < 2 → n < nodesOf net l → i ≤ fanInOf net l →
        ∃ v, get3 net.weights l n i = some v ∧ -1 ≤ v ∧ v ≤ 1 :=
  buildNetwork_weight_range (fun k => k % 8) 7 (by decide)
    (fun k => Nat.lt_succ_iff.1 (Nat.mod_lt k (by decide))) 2 2 [2, 1] [⟨2, [48, 49]⟩] rfl

/-! ## One epoch of `train` -/

/-- The two results of `BPandWeightUpdate` on a well-shaped network: 0 with new weights
in a tensor of the same shape, or -1 with the network as it was. -/
theorem BPandWeightUpdate_cases (net : network α) (hs : ShapeInv net) (ht : TranslatorsInv net)
    (input desiredOutput : List Symbol) (learningRate : α)
    (hin : net.inputLen ≤ input.length)
    (hdes : nodesOf net (net.layerCount - 1) ≤ desiredOutput.length) :
    (∃ w', BPandWeightUpdate net input desiredOutput learningRate
        = .ok (0, { net with weights := w' }) ∧ dims3 w' = dims3 net.weights) ∨
    BPandWeightUpdate net input desiredOutput learningRate = .ok (-1, net) := by
  obtain ⟨code, net', hrun, hcode, hnet, hdims⟩ :=
    BPandWeightUpdate_shape net hs ht input desiredOutput learningRate hin hdes
  rcases hcode with h0 | h1
  · left
    refine ⟨net'.weights, ?_, hdims⟩
    rw [hrun, h0, ← hnet]
  · right
    rcases known_or_unknown net ht desiredOutput hdes with hknown | hunknown
    · obtain ⟨delta, w', -, -, -, -, hres⟩ :=
        BPandWeightUpdate_ok net hs ht input desiredOutput learningRate hin hdes hknown
      rw [hres] at hrun
      injection hrun with hrun
      injection hrun with hc _
      rw [h1] at hc
      exact absurd hc (by decide)
    · obtain ⟨n, hn, -⟩ := id hunknown
      have hfail := deltas_fail net hs ht (layers_pos_of_node net hs n hn) desiredOutput hdes
        hunknown
      simp only [BPandWeightUpdate, hfail]

theorem WellFormedExamples_same (net net' : network α) (h : SameTopology net net')
    (ios : List IOData) (hwf : WellFormedExamples net ios) : WellFormedExamples net' ios := by
  intro r hr
  rw [h.inputLen_eq, outputNodes_same net net' h]
  exact hwf r hr

/-- Whether a record is classified depends on the topology and the weights only. -/
theorem classifies_congr (exp : α → α) (hexp : ∀ x, 0 < exp x) (net net' : network α)
    (hs : ShapeInv net) (ht : TranslatorsInv net) (hlayers : 1 ≤ net.layerCount)
    (hs' : ShapeInv net') (h : SameTopology net net') (hw : net'.weights = net.weights)
    (r : IOData) (hin : net.inputLen ≤ r.input.length) (hc : classifies exp net r) :
    classifies exp net' r := by
  have hcnt := outputNodes_same net net' h
  obtain ⟨m, out, hrun, hrun', -, -⟩ := runForward_independent exp hexp net net' hs ht hlayers
    hs' h hw r.input (List.replicate (nodesOf net (net.layerCount - 1)) 0)
    (List.replicate (nodesOf net (net.layerCount - 1)) 0) hin (List.length_replicate _ _)
    (List.length_replicate _ _)
  unfold classifies at hc ⊢
  rw [outputOf_eq exp net r.input _ hrun] at hc
  rw [hcnt, outputOf_eq exp net' r.input ({ net' with outputs := m }, out)
    (by rw [hcnt]; exact hrun')]
  exact hc

/-- The reference epoch over a list followed by another list: the second part starts
from the network and count the first part has left, unless a correction failed. -/
theorem epochRef_append (exp : α → α) (learningRate : α) (xs ys : List IOData) :
    ∀ (net : network α) (c : Int),
      epochRef exp learningRate (xs ++ ys) net c =
        (epochRef exp learningRate xs net c >>= fun res =>
          if res.1 = 0 then epochRef exp learningRate ys res.2.1 res.2.2 else .ok res) := by
  induction xs with
  | nil =>
    intro net c
    simp [epochRef]
  | cons r rest ih =>
    intro net c
    simp only [List.cons_append, epochRef]
    cases hf : runForward exp net r.input
        (List.replicate (nodesOf net (net.layerCount - 1)) 0) with
    | error e => simp
    | ok fwd =>
      simp only [ok_bind]
      by_cases hm : r.output.take (nodesOf net (net.layerCount - 1)) = fwd.2
      · simp only [if_pos hm]
        exact ih fwd.1 (c + 1)
      · simp only [if_neg hm]
        cases hb : BPandWeightUpdate fwd.1 r.input r.output learningRate with
        | error e => simp
        | ok bp =>
          simp only [ok_bind]
          by_cases hneg : bp.1 < 0
          · simp only [if_pos hneg, ok_bind]
            rw [if_neg (by decide)]
          · simp only [if_neg hneg]
            exact ih bp.2 c

/-- One round of the loop over the examples in `train`, against one step of the
reference epoch: both run the network on the record under the current weights; when the
output is the desired output the count in the slot of the epoch grows by 1 and nothing
else changes, otherwise `BPandWeightUpdate` is called once on the record and its failure
ends `train` with -1. -/
theorem train_example_step (exp : α → α) (hexp : ∀ x, 0 < exp x) (net : network α)
    (hs : ShapeInv net) (ht : TranslatorsInv net) (hlayers : 1 ≤ net.layerCount)
    (ios : List IOData) (hwf : WellFormedExamples net ios) (i : Nat) (hi : i < ios.length)
    (learningRate : α) (convergenceRange epoch : Nat) (hR : 0 < convergenceRange)
    (out0 : List Symbol) (hbuf : out0.length = nodesOf net (net.layerCount - 1))
    (acc : List Int) (hslot : epoch % convergenceRange < acc.length) (c : Int) :
    ∃ (code : Int) (net' : network α) (c' : Int) (out : List Symbol),
      epochRef exp learningRate [ios[i]] net c = .ok (code, net', c') ∧
      (code = 0 ∨ code = -1) ∧ c ≤ c' ∧ c' ≤ c + 1 ∧
      ShapeInv net' ∧ TranslatorsInv net' ∧ SameTopology net net' ∧
      out.length = nodesOf net (net.layerCount - 1) ∧
      train.example exp ios learningRate convergenceRange epoch i
          { network := net, output := out0, accuracy := acc.set (epoch % convergenceRange) c }
        = .ok (if code = 0
            then .next ⟨net', out, acc.set (epoch % convergenceRange) c'⟩
            else .ret (-1) ⟨net', out, acc.set (epoch % convergenceRange) c'⟩) ∧
      (classifies exp net ios[i] → code = 0 ∧ c' = c + 1 ∧ net'.weights = net.weights) ∧
      (code = 0 → c' = c → ∃ m w', net' = { net with outputs := m, weights := w' } ∧
        BPandWeightUpdate { net with outputs := m } (ios[i]).input (ios[i]).output learningRate
          = .ok (0, net')) ∧
      (code = -1 → c' = c ∧ net'.weights = net.weights ∧
        BPandWeightUpdate net' (ios[i]).input (ios[i]).output learningRate = .ok (-1, net')) := by
  obtain ⟨hin, hdes⟩ := hwf _ (List.getElem_mem hi)
  obtain ⟨m, out, hrun, hrun', hd, hlen⟩ := runForward_independent exp hexp net net hs ht
    hlayers hs (SameTopology.refl net) rfl (ios[i]).input
    (List.replicate (nodesOf net (net.layerCount - 1)) 0) out0 hin
    (List.length_replicate _ _) hbuf
  have hs1 : ShapeInv ({ net with outputs := m } : network α) :=
    ShapeInv_of_dims net _ hs rfl rfl rfl hd rfl
  have ht1 : TranslatorsInv ({ net with outputs := m } : network α) :=
    (invariants_transfer net ({ net with outputs := m } : network α) hs ht
      ⟨rfl, rfl, rfl, rfl⟩ hd rfl).2
  have hcount : outputCount ({ net with outputs := m } : network α)
      = .ok (nodesOf net (net.layerCount - 1)) := outputCount_eq _ hs1 hlayers
  have heval := evaluateResult_eq (nodesOf net (net.layerCount - 1)) (ios[i]).output out hdes
    (le_of_eq hlen.symm)
  rw [List.take_of_length_le (le_of_eq hlen)] at heval
  have hslot' : epoch % convergenceRange < (acc.set (epoch % convergenceRange) c).length := by
    rw [List.length_set]; exact hslot
  by_cases hmatch : (ios[i]).output.take (nodesOf net (net.layerCount - 1)) = out
  · -- the output is the desired output
    refine ⟨0, { net with outputs := m }, c + 1, out, ?_, Or.inl rfl, by omega, le_refl _,
      hs1, ht1, ⟨rfl, rfl, rfl, rfl⟩, hlen, ?_, fun _ => ⟨rfl, rfl, rfl⟩, ?_,
      fun h => absurd h (by decide)⟩
    · simp only [epochRef, hrun, ok_bind, if_pos hmatch]
    · rw [if_pos rfl]
      simp only [train.example, rd_getElem _ _ hi, ok_bind, hrun', hcount, heval, if_pos hmatch,
        slotOf, if_neg (Nat.pos_iff_ne_zero.1 hR), rd_getElem _ _ hslot', wr_ok _ _ _ hslot',
        List.set_set]
      rw [if_pos (by decide)]
      simp only [ok_bind, List.getElem_set_self]
    · intro _ hcc
      omega
  · -- the output is wrong: one call of `BPandWeightUpdate`
    have hnot : ¬ classifies exp net ios[i] := by
      unfold classifies
      rw [outputOf_eq exp net _ _ hrun]
      exact hmatch
    rcases BPandWeightUpdate_cases _ hs1 ht1 (ios[i]).input (ios[i]).output learningRate hin hdes
      with ⟨w', hbp, hdims⟩ | hbp
    · refine ⟨0, { net with outputs := m, weights := w' }, c, out, ?_, Or.inl rfl, le_refl _,
        by omega, ShapeInv_of_dims net _ hs rfl rfl rfl hd hdims,
        (invariants_transfer net ({ net with outputs := m, weights := w' } : network α) hs ht
          ⟨rfl, rfl, rfl, rfl⟩ hd hdims).2,
        ⟨rfl, rfl, rfl, rfl⟩, hlen, ?_, fun h => absurd h hnot, fun _ _ => ⟨m, w', rfl, hbp⟩,
        fun h => absurd h (by decide)⟩
      · simp only [epochRef, hrun, ok_bind, if_neg hmatch, hbp]
        rw [if_neg (by decide)]
      · rw [if_pos rfl]
        simp only [train.example, rd_getElem _ _ hi, ok_bind, hrun', hcount, heval,
          if_neg hmatch, hbp]
        rw [if_neg (by decide)]
        rw [if_neg (by decide)]
    · refine ⟨-1, { net with outputs := m }, c, out, ?_, Or.inr rfl, le_refl _,
        by omega, hs1, ht1, ⟨rfl, rfl, rfl, rfl⟩, hlen, ?_, fun h => absurd h hnot,
        fun h => absurd h (by decide), fun _ => ⟨rfl, rfl, hbp⟩⟩
      · simp only [epochRef, hrun, ok_bind, if_neg hmatch, hbp]
        rw [if_pos (by decide)]
      · rw [if_neg (by decide)]
        simp only [train.example, rd_getElem _ _ hi, ok_bind, hrun', hcount, heval,
          if_neg hmatch, hbp]
        rw [if_neg (by decide)]
        rw [if_pos (by decide)]

/-- One epoch of `train` against the reference epoch. From a well-shaped network, with
the slot of the epoch inside the array `accuracy`, the loop over the first
`trainingIOCount` records ends normally; it leaves the network and the count of the
reference epoch over these records, the count in the slot of the epoch, and it goes on
to the stop test exactly when no call of `BPandWeightUpdate` has returned -1. -/
theorem train_epoch_ok (exp : α → α) (hexp : ∀ x, 0 < exp x) (net : network α)
    (hs : ShapeInv net) (ht : TranslatorsInv net) (hlayers : 1 ≤ net.layerCount)
    (ios : List IOData) (hwf : WellFormedExamples net ios) (trainingIOCount : Nat)
    (hT : trainingIOCount ≤ ios.length)
    (learningRate : α) (convergenceRange epoch : Nat) (hR : 0 < convergenceRange)
    (out0 : List Symbol) (hbuf : out0.length = nodesOf net (net.layerCount - 1))
    (acc : List Int) (hslot : epoch % convergenceRange < acc.length) :
    ∃ (code : Int) (net' : network α) (c : Int) (out : List Symbol),
      epochRef exp learningRate (ios.take trainingIOCount) net 0 = .ok (code, net', c) ∧
      (code = 0 ∨ code = -1) ∧ 0 ≤ c ∧ c ≤ trainingIOCount ∧
      ShapeInv net' ∧ TranslatorsInv net' ∧ SameTopology net net' ∧
      out.length = nodesOf net (net.layerCount - 1) ∧
      train.epoch exp ios trainingIOCount learningRate convergenceRange epoch
          { network := net, output := out0, accuracy := acc }
        = .ok (if code = 0
            then .next ⟨net', out, acc.set (epoch % convergenceRange) c⟩
            else .ret (-1) ⟨net', out, acc.set (epoch % convergenceRange) c⟩) ∧
      ((∀ r ∈ ios.take trainingIOCount, classifies exp net r) →
        code = 0 ∧ c = trainingIOCount ∧ net'.weights = net.weights) ∧
      (code = -1 → ∃ i r, i < trainingIOCount ∧ ios[i]? = some r ∧
        epochRef exp learningRate (ios.take (i + 1)) net 0 = .ok (-1, net', c) ∧
        BPandWeightUpdate net' r.input r.output learningRate = .ok (-1, net')) := by
  have hloop : ∀ k, k ≤ trainingIOCount →
      ∃ (code : Int) (net' : network α) (c : Int) (out : List Symbol),
        epochRef exp learningRate (ios.take k) net 0 = .ok (code, net', c) ∧
        (code = 0 ∨ code = -1) ∧ 0 ≤ c ∧ c ≤ k ∧
        ShapeInv net' ∧ TranslatorsInv net' ∧ SameTopology net net' ∧
        out.length = nodesOf net (net.layerCount - 1) ∧
        forFlow (train.example exp ios learningRate convergenceRange epoch) k
            { network := net, output := out0, accuracy := acc.set (epoch % convergenceRange) 0 }
          = .ok (if code = 0
              then .next ⟨net', out, acc.set (epoch % convergenceRange) c⟩
              else .ret (-1) ⟨net', out, acc.set (epoch % convergenceRange) c⟩) ∧
        ((∀ r ∈ ios.take k, classifies exp net r) →
          code = 0 ∧ c = k ∧ net'.weights = net.weights) ∧
        (code = -1 → ∃ i r, i < k ∧ ios[i]? = some r ∧
          epochRef exp learningRate (ios.take (i + 1)) net 0 = .ok (-1, net', c) ∧
          BPandWeightUpdate net' r.input r.output learningRate = .ok (-1, net')) := by
    intro k
    induction k with
    | zero =>
      intro _
      refine ⟨0, net, 0, out0, by simp [epochRef], Or.inl rfl, le_refl _, by simp, hs, ht,
        SameTopology.refl net, hbuf, by simp [forFlow], fun _ => ⟨rfl, rfl, rfl⟩,
        fun h => absurd h (by decide)⟩
    | succ k ih =>
      intro hk
      have hki : k < ios.length := by omega
      obtain ⟨code, net1, c, out, href, hcode, hc0, hck, hs1, ht1, htop, hlen, hflow, hall, hfail⟩ :=
        ih (by omega)
      rcases hcode with h0 | h1
      · -- no failure so far: the record `k` is processed
        subst h0
        have hlayers1 : 1 ≤ net1.layerCount := by rw [htop.layerCount_eq]; exact hlayers
        have hcnt := outputNodes_same net net1 htop
        obtain ⟨code', net2, c', out', href', hcode', hc1, hc2, hs2, ht2, htop', hlen', hstep,
            hall', hbp', hfail'⟩ :=
          train_example_step exp hexp net1 hs1 ht1 hlayers1 ios
            (WellFormedExamples_same net net1 htop ios hwf) k hki learningRate convergenceRange
            epoch hR out (by rw [hcnt]; exact hlen) acc hslot c
        refine ⟨code', net2, c', out', ?_, hcode', by omega, by push_cast; omega, hs2, ht2,
          SameTopology.trans htop htop', by rw [hlen', hcnt], ?_, ?_, ?_⟩
        · rw [take_succ_getElem _ _ hki, epochRef_append, href]
          simp only [ok_bind, if_true]
          exact href'
        · rw [forFlow, hflow, if_pos rfl]
          exact hstep
        · intro hcl
          have hcl' : ∀ r ∈ ios.take k, classifies exp net r := by
            intro r hr
            apply hcl
            rw [take_succ_getElem _ _ hki]
            exact List.mem_append_left _ hr
          obtain ⟨-, hck', hw1⟩ := hall hcl'
          have hclk : classifies exp net ios[k] := by
            apply hcl
            rw [take_succ_getElem _ _ hki]
            exact List.mem_append_right _ (List.mem_singleton.2 rfl)
          have hclk1 : classifies exp net1 ios[k] :=
            classifies_congr exp hexp net net1 hs ht hlayers hs1 htop hw1 _
              (hwf _ (List.getElem_mem hki)).1 hclk
          obtain ⟨e1, e2, e3⟩ := hall' hclk1
          refine ⟨e1, ?_, e3.trans hw1⟩
          rw [e2, hck']
          push_cast
          rfl
        · intro hm1
          obtain ⟨-, -, hbp⟩ := hfail' hm1
          refine ⟨k, ios[k], by omega, List.getElem?_eq_getElem hki, ?_, hbp⟩
          rw [take_succ_getElem _ _ hki, epochRef_append, href]
          simp only [ok_bind, if_true]
          rw [href', hm1]
      · -- a correction has failed: the loop has been left
        subst h1
        obtain ⟨i, r, hik, hr, hpre, hbp⟩ := hfail rfl
        refine ⟨-1, net1, c, out, ?_, Or.inr rfl, hc0, by push_cast; omega, hs1, ht1, htop, hlen,
          ?_, ?_, fun _ => ⟨i, r, by omega, hr, hpre, hbp⟩⟩
        · rw [take_succ_getElem _ _ hki, epochRef_append, href]
          simp only [ok_bind]
          rw [if_neg (by decide)]
        · rw [forFlow, hflow, if_neg (by decide)]
        · intro hcl
          have hcl' : ∀ r ∈ ios.take k, classifies exp net r := by
            intro r hr
            apply hcl
            rw [take_succ_getElem _ _ hki]
            exact List.mem_append_left _ hr
          exact absurd (hall hcl').1 (by decide)
  obtain ⟨code, net', c, out, href, hcode, hc0, hck, hs1, ht1, htop, hlen, hflow, hall, hfail⟩ :=
    hloop trainingIOCount (le_refl _)
  refine ⟨code, net', c, out, href, hcode, hc0, hck, hs1, ht1, htop, hlen, ?_, hall, hfail⟩
  simp only [train.epoch, slotOf, if_neg (Nat.pos_iff_ne_zero.1 hR), ok_bind, wr_ok _ _ _ hslot]
  exact hflow

/-! ## The stop test of `train` -/

/-- The quotient of the stop test is the `int` division, which truncates toward zero:
it is 0 exactly when the dividend is smaller in absolute value than the divisor. -/
theorem tdiv_eq_zero_iff (x : Int) (n : Nat) (hn : 0 < n) :
    x.tdiv (n : Int) = 0 ↔ x.natAbs < n := by
  rw [← Int.natAbs_eq_zero, Int.natAbs_tdiv, Int.natAbs_ofNat]
  exact Nat.div_eq_zero_iff hn

theorem stopQuotient_eq_zero_iff (precision diff : Int) (trainingIOCount : Nat)
    (hT : 0 < trainingIOCount) :
    stopQuotient precision diff trainingIOCount = 0 ↔
      (wrapInt (wrapInt (100 * precision) * diff)).natAbs < trainingIOCount :=
  tdiv_eq_zero_iff _ _ hT

theorem wrapInt_of_small (x : Int) (h1 : -(2 ^ 31) ≤ x) (h2 : x < 2 ^ 31) : wrapInt x = x := by
  unfold wrapInt
  rw [Int.emod_eq_of_lt (by omega) (by omega)]
  omega

theorem quotient_ok (precision diff : Int) (trainingIOCount : Nat) (hT : 0 < trainingIOCount) :
    train.quotient precision diff trainingIOCount
      = .ok (stopQuotient precision diff trainingIOCount) := by
  rw [train.quotient, if_neg (Nat.pos_iff_ne_zero.1 hT)]

theorem slot_before (e R : Nat) (hR : 0 < R) : (e + 1 + R - 1) % R = e % R := by
  have h : e + 1 + R - 1 = e + R := by omega
  rw [h, Nat.add_mod_right]

/-- Function `convergence` called with the number `e + 1` of complete epochs: the slot
after the slot of epoch `e`, minus the slot of epoch `e`. -/
theorem convergence_eq (acc : List Int) (R e : Nat) (hR : 0 < R) (hlen : acc.length = R) :
    convergence acc R (e + 1) = .ok (wrapInt (acc.getD ((e + 1) % R) 0 - acc.getD (e % R) 0)) := by
  have h1 : (e + 1) % R < acc.length := by rw [hlen]; exact Nat.mod_lt _ hR
  have h2 : e % R < acc.length := by rw [hlen]; exact Nat.mod_lt _ hR
  simp only [convergence, slotOf, if_neg (Nat.pos_iff_ne_zero.1 hR), ok_bind, slot_before e R hR,
    rd_getElem _ _ h1, rd_getElem _ _ h2, getD_eq_getElem _ _ _ h1, getD_eq_getElem _ _ _ h2]

/-! ## The array `accuracy` -/

theorem Recorded_init (garbage : Nat → Int) (R : Nat) :
    Recorded garbage R [] ((List.range R).map garbage) := by
  refine ⟨by simp, fun k hk => absurd hk (by simp), ?_⟩
  intro j _ hj
  simp [List.getElem?_map, List.getElem?_range hj]

/-- Writing the count of the epoch `counts.length` into its slot keeps the array
`accuracy` a record of the last `R` epochs. -/
theorem Recorded_step (garbage : Nat → Int) (R : Nat) (hR : 0 < R) (counts acc : List Int)
    (h : Recorded garbage R counts acc) (c : Int) :
    Recorded garbage R (counts ++ [c]) (acc.set (counts.length % R) c) := by
  have hslot : counts.length % R < acc.length := by rw [h.len]; exact Nat.mod_lt _ hR
  refine ⟨by rw [List.length_set]; exact h.len, ?_, ?_⟩
  · intro k hk hkR
    simp only [List.length_append, List.length_singleton] at hk hkR
    by_cases hke : k = counts.length
    · subst hke
      rw [List.getElem?_set_self hslot, List.getElem?_append_right (le_refl _)]
      simp
    · have hk' : k < counts.length := by omega
      have hne : counts.length % R ≠ k % R := by
        intro heq
        have h1 : (counts.length - k) % R = 0 :=
          Nat.sub_mod_eq_zero_of_mod_eq heq
        have h2 : counts.length - k < R := by omega
        rw [Nat.mod_eq_of_lt h2] at h1
        omega
      rw [List.getElem?_set_ne hne, h.recent k hk' (by omega), List.getElem?_append_left hk']
  · intro j hj hjR
    simp only [List.length_append, List.length_singleton] at hj
    have hne : counts.length % R ≠ j := by
      rw [Nat.mod_eq_of_lt (by omega)]
      omega
    rw [List.getElem?_set_ne hne]
    exact h.unwritten j (by omega) hjR

theorem getD_of_getElem? {β : Type} (xs : List β) (i : Nat) (d v : β) (h : xs[i]? = some v) :
    xs.getD i d = v := by
  rw [List.getD_eq_getElem?_getD, h]
  rfl

/-- The difference that `convergence` returns after epoch `e` is its reference value:
the count of the oldest of the last `R` epochs, or the unwritten slot `e + 1`, minus the
count of epoch `e`. -/
theorem Recorded_diff (garbage : Nat → Int) (R : Nat) (hR : 0 < R) (counts acc : List Int)
    (h : Recorded garbage R counts acc) (e : Nat) (he : counts.length = e + 1) :
    wrapInt (acc.getD ((e + 1) % R) 0 - acc.getD (e % R) 0) = diffRef garbage R counts e := by
  have hcur : acc.getD (e % R) 0 = counts.getD e 0 := by
    have h1 := h.recent e (by omega) (by omega)
    rw [List.getElem?_eq_getElem (l := counts) (by omega)] at h1
    rw [getD_of_getElem? _ _ _ _ h1, getD_eq_getElem counts e 0 (by omega)]
  unfold diffRef
  rw [hcur]
  by_cases hRe : R ≤ e + 1
  · rw [if_pos hRe]
    have hmod : (e + 1 - R) % R = (e + 1) % R := by
      conv_rhs => rw [show e + 1 = e + 1 - R + R by omega]
      rw [Nat.add_mod_right]
    have h1 := h.recent (e + 1 - R) (by omega) (by omega)
    rw [hmod, List.getElem?_eq_getElem (l := counts) (by omega)] at h1
    rw [getD_of_getElem? _ _ _ _ h1, getD_eq_getElem counts (e + 1 - R) 0 (by omega)]
  · rw [if_neg hRe]
    have h1 := h.unwritten (e + 1) (by omega) (by omega)
    rw [Nat.mod_eq_of_lt (by omega), getD_of_getElem? _ _ _ _ h1]

theorem diffRef_append (garbage : Nat → Int) (R : Nat) (hR : 0 < R) (counts more : List Int)
    (k : Nat) (hk : k < counts.length) :
    diffRef garbage R (counts ++ more) k = diffRef garbage R counts k := by
  unfold diffRef
  rw [List.getD_append _ _ _ _ hk]
  by_cases hRe : R ≤ k + 1
  · rw [if_pos hRe, if_pos hRe, List.getD_append _ _ _ _ (by omega)]
  · rw [if_neg hRe, if_neg hRe]

/-! ## Unfolding the loop of `train` -/

/-- An epoch that a failed correction has left ends `train` at once with its code. -/
theorem train_loop_ret (exp : α → α) (ios : List IOData) (trainingIOCount maxEpoch : Nat)
    (learningRate : α) (precision : Int) (convergenceRange epoch : Nat) (st st' : trainState α)
    (counts diffs : List Int) (code : Int)
    (h : train.epoch exp ios trainingIOCount learningRate convergenceRange epoch st
      = .ok (.ret code st')) :
    train.loop exp ios trainingIOCount maxEpoch learningRate precision convergenceRange epoch st
        counts diffs
      = .ok { code := code, epoch := epoch, state := st', counts := counts, diffs := diffs } := by
  rw [train.loop, h]

/-- A complete epoch is followed by the stop test: on the last allowed epoch `train`
returns 0 without calling `convergence`; otherwise it calls `convergence` and goes on
with the next epoch exactly when the quotient of the test is not 0. -/
theorem train_loop_next (exp : α → α) (ios : List IOData) (trainingIOCount maxEpoch : Nat)
    (learningRate : α) (precision : Int) (convergenceRange epoch : Nat) (st st' : trainState α)
    (counts diffs : List Int)
    (h : train.epoch exp ios trainingIOCount learningRate convergenceRange epoch st
      = .ok (.next st'))
    (hR : 0 < convergenceRange) (hT : 0 < trainingIOCount)
    (hlen : st'.accuracy.length = convergenceRange) :
    train.loop exp ios trainingIOCount maxEpoch learningRate precision convergenceRange epoch st
        counts diffs
      = if epoch + 1 < maxEpoch then
          (if stopQuotient precision
                (wrapInt (st'.accuracy.getD ((epoch + 1) % convergenceRange) 0
                  - st'.accuracy.getD (epoch % convergenceRange) 0)) trainingIOCount
              ≠ 0
            then train.loop exp ios trainingIOCount maxEpoch learningRate precision
              convergenceRange (epoch + 1) st'
              (counts ++ [st'.accuracy.getD (epoch % convergenceRange) 0])
              (diffs ++ [wrapInt (st'.accuracy.getD ((epoch + 1) % convergenceRange) 0
                  - st'.accuracy.getD (epoch % convergenceRange) 0)])
            else .ok { code := 0, epoch := epoch + 1, state := st',
                       counts := counts ++ [st'.accuracy.getD (epoch % convergenceRange) 0],
                       diffs := diffs ++ [wrapInt
                         (st'.accuracy.getD ((epoch + 1) % convergenceRange) 0
                           - st'.accuracy.getD (epoch % convergenceRange) 0)] })
        else .ok { code := 0, epoch := epoch + 1, state := st',
                   counts := counts ++ [st'.accuracy.getD (epoch % convergenceRange) 0],
                   diffs := diffs } := by
  have h2 : epoch % convergenceRange < st'.accuracy.length := by
    rw [hlen]; exact Nat.mod_lt _ hR
  rw [train.loop, h]
  simp only [slotOf, if_neg (Nat.pos_iff_ne_zero.1 hR), rd_getElem _ _ h2, ok_bind,
    convergence_eq _ _ _ hR hlen, quotient_ok _ _ _ hT, getD_eq_getElem _ _ _ h2]
  by_cases hmax : epoch + 1 < maxEpoch
  · simp only [dif_pos hmax, if_pos hmax]
  · simp only [dif_neg hmax, if_neg hmax]

/-! ## The whole loop of `train` -/

theorem getElem?_append_last {β : Type} (xs : List β) (x : β) :
    (xs ++ [x])[xs.length]? = some x := by
  rw [List.getElem?_append_right (le_refl _)]
  simp

/-- The loop of `train` from the head of an epoch that is allowed to run. With a
well-shaped network and well-formed records the loop ends normally with code 0 or -1;
the counts of the complete epochs and the differences of the stop tests are those of the
reference definitions; the loop stops on a test exactly when its quotient is 0; it
returns -1 only from a failed call of `BPandWeightUpdate`, on the network as it then
was; and a network that classifies every record keeps its weights. -/
theorem train_loop_spec (exp : α → α) (hexp : ∀ x, 0 < exp x) (net0 : network α)
    (hs0 : ShapeInv net0) (ht0 : TranslatorsInv net0) (hlayers : 1 ≤ net0.layerCount)
    (ios : List IOData) (hwf : WellFormedExamples net0 ios) (T : Nat) (hT0 : 0 < T)
    (hT : T ≤ ios.length) (maxEpoch : Nat) (lr : α) (precision : Int) (R : Nat) (hR : 0 < R)
    (garbage : Nat → Int) :
    ∀ (n epoch : Nat) (st : trainState α) (counts diffs : List Int),
      maxEpoch - epoch ≤ n → epoch < maxEpoch →
      ShapeInv st.network → TranslatorsInv st.network → SameTopology net0 st.network →
      st.output.length = nodesOf net0 (net0.layerCount - 1) →
      Recorded garbage R counts st.accuracy → counts.length = epoch → diffs.length = epoch →
      (∀ c ∈ counts, 0 ≤ c ∧ c ≤ (T : Int)) →
      (∀ k, k < epoch → diffs[k]? = some (diffRef garbage R counts k)) →
      (∀ k, k < epoch → stopQuotient precision (diffRef garbage R counts k) T ≠ 0) →
      ∃ res, train.loop exp ios T maxEpoch lr precision R epoch st counts diffs = .ok res ∧
        (res.code = 0 ∨ res.code = -1) ∧
        ShapeInv res.state.network ∧ TranslatorsInv res.state.network ∧
        SameTopology net0 res.state.network ∧
        res.counts.length = res.epoch ∧ epoch ≤ res.epoch ∧ res.epoch ≤ maxEpoch ∧
        (∀ c ∈ res.counts, 0 ≤ c ∧ c ≤ (T : Int)) ∧
        (∀ k, k < epoch → res.counts[k]? = counts[k]?) ∧
        (∀ k, k < res.diffs.length → res.diffs[k]? = some (diffRef garbage R res.counts k)) ∧
        (∀ k, k < res.diffs.length →
          (stopQuotient precision (diffRef garbage R res.counts k) T = 0 ↔
            res.code = 0 ∧ res.epoch = k + 1)) ∧
        (res.code = 0 → epoch + 1 ≤ res.epoch ∧
          (res.epoch < maxEpoch → res.diffs.length = res.epoch) ∧
          (res.epoch = maxEpoch → res.diffs.length + 1 = res.epoch)) ∧
        (res.code = -1 → res.diffs.length = res.epoch ∧ res.epoch < maxEpoch ∧
          ∃ i r, i < T ∧ ios[i]? = some r ∧
            BPandWeightUpdate res.state.network r.input r.output lr
              = .ok (-1, res.state.network)) ∧
        ((∀ r ∈ ios.take T, classifies exp net0 r) → st.network.weights = net0.weights →
          res.code = 0 ∧ res.state.network.weights = net0.weights ∧
          ∀ k, epoch ≤ k → k < res.epoch → res.counts[k]? = some (T : Int)) := by
  intro n
  induction n with
  | zero =>
    intro epoch st counts diffs hn hmax
    omega
  | succ n ih =>
    intro epoch st counts diffs hn hmax hs ht htop hbuf hrec hcl hdl hcb hdiff hquot
    have hfuel : maxEpoch - (epoch + 1) ≤ n := by omega
    obtain ⟨net, out0, acc⟩ := st
    simp only [] at hs ht htop hbuf hrec
    have hlayers1 : 1 ≤ net.layerCount := by rw [htop.layerCount_eq]; exact hlayers
    have hcnt := outputNodes_same net0 net htop
    have hslot : epoch % R < acc.length := by rw [hrec.len]; exact Nat.mod_lt _ hR
    obtain ⟨code, net', c, out, href, hcode, hc0, hcT, hs', ht', htop', hlen, hep, hall, hfail⟩ :=
      train_epoch_ok exp hexp net hs ht hlayers1 ios (WellFormedExamples_same net0 net htop ios hwf)
        T hT lr R epoch hR out0 (by rw [hcnt]; exact hbuf) acc hslot
    have htop0 : SameTopology net0 net' := SameTopology.trans htop htop'
    have hallc : (∀ r ∈ ios.take T, classifies exp net0 r) → net.weights = net0.weights →
        ∀ r ∈ ios.take T, classifies exp net r := by
      intro hcl0 hw r hr
      exact classifies_congr exp hexp net0 net hs0 ht0 hlayers hs htop hw r
        (hwf r (List.mem_of_mem_take hr)).1 (hcl0 r hr)
    rcases hcode with h0 | h1
    · -- the epoch is complete
      subst h0
      rw [if_pos rfl] at hep
      have hlen' : (acc.set (epoch % R) c).length = R := by rw [List.length_set]; exact hrec.len
      have hC : (acc.set (epoch % R) c).getD (epoch % R) 0 = c := getD_set_same _ _ _ _ hslot
      have hrec' : Recorded garbage R (counts ++ [c]) (acc.set (epoch % R) c) := by
        have := Recorded_step garbage R hR counts acc hrec c
        rw [hcl] at this
        exact this
      have hD : wrapInt ((acc.set (epoch % R) c).getD ((epoch + 1) % R) 0
          - (acc.set (epoch % R) c).getD (epoch % R) 0)
          = diffRef garbage R (counts ++ [c]) epoch :=
        Recorded_diff garbage R hR _ _ hrec' epoch (by simp [hcl])
      have hnext := train_loop_next exp ios T maxEpoch lr precision R epoch
        { network := net, output := out0, accuracy := acc }
        { network := net', output := out, accuracy := acc.set (epoch % R) c } counts diffs hep hR
        hT0 hlen'
      rw [hC] at hD
      simp only [hC, hD] at hnext
      have hcb' : ∀ x ∈ counts ++ [c], 0 ≤ x ∧ x ≤ (T : Int) := by
        intro x hx
        rcases List.mem_append.1 hx with hx | hx
        · exact hcb x hx
        · rw [List.mem_singleton.1 hx]; exact ⟨hc0, hcT⟩
      have hpre : ∀ k, k < epoch → (counts ++ [c])[k]? = counts[k]? := by
        intro k hk
        rw [List.getElem?_append_left (by omega)]
      have hdr : ∀ k, k < epoch →
          diffRef garbage R (counts ++ [c]) k = diffRef garbage R counts k :=
        fun k hk => diffRef_append garbage R hR counts [c] k (by omega)
      have hlast : (counts ++ [c])[epoch]? = some c := by
        rw [← hcl]; exact getElem?_append_last counts c
      by_cases hmore : epoch + 1 < maxEpoch
      · rw [if_pos hmore] at hnext
        by_cases hq : stopQuotient precision (diffRef garbage R (counts ++ [c]) epoch) T ≠ 0
        · -- the test is not 0: the next epoch
          rw [if_pos hq] at hnext
          have hdiff' : ∀ k, k < epoch + 1 → (diffs ++ [diffRef garbage R (counts ++ [c]) epoch])[k]?
              = some (diffRef garbage R (counts ++ [c]) k) := by
            intro k hk
            by_cases hke : k = epoch
            · subst hke
              rw [← hdl]; exact getElem?_append_last diffs _
            · rw [List.getElem?_append_left (by omega), hdiff k (by omega), hdr k (by omega)]
          have hquot' : ∀ k, k < epoch + 1 →
              stopQuotient precision (diffRef garbage R (counts ++ [c]) k) T ≠ 0 := by
            intro k hk
            by_cases hke : k = epoch
            · subst hke; exact hq
            · rw [hdr k (by omega)]; exact hquot k (by omega)
          have hbuf' : out.length = nodesOf net0 (net0.layerCount - 1) := by rw [hlen, hcnt]
          have hcl' : (counts ++ [c]).length = epoch + 1 := by simp [hcl]
          have hdl' : (diffs ++ [diffRef garbage R (counts ++ [c]) epoch]).length = epoch + 1 := by
            simp [hdl]
          obtain ⟨res, hres, p1, p2, p3, p4, p5, p6, p7, p8, p9, p10, p11, p12, p13, p14⟩ :=
            ih (epoch + 1) { network := net', output := out, accuracy := acc.set (epoch % R) c }
              (counts ++ [c]) (diffs ++ [diffRef garbage R (counts ++ [c]) epoch])
              hfuel hmore hs' ht' htop0 hbuf' hrec' hcl' hdl' hcb' hdiff' hquot'
          refine ⟨res, by rw [hnext]; exact hres, p1, p2, p3, p4, p5, by omega, p7, p8, ?_, p10,
            p11, ?_, p13, ?_⟩
          · intro k hk
            rw [p9 k (by omega), hpre k hk]
          · intro hc
            obtain ⟨q1, q2, q3⟩ := p12 hc
            exact ⟨by omega, q2, q3⟩
          · intro hcl0 hw
            obtain ⟨-, hcT', hw'⟩ := hall (hallc hcl0 hw)
            obtain ⟨q1, q2, q3⟩ := p14 hcl0 (hw'.trans hw)
            refine ⟨q1, q2, ?_⟩
            intro k hk1 hk2
            by_cases hke : k = epoch
            · subst hke
              rw [p9 k (by omega), hlast, hcT']
            · exact q3 k (by omega) hk2
        · -- the test is 0: converged
          rw [if_neg hq] at hnext
          have hq0 : stopQuotient precision (diffRef garbage R (counts ++ [c]) epoch) T = 0 :=
            not_not.1 hq
          refine ⟨_, hnext, Or.inl rfl, hs', ht', htop0, by simp [hcl], by simp, by
            show epoch + 1 ≤ maxEpoch
            omega, hcb', hpre, ?_, ?_, ?_, fun (h : (0 : Int) = -1) => absurd h (by decide), ?_⟩
          · intro k hk
            simp only [List.length_append, List.length_singleton] at hk
            by_cases hke : k = epoch
            · subst hke
              rw [← hdl]; exact getElem?_append_last diffs _
            · show (diffs ++ _)[k]? = _
              rw [List.getElem?_append_left (by omega), hdiff k (by omega), hdr k (by omega)]
          · intro k hk
            simp only [List.length_append, List.length_singleton] at hk
            show _ ↔ (0 : Int) = 0 ∧ epoch + 1 = k + 1
            by_cases hke : k = epoch
            · subst hke
              exact ⟨fun _ => ⟨rfl, rfl⟩, fun _ => hq0⟩
            · rw [hdr k (by omega)]
              constructor
              · intro h; exact absurd h (hquot k (by omega))
              · rintro ⟨-, h⟩; omega
          · intro _
            refine ⟨by show epoch + 1 ≤ epoch + 1; omega, fun _ => by simp [hdl], ?_⟩
            intro h
            have : epoch + 1 = maxEpoch := h
            omega
          · intro hcl0 hw
            obtain ⟨-, hcT', hw'⟩ := hall (hallc hcl0 hw)
            refine ⟨rfl, hw'.trans hw, ?_⟩
            intro k hk1 hk2
            have hke : k = epoch := by
              have : k < epoch + 1 := hk2
              omega
            subst hke
            show (counts ++ [c])[k]? = _
            rw [hlast, hcT']
      · -- the last allowed epoch
        rw [if_neg hmore] at hnext
        refine ⟨_, hnext, Or.inl rfl, hs', ht', htop0, by simp [hcl], by simp, by
          show epoch + 1 ≤ maxEpoch
          omega, hcb', hpre, ?_, ?_, ?_, fun (h : (0 : Int) = -1) => absurd h (by decide), ?_⟩
        · intro k hk
          have hk' : k < epoch := by rw [← hdl]; exact hk
          show diffs[k]? = _
          rw [hdiff k hk', hdr k hk']
        · intro k hk
          have hk' : k < epoch := by rw [← hdl]; exact hk
          show _ ↔ (0 : Int) = 0 ∧ epoch + 1 = k + 1
          rw [hdr k hk']
          constructor
          · intro h; exact absurd h (hquot k hk')
          · rintro ⟨-, h⟩; omega
        · intro _
          refine ⟨by show epoch + 1 ≤ epoch + 1; omega, ?_, fun _ => by simp [hdl]⟩
          intro h
          have : epoch + 1 < maxEpoch := h
          omega
        · intro hcl0 hw
          obtain ⟨-, hcT', hw'⟩ := hall (hallc hcl0 hw)
          refine ⟨rfl, hw'.trans hw, ?_⟩
          intro k hk1 hk2
          have hke : k = epoch := by
            have : k < epoch + 1 := hk2
            omega
          subst hke
          show (counts ++ [c])[k]? = _
          rw [hlast, hcT']
    · -- a correction has failed
      subst h1
      rw [if_neg (by decide)] at hep
      have hret := train_loop_ret exp ios T maxEpoch lr precision R epoch
        { network := net, output := out0, accuracy := acc }
        { network := net', output := out, accuracy := acc.set (epoch % R) c } counts diffs (-1) hep
      obtain ⟨i, r, hi, hr, -, hbp⟩ := hfail rfl
      refine ⟨_, hret, Or.inr rfl, hs', ht', htop0, hcl, le_refl _, le_of_lt hmax, hcb,
        fun _ _ => rfl, ?_, ?_, fun (h : (-1 : Int) = 0) => absurd h (by decide),
        fun _ => ⟨hdl, hmax, i, r, hi, hr, hbp⟩,
        ?_⟩
      · intro k hk
        exact hdiff k (by rw [← hdl]; exact hk)
      · intro k hk
        have hk' : k < epoch := by rw [← hdl]; exact hk
        show _ ↔ (-1 : Int) = 0 ∧ epoch = k + 1
        constructor
        · intro h; exact absurd h (hquot k hk')
        · rintro ⟨h, -⟩; exact absurd h (by decide)
      · intro hcl0 hw
        exact absurd (hall (hallc hcl0 hw)).1 (by decide)

/-! ## Function `train` -/

/-- Function `train` on a well-shaped network and well-formed records, with at least one
record and one epoch allowed, a convergence range that is not 0 and a dump file that is
not requested or can be opened. The call ends normally with code 0 or -1; `counts` holds
the correct-counts of the complete epochs, `diffs` the values that `convergence` has
returned, which are the reference differences of the counts; the loop stops on a test
exactly when its quotient is 0; -1 comes only from a failed call of
`BPandWeightUpdate`; and a network that classifies every record keeps its weights. -/
theorem train_spec (exp : α → α) (hexp : ∀ x, 0 < exp x) (garbage : Nat → Int)
    (fopenOk : Bool) (net : network α)
    (hs : ShapeInv net) (ht : TranslatorsInv net) (hlayers : 1 ≤ net.layerCount)
    (ios : List IOData) (hwf : WellFormedExamples net ios) (T : Nat) (hT0 : 0 < T)
    (hT : T ≤ ios.length) (maxEpoch : Nat) (hmax : 0 < maxEpoch) (lr : α)
    (dumpFileName : Option String) (hdump : dumpFileName = none ∨ fopenOk = true)
    (precision : Int) (R : Nat) (hR : 0 < R) :
    ∃ res, train exp garbage fopenOk net ios T maxEpoch lr dumpFileName precision R = .ok res ∧
      (res.code = 0 ∨ res.code = -1) ∧
      ShapeInv res.state.network ∧ TranslatorsInv res.state.network ∧
      SameTopology net res.state.network ∧
      res.counts.length = res.epoch ∧ res.epoch ≤ maxEpoch ∧
      (∀ c ∈ res.counts, 0 ≤ c ∧ c ≤ (T : Int)) ∧
      (∀ k, k < res.diffs.length → res.diffs[k]? = some (diffRef garbage R res.counts k)) ∧
      (∀ k, k < res.diffs.length →
        (stopQuotient precision (diffRef garbage R res.counts k) T = 0 ↔
          res.code = 0 ∧ res.epoch = k + 1)) ∧
      (res.code = 0 → 1 ≤ res.epoch ∧
        (res.epoch < maxEpoch → res.diffs.length = res.epoch) ∧
        (res.epoch = maxEpoch → res.diffs.length + 1 = res.epoch)) ∧
      (res.code = -1 → res.diffs.length = res.epoch ∧ res.epoch < maxEpoch ∧
        ∃ i r, i < T ∧ ios[i]? = some r ∧
          BPandWeightUpdate res.state.network r.input r.output lr
            = .ok (-1, res.state.network)) ∧
      ((∀ r ∈ ios.take T, classifies exp net r) →
        res.code = 0 ∧ res.state.network.weights = net.weights ∧
        ∀ k, k < res.epoch → res.counts[k]? = some (T : Int)) := by
  have hopen : ¬ (dumpFileName.isSome ∧ fopenOk = false) := by
    rintro ⟨h1, h2⟩
    rcases hdump with h | h
    · rw [h] at h1; exact absurd h1 (by decide)
    · rw [h] at h2; exact absurd h2 (by decide)
  obtain ⟨res, hres, p1, p2, p3, p4, p5, p6, p7, p8, p9, p10, p11, p12, p13, p14⟩ :=
    train_loop_spec exp hexp net hs ht hlayers ios hwf T hT0 hT maxEpoch lr precision R hR
      garbage maxEpoch 0
      { network := net, output := List.replicate (nodesOf net (net.layerCount - 1)) 0,
        accuracy := (List.range R).map garbage } [] []
      (by omega) hmax hs ht (SameTopology.refl net) (List.length_replicate _ _)
      (Recorded_init garbage R) rfl rfl (fun c hc => absurd hc (List.not_mem_nil c))
      (fun k hk => absurd hk (Nat.not_lt_zero k)) (fun k hk => absurd hk (Nat.not_lt_zero k))
  refine ⟨res, ?_, p1, p2, p3, p4, p5, p7, p8, p10, p11, p12, p13, ?_⟩
  · rw [train, outputCount_eq net hs hlayers]
    simp only [ok_bind, if_neg hopen]
    exact hres
  · intro hcl
    obtain ⟨q1, q2, q3⟩ := p14 hcl rfl
    exact ⟨q1, q2, fun k hk => q3 k (Nat.zero_le k) hk⟩

/-! ## Claims on one epoch and on the stop test -/

/-- C12. Epoch semantics: one epoch of `train` from a well-shaped network is the reference
epoch `epochRef` over the first `trainingIOCount` records, which takes the records in
index order, runs the network on each under the weights current at that moment, compares
the decoded output with the desired output symbol by symbol, adds 1 to the count when
they are the same and otherwise calls `BPandWeightUpdate` once on that record. The count
left in the slot of the epoch is the count of the reference epoch, and when the network
classifies every record the epoch records `trainingIOCount` and leaves every weight as it
was. -/
theorem train_epoch_semantics (exp : α → α) (hexp : ∀ x, 0 < exp x) (st : trainState α)
    (hs : ShapeInv st.network) (ht : TranslatorsInv st.network)
    (hlayers : 1 ≤ st.network.layerCount)
    (ios : List IOData) (hwf : WellFormedExamples st.network ios) (trainingIOCount : Nat)
    (hT : trainingIOCount ≤ ios.length)
    (learningRate : α) (convergenceRange epoch : Nat) (hR : 0 < convergenceRange)
    (hbuf : st.output.length = nodesOf st.network (st.network.layerCount - 1))
    (hacc : st.accuracy.length = convergenceRange) :
    ∃ (code : Int) (net' : network α) (c : Int) (out : List Symbol),
      epochRef exp learningRate (ios.take trainingIOCount) st.network 0 = .ok (code, net', c) ∧
      train.epoch exp ios trainingIOCount learningRate convergenceRange epoch st
        = .ok (if code = 0
            then .next ⟨net', out, st.accuracy.set (epoch % convergenceRange) c⟩
            else .ret (-1) ⟨net', out, st.accuracy.set (epoch % convergenceRange) c⟩) ∧
      (st.accuracy.set (epoch % convergenceRange) c)[epoch % convergenceRange]? = some c ∧
      0 ≤ c ∧ c ≤ trainingIOCount ∧
      ((∀ r ∈ ios.take trainingIOCount, classifies exp st.network r) →
        code = 0 ∧ c = trainingIOCount ∧ net'.weights = st.network.weights) := by
  have hslot : epoch % convergenceRange < st.accuracy.length := by
    rw [hacc]; exact Nat.mod_lt _ hR
  obtain ⟨code, net', c, out, href, -, hc0, hcT, -, -, -, -, hep, hall, -⟩ :=
    train_epoch_ok exp hexp st.network hs ht hlayers ios hwf trainingIOCount hT learningRate
      convergenceRange epoch hR st.output hbuf st.accuracy hslot
  refine ⟨code, net', c, out, href, hep, ?_, hc0, hcT, hall⟩
  exact List.getElem?_set_self hslot

/-- Witness for C12: one epoch of the sample network over two records. -/
theorem train_epoch_semantics_witness :
    ∃ (code : Int) (net' : network ℚ) (c : Int) (out : List Symbol),
      epochRef sampleExp (1 / 2) ([⟨[48, 48], [48]⟩, ⟨[49, 49], [49]⟩].take 2) sampleNet 0
        = .ok (code, net', c) ∧
      train.epoch sampleExp [⟨[48, 48], [48]⟩, ⟨[49, 49], [49]⟩] 2 (1 / 2) 2 0
          ⟨sampleNet, [0], [0, 0]⟩
        = .ok (if code = 0
            then .next ⟨net', out, ([0, 0] : List Int).set (0 % 2) c⟩
            else .ret (-1) ⟨net', out, ([0, 0] : List Int).set (0 % 2) c⟩) ∧
      (([0, 0] : List Int).set (0 % 2) c)[0 % 2]? = some c ∧
      0 ≤ c ∧ c ≤ (2 : Nat) ∧
      ((∀ r ∈ ([⟨[48, 48], [48]⟩, ⟨[49, 49], [49]⟩] : List IOData).take 2,
          classifies sampleExp sampleNet r) →
        code = 0 ∧ c = (2 : Nat) ∧ net'.weights = sampleNet.weights) :=
  train_epoch_semantics sampleExp sampleExp_pos ⟨sampleNet, [0], [0, 0]⟩ sampleNet_shape
    sampleNet_translators (by decide) [⟨[48, 48], [48]⟩, ⟨[49, 49], [49]⟩] sampleNet_examples 2
    (by decide) (1 / 2) 2 0 (by decide) rfl rfl

theorem diffs_le_counts (α : Type) (res : trainResult α) (maxEpoch : Nat)
    (hcode : res.code = 0 ∨ res.code = -1) (hlen : res.counts.length = res.epoch)
    (hle : res.epoch ≤ maxEpoch)
    (h0 : res.code = 0 → 1 ≤ res.epoch ∧
      (res.epoch < maxEpoch → res.diffs.length = res.epoch) ∧
      (res.epoch = maxEpoch → res.diffs.length + 1 = res.epoch))
    (h1 : res.code = -1 → res.diffs.length = res.epoch) :
    res.diffs.length ≤ res.counts.length := by
  rcases hcode with h | h
  · obtain ⟨-, ha, hb⟩ := h0 h
    rcases Nat.lt_or_ge res.epoch maxEpoch with hlt | hge
    · rw [ha hlt, hlen]
    · have := hb (le_antisymm hle hge)
      omega
  · rw [h1 h, hlen]

/-- C13 (amended). Convergence comparison window: in every run of `train` and for every
complete epoch `k` (0-based) with `k + 1 ≥ R` after which the stop test is evaluated,
the difference that `convergence` returns is the correct-count of epoch `k + 1 - R`, the
oldest of the last `R` epochs, whose slot the next epoch will overwrite, minus the
correct-count of epoch `k`. -/
theorem convergence_window (exp : α → α) (hexp : ∀ x, 0 < exp x) (garbage : Nat → Int)
    (fopenOk : Bool) (net : network α)
    (hs : ShapeInv net) (ht : TranslatorsInv net) (hlayers : 1 ≤ net.layerCount)
    (ios : List IOData) (hwf : WellFormedExamples net ios) (T : Nat) (hT0 : 0 < T)
    (hT : T ≤ ios.length) (hT31 : T < 2 ^ 31) (maxEpoch : Nat) (hmax : 0 < maxEpoch) (lr : α)
    (dumpFileName : Option String) (hdump : dumpFileName = none ∨ fopenOk = true)
    (precision : Int) (R : Nat) (hR : 0 < R) :
    ∃ res, train exp garbage fopenOk net ios T maxEpoch lr dumpFileName precision R = .ok res ∧
      ∀ k, k < res.diffs.length → R ≤ k + 1 →
        ∃ a b, res.counts[k + 1 - R]? = some a ∧ res.counts[k]? = some b ∧
          res.diffs[k]? = some (a - b) := by
  obtain ⟨res, hres, hcode, -, -, -, hlen, hle, hcb, hdiff, -, h0, h1, -⟩ :=
    train_spec exp hexp garbage fopenOk net hs ht hlayers ios hwf T hT0 hT maxEpoch hmax lr
      dumpFileName hdump precision R hR
  refine ⟨res, hres, ?_⟩
  intro k hk hkR
  have hkc : k < res.counts.length :=
    lt_of_lt_of_le hk (diffs_le_counts α res maxEpoch hcode hlen hle h0 (fun h => (h1 h).1))
  have hkc' : k + 1 - R < res.counts.length := by omega
  have ha := hcb _ (List.getElem_mem hkc')
  have hb := hcb _ (List.getElem_mem hkc)
  refine ⟨res.counts[k + 1 - R], res.counts[k], List.getElem?_eq_getElem hkc',
    List.getElem?_eq_getElem hkc, ?_⟩
  rw [hdiff k hk, diffRef, if_pos hkR, getD_eq_getElem _ _ _ hkc', getD_eq_getElem _ _ _ hkc]
  have hT' : (T : Int) < 2 ^ 31 := by exact_mod_cast hT31
  rw [wrapInt_of_small _ (by omega) (by omega)]

/-- Witness for C13 (amended): the sample network trained on two records. -/
theorem convergence_window_witness :
    ∃ res, train sampleExp (fun _ => 0) true sampleNet [⟨[48, 48], [48]⟩, ⟨[49, 49], [49]⟩] 2
        10 (1 / 2) none 100 2 = .ok res ∧
      ∀ k, k < res.diffs.length → 2 ≤ k + 1 →
        ∃ a b, res.counts[k + 1 - 2]? = some a ∧ res.counts[k]? = some b ∧
          res.diffs[k]? = some (a - b) :=
  convergence_window sampleExp sampleExp_pos (fun _ => 0) true sampleNet sampleNet_shape
    sampleNet_translators (by decide) [⟨[48, 48], [48]⟩, ⟨[49, 49], [49]⟩] sampleNet_examples 2
    (by decide) (by decide) (by decide) 10 (by decide) (1 / 2) none (Or.inl rfl) 100 2
    (by decide)

/-- The floor of a quotient of a dividend that is not negative by a positive divisor is
0 exactly when the dividend is smaller than the divisor. -/
theorem floor_div_eq_zero_iff (x : Int) (n : Nat) (hn : 0 < n) (hx : 0 ≤ x) :
    ⌊(x : ℚ) / (n : ℚ)⌋ = 0 ↔ x.natAbs < n := by
  have hn' : (0 : ℚ) < (n : ℚ) := by exact_mod_cast hn
  rw [Int.floor_eq_iff]
  constructor
  · rintro ⟨-, h2⟩
    have h3 : (x : ℚ) < (n : ℚ) := by
      rw [div_lt_iff₀ hn'] at h2
      simpa using h2
    have h4 : x < (n : Int) := by exact_mod_cast h3
    omega
  · intro h
    have h4 : x < (n : Int) := by omega
    have h3 : (x : ℚ) < (n : ℚ) := by exact_mod_cast h4
    refine ⟨?_, ?_⟩
    · simp only [Int.cast_zero]
      exact div_nonneg (by exact_mod_cast hx) (le_of_lt hn')
    · rw [div_lt_iff₀ hn']
      simpa using h3

/-- C14 (amended). Stop condition: after every complete epoch `k` that is followed by the
stop test, `train` stops as converged exactly when the quotient
`100*precision*diff/trainingIOCount` of the `int` division of C, which truncates toward
zero, is 0. When the products do not leave the range of `int` this is the case exactly
when `|100*precision*diff| < trainingIOCount`, and for a product that is not negative
exactly when the floor of the exact quotient is 0. -/
theorem stop_condition (exp : α → α) (hexp : ∀ x, 0 < exp x) (garbage : Nat → Int)
    (fopenOk : Bool) (net : network α)
    (hs : ShapeInv net) (ht : TranslatorsInv net) (hlayers : 1 ≤ net.layerCount)
    (ios : List IOData) (hwf : WellFormedExamples net ios) (T : Nat) (hT0 : 0 < T)
    (hT : T ≤ ios.length) (maxEpoch : Nat) (hmax : 0 < maxEpoch) (lr : α)
    (dumpFileName : Option String) (hdump : dumpFileName = none ∨ fopenOk = true)
    (precision : Int) (R : Nat) (hR : 0 < R) :
    ∃ res, train exp garbage fopenOk net ios T maxEpoch lr dumpFileName precision R = .ok res ∧
      ∀ k, k < res.diffs.length → ∃ d, res.diffs[k]? = some d ∧
        ((res.code = 0 ∧ res.epoch = k + 1) ↔ stopQuotient precision d T = 0) ∧
        (-(2 ^ 31) ≤ 100 * precision → 100 * precision < 2 ^ 31 →
          -(2 ^ 31) ≤ 100 * precision * d → 100 * precision * d < 2 ^ 31 →
          (stopQuotient precision d T = 0 ↔ (100 * precision * d).natAbs < T) ∧
          (0 ≤ 100 * precision * d →
            (stopQuotient precision d T = 0 ↔
              ⌊((100 * precision * d : Int) : ℚ) / (T : ℚ)⌋ = 0))) := by
  obtain ⟨res, hres, -, -, -, -, -, -, -, hdiff, hstop, -, -, -⟩ :=
    train_spec exp hexp garbage fopenOk net hs ht hlayers ios hwf T hT0 hT maxEpoch hmax lr
      dumpFileName hdump precision R hR
  refine ⟨res, hres, ?_⟩
  intro k hk
  refine ⟨_, hdiff k hk, (hstop k hk).symm, ?_⟩
  intro h1 h2 h3 h4
  have hq : stopQuotient precision (diffRef garbage R res.counts k) T = 0 ↔
      (100 * precision * diffRef garbage R res.counts k).natAbs < T := by
    rw [stopQuotient_eq_zero_iff _ _ _ hT0, wrapInt_of_small _ h1 h2, wrapInt_of_small _ h3 h4]
  refine ⟨hq, ?_⟩
  intro h5
  rw [hq, floor_div_eq_zero_iff _ _ hT0 h5]

/-- Witness for C14 (amended): the sample network trained on two records. -/
theorem stop_condition_witness :
    ∃ res, train sampleExp (fun _ => 0) true sampleNet [⟨[48, 48], [48]⟩, ⟨[49, 49], [49]⟩] 2
        10 (1 / 2) none 100 2 = .ok res ∧
      ∀ k, k < res.diffs.length → ∃ d, res.diffs[k]? = some d ∧
        ((res.code = 0 ∧ res.epoch = k + 1) ↔ stopQuotient 100 d 2 = 0) ∧
        (-(2 ^ 31) ≤ 100 * (100 : Int) → 100 * (100 : Int) < 2 ^ 31 →
          -(2 ^ 31) ≤ 100 * 100 * d → 100 * 100 * d < 2 ^ 31 →
          (stopQuotient 100 d 2 = 0 ↔ (100 * 100 * d).natAbs < 2) ∧
          (0 ≤ 100 * 100 * d →
            (stopQuotient 100 d 2 = 0 ↔
              ⌊((100 * 100 * d : Int) : ℚ) / ((2 : Nat) : ℚ)⌋ = 0))) :=
  stop_condition sampleExp sampleExp_pos (fun _ => 0) true sampleNet sampleNet_shape
    sampleNet_translators (by decide) [⟨[48, 48], [48]⟩, ⟨[49, 49], [49]⟩] sampleNet_examples 2
    (by decide) (by decide) 10 (by decide) (1 / 2) none (Or.inl rfl) 100 2 (by decide)

/-- A call of `train` whose dump file cannot be opened returns -1 before the first
epoch. -/
theorem train_dump_failure (exp : α → α) (garbage : Nat → Int) (net : network α)
    (hs : ShapeInv net) (hlayers : 1 ≤ net.layerCount) (ios : List IOData) (T maxEpoch : Nat)
    (lr : α) (name : String) (precision : Int) (R : Nat) :
    train exp garbage false net ios T maxEpoch lr (some name) precision R
      = .ok { code := -1, epoch := 0,
              state := { network := net,
                         output := List.replicate (nodesOf net (net.layerCount - 1)) 0,
                         accuracy := (List.range R).map garbage },
              counts := [], diffs := [] } := by
  rw [train, outputCount_eq net hs hlayers]
  simp only [ok_bind]
  rw [if_pos (by simp)]

/-- C15 (amended). Epoch budget and termination: with `maxEpoch ≥ 1`, a convergence range
of at least 2 and at least one training record, `train` on a well-shaped network ends,
with code 0 or -1, after at most `maxEpoch` epochs. With code 0 it has run at least one
epoch, and exactly `maxEpoch` epochs when no stop test has given 0. It returns -1 only
when the dump file cannot be opened, before the first epoch, or when a call of
`BPandWeightUpdate` on a training record has returned -1; the number of epochs it has
completed is then below `maxEpoch`, and may be 0. -/
theorem train_epoch_budget (exp : α → α) (hexp : ∀ x, 0 < exp x) (garbage : Nat → Int)
    (fopenOk : Bool) (net : network α)
    (hs : ShapeInv net) (ht : TranslatorsInv net) (hlayers : 1 ≤ net.layerCount)
    (ios : List IOData) (hwf : WellFormedExamples net ios) (T : Nat) (hT0 : 1 ≤ T)
    (hT : T ≤ ios.length) (maxEpoch : Nat) (hmax : 1 ≤ maxEpoch) (lr : α)
    (dumpFileName : Option String) (precision : Int) (R : Nat) (hR : 2 ≤ R) :
    ∃ res, train exp garbage fopenOk net ios T maxEpoch lr dumpFileName precision R = .ok res ∧
      (res.code = 0 ∨ res.code = -1) ∧ res.counts.length = res.epoch ∧
      res.epoch ≤ maxEpoch ∧
      (res.code = 0 → 1 ≤ res.epoch) ∧
      (res.code = 0 → (∀ d ∈ res.diffs, stopQuotient precision d T ≠ 0) →
        res.epoch = maxEpoch) ∧
      (res.code = -1 → res.epoch < maxEpoch ∧
        ((dumpFileName.isSome ∧ fopenOk = false ∧ res.epoch = 0) ∨
          ∃ i r, i < T ∧ ios[i]? = some r ∧
            BPandWeightUpdate res.state.network r.input r.output lr
              = .ok (-1, res.state.network))) := by
  by_cases hopen : dumpFileName.isSome ∧ fopenOk = false
  · obtain ⟨hsome, hfalse⟩ := hopen
    obtain ⟨name, rfl⟩ := Option.isSome_iff_exists.1 hsome
    subst hfalse
    refine ⟨_, train_dump_failure exp garbage net hs hlayers ios T maxEpoch lr name precision R,
      Or.inr rfl, rfl, Nat.zero_le _, ?_, ?_, ?_⟩
    · intro h
      exact absurd h (show ¬ ((-1 : Int) = 0) by decide)
    · intro h
      exact absurd h (show ¬ ((-1 : Int) = 0) by decide)
    · intro _
      exact ⟨hmax, Or.inl ⟨rfl, rfl, rfl⟩⟩
  · have hdump : dumpFileName = none ∨ fopenOk = true := by
      cases dumpFileName with
      | none => exact Or.inl rfl
      | some name =>
        right
        cases fopenOk with
        | true => rfl
        | false => exact absurd ⟨rfl, rfl⟩ hopen
    obtain ⟨res, hres, hcode, -, -, -, hlen, hle, -, hdiff, hstop, h0, h1, -⟩ :=
      train_spec exp hexp garbage fopenOk net hs ht hlayers ios hwf T hT0 hT maxEpoch hmax lr
        dumpFileName hdump precision R (by omega)
    refine ⟨res, hres, hcode, hlen, hle, fun h => (h0 h).1, ?_,
      fun h => ⟨(h1 h).2.1, Or.inr (h1 h).2.2⟩⟩
    intro hc hall
    by_contra hne
    have hlt : res.epoch < maxEpoch := lt_of_le_of_ne hle hne
    obtain ⟨hpos, hdl, -⟩ := h0 hc
    have hk : res.epoch - 1 < res.diffs.length := by rw [hdl hlt]; omega
    have hd := hdiff _ hk
    have hmem : diffRef garbage R res.counts (res.epoch - 1) ∈ res.diffs :=
      mem_of_getElem?_eq _ _ _ hd
    exact hall _ hmem ((hstop _ hk).2 ⟨hc, by omega⟩)

/-- Witness for C15 (amended): the sample network trained on two records for at most 10
epochs. -/
theorem train_epoch_budget_witness :
    ∃ res, train sampleExp (fun _ => 0) true sampleNet [⟨[48, 48], [48]⟩, ⟨[49, 49], [49]⟩] 2
        10 (1 / 2) none 100 2 = .ok res ∧
      (res.code = 0 ∨ res.code = -1) ∧ res.counts.length = res.epoch ∧
      res.epoch ≤ 10 ∧
      (res.code = 0 → 1 ≤ res.epoch) ∧
      (res.code = 0 → (∀ d ∈ res.diffs, stopQuotient 100 d 2 ≠ 0) → res.epoch = 10) ∧
      (res.code = -1 → res.epoch < 10 ∧
        (((none : Option String).isSome ∧ true = false ∧ res.epoch = 0) ∨
          ∃ i r, i < 2 ∧ ([⟨[48, 48], [48]⟩, ⟨[49, 49], [49]⟩] : List IOData)[i]? = some r ∧
            BPandWeightUpdate res.state.network r.input r.output (1 / 2)
              = .ok (-1, res.state.network))) :=
  train_epoch_budget sampleExp sampleExp_pos (fun _ => 0) true sampleNet sampleNet_shape
    sampleNet_translators (by decide) [⟨[48, 48], [48]⟩, ⟨[49, 49], [49]⟩] sampleNet_examples 2
    (by decide) (by decide) 10 (by decide) (1 / 2) none 100 2 (by decide)

/-! ## Failure of a correction -/

/-- A call of `BPandWeightUpdate` that returns a negative code has changed nothing. -/
theorem BPandWeightUpdate_negative (net : network α) (input desiredOutput : List Symbol)
    (learningRate : α) (code : Int) (net' : network α)
    (h : BPandWeightUpdate net input desiredOutput learningRate = .ok (code, net'))
    (hcode : code < 0) : code = -1 ∧ net' = net := by
  unfold BPandWeightUpdate at h
  cases hd : BPandWeightUpdate.deltas net desiredOutput with
  | error e =>
    cases e with
    | fault => simp [hd] at h
    | failure =>
      simp only [hd] at h
      injection h with h
      injection h with h1 h2
      exact ⟨h1.symm, h2.symm⟩
  | ok delta =>
    simp only [hd] at h
    cases hu : BPandWeightUpdate.update net input learningRate delta with
    | error e => simp [hu] at h
    | ok w =>
      simp only [hu, ok_bind] at h
      injection h with h
      injection h with h1 h2
      rw [← h1] at hcode
      exact absurd hcode (by decide)

/-- Once the loop over the examples has been left with `return`, no later round runs. -/
theorem forFlow_ret {σ : Type} (body : Nat → σ → Exec (Flow σ)) (s t : σ) (code : Int)
    (i : Nat) (h : forFlow body i s = .ok (.ret code t)) :
    ∀ n, i ≤ n → forFlow body n s = .ok (.ret code t) := by
  intro n hn
  induction n with
  | zero =>
    have : i = 0 := by omega
    subst this
    exact h
  | succ n ih =>
    by_cases hi : i = n + 1
    · subst hi; exact h
    · rw [forFlow, ih (by omega)]

/-- The loop of `train` at the head of an epoch: when the loop over the examples has
reached example `i` and the call of `BPandWeightUpdate` on it returns a negative code,
the loop returns -1 at once, with the value of `epoch`, the counts and the differences
as they were at the head of the epoch, and with the network that the failing call was
given. -/
theorem train_loop_abort (exp : α → α) (ios : List IOData) (T maxEpoch : Nat) (lr : α)
    (precision : Int) (R : Nat) (hR : 0 < R)
    (epoch : Nat) (st sti : trainState α) (counts diffs : List Int) (i : Nat) (r : IOData)
    (fwd : network α × List Symbol) (count : Nat) (code : Int) (net' : network α)
    (hslot : epoch % R < st.accuracy.length) (hi : i < T)
    (hflow : forFlow (train.example exp ios lr R epoch) i
        { st with accuracy := st.accuracy.set (epoch % R) 0 } = .ok (.next sti))
    (hr : ios[i]? = some r)
    (hrun : runForward exp sti.network r.input sti.output = .ok fwd)
    (hcount : outputCount fwd.1 = .ok count)
    (heval : evaluateResult count r.output fwd.2 = .ok 0)
    (hbp : BPandWeightUpdate fwd.1 r.input r.output lr = .ok (code, net'))
    (hcode : code < 0) :
    train.loop exp ios T maxEpoch lr precision R epoch st counts diffs
        = .ok { code := -1, epoch := epoch,
                state := { network := fwd.1, output := fwd.2, accuracy := sti.accuracy },
                counts := counts, diffs := diffs } ∧
      net' = fwd.1 ∧ fwd.1.weights = sti.network.weights := by
  obtain ⟨hc1, hnet⟩ := BPandWeightUpdate_negative _ _ _ _ _ _ hbp hcode
  subst hc1 hnet
  have hframe := runForward_frame exp sti.network r.input sti.output fwd.1 fwd.2 hrun
  -- the round of example `i` leaves the loop
  have hstep : forFlow (train.example exp ios lr R epoch) (i + 1)
      { st with accuracy := st.accuracy.set (epoch % R) 0 }
      = .ok (.ret (-1) { network := fwd.1, output := fwd.2, accuracy := sti.accuracy }) := by
    rw [forFlow, hflow]
    simp only [train.example, hr, rd_some, ok_bind, hrun, hcount, heval, hbp]
    rw [if_neg (by decide)]
    rw [if_pos (by decide)]
  have hall := forFlow_ret _ _ _ _ _ hstep T (by omega)
  have hep : train.epoch exp ios T lr R epoch st
      = .ok (.ret (-1) { network := fwd.1, output := fwd.2, accuracy := sti.accuracy }) := by
    simp only [train.epoch, slotOf, if_neg (Nat.pos_iff_ne_zero.1 hR), ok_bind,
      wr_ok _ _ _ hslot]
    exact hall
  refine ⟨train_loop_ret exp ios T maxEpoch lr precision R epoch st _ counts diffs (-1) hep,
    rfl, ?_⟩
  rw [hframe]

/-- C16. Failure aborts training. First part, for every state of `train` at the head of
an epoch: when the loop over the examples has reached example `i` and the call of
`BPandWeightUpdate` on it returns a negative code, `train` returns -1 at once, with the
value of `epoch`, the counts and the differences as they were at the head of the epoch,
and with the network that the failing call was given, whose weights are those before the
forward pass. Second part: with no dump file requested, `train` on a well-shaped network
returns -1 only when a call of `BPandWeightUpdate` on one of the training records has
returned -1 on the network that `train` leaves. -/
theorem train_failure_aborts (exp : α → α) (hexp : ∀ x, 0 < exp x) (garbage : Nat → Int)
    (fopenOk : Bool) (net : network α)
    (hs : ShapeInv net) (ht : TranslatorsInv net) (hlayers : 1 ≤ net.layerCount)
    (ios : List IOData) (hwf : WellFormedExamples net ios) (T : Nat) (hT0 : 0 < T)
    (hT : T ≤ ios.length) (maxEpoch : Nat) (hmax : 0 < maxEpoch) (lr : α)
    (precision : Int) (R : Nat) (hR : 0 < R) :
    (∀ (epoch : Nat) (st sti : trainState α) (counts diffs : List Int) (i : Nat) (r : IOData)
        (fwd : network α × List Symbol) (count : Nat) (code : Int) (net' : network α),
      epoch % R < st.accuracy.length → i < T →
      forFlow (train.example exp ios lr R epoch) i
        { st with accuracy := st.accuracy.set (epoch % R) 0 } = .ok (.next sti) →
      ios[i]? = some r →
      runForward exp sti.network r.input sti.output = .ok fwd →
      outputCount fwd.1 = .ok count →
      evaluateResult count r.output fwd.2 = .ok 0 →
      BPandWeightUpdate fwd.1 r.input r.output lr = .ok (code, net') → code < 0 →
      train.loop exp ios T maxEpoch lr precision R epoch st counts diffs
        = .ok { code := -1, epoch := epoch,
                state := { network := fwd.1, output := fwd.2, accuracy := sti.accuracy },
                counts := counts, diffs := diffs } ∧
      net' = fwd.1 ∧ fwd.1.weights = sti.network.weights) ∧
    (∃ res, train exp garbage fopenOk net ios T maxEpoch lr none precision R = .ok res ∧
      (res.code = 0 ∨ res.code = -1) ∧
      (res.code = -1 → ∃ i r, i < T ∧ ios[i]? = some r ∧
        BPandWeightUpdate res.state.network r.input r.output lr
          = .ok (-1, res.state.network))) := by
  constructor
  · intro epoch st sti counts diffs i r fwd count code net' hslot hi hflow hr hrun hcount heval
      hbp hcode
    exact train_loop_abort exp ios T maxEpoch lr precision R hR epoch st sti counts diffs i r
      fwd count code net' hslot hi hflow hr hrun hcount heval hbp hcode
  · obtain ⟨res, hres, hcode, -, -, -, -, -, -, -, -, -, hfail, -⟩ :=
      train_spec exp hexp garbage fopenOk net hs ht hlayers ios hwf T hT0 hT maxEpoch hmax lr
        none (Or.inl rfl) precision R hR
    exact ⟨res, hres, hcode, fun h => (hfail h).2.2⟩

/-! ## Networks of one node -/

theorem unitNet_shape (b w1 w2 a : α) : ShapeInv (unitNet b w1 w2 a) := by
  refine ⟨rfl, rfl, rfl, ?_, ?_, ?_⟩
  · intro l hl
    have h0 : l = 0 := by
      have : (unitNet b w1 w2 a).layerCount = 1 := rfl
      omega
    subst h0
    rfl
  · intro l hl
    have h0 : l = 0 := by
      have : (unitNet b w1 w2 a).layerCount = 1 := rfl
      omega
    subst h0
    rfl
  · intro l hl n hn
    have h0 : l = 0 := by
      have : (unitNet b w1 w2 a).layerCount = 1 := rfl
      omega
    subst h0
    have h1 : n = 0 := by
      have : nodesOf (unitNet b w1 w2 a) 0 = 1 := rfl
      omega
    subst h1
    rfl

theorem unitNet_translators (b w1 w2 a : α) : TranslatorsInv (unitNet b w1 w2 a) := by
  refine ⟨rfl, ?_⟩
  intro t ht
  have h : t = ⟨2, [48, 49]⟩ := by
    simpa [unitNet] using ht
  subst h
  exact ⟨rfl, by decide⟩

/-- The activation of a node is smaller than one half exactly when its weighted sum is
negative, for an exponential that is positive and greater than 1 on the positive
numbers only. -/
theorem sigmoid_lt_half (exp : α → α) (hexp : ∀ x, 0 < exp x) (hexp1 : ∀ x, 1 < exp x ↔ 0 < x)
    (s : α) : sigmoid exp s < 1 / 2 ↔ s < 0 := by
  have hpos : (0 : α) < 1 + exp (0 - s) := by linarith [hexp (0 - s)]
  unfold sigmoid
  rw [one_lit, zero_lit, div_lt_div_iff₀ hpos (by norm_num)]
  constructor
  · intro h
    have h1 : 1 < exp (0 - s) := by linarith
    have := (hexp1 _).1 h1
    linarith
  · intro h
    have h1 : 1 < exp (0 - s) := (hexp1 _).2 (by linarith)
    linarith

/-- The translator of `'0'` and `'1'` reads an activation below one half as `'0'` and an
activation of one half or more as `'1'`. -/
theorem decode_binary (a : α) (h0 : 0 < a) (h1 : a < 1) :
    runForward.decode ⟨2, [48, 49]⟩ a = .ok (if a < 1 / 2 then 48 else 49) := by
  have hnn : (0 : α) ≤ ((2 : Nat) : α) * a := by positivity
  unfold runForward.decode
  simp only [truncToInt, if_pos hnn]
  by_cases hlt : a < 1 / 2
  · have hf : ⌊((2 : Nat) : α) * a⌋ = 0 := by
      rw [Int.floor_eq_iff]
      constructor
      · simpa using hnn
      · push_cast
        linarith
    rw [hf, if_pos hlt]
    rfl
  · have hf : ⌊((2 : Nat) : α) * a⌋ = 1 := by
      rw [Int.floor_eq_iff]
      push_cast
      constructor
      · linarith [not_lt.1 hlt]
      · linarith
    rw [hf, if_neg hlt]
    rfl

/-- The forward pass of a network of one node: the activation is the sigmoid of the
weighted sum and the output is `'0'` exactly when the sum is negative. -/
theorem unitNet_forward (exp : α → α) (hexp : ∀ x, 0 < exp x) (hexp1 : ∀ x, 1 < exp x ↔ 0 < x)
    (b w1 w2 a : α) (x1 x2 c0 : Symbol) :
    runForward exp (unitNet b w1 w2 a) [x1, x2] [c0]
      = .ok (unitNet b w1 w2 (sigmoid exp (unitSum b w1 w2 x1 x2)),
          [if unitSum b w1 w2 x1 x2 < 0 then 48 else 49]) := by
  have hl : runForward.layers exp (unitNet b w1 w2 a) [x1, x2]
      = .ok [[sigmoid exp (unitSum b w1 w2 x1 x2)]] := by
    simp [runForward.layers, unitNet, forLoop, runForward.node, fanIn, runForward.weight, rd,
      get2, get3, set2, sourceOf, wr, unitSum]
  obtain ⟨h0, h1⟩ := sigmoid_mem exp hexp (unitSum b w1 w2 x1 x2)
  have hd := decode_binary _ h0 h1
  simp only [sigmoid_lt_half exp hexp hexp1] at hd
  rw [runForward, hl]
  simp only [ok_bind]
  simp [unitNet, forLoop, rd, get2, wr, hd]

/-- One correction of a network of one node, for a desired character `'0'` or `'1'`:
every weight grows by the learning rate times its input times the delta of the node. -/
theorem unitNet_BP (b w1 w2 a lr : α) (x1 x2 d : Symbol) (hd : d = 48 ∨ d = 49) :
    BPandWeightUpdate (unitNet b w1 w2 a) [x1, x2] [d] lr
      = .ok (0, unitStep lr b w1 w2 a x1 x2 d) := by
  have h1 : ¬ ((4 : α)⁻¹ < 0) := by norm_num
  have h2 : ¬ ((3 : α) / 4 < 0) := by norm_num
  have h3 : (0.5 : α) / 2 = 4⁻¹ := by norm_num
  have h4 : ((1 : α) + 0.5) / 2 = 3 / 4 := by norm_num
  rcases hd with rfl | rfl
  · simp [BPandWeightUpdate, BPandWeightUpdate.deltas, BPandWeightUpdate.update, forDown, forLoop,
      BPandWeightUpdate.node, BPandWeightUpdate.factor, BPandWeightUpdate.layer,
      BPandWeightUpdate.weight, unitNet, fanIn, rd, get2, get3, set2, set3, sourceOf, wr,
      translateOutput, translateOutput.loop, h1, h3, unitStep, unitDelta, unitTarget, one_lit]
  · simp [BPandWeightUpdate, BPandWeightUpdate.deltas, BPandWeightUpdate.update, forDown, forLoop,
      BPandWeightUpdate.node, BPandWeightUpdate.factor, BPandWeightUpdate.layer,
      BPandWeightUpdate.weight, unitNet, fanIn, rd, get2, get3, set2, set3, sourceOf, wr,
      translateOutput, translateOutput.loop, h2, h4, unitStep, unitDelta, unitTarget, one_lit]

/-- The loops of `runForward` over the layers, for a network of one node and any
function `exp`: the buffer holds the sigmoid of the weighted sum. -/
theorem unitNet_layers (exp : α → α) (b w1 w2 a : α) (x1 x2 : Symbol) :
    runForward.layers exp (unitNet b w1 w2 a) [x1, x2]
      = .ok [[sigmoid exp (unitSum b w1 w2 x1 x2)]] := by
  simp [runForward.layers, unitNet, forLoop, runForward.node, fanIn, runForward.weight, rd,
    get2, get3, set2, sourceOf, wr, unitSum]

/-- One correction of a network of one node for a desired character that is neither `'0'`
nor `'1'`: `translateOutput` does not find it and the call returns -1 with the network
unchanged. -/
theorem unitNet_BP_unknown (b w1 w2 a lr : α) (x1 x2 d : Symbol) (h0 : d ≠ 48) (h1 : d ≠ 49) :
    BPandWeightUpdate (unitNet b w1 w2 a) [x1, x2] [d] lr = .ok (-1, unitNet b w1 w2 a) := by
  have h3 : ((-1 : α) < 0) := by norm_num
  simp [BPandWeightUpdate, BPandWeightUpdate.deltas, BPandWeightUpdate.update, forDown, forLoop,
    BPandWeightUpdate.node, BPandWeightUpdate.factor, BPandWeightUpdate.layer,
    BPandWeightUpdate.weight, unitNet, fanIn, rd, get2, get3, set2, set3, sourceOf, wr,
    translateOutput, translateOutput.loop, h0, h1, h3]

/-- Training of a network of one node on records of which the first has a desired
character that is neither `'0'` nor `'1'`: the forward pass gives `'0'` or `'1'`, the
correction fails and `train` returns -1 in the first round of the first epoch, with no
epoch completed and the weights unchanged. -/
theorem unitNet_unknown_run (exp : α → α) (hexp : ∀ x, 0 < exp x)
    (hexp1 : ∀ x, 1 < exp x ↔ 0 < x) (garbage : Nat → Int) (fopenOk : Bool)
    (b w1 w2 a lr : α) (x1 x2 d : Symbol) (h0 : d ≠ 48) (h1 : d ≠ 49) (more : List IOData)
    (T : Nat) (hT : 0 < T) (maxEpoch : Nat) (precision : Int) (R : Nat) (hR : 0 < R) :
    train exp garbage fopenOk (unitNet b w1 w2 a) (⟨[x1, x2], [d]⟩ :: more) T maxEpoch lr none
        precision R
      = .ok { code := -1, epoch := 0,
              state := { network := unitNet b w1 w2 (sigmoid exp (unitSum b w1 w2 x1 x2)),
                         output := [if unitSum b w1 w2 x1 x2 < 0 then 48 else 49],
                         accuracy := ((List.range R).map garbage).set 0 0 },
              counts := [], diffs := [] } := by
  have hne : (if unitSum b w1 w2 x1 x2 < 0 then (48 : Symbol) else 49) ≠ d := by
    split
    · exact fun h => h0 h.symm
    · exact fun h => h1 h.symm
  have heval : evaluateResult 1 [d] [if unitSum b w1 w2 x1 x2 < 0 then (48 : Symbol) else 49]
      = .ok 0 := by
    simp [evaluateResult, forLoop, rd, Ne.symm hne]
  have hloop := (train_loop_abort exp (⟨[x1, x2], [d]⟩ :: more) T maxEpoch lr precision R hR 0
    { network := unitNet b w1 w2 a, output := [0], accuracy := (List.range R).map garbage }
    { network := unitNet b w1 w2 a, output := [0],
      accuracy := ((List.range R).map garbage).set 0 0 }
    [] [] 0 ⟨[x1, x2], [d]⟩
    (unitNet b w1 w2 (sigmoid exp (unitSum b w1 w2 x1 x2)),
      [if unitSum b w1 w2 x1 x2 < 0 then 48 else 49]) 1 (-1)
    (unitNet b w1 w2 (sigmoid exp (unitSum b w1 w2 x1 x2)))
    (by simpa using hR) hT rfl (List.getElem?_cons_zero ..)
    (unitNet_forward exp hexp hexp1 b w1 w2 a x1 x2 0) rfl heval
    (unitNet_BP_unknown b w1 w2 _ lr x1 x2 d h0 h1) (by decide)).1
  rw [train]
  exact hloop

/-! ## Epochs of a network of one node -/

/-- One record of the reference epoch on a network of one node: a record that the
network classifies adds 1 to the count and changes the activation only; another record
is followed by one correction. -/
theorem epochRef_unit (exp : α → α) (hexp : ∀ x, 0 < exp x) (hexp1 : ∀ x, 1 < exp x ↔ 0 < x)
    (lr b w1 w2 a : α) (x1 x2 d : Symbol) (hd : d = 48 ∨ d = 49) (more : List IOData)
    (c : Int) :
    epochRef exp lr (⟨[x1, x2], [d]⟩ :: more) (unitNet b w1 w2 a) c =
      if d = (if unitSum b w1 w2 x1 x2 < 0 then 48 else 49)
      then epochRef exp lr more (unitNet b w1 w2 (sigmoid exp (unitSum b w1 w2 x1 x2))) (c + 1)
      else epochRef exp lr more
        (unitStep lr b w1 w2 (sigmoid exp (unitSum b w1 w2 x1 x2)) x1 x2 d) c := by
  have hrun := unitNet_forward exp hexp hexp1 b w1 w2 a x1 x2 0
  have hbp := unitNet_BP b w1 w2 (sigmoid exp (unitSum b w1 w2 x1 x2)) lr x1 x2 d hd
  have hn : nodesOf (unitNet b w1 w2 a) ((unitNet b w1 w2 a).layerCount - 1) = 1 := rfl
  rw [epochRef, hn]
  have hrun' : runForward exp (unitNet b w1 w2 a) [x1, x2] (List.replicate 1 0)
      = .ok (unitNet b w1 w2 (sigmoid exp (unitSum b w1 w2 x1 x2)),
          [if unitSum b w1 w2 x1 x2 < 0 then 48 else 49]) := hrun
  simp only [hrun', ok_bind, hbp]
  by_cases hm : d = (if unitSum b w1 w2 x1 x2 < 0 then 48 else 49)
  · rw [if_pos hm, if_pos (by rw [← hm]; rfl)]
  · rw [if_neg hm, if_neg (by
      intro h
      apply hm
      have h' : [d] = [if unitSum b w1 w2 x1 x2 < 0 then 48 else 49] := h
      exact List.head_eq_of_cons_eq h')]
    rw [if_neg (by decide)]

/-- The encoding of an input character below 128 is its byte divided by 256. -/
theorem translateInput_low (x : Symbol) (hx : x.val < 128) :
    (translateInput x : α) = (x.val : α) / 256 := by
  have h256 : (256.0 : α) = 256 := by norm_num
  rw [translateInput, charValue_low x hx, h256, Int.cast_natCast]

/-- The delta of a node with an activation below one half, for the desired character
`'1'`, lies between 0 and 3/16. -/
theorem unitDelta_bounds (a : α) (h0 : 0 < a) (h1 : a < 1 / 2) :
    0 < unitDelta a 49 ∧ unitDelta a 49 < 3 / 16 := by
  have ht : unitTarget (α := α) 49 = 3 / 4 := by
    unfold unitTarget
    rw [if_neg (by decide)]
  unfold unitDelta
  rw [ht]
  have hp : 0 < a * (1 - a) := mul_pos h0 (by linarith)
  have hq : a * (1 - a) ≤ 1 / 4 := by nlinarith [sq_nonneg (a - 1 / 2)]
  constructor
  · exact mul_pos hp (by linarith)
  · nlinarith

/-- One round of the loop of `train` whose reference epoch ends without a failed
correction: the count of the epoch is written in its slot, and the loop goes on or ends
by the stop test. -/
theorem train_loop_step (exp : α → α) (hexp : ∀ x, 0 < exp x) (net : network α)
    (hs : ShapeInv net) (ht : TranslatorsInv net) (hlayers : 1 ≤ net.layerCount)
    (ios : List IOData) (hwf : WellFormedExamples net ios) (T : Nat) (hT0 : 0 < T)
    (hT : T ≤ ios.length) (maxEpoch : Nat) (lr : α) (precision : Int) (R : Nat) (hR : 0 < R)
    (epoch : Nat) (out0 : List Symbol) (hbuf : out0.length = nodesOf net (net.layerCount - 1))
    (acc : List Int) (hacc : acc.length = R) (counts diffs : List Int)
    (net' : network α) (c : Int)
    (href : epochRef exp lr (ios.take T) net 0 = .ok (0, net', c)) :
    ∃ out, out.length = nodesOf net (net.layerCount - 1) ∧
      train.loop exp ios T maxEpoch lr precision R epoch
          { network := net, output := out0, accuracy := acc } counts diffs
        = if epoch + 1 < maxEpoch then
            (if stopQuotient precision
                  (wrapInt ((acc.set (epoch % R) c).getD ((epoch + 1) % R) 0 - c)) T ≠ 0
              then train.loop exp ios T maxEpoch lr precision R (epoch + 1)
                ⟨net', out, acc.set (epoch % R) c⟩ (counts ++ [c])
                (diffs ++ [wrapInt ((acc.set (epoch % R) c).getD ((epoch + 1) % R) 0 - c)])
              else .ok ⟨0, epoch + 1, ⟨net', out, acc.set (epoch % R) c⟩, counts ++ [c],
                diffs ++ [wrapInt ((acc.set (epoch % R) c).getD ((epoch + 1) % R) 0 - c)]⟩)
          else .ok ⟨0, epoch + 1, ⟨net', out, acc.set (epoch % R) c⟩, counts ++ [c], diffs⟩ := by
  have hslot : epoch % R < acc.length := by rw [hacc]; exact Nat.mod_lt _ hR
  obtain ⟨code, net1, c1, out, href1, -, -, -, -, -, -, hlen, hep, -, -⟩ :=
    train_epoch_ok exp hexp net hs ht hlayers ios hwf T hT lr R epoch hR out0 hbuf acc hslot
  rw [href] at href1
  injection href1 with href1
  injection href1 with h1 h2
  injection h2 with h2 h3
  subst h1 h2 h3
  rw [if_pos rfl] at hep
  have hlen' : (acc.set (epoch % R) c).length = R := by rw [List.length_set]; exact hacc
  have hC : (acc.set (epoch % R) c).getD (epoch % R) 0 = c := getD_set_same _ _ _ _ hslot
  have hnext := train_loop_next exp ios T maxEpoch lr precision R epoch
    { network := net, output := out0, accuracy := acc }
    { network := net', output := out, accuracy := acc.set (epoch % R) c } counts diffs hep hR
    hT0 hlen'
  simp only [hC] at hnext
  exact ⟨out, hlen, hnext⟩

theorem translateInput_zero : (translateInput 0 : α) = 0 := by
  have h : ((0 : Symbol).val) = 0 := rfl
  rw [translateInput_low 0 (by decide), h, Nat.cast_zero, zero_div]

theorem unitSum_lowRecord (b : α) : unitSum b (-1) 0 127 0 = b - 127 / 256 := by
  have h : ((127 : Symbol).val) = 127 := rfl
  rw [unitSum, translateInput_low 127 (by decide), translateInput_zero, h]
  push_cast
  ring

theorem unitSum_highRecord (b : α) : unitSum b (-1) 0 0 0 = b := by
  rw [unitSum, translateInput_zero]
  ring

theorem unitStep_highRecord (lr b a : α) :
    unitStep lr b (-1) 0 a 0 0 49 = unitNet (b + lr * unitDelta a 49) (-1) 0 a := by
  rw [unitStep, translateInput_zero]
  simp

/-- The record `lowRecord` is classified by the network with the weights `(b, -1, 0)`
when `b < 127/256`: it adds 1 to the count of the epoch and changes the activation
only. -/
theorem epochRef_lowRecord (exp : α → α) (hexp : ∀ x, 0 < exp x)
    (hexp1 : ∀ x, 1 < exp x ↔ 0 < x) (lr b a : α) (hb : b < 127 / 256) (more : List IOData)
    (c : Int) :
    ∃ a', epochRef exp lr (lowRecord :: more) (unitNet b (-1) 0 a) c
      = epochRef exp lr more (unitNet b (-1) 0 a') (c + 1) := by
  have hs : unitSum b (-1) 0 127 0 < 0 := by rw [unitSum_lowRecord]; linarith
  refine ⟨sigmoid exp (unitSum b (-1) 0 127 0), ?_⟩
  unfold lowRecord
  rw [epochRef_unit exp hexp hexp1 _ _ _ _ _ _ _ _ (Or.inl rfl), if_pos hs, if_pos rfl]

/-- The record `lowRecord` taken `n` times in a row adds `n` to the count. -/
theorem epochRef_lowRecords (exp : α → α) (hexp : ∀ x, 0 < exp x)
    (hexp1 : ∀ x, 1 < exp x ↔ 0 < x) (lr b : α) (hb : b < 127 / 256) (more : List IOData)
    (n : Nat) : ∀ (a : α) (c : Int),
    ∃ a', epochRef exp lr (List.replicate n lowRecord ++ more) (unitNet b (-1) 0 a) c
      = epochRef exp lr more (unitNet b (-1) 0 a') (c + n) := by
  induction n with
  | zero =>
    intro a c
    exact ⟨a, by simp⟩
  | succ n ih =>
    intro a c
    obtain ⟨a1, h1⟩ := epochRef_lowRecord exp hexp hexp1 lr b a hb
      (List.replicate n lowRecord ++ more) c
    obtain ⟨a2, h2⟩ := ih a1 (c + 1)
    refine ⟨a2, ?_⟩
    rw [List.replicate_succ, List.cons_append, h1, h2]
    push_cast
    congr 1
    ring

/-- The record `highRecord` at the end of an epoch, on the weights `(b, -1, 0)`: with
`b < 0` it is followed by a correction of the bias, with `0 ≤ b` it is classified. -/
theorem epochRef_highRecord (exp : α → α) (hexp : ∀ x, 0 < exp x)
    (hexp1 : ∀ x, 1 < exp x ↔ 0 < x) (lr b a : α) (c : Int) :
    epochRef exp lr [highRecord] (unitNet b (-1) 0 a) c
      = if b < 0 then .ok (0, unitNet (b + lr * unitDelta (sigmoid exp b) 49) (-1) 0
            (sigmoid exp b), c)
        else .ok (0, unitNet b (-1) 0 (sigmoid exp b), c + 1) := by
  unfold highRecord
  rw [epochRef_unit exp hexp hexp1 _ _ _ _ _ _ _ _ (Or.inr rfl), unitSum_highRecord,
    unitStep_highRecord]
  by_cases hb : b < 0
  · rw [if_pos hb, if_pos hb, if_neg (by decide)]
    rfl
  · rw [if_neg hb, if_neg hb, if_pos rfl]
    rfl

/-- The correction of the bias `-1/1000` on the record `highRecord`, for the learning
rate 1/2 and an exponential with `exp (1/1000) ≤ 3`: the new bias is not negative and
smaller than 127/256. -/
theorem bias_after_correction (exp : α → α) (hexp : ∀ x, 0 < exp x)
    (hexp1 : ∀ x, 1 < exp x ↔ 0 < x) (hexp3 : exp (1 / 1000) ≤ 3) :
    0 ≤ -1 / 1000 + 1 / 2 * unitDelta (sigmoid exp (-1 / 1000)) 49 ∧
    -1 / 1000 + 1 / 2 * unitDelta (sigmoid exp (-1 / 1000)) 49 < (127 / 256 : α) := by
  have ha1 := (sigmoid_lt_half exp hexp hexp1 (-1 / 1000)).2 (by norm_num)
  obtain ⟨ha0, -⟩ := sigmoid_mem exp hexp (-1 / 1000 : α)
  obtain ⟨hd0, hd1⟩ := unitDelta_bounds _ ha0 ha1
  have hlow : (1 / 4 : α) ≤ sigmoid exp (-1 / 1000) := by
    unfold sigmoid
    rw [one_lit, zero_lit]
    have he : (0 : α) - (-1 / 1000) = 1 / 1000 := by norm_num
    rw [he, div_le_div_iff₀ (by norm_num) (by linarith [hexp (1 / 1000)])]
    linarith
  have hdl : (1 / 32 : α) ≤ unitDelta (sigmoid exp (-1 / 1000)) 49 := by
    have ht : unitTarget (α := α) 49 = 3 / 4 := by
      unfold unitTarget
      rw [if_neg (by decide)]
    unfold unitDelta
    rw [ht]
    have h1 : (1 / 8 : α) ≤ sigmoid exp (-1 / 1000) * (1 - sigmoid exp (-1 / 1000)) := by
      nlinarith
    nlinarith
  constructor
  · linarith
  · linarith

/-! ## Two runs of `train` on a network of one node -/

theorem lows_high_examples (b w1 w2 a : α) (n : Nat) :
    WellFormedExamples (unitNet b w1 w2 a) (List.replicate n lowRecord ++ [highRecord]) := by
  intro r hr
  rcases List.mem_append.1 hr with h | h
  · rw [List.eq_of_mem_replicate h]
    exact ⟨Nat.le_refl _, Nat.le_refl _⟩
  · rw [List.mem_singleton.1 h]
    exact ⟨Nat.le_refl _, Nat.le_refl _⟩

/-- One epoch over `n` times the record `lowRecord` and then the record `highRecord`,
on the weights `(b, -1, 0)` with `b < 127/256`: with a negative bias the count is `n`
and the bias is corrected once, otherwise the count is `n + 1` and no weight changes. -/
theorem lows_high_epoch (exp : α → α) (hexp : ∀ x, 0 < exp x)
    (hexp1 : ∀ x, 1 < exp x ↔ 0 < x) (lr b a : α) (hb : b < 127 / 256) (n : Nat) :
    ∃ a', epochRef exp lr (List.replicate n lowRecord ++ [highRecord]) (unitNet b (-1) 0 a) 0
      = .ok (0, (if b < 0 then unitNet (b + lr * unitDelta (sigmoid exp b) 49) (-1) 0 a'
          else unitNet b (-1) 0 a'), if b < 0 then (n : Int) else (n : Int) + 1) := by
  obtain ⟨a1, h1⟩ := epochRef_lowRecords exp hexp hexp1 lr b hb [highRecord] n a 0
  refine ⟨sigmoid exp b, ?_⟩
  rw [h1, epochRef_highRecord exp hexp hexp1]
  by_cases hneg : b < 0
  · simp only [if_pos hneg, zero_add]
  · simp only [if_neg hneg, zero_add]

/-- A run of three epochs. Training on the records `lowRecord` and `highRecord` from the
weights `(-1/1000, -1, 0)` with the convergence range 2: the epochs count 1, 2 and 2
records, and the differences of the three stop tests are -1, -1 and 0. -/
theorem pair_run (exp : α → α) (hexp : ∀ x, 0 < exp x) (hexp1 : ∀ x, 1 < exp x ↔ 0 < x)
    (hexp3 : exp (1 / 1000) ≤ 3) (a0 : α) :
    ∃ res, train exp (fun _ => 0) true (unitNet (-1 / 1000) (-1) 0 a0)
        [lowRecord, highRecord] 2 10 (1 / 2) none 100 2 = .ok res ∧
      res.code = 0 ∧ res.epoch = 3 ∧ res.counts = [1, 2, 2] ∧ res.diffs = [-1, -1, 0] := by
  obtain ⟨hb0, hb1⟩ := bias_after_correction exp hexp hexp1 hexp3
  have hwf := fun (b a : α) => lows_high_examples b (-1) 0 a 1
  -- the first epoch: the record `highRecord` is not classified
  obtain ⟨a1, href1⟩ := lows_high_epoch exp hexp hexp1 (1 / 2) (-1 / 1000) a0 (by norm_num) 1
  rw [if_pos (by norm_num), if_pos (by norm_num)] at href1
  obtain ⟨out1, hlen1, hstep1⟩ := train_loop_step exp hexp (unitNet (-1 / 1000) (-1) 0 a0)
    (unitNet_shape _ _ _ _) (unitNet_translators _ _ _ _) (Nat.le_refl _)
    [lowRecord, highRecord] (hwf _ _) 2 (by decide) (Nat.le_refl _) 10 (1 / 2) 100 2
    (by decide) 0 [0] rfl [0, 0] rfl [] [] _ _ href1
  -- the second epoch: both records are classified
  obtain ⟨a2, href2⟩ := lows_high_epoch exp hexp hexp1 (1 / 2)
    (-1 / 1000 + 1 / 2 * unitDelta (sigmoid exp (-1 / 1000)) 49) a1 hb1 1
  rw [if_neg (not_lt.2 hb0), if_neg (not_lt.2 hb0)] at href2
  have hlen1' : out1.length = 1 := hlen1
  obtain ⟨out2, hlen2, hstep2⟩ := train_loop_step exp hexp
    (unitNet (-1 / 1000 + 1 / 2 * unitDelta (sigmoid exp (-1 / 1000)) 49) (-1) 0 a1)
    (unitNet_shape _ _ _ _) (unitNet_translators _ _ _ _) (Nat.le_refl _)
    [lowRecord, highRecord] (hwf _ _) 2 (by decide) (Nat.le_refl _) 10 (1 / 2) 100 2
    (by decide) 1 out1 hlen1' [1, 0] rfl [1] [-1] _ _ href2
  -- the third epoch: both records are classified
  obtain ⟨a3, href3⟩ := lows_high_epoch exp hexp hexp1 (1 / 2)
    (-1 / 1000 + 1 / 2 * unitDelta (sigmoid exp (-1 / 1000)) 49) a2 hb1 1
  rw [if_neg (not_lt.2 hb0), if_neg (not_lt.2 hb0)] at href3
  have hlen2' : out2.length = 1 := hlen2
  obtain ⟨out3, hlen3, hstep3⟩ := train_loop_step exp hexp
    (unitNet (-1 / 1000 + 1 / 2 * unitDelta (sigmoid exp (-1 / 1000)) 49) (-1) 0 a2)
    (unitNet_shape _ _ _ _) (unitNet_translators _ _ _ _) (Nat.le_refl _)
    [lowRecord, highRecord] (hwf _ _) 2 (by decide) (Nat.le_refl _) 10 (1 / 2) 100 2
    (by decide) 2 out2 hlen2' [1, 2] rfl [1, 2] [-1, -1] _ _ href3
  rw [if_pos (by decide), if_pos (by decide)] at hstep1
  rw [if_pos (by decide), if_pos (by decide)] at hstep2
  rw [if_pos (by decide), if_neg (by decide)] at hstep3
  refine ⟨⟨0, 3, ⟨unitNet (-1 / 1000 + 1 / 2 * unitDelta (sigmoid exp (-1 / 1000)) 49) (-1) 0 a3,
    out3, [2, 2]⟩, [1, 2, 2], [-1, -1, 0]⟩, ?_, rfl, rfl, rfl, rfl⟩
  rw [train, outputCount_eq _ (unitNet_shape _ _ _ _) (Nat.le_refl _)]
  simp only [ok_bind]
  rw [if_neg (by decide)]
  exact (hstep1.trans hstep2).trans hstep3

/-- A run of two epochs. Training on a hundred times the record `lowRecord` and once
the record `highRecord` from the weights `(-1/1000, -1, 0)` with the precision 1 and
the convergence range 2: the epochs count 100 and 101 records, the differences of the
two stop tests are -100 and -1, and `train` stops on the second. -/
theorem many_run (exp : α → α) (hexp : ∀ x, 0 < exp x) (hexp1 : ∀ x, 1 < exp x ↔ 0 < x)
    (hexp3 : exp (1 / 1000) ≤ 3) (a0 : α) :
    ∃ res, train exp (fun _ => 0) true (unitNet (-1 / 1000) (-1) 0 a0)
        (List.replicate 100 lowRecord ++ [highRecord]) 101 10 (1 / 2) none 1 2 = .ok res ∧
      res.code = 0 ∧ res.epoch = 2 ∧ res.counts = [100, 101] ∧ res.diffs = [-100, -1] := by
  obtain ⟨hb0, hb1⟩ := bias_after_correction exp hexp hexp1 hexp3
  have hwf := fun (b a : α) => lows_high_examples b (-1) 0 a 100
  have htake : (List.replicate 100 lowRecord ++ [highRecord]).take 101
      = List.replicate 100 lowRecord ++ [highRecord] :=
    List.take_of_length_le (by simp)
  have hlen : 101 ≤ (List.replicate 100 lowRecord ++ [highRecord]).length := by simp
  -- the first epoch: the record `highRecord` is not classified
  obtain ⟨a1, href1⟩ := lows_high_epoch exp hexp hexp1 (1 / 2) (-1 / 1000) a0 (by norm_num) 100
  rw [if_pos (by norm_num), if_pos (by norm_num), ← htake] at href1
  obtain ⟨out1, hlen1, hstep1⟩ := train_loop_step exp hexp (unitNet (-1 / 1000) (-1) 0 a0)
    (unitNet_shape _ _ _ _) (unitNet_translators _ _ _ _) (Nat.le_refl _)
    (List.replicate 100 lowRecord ++ [highRecord]) (hwf _ _) 101 (by decide) hlen 10 (1 / 2) 1 2
    (by decide) 0 [0] rfl [0, 0] rfl [] [] _ _ href1
  -- the second epoch: all records are classified
  obtain ⟨a2, href2⟩ := lows_high_epoch exp hexp hexp1 (1 / 2)
    (-1 / 1000 + 1 / 2 * unitDelta (sigmoid exp (-1 / 1000)) 49) a1 hb1 100
  rw [if_neg (not_lt.2 hb0), if_neg (not_lt.2 hb0), ← htake] at href2
  have hlen1' : out1.length = 1 := hlen1
  obtain ⟨out2, hlen2, hstep2⟩ := train_loop_step exp hexp
    (unitNet (-1 / 1000 + 1 / 2 * unitDelta (sigmoid exp (-1 / 1000)) 49) (-1) 0 a1)
    (unitNet_shape _ _ _ _) (unitNet_translators _ _ _ _) (Nat.le_refl _)
    (List.replicate 100 lowRecord ++ [highRecord]) (hwf _ _) 101 (by decide) hlen 10 (1 / 2) 1 2
    (by decide) 1 out1 hlen1' [100, 0] rfl [100] [-100] _ _ href2
  rw [if_pos (by decide), if_pos (by decide)] at hstep1
  rw [if_pos (by decide), if_neg (by decide)] at hstep2
  refine ⟨⟨0, 2, ⟨unitNet (-1 / 1000 + 1 / 2 * unitDelta (sigmoid exp (-1 / 1000)) 49) (-1) 0 a2,
    out2, [100, 101]⟩, [100, 101], [-100, -1]⟩, ?_, rfl, rfl, rfl, rfl⟩
  rw [train, outputCount_eq _ (unitNet_shape _ _ _ _) (Nat.le_refl _)]
  simp only [ok_bind]
  rw [if_neg (by decide)]
  exact hstep1.trans hstep2

/-! ## The exponential of the real numbers -/

theorem real_exp_small : Real.exp (1 / 1000) ≤ 3 := by
  have h1 : Real.exp (1 / 1000) ≤ Real.exp 1 := Real.exp_le_exp.2 (by norm_num)
  have h2 := Real.exp_one_lt_d9
  have h3 : (2.7182818286 : ℝ) ≤ 3 := by norm_num
  linarith

theorem real_exp_gt_one (x : ℝ) : 1 < Real.exp x ↔ 0 < x := Real.one_lt_exp_iff

/-! ## Counterexamples on the stop test -/

/-- Counterexample to C13 as stated: training on the records `lowRecord` and
`highRecord` from the weights `(-1/1000, -1, 0)` with the convergence range `R = 2`, the
precision 100 and unwritten slots that read as 0 runs three epochs with the
correct-counts 1, 2 and 2. After epoch 2 the claim gives the difference
`count 2 - count 0 = 1`, which is not 0, but `convergence` returns
`count 1 - count 2 = 0` and `train` stops. -/
theorem convergence_window_counterexample :
    ∃ res, train Real.exp (fun _ => 0) true (unitNet (-1 / 1000) (-1) 0 0)
        [lowRecord, highRecord] 2 10 (1 / 2) none 100 2 = .ok res ∧
      res.code = 0 ∧ res.epoch = 3 ∧ res.counts = [1, 2, 2] ∧ res.diffs = [-1, -1, 0] ∧
      res.diffs.getD 2 0 ≠ res.counts.getD 2 0 - res.counts.getD (2 - 2) 0 := by
  obtain ⟨res, hrun, hcode, hepoch, hcounts, hdiffs⟩ :=
    pair_run Real.exp Real.exp_pos real_exp_gt_one real_exp_small 0
  refine ⟨res, hrun, hcode, hepoch, hcounts, hdiffs, ?_⟩
  rw [hcounts, hdiffs]
  decide

/-- Counterexample to C14 as stated: training on a hundred times the record `lowRecord`
and once the record `highRecord` from the weights `(-1/1000, -1, 0)` with the precision
1 and the convergence range 2 stops after the second of ten allowed epochs, on the
difference `-1`: the quotient `100 * 1 * (-1) / 101` of C is 0, while the floor of the
exact quotient is `-1`. -/
theorem stop_condition_counterexample :
    ∃ res, train Real.exp (fun _ => 0) true (unitNet (-1 / 1000) (-1) 0 0)
        (List.replicate 100 lowRecord ++ [highRecord]) 101 10 (1 / 2) none 1 2 = .ok res ∧
      res.code = 0 ∧ res.epoch = 2 ∧ res.diffs = [-100, -1] ∧
      stopQuotient 1 (-1) 101 = 0 ∧
      ⌊((100 * 1 * (-1) : Int) : ℚ) / ((101 : Nat) : ℚ)⌋ = -1 := by
  obtain ⟨res, hrun, hcode, hepoch, -, hdiffs⟩ :=
    many_run Real.exp Real.exp_pos real_exp_gt_one real_exp_small 0
  refine ⟨res, hrun, hcode, hepoch, hdiffs, by decide, ?_⟩
  rw [Int.floor_eq_iff]
  norm_num

/-! ## Training on the logical AND -/

/-- C19 (failing input). The command line `test and.csv` with a file of records of two
inputs and one output: `getFileName`, `getOutputCount` and `getInputInfo` succeed with
`outputLen = 1`, `inputLen = 2` and `IOCount = 4`; without the flag `-l` the function
`getLayerCount` returns `2 / 7 = 0`, which the test `< 0` of `parseArgs` lets through;
`getNodeCounts` then writes `nodeCounts[0]` and `nodeCounts[-1]` in an array of no cell.
The call does not return -1: it leaves the defined behaviour with `layerCount = 0`. -/
theorem parseArgs_default_layerCount (atoi : List Char → Int) (atof : List Char → α)
    (params : paramaters α) :
    getFileName andArgv = some "and.csv".toList ∧
    getOutputCount atoi andArgv = 1 ∧
    getInputInfo (andFs "and.csv".toList) 0 (wrapInt (1 - 1)) = (0, 4, 2) ∧
    getLayerCount atoi andArgv 2 = 0 ∧
    getNodeCounts atoi andArgv 0 (List.replicate (0 : Int).toNat 0) 2 1 = .error .fault ∧
    parseArgs atoi atof andFs andArgv params = .error .fault := by
  refine ⟨by decide, rfl, by decide, rfl, rfl, ?_⟩
  rfl

/-! ## The sigmoid and the range of the activations -/

/-- The sigmoid of the real exponential, in closed form. -/
theorem sigmoid_real (x : ℝ) : sigmoid Real.exp x = 1 / (1 + Real.exp (-x)) := by
  unfold sigmoid
  rw [one_lit, zero_lit, zero_sub]

/-- The sigmoid in exact arithmetic: the function `sigmoid` of ANN.c,
`1.0/(1.0+exp(0.0-sum))`, with the exponential of the real numbers and no underflow, has
the value 1/2 at 0, lies strictly between 0 and 1 for every real argument and is
strictly increasing. -/
theorem sigmoid_real_properties :
    sigmoid Real.exp 0 = 1 / 2 ∧
      (∀ x : ℝ, 0 < sigmoid Real.exp x ∧ sigmoid Real.exp x < 1) ∧
      (∀ x y : ℝ, x < y → sigmoid Real.exp x < sigmoid Real.exp y) := by
  refine ⟨?_, fun x => sigmoid_mem Real.exp Real.exp_pos x, ?_⟩
  · rw [sigmoid_real, neg_zero, Real.exp_zero]
    norm_num
  · intro x y hxy
    rw [sigmoid_real, sigmoid_real]
    have hx : 0 < Real.exp (-x) := Real.exp_pos _
    have hy : 0 < Real.exp (-y) := Real.exp_pos _
    have hlt : Real.exp (-y) < Real.exp (-x) := Real.exp_lt_exp.2 (by linarith)
    exact one_div_lt_one_div_of_lt (by linarith) (by linarith)

/-- Every entry of a buffer of the shape of the network is the entry of a node. -/
theorem entry_of_mem (net : network α) (hs : ShapeInv net) (m : List (List α))
    (hdims : dims2 m = dims2 net.outputs) (row : List α) (hrow : row ∈ m) (a : α)
    (ha : a ∈ row) :
    ∃ l n, l < net.layerCount ∧ n < nodesOf net l ∧ a = at2 m l n := by
  obtain ⟨l, hl, rfl⟩ := List.mem_iff_getElem.1 hrow
  obtain ⟨n, hn, rfl⟩ := List.mem_iff_getElem.1 ha
  have hlen : m.length = net.layerCount := by
    rw [length_of_dims2 m _ hdims, hs.outputs_len]
  have hl' : l < net.layerCount := by omega
  have hg : m.getD l [] = m[l] := getD_eq_getElem _ _ _ hl
  have hrl : (m[l]).length = nodesOf net l := by
    rw [← hg, length_getD_of_dims2 m _ hdims l, hs.outputs_row l hl']
  refine ⟨l, n, hl', by omega, ?_⟩
  rw [at2, hg, getD_eq_getElem _ _ _ hn]

/-- The range of the activations where the exponential is positive everywhere: on a
network that satisfies the shape invariant, for any weights and any input vector of at
least `inputLen` characters, `runForward` ends normally with the weights unchanged, and
afterwards the activation of every node of every layer, that is every entry of the
activation buffer, lies strictly between 0 and 1. -/
theorem runForward_open_range (exp : α → α) (hexp : ∀ x, 0 < exp x) (net : network α)
    (hs : ShapeInv net) (ht : TranslatorsInv net) (hlayers : 1 ≤ net.layerCount)
    (input output : List Symbol) (hin : net.inputLen ≤ input.length)
    (hout : nodesOf net (net.layerCount - 1) ≤ output.length) :
    ∃ net' out, runForward exp net input output = .ok (net', out) ∧
      net'.weights = net.weights ∧ dims2 net'.outputs = dims2 net.outputs ∧
      (∀ l n, l < net.layerCount → n < nodesOf net l →
        ∃ a, get2 net'.outputs l n = some a ∧ 0 < a ∧ a < 1) ∧
      ∀ row ∈ net'.outputs, ∀ a ∈ row, 0 < a ∧ a < 1 := by
  obtain ⟨m, out, hrun, -, hdims, hvals, -, -⟩ :=
    runForward_ok exp hexp net hs ht hlayers input output hin hout
  refine ⟨_, out, hrun, rfl, hdims, ?_, ?_⟩
  · intro l n hl hn
    refine ⟨at2 m l n, get2_eq _ _ _ (output_lt net hs m hdims l n hl hn), ?_⟩
    rw [hvals l n hl hn]
    exact sigmoid_mem exp hexp _
  · intro row hrow a ha
    obtain ⟨l, n, hl, hn, rfl⟩ := entry_of_mem net hs m hdims row hrow a ha
    rw [hvals l n hl hn]
    exact sigmoid_mem exp hexp _

/-- The range of the activations of a network of one node with real weights and the real
exponential, on the input `"01"`. -/
theorem runForward_open_range_example :
    ∃ net' out, runForward Real.exp (unitNet (1 : ℝ) (-2) 3 7) [48, 49] [0] = .ok (net', out) ∧
      net'.weights = (unitNet (1 : ℝ) (-2) 3 7).weights ∧
      dims2 net'.outputs = dims2 (unitNet (1 : ℝ) (-2) 3 7).outputs ∧
      (∀ l n, l < (unitNet (1 : ℝ) (-2) 3 7).layerCount →
        n < nodesOf (unitNet (1 : ℝ) (-2) 3 7) l →
        ∃ a, get2 net'.outputs l n = some a ∧ 0 < a ∧ a < 1) ∧
      ∀ row ∈ net'.outputs, ∀ a ∈ row, 0 < a ∧ a < 1 :=
  runForward_open_range Real.exp Real.exp_pos (unitNet (1 : ℝ) (-2) 3 7)
    (unitNet_shape _ _ _ _) (unitNet_translators _ _ _ _) (Nat.le_refl 1) [48, 49] [0]
    (Nat.le_refl 2) (Nat.le_refl 1)

/-! ## The activation buffer is scratch memory -/

/-- C26. The activation buffer is pure scratch: on a well-shaped network, a run of
`runForward` from any other content `buf` of the activation buffer (of the same shape)
gives the same network, activations included, and the same output characters; and a
second run on the same input, started from the result of the first, gives the result of
the first again. -/
theorem runForward_scratch (exp : α → α) (hexp : ∀ x, 0 < exp x) (net : network α)
    (hs : ShapeInv net) (ht : TranslatorsInv net) (hlayers : 1 ≤ net.layerCount)
    (buf : List (List α)) (hbuf : dims2 buf = dims2 net.outputs)
    (input output output' : List Symbol) (hin : net.inputLen ≤ input.length)
    (hout : output.length = nodesOf net (net.layerCount - 1))
    (hout' : output'.length = nodesOf net (net.layerCount - 1)) :
    ∃ net1 out, runForward exp net input output = .ok (net1, out) ∧
      runForward exp { net with outputs := buf } input output' = .ok (net1, out) ∧
      runForward exp net1 input out = .ok (net1, out) := by
  have hs' : ShapeInv { net with outputs := buf } :=
    ShapeInv_of_dims net _ hs rfl rfl rfl hbuf rfl
  obtain ⟨m, out, hrun, hrun', hdims, hlen⟩ :=
    runForward_independent exp hexp net { net with outputs := buf } hs ht hlayers hs'
      ⟨rfl, rfl, rfl, rfl⟩ rfl input output output' hin hout hout'
  have hs1 : ShapeInv { net with outputs := m } :=
    ShapeInv_of_dims net _ hs rfl rfl rfl hdims rfl
  obtain ⟨m2, out2, hrun2, hrun2', -, -⟩ :=
    runForward_independent exp hexp net { net with outputs := m } hs ht hlayers hs1
      ⟨rfl, rfl, rfl, rfl⟩ rfl input output out hin hout hlen
  rw [hrun] at hrun2
  injection hrun2 with h2
  injection h2 with hnet hout2
  have hm : m2 = m := by
    have := congrArg network.outputs hnet
    exact this.symm
  subst hm
  subst hout2
  exact ⟨_, out, hrun, hrun', hrun2'⟩

/-- Witness for C26: the sample network, with the content of its buffer and with another
one, on the input `"01"`. -/
theorem runForward_scratch_witness :
    ∃ net1 out, runForward sampleExp sampleNet [48, 49] [0] = .ok (net1, out) ∧
      runForward sampleExp { sampleNet with outputs := [[5, -3], [1 / 7]] } [48, 49] [49]
        = .ok (net1, out) ∧
      runForward sampleExp net1 [48, 49] out = .ok (net1, out) :=
  runForward_scratch sampleExp sampleExp_pos sampleNet sampleNet_shape sampleNet_translators
    (by decide) [[5, -3], [1 / 7]] rfl [48, 49] [0] [49] (by decide) rfl rfl

/-! ## The stop test in the first epochs -/

/-- The quotient of the stop test for the difference `-c`: with a precision that is not
negative and products inside the range of `int` it is 0 exactly when `100*precision*c`
is smaller than the number of training records. -/
theorem stopQuotient_neg_count (precision c : Int) (T : Nat) (hT0 : 0 < T) (hp : 0 ≤ precision)
    (hc0 : 0 ≤ c) (hcT : c ≤ (T : Int)) (hrange : 100 * precision * (T : Int) < 2 ^ 31) :
    stopQuotient precision (-c) T = 0 ↔ 100 * precision * c < (T : Int) := by
  have hT1 : (1 : Int) ≤ (T : Int) := by exact_mod_cast hT0
  have h100 : 0 ≤ 100 * precision := by omega
  have hle1 : 100 * precision ≤ 100 * precision * (T : Int) := by nlinarith
  have hle2 : 100 * precision * c ≤ 100 * precision * (T : Int) :=
    mul_le_mul_of_nonneg_left hcT h100
  have hnn : 0 ≤ 100 * precision * c := mul_nonneg h100 hc0
  have hw1 : wrapInt (100 * precision) = 100 * precision :=
    wrapInt_of_small _ (by omega) (by omega)
  have hw2 : wrapInt (100 * precision * -c) = -(100 * precision * c) := by
    rw [mul_neg]
    exact wrapInt_of_small _ (by omega) (by omega)
  rw [stopQuotient_eq_zero_iff _ _ _ hT0, hw1, hw2, Int.natAbs_neg]
  omega

/-- Unwritten accuracy slots in the stop test: with every slot of `accuracy` read as 0
until an epoch writes it, the stop test after each of the first `R - 1` epochs compares
the unwritten slot with the correct-count `c` of the epoch: the difference is `-c`, and
`train` stops there exactly when the `int` quotient `100*precision*(-c)/trainingIOCount`
is 0. With products inside the range of `int` training goes on when
`trainingIOCount ≤ 100*precision*c`, but it stops when `100*precision*c` is smaller, in
particular after an epoch in which no record is classified. -/
theorem unwritten_slots (exp : α → α) (hexp : ∀ x, 0 < exp x)
    (fopenOk : Bool) (net : network α)
    (hs : ShapeInv net) (ht : TranslatorsInv net) (hlayers : 1 ≤ net.layerCount)
    (ios : List IOData) (hwf : WellFormedExamples net ios) (T : Nat) (hT0 : 0 < T)
    (hT : T ≤ ios.length) (hTint : (T : Int) < 2 ^ 31) (maxEpoch : Nat) (hmax : 0 < maxEpoch)
    (lr : α) (dumpFileName : Option String) (hdump : dumpFileName = none ∨ fopenOk = true)
    (precision : Int) (hp : 0 ≤ precision)
    (hrange : 100 * precision * (T : Int) < 2 ^ 31) (R : Nat) (hR : 0 < R) :
    ∃ res, train exp (fun _ => 0) fopenOk net ios T maxEpoch lr dumpFileName precision R
        = .ok res ∧
      ∀ k, k < res.diffs.length → k + 1 < R →
        res.diffs[k]? = some (-(res.counts.getD k 0)) ∧
        ((res.code = 0 ∧ res.epoch = k + 1) ↔
          stopQuotient precision (-(res.counts.getD k 0)) T = 0) ∧
        ((res.code = 0 ∧ res.epoch = k + 1) ↔
          100 * precision * res.counts.getD k 0 < (T : Int)) ∧
        (res.counts.getD k 0 = 0 → res.code = 0 ∧ res.epoch = k + 1) := by
  obtain ⟨res, hres, hcode, -, -, -, hlen, hle, hcounts, hdiff, hstop, h0, h1, -⟩ :=
    train_spec exp hexp (fun _ => 0) fopenOk net hs ht hlayers ios hwf T hT0 hT maxEpoch hmax lr
      dumpFileName hdump precision R hR
  refine ⟨res, hres, ?_⟩
  intro k hk hkR
  have hkc : k < res.counts.length :=
    lt_of_lt_of_le hk (diffs_le_counts α res maxEpoch hcode hlen hle h0 (fun h => (h1 h).1))
  obtain ⟨hc0, hcT⟩ := hcounts _ (List.getElem_mem hkc)
  rw [← getD_eq_getElem _ _ 0 hkc] at hc0 hcT
  have hT1 : (1 : Int) ≤ (T : Int) := by exact_mod_cast hT0
  have hd : diffRef (fun _ => 0) R res.counts k = -(res.counts.getD k 0) := by
    unfold diffRef
    rw [if_neg (by omega), zero_sub]
    exact wrapInt_of_small _ (by omega) (by omega)
  have hq := stopQuotient_neg_count precision (res.counts.getD k 0) T hT0 hp hc0 hcT hrange
  have hst := hstop k hk
  rw [hd] at hst
  refine ⟨by rw [← hd]; exact hdiff k hk, hst.symm, hst.symm.trans hq, ?_⟩
  intro hzero
  apply hst.1
  rw [hq, hzero]
  omega

/-- The stop tests on unwritten slots of the sample network trained on two records. -/
theorem unwritten_slots_example :
    ∃ res, train sampleExp (fun _ => 0) true sampleNet [⟨[48, 48], [48]⟩, ⟨[49, 49], [49]⟩] 2
        10 (1 / 2) none 100 2 = .ok res ∧
      ∀ k, k < res.diffs.length → k + 1 < 2 →
        res.diffs[k]? = some (-(res.counts.getD k 0)) ∧
        ((res.code = 0 ∧ res.epoch = k + 1) ↔
          stopQuotient 100 (-(res.counts.getD k 0)) 2 = 0) ∧
        ((res.code = 0 ∧ res.epoch = k + 1) ↔
          100 * 100 * res.counts.getD k 0 < ((2 : Nat) : Int)) ∧
        (res.counts.getD k 0 = 0 → res.code = 0 ∧ res.epoch = k + 1) :=
  unwritten_slots sampleExp sampleExp_pos true sampleNet sampleNet_shape
    sampleNet_translators (by decide) [⟨[48, 48], [48]⟩, ⟨[49, 49], [49]⟩] sampleNet_examples 2
    (by decide) (by decide) (by decide) 10 (by decide) (1 / 2) none (Or.inl rfl) 100
    (by decide) (by decide) 2 (by decide)

/-- C22. Unwritten accuracy slots, on a run in which they trigger convergence: training
on the single record `highRecord` from the weights `(-1, -1, 0)`, with the real
exponential, at most 5000 epochs, the precision 100, the convergence range 32 and
unwritten slots that read as 0. The first epoch classifies no record, so the first stop
test compares the unwritten slot 1 with the count 0, the difference is 0 and `train`
returns 0 after one epoch, long before the slot it has compared was written and before
the 32 epochs of the convergence range have passed. -/
theorem train_stops_on_unwritten_slot :
    ∃ res, train Real.exp (fun _ => 0) true (unitNet (-1 : ℝ) (-1) 0 0) [highRecord] 1 5000
        (1 / 2) none 100 32 = .ok res ∧
      res.code = 0 ∧ res.epoch = 1 ∧ res.counts = [0] ∧ res.diffs = [0] ∧
      res.epoch < 5000 ∧ res.epoch < 32 := by
  obtain ⟨a1, href1⟩ := lows_high_epoch Real.exp Real.exp_pos real_exp_gt_one (1 / 2) (-1 : ℝ) 0
    (by norm_num) 0
  rw [if_pos (by norm_num), if_pos (by norm_num)] at href1
  obtain ⟨out1, hlen1, hstep1⟩ := train_loop_step Real.exp Real.exp_pos
    (unitNet (-1 : ℝ) (-1) 0 0)
    (unitNet_shape _ _ _ _) (unitNet_translators _ _ _ _) (Nat.le_refl _)
    [highRecord] (lows_high_examples _ _ _ _ 0) 1 (by decide) (Nat.le_refl _) 5000 (1 / 2) 100
    32 (by decide) 0 [0] rfl (List.replicate 32 0) rfl [] [] _ _ href1
  rw [if_pos (by decide), if_neg (by decide)] at hstep1
  refine ⟨⟨0, 1, ⟨unitNet (-1 + 1 / 2 * unitDelta (sigmoid Real.exp (-1)) 49) (-1) 0 a1,
    out1, (List.replicate 32 0).set (0 % 32) ((0 : Nat) : Int)⟩, [0], [0]⟩, ?_, rfl, rfl, rfl, rfl,
    (by decide : 1 < 5000), (by decide : 1 < 32)⟩
  rw [train, outputCount_eq _ (unitNet_shape _ _ _ _) (Nat.le_refl _)]
  simp only [ok_bind]
  rw [if_neg (by decide)]
  exact hstep1

/-! ## The composed program: translators and training records -/

theorem lengthOf_ok (x : Int) (h : 0 ≤ x) : lengthOf x = .ok x.toNat := by
  rw [lengthOf, if_pos h]

theorem mapM_lengthOf (xs : List Int) (h : ∀ c ∈ xs, 0 ≤ c) :
    xs.mapM lengthOf = .ok (xs.map Int.toNat) := by
  induction xs with
  | nil => rfl
  | cons c rest ih =>
    rw [List.mapM_cons, lengthOf_ok c (h c (List.mem_cons_self _ _)),
      ih (fun d hd => h d (List.mem_cons_of_mem _ hd))]
    rfl

/-- The number of training records `(int)(IOCount*trainingPartion)` is at least 1 and
at most `IOCount` when the product is at least 1 and the partition is below 1, for a
rounding `rnd` of the product that does not cross a whole number. -/
theorem training_count (rnd : α → α)
    (hrnd1 : ∀ (x : α) (k : Int), (k : α) ≤ x → (k : α) ≤ rnd x)
    (hrnd2 : ∀ (x : α) (k : Int), x ≤ (k : α) → rnd x ≤ (k : α))
    (n : Nat) (hn : (n : Int) < 2 ^ 31) (p : α) (hp : p < 1) (h1 : 1 ≤ (n : α) * p) :
    1 ≤ (doubleToInt (rnd ((n : α) * p))).toNat ∧
      (doubleToInt (rnd ((n : α) * p))).toNat ≤ n ∧ 0 ≤ doubleToInt (rnd ((n : α) * p)) := by
  have hn0 : (0 : α) ≤ (n : α) := Nat.cast_nonneg n
  have hle : (n : α) * p ≤ ((n : Int) : α) := by
    have : (n : α) * p ≤ (n : α) * 1 := mul_le_mul_of_nonneg_left (le_of_lt hp) hn0
    simpa using this
  have hy1 : (1 : α) ≤ rnd ((n : α) * p) := by
    have := hrnd1 ((n : α) * p) 1 (by simpa using h1)
    simpa using this
  have hy2 : rnd ((n : α) * p) ≤ ((n : Int) : α) := hrnd2 _ _ hle
  have h0 : (0 : α) ≤ rnd ((n : α) * p) := le_trans zero_le_one hy1
  have htr : truncToInt (rnd ((n : α) * p)) = ⌊rnd ((n : α) * p)⌋ := truncToInt_of_nonneg _ h0
  have hlo : (1 : Int) ≤ ⌊rnd ((n : α) * p)⌋ := Int.le_floor.2 (by simpa using hy1)
  have hhi : ⌊rnd ((n : α) * p)⌋ ≤ (n : Int) :=
    (Int.floor_le_floor hy2).trans (le_of_eq (Int.floor_intCast _))
  have hd : doubleToInt (rnd ((n : α) * p)) = ⌊rnd ((n : α) * p)⌋ := by
    rw [doubleToInt, htr, if_pos ⟨by omega, by omega⟩]
  rw [hd]
  omega

/-- In a network whose translators come from `buildTranslationMatrix` over the records
`io`, the desired characters of every record are known. -/
theorem known_of_built (net : network α) (io : List IOData) (outputLen : Nat)
    (hnodes : nodesOf net (net.layerCount - 1) = outputLen)
    (hbuilt : ∀ o, o < outputLen → ∃ t : translation, net.translations[o]? = some t ∧
      ∀ s : Symbol, s ∈ t.entries ↔ occursAt io.length io o s)
    (r : IOData) (hr : r ∈ io) (hlen : outputLen ≤ r.output.length) :
    KnownSymbols net r.output := by
  intro n hn
  rw [hnodes] at hn
  obtain ⟨t, ht, hmem⟩ := hbuilt n hn
  have hnr : n < r.output.length := by omega
  obtain ⟨i, hi, hri⟩ := List.mem_iff_getElem.1 hr
  refine ⟨r.output[n], t, List.getElem?_eq_getElem hnr, ht, (hmem _).2 ?_⟩
  exact ⟨i, hi, r, by rw [← hri]; exact List.getElem?_eq_getElem hi,
    List.getElem?_eq_getElem hnr⟩

/-- The composed program on records whose output characters are all below 128: `main`
builds the translators with `buildTranslationMatrix` over all `IOCount` records of `io`
and trains on the first `(int)(IOCount*trainingPartion)` of them. For parameters as
`parseArgs` accepts them (at least one layer, a last layer of `outputLen` nodes, a
partition between 0 and 1) and records of `inputLen` and `outputLen` characters, `main`
reaches the call of `train`; `translateOutput` succeeds for the desired character of
every record at every output position; `BPandWeightUpdate` returns 0 for every record in
any state of the weights and the buffer; and `train` returns 0. -/
theorem main_training_low (exp : α → α) (hexp : ∀ x, 0 < exp x) (rnd : α → α)
    (hrnd1 : ∀ (x : α) (k : Int), (k : α) ≤ x → (k : α) ≤ rnd x)
    (hrnd2 : ∀ (x : α) (k : Int), x ≤ (k : α) → rnd x ≤ (k : α))
    (rand : Nat → Nat)
    (RAND_MAX : Nat) (garbage : Nat → Int) (fopenOk : Bool) (params : paramaters α)
    (io : List IOData) (hnum : params.IOCount = (io.length : Int))
    (hint : params.IOCount < 2 ^ 31)
    (hin : 0 ≤ params.inputLen) (hout : 0 ≤ params.outputLen)
    (hrec : ∀ r ∈ io, params.inputLen.toNat ≤ r.input.length ∧
      params.outputLen.toNat ≤ r.output.length)
    (hlow : ∀ r ∈ io, ∀ c ∈ r.output, c.val < 128)
    (hlayers : 1 ≤ params.layerCount)
    (hnc : (params.nodeCounts.length : Int) = params.layerCount)
    (hnn : ∀ c ∈ params.nodeCounts, 0 ≤ c)
    (hlast : params.nodeCounts.getLast? = some params.outputLen)
    (hpart : params.trainingPartion < 1)
    (hcount : 1 ≤ (params.IOCount : α) * params.trainingPartion)
    (hmax : 0 < params.maxEpoch) (hR : 0 < params.converganceRange)
    (hdump : params.dumpFile = none ∨ fopenOk = true) :
    ∃ net res, main.training exp rnd rand RAND_MAX garbage fopenOk params io
        = .ok (some (net, res)) ∧
      net.translations.length = params.outputLen.toNat ∧
      (∀ r ∈ io, ∀ o, o < params.outputLen.toNat →
        ∃ c t, r.output[o]? = some c ∧ net.translations[o]? = some t ∧ c ∈ t.entries ∧
          ∃ f : α, translateOutput c t = .ok f ∧ 0 < f) ∧
      (∀ net' : network α, ShapeInv net' → SameTopology net net' → ∀ r ∈ io,
        ∃ net'', BPandWeightUpdate net' r.input r.output params.learningRate = .ok (0, net'')) ∧
      res.code = 0 := by
  -- the sizes
  have hIOn : 0 ≤ params.IOCount := by rw [hnum]; exact Int.natCast_nonneg _
  have hIOt : params.IOCount.toNat = io.length := by rw [hnum]; exact Int.toNat_natCast _
  have hcast : (params.IOCount : α) = (io.length : α) := by rw [hnum]; exact Int.cast_natCast _
  rw [hcast] at hcount
  obtain ⟨hT1, hTle, hTn⟩ := training_count rnd hrnd1 hrnd2 io.length (by rw [← hnum]; exact hint)
    params.trainingPartion hpart hcount
  have hpos : 1 ≤ io.length := le_trans hT1 hTle
  -- the translators
  obtain ⟨ts, hts, htl, hbuilt⟩ := buildTranslationMatrix_low io.length params.outputLen.toNat io
    (List.replicate params.outputLen.toNat ⟨0, []⟩) hpos (Nat.le_refl _)
    (fun r hr => (hrec r hr).2) hlow (List.length_replicate _ _)
  -- the network
  have hncl : (params.nodeCounts.map Int.toNat).length = params.layerCount.toNat := by
    rw [List.length_map]; omega
  obtain ⟨net, hnet, hnet1, hnet2, hnet3, hnet4, hs⟩ := buildNetwork_ok (α := α) rand RAND_MAX
    params.inputLen.toNat params.layerCount.toNat (params.nodeCounts.map Int.toNat) ts hncl
  have hlay : 1 ≤ net.layerCount := by rw [hnet2]; omega
  have hnodes : nodesOf net (net.layerCount - 1) = params.outputLen.toNat := by
    rw [nodesOf, hnet3, hnet2]
    have hl : params.nodeCounts.length = params.layerCount.toNat := by omega
    have hne : params.nodeCounts ≠ [] := by
      intro h
      rw [h] at hl
      simp at hl
      omega
    rw [List.getLast?_eq_getLast _ hne] at hlast
    injection hlast with hlast
    rw [List.getLast_eq_getElem] at hlast
    have hidx : params.layerCount.toNat - 1 < (params.nodeCounts.map Int.toNat).length := by
      rw [hncl]; omega
    rw [getD_eq_getElem _ _ _ hidx, List.getElem_map]
    simp only [← hl, hlast]
  have ht : TranslatorsInv net := by
    refine ⟨by rw [hnet4, htl, hnodes], ?_⟩
    intro t hmem
    rw [hnet4] at hmem
    obtain ⟨o, ho, hto⟩ := List.mem_iff_getElem.1 hmem
    obtain ⟨t', ht', -, -, -, hc, hc1⟩ := hbuilt o (by omega)
    rw [List.getElem?_eq_getElem ho, hto] at ht'
    injection ht' with ht'
    subst ht'
    exact ⟨hc, hc1⟩
  have hwf : WellFormedExamples net io := by
    intro r hr
    rw [hnet1, hnodes]
    exact hrec r hr
  have hknown : ∀ net' : network α, SameTopology net net' → ∀ r ∈ io, KnownSymbols net' r.output := by
    intro net' hsame r hr
    apply known_of_built net' io params.outputLen.toNat
      (by rw [outputNodes_same net net' hsame]; exact hnodes) ?_ r hr (hrec r hr).2
    intro o ho
    obtain ⟨t, hto, hmem, -⟩ := hbuilt o ho
    exact ⟨t, by rw [hsame.translations_eq, hnet4]; exact hto, hmem⟩
  have hbp : ∀ net' : network α, ShapeInv net' → SameTopology net net' → ∀ r ∈ io,
      ∃ net'', BPandWeightUpdate net' r.input r.output params.learningRate = .ok (0, net'') := by
    intro net' hs' hsame r hr
    have ht' : TranslatorsInv net' := by
      refine ⟨?_, ?_⟩
      · rw [hsame.translations_eq, outputNodes_same net net' hsame]; exact ht.translations_len
      · rw [hsame.translations_eq]; exact ht.counts
    obtain ⟨-, w', -, -, -, -, hcall⟩ := BPandWeightUpdate_ok net' hs' ht' r.input r.output
      params.learningRate (by rw [hsame.inputLen_eq]; exact (hwf r hr).1)
      (by rw [outputNodes_same net net' hsame]; exact (hwf r hr).2) (hknown net' hsame r hr)
    exact ⟨_, hcall⟩
  -- the call of `train`
  obtain ⟨res, hres, hcode, hs1, -, hsame1, -, -, -, -, -, -, hfail, -⟩ :=
    train_spec exp hexp garbage fopenOk net hs ht hlay io hwf
      (doubleToInt (rnd ((io.length : α) * params.trainingPartion))).toNat hT1 hTle
      params.maxEpoch.toNat (by omega) params.learningRate (params.dumpFile.map String.mk)
      (by
        rcases hdump with h | h
        · left; rw [h]; rfl
        · right; exact h)
      params.precision params.converganceRange.toNat (by omega)
  refine ⟨net, res, ?_, by rw [hnet4, htl], ?_, hbp, ?_⟩
  · simp only [main.training, lengthOf_ok _ hIOn, lengthOf_ok _ hout, lengthOf_ok _ hin,
      lengthOf_ok _ (le_trans zero_le_one hlayers), lengthOf_ok _ (le_of_lt hR), hcast,
      lengthOf_ok _ hTn, mapM_lengthOf _ hnn, ok_bind, hIOt, hts, hnet, hres]
    rfl
  · intro r hr o ho
    obtain ⟨c, t, hc, htr, hmem⟩ := hknown net (SameTopology.refl net) r hr o
      (by rw [hnodes]; exact ho)
    obtain ⟨hcnt, -⟩ := ht.counts t (mem_of_getElem?_eq _ _ _ htr)
    obtain ⟨f, hf, hcase⟩ := translateOutput_total (α := α) t c hcnt
    rcases hcase with ⟨-, hpos'⟩ | ⟨hnot, -⟩
    · exact ⟨c, t, hc, htr, hmem, f, hf, hpos'⟩
    · exact absurd hmem hnot
  · rcases hcode with h | h
    · exact h
    · obtain ⟨-, -, i, r, hi, hri, hcall⟩ := hfail h
      obtain ⟨net'', hok⟩ := hbp res.state.network hs1 hsame1 r (mem_of_getElem?_eq _ _ _ hri)
      rw [hok] at hcall
      injection hcall with hcall
      injection hcall with hc0 _
      exact absurd hc0 (by decide)

theorem andExamples_low : ∀ r ∈ andExamples, ∀ c ∈ r.output, c.val < 128 := by
  intro r hr c hc
  simp only [andExamples, List.mem_cons, List.mem_singleton, List.not_mem_nil, or_false] at hr
  rcases hr with rfl | rfl | rfl | rfl <;>
    · simp only [List.mem_singleton] at hc
      subst hc
      decide

/-- The composed program on the four records of the AND function with the parameters
`andParams`. -/
theorem main_training_low_example :
    ∃ net res, main.training sampleExp id (fun k => k) 7 (fun _ => 0) true andParams andExamples
        = .ok (some (net, res)) ∧
      net.translations.length = andParams.outputLen.toNat ∧
      (∀ r ∈ andExamples, ∀ o, o < andParams.outputLen.toNat →
        ∃ c t, r.output[o]? = some c ∧ net.translations[o]? = some t ∧ c ∈ t.entries ∧
          ∃ f : ℚ, translateOutput c t = .ok f ∧ 0 < f) ∧
      (∀ net' : network ℚ, ShapeInv net' → SameTopology net net' → ∀ r ∈ andExamples,
        ∃ net'', BPandWeightUpdate net' r.input r.output andParams.learningRate
          = .ok (0, net'')) ∧
      res.code = 0 :=
  main_training_low sampleExp sampleExp_pos id (fun _ _ h => h) (fun _ _ h => h) (fun k => k) 7
    (fun _ => 0) true andParams andExamples rfl (by decide) (by decide) (by decide) (by decide)
    andExamples_low (by decide) rfl (by decide) rfl
    (by norm_num [andParams]) (by norm_num [andParams, andExamples]) (by decide) (by decide)
    (Or.inl rfl)

/-! ## The composed program on a character from 128 on -/

/-- C25. Unknown symbols in the composed program, on three records of which the first has
the byte 200 as its desired character: `main` calls `buildTranslationMatrix`, whose
statement `entries[(int)c] = 1` writes at the index -56, outside the table of flags, so
the byte 200 is not flagged. For the translator of the characters `'0'` and `'1'`, which
the other two records give, `translateOutput` answers the byte 200 with -1, the call of
`BPandWeightUpdate` on the first record returns -1 for any weights, and `train` on the
first two of the three records returns -1 in the first round of the first epoch. -/
theorem main_training_high_byte :
    main.training Real.exp id (fun k => k) 7 (fun _ => 0) true highByteParams highByteRecords
      = .error .fault ∧
    buildTranslationMatrix 3 1 highByteRecords [⟨0, []⟩] = .error .fault ∧
    charValue 200 = -56 ∧
    translateOutput 200 ⟨2, [48, 49]⟩ = (.ok (-1) : Exec ℝ) ∧
    ∀ b w1 w2 : ℝ,
      BPandWeightUpdate (unitNet b w1 w2 (sigmoid Real.exp (unitSum b w1 w2 48 49))) [48, 49]
          [200] (1 / 2)
        = .ok (-1, unitNet b w1 w2 (sigmoid Real.exp (unitSum b w1 w2 48 49))) ∧
      train Real.exp (fun _ => 0) true (unitNet b w1 w2 0) highByteRecords 2 5000 (1 / 2) none
          100 32
        = .ok { code := -1, epoch := 0,
                state := { network := unitNet b w1 w2 (sigmoid Real.exp (unitSum b w1 w2 48 49)),
                           output := [if unitSum b w1 w2 48 49 < 0 then 48 else 49],
                           accuracy := ((List.range 32).map (fun _ => (0 : Int))).set 0 0 },
                counts := [], diffs := [] } := by
  have hb : buildTranslationMatrix 3 1 highByteRecords [⟨0, []⟩] = .error .fault :=
    buildTranslationMatrix_high 3 1 _ _ ⟨[48, 49], [200]⟩ 200 (by decide) (by decide) rfl rfl
      (by decide)
  refine ⟨?_, hb, by decide, translateOutput_of_not_mem ⟨2, [48, 49]⟩ 200 rfl (by decide), ?_⟩
  · have h1 : lengthOf (highByteParams (α := ℝ)).IOCount = .ok 3 := rfl
    have h2 : lengthOf (highByteParams (α := ℝ)).outputLen = .ok 1 := rfl
    have h3 : List.replicate 1 (⟨0, []⟩ : translation) = [⟨0, []⟩] := rfl
    simp only [main.training, h1, h2, ok_bind, h3, hb]
    rfl
  · intro b w1 w2
    exact ⟨unitNet_BP_unknown b w1 w2 _ (1 / 2) 48 49 200 (by decide) (by decide),
      unitNet_unknown_run Real.exp Real.exp_pos real_exp_gt_one (fun _ => 0) true b w1 w2 0
        (1 / 2) 48 49 200 (by decide) (by decide) _ 2 (by decide) 5000 100 32 (by decide)⟩

/-! ## The derivative of the activations along a correction -/

/-- The derivative of the sigmoid of the real exponential is `s * (1 - s)`, the factor
that `BPandWeightUpdate` puts in every delta. -/
theorem sigmoid_hasDerivAt (z : ℝ) :
    HasDerivAt (sigmoid Real.exp) (sigmoid Real.exp z * (1 - sigmoid Real.exp z)) z := by
  have hfun : sigmoid Real.exp = fun x : ℝ => (1 + Real.exp (-x))⁻¹ := by
    funext x
    rw [sigmoid_real, one_div]
  have hpos : (1 + Real.exp (-z)) ≠ 0 := by positivity
  have h1 : HasDerivAt (fun x : ℝ => Real.exp (-x)) (Real.exp (-z) * (-1)) z :=
    (Real.hasDerivAt_exp (-z)).comp z (hasDerivAt_neg z)
  have h2 : HasDerivAt (fun x : ℝ => 1 + Real.exp (-x)) (Real.exp (-z) * (-1)) z :=
    h1.const_add 1
  have h3 := h2.inv hpos
  rw [hfun]
  convert h3 using 1
  field_simp
  ring

/-- The derivative at 0 of a weighted sum whose weights move along the direction `d` and
whose sources are differentiable. -/
theorem weighted_hasDerivAt (w0 d0 : ℝ) (k : Nat) (w d : Nat → ℝ) (s : Nat → ℝ → ℝ)
    (s' : Nat → ℝ) (hs : ∀ i, i < k → HasDerivAt (s i) (s' i) 0) :
    HasDerivAt (fun r => w0 + r * d0 + ∑ i in Finset.range k, (w i + r * d i) * s i r)
      (d0 + ∑ i in Finset.range k, (d i * s i 0 + w i * s' i)) 0 := by
  have hA : HasDerivAt (fun r : ℝ => w0 + r * d0) d0 0 := by
    simpa using ((hasDerivAt_id (0 : ℝ)).mul_const d0).const_add w0
  have hW : ∀ i, HasDerivAt (fun r : ℝ => w i + r * d i) (d i) 0 := fun i => by
    simpa using ((hasDerivAt_id (0 : ℝ)).mul_const (d i)).const_add (w i)
  have hB : ∀ i ∈ Finset.range k,
      HasDerivAt (fun r : ℝ => (w i + r * d i) * s i r) (d i * s i 0 + w i * s' i) 0 := by
    intro i hi
    have h := (hW i).mul (hs i (Finset.mem_range.1 hi))
    simpa using h
  exact hA.add (HasDerivAt.sum hB)

/-- The activation of a node of layer 0 and of a later layer, unfolded. -/
theorem activationRef_zero (exp : α → α) (w : Nat → Nat → Nat → α) (fan : Nat → Nat)
    (x : Nat → α) (n : Nat) :
    activationRef exp w fan x 0 n
      = sigmoid exp (w 0 n 0 + ∑ i in Finset.range (fan 0), w 0 n (i + 1) * x i) := rfl

theorem activationRef_succ (exp : α → α) (w : Nat → Nat → Nat → α) (fan : Nat → Nat)
    (x : Nat → α) (l n : Nat) :
    activationRef exp w fan x (l + 1) n
      = sigmoid exp (w (l + 1) n 0 + ∑ i in Finset.range (fan (l + 1)),
          w (l + 1) n (i + 1) * activationRef exp w fan x l i) := rfl

/-- Forward and backward propagation agree. The weights move from `W` along the
direction `D l n i = source l i * δ l n`, where `δ` satisfies the recursion of the
deltas of the hidden layers. Then every activation of a layer `l` is differentiable in
the step at 0, with a derivative `a * (1 - a) * z n`, and the sum of `δ l n * z n` over
the nodes of the layer is at least the sum of the squares of the deltas of the layer. -/
theorem tangent_layers (W D : Nat → Nat → Nat → ℝ) (fan N : Nat → Nat) (x : Nat → ℝ)
    (δ : Nat → Nat → ℝ) (Lmax : Nat)
    (hfan : ∀ l, l < Lmax → fan (l + 1) = N l)
    (hD0 : ∀ l n, D l n 0 = δ l n)
    (hDx : ∀ n i, D 0 n (i + 1) = x i * δ 0 n)
    (hDa : ∀ l n i, l < Lmax → i < N l →
      D (l + 1) n (i + 1) = activationRef Real.exp W fan x l i * δ (l + 1) n)
    (hδ : ∀ l n, l < Lmax → n < N l →
      δ l n = activationRef Real.exp W fan x l n * (1 - activationRef Real.exp W fan x l n) *
        ∑ m in Finset.range (N (l + 1)), δ (l + 1) m * W (l + 1) m (n + 1)) :
    ∀ l, l ≤ Lmax → ∃ z : Nat → ℝ,
      (∀ n, HasDerivAt
        (fun r => activationRef Real.exp (fun l n i => W l n i + r * D l n i) fan x l n)
        (activationRef Real.exp W fan x l n * (1 - activationRef Real.exp W fan x l n) * z n)
        0) ∧
      ∑ n in Finset.range (N l), δ l n ^ 2 ≤ ∑ n in Finset.range (N l), δ l n * z n := by
  have hzero : (fun l n i => W l n i + (0 : ℝ) * D l n i) = W := by
    funext l n i
    rw [zero_mul, add_zero]
  intro l
  induction l with
  | zero =>
    intro _
    refine ⟨fun n => D 0 n 0 + ∑ i in Finset.range (fan 0),
      (D 0 n (i + 1) * x i + W 0 n (i + 1) * 0), ?_, ?_⟩
    · intro n
      have hg := weighted_hasDerivAt (W 0 n 0) (D 0 n 0) (fan 0) (fun i => W 0 n (i + 1))
        (fun i => D 0 n (i + 1)) (fun i _ => x i) (fun _ => 0)
        (fun i _ => hasDerivAt_const _ _)
      have hc := (sigmoid_hasDerivAt _).comp 0 hg
      have hval : W 0 n 0 + 0 * D 0 n 0 + ∑ i in Finset.range (fan 0),
          (W 0 n (i + 1) + 0 * D 0 n (i + 1)) * x i
          = W 0 n 0 + ∑ i in Finset.range (fan 0), W 0 n (i + 1) * x i := by
        simp only [zero_mul, add_zero]
      simp only [hval] at hc
      exact hc
    · apply Finset.sum_le_sum
      intro n _
      have h : δ 0 n * (D 0 n 0 + ∑ i in Finset.range (fan 0),
          (D 0 n (i + 1) * x i + W 0 n (i + 1) * 0))
          = δ 0 n ^ 2 + ∑ i in Finset.range (fan 0), (x i * δ 0 n) ^ 2 := by
        simp only [hD0, hDx, mul_zero, add_zero, mul_add, Finset.mul_sum]
        congr 1
        · ring
        · exact Finset.sum_congr rfl (fun i _ => by ring)
      show δ 0 n ^ 2 ≤ δ 0 n * _
      rw [h]
      exact le_add_of_nonneg_right (Finset.sum_nonneg (fun i _ => sq_nonneg _))
  | succ l ih =>
    intro hl
    have hl' : l < Lmax := by omega
    obtain ⟨z, hz, hle⟩ := ih (by omega)
    have hf := hfan l hl'
    refine ⟨fun n => D (l + 1) n 0 + ∑ i in Finset.range (fan (l + 1)),
      (D (l + 1) n (i + 1) * activationRef Real.exp W fan x l i + W (l + 1) n (i + 1) *
        (activationRef Real.exp W fan x l i * (1 - activationRef Real.exp W fan x l i) * z i)),
      ?_, ?_⟩
    · intro n
      have hg := weighted_hasDerivAt (W (l + 1) n 0) (D (l + 1) n 0) (fan (l + 1))
        (fun i => W (l + 1) n (i + 1)) (fun i => D (l + 1) n (i + 1))
        (fun i r => activationRef Real.exp (fun l n i => W l n i + r * D l n i) fan x l i)
        (fun i => activationRef Real.exp W fan x l i *
          (1 - activationRef Real.exp W fan x l i) * z i)
        (fun i _ => hz i)
      have hc := (sigmoid_hasDerivAt _).comp 0 hg
      simp only [hzero, zero_mul, add_zero] at hc
      exact hc
    · rw [hf]
      have hsum : ∑ n in Finset.range (N (l + 1)), δ (l + 1) n *
          (D (l + 1) n 0 + ∑ i in Finset.range (N l),
            (D (l + 1) n (i + 1) * activationRef Real.exp W fan x l i + W (l + 1) n (i + 1) *
              (activationRef Real.exp W fan x l i *
                (1 - activationRef Real.exp W fan x l i) * z i)))
          = ∑ n in Finset.range (N (l + 1)), (δ (l + 1) n ^ 2 +
              ∑ i in Finset.range (N l), (activationRef Real.exp W fan x l i * δ (l + 1) n) ^ 2) +
            ∑ i in Finset.range (N l), δ l i * z i := by
        have hterm : ∀ n ∈ Finset.range (N (l + 1)), δ (l + 1) n *
            (D (l + 1) n 0 + ∑ i in Finset.range (N l),
              (D (l + 1) n (i + 1) * activationRef Real.exp W fan x l i + W (l + 1) n (i + 1) *
                (activationRef Real.exp W fan x l i *
                  (1 - activationRef Real.exp W fan x l i) * z i)))
            = (δ (l + 1) n ^ 2 +
                ∑ i in Finset.range (N l),
                  (activationRef Real.exp W fan x l i * δ (l + 1) n) ^ 2) +
              ∑ i in Finset.range (N l), z i * (activationRef Real.exp W fan x l i *
                (1 - activationRef Real.exp W fan x l i) *
                  (δ (l + 1) n * W (l + 1) n (i + 1))) := by
          intro n _
          rw [hD0, mul_add, Finset.mul_sum, add_assoc, ← Finset.sum_add_distrib]
          congr 1
          · ring
          · apply Finset.sum_congr rfl
            intro i hi
            rw [hDa l n i hl' (Finset.mem_range.1 hi)]
            ring
        rw [Finset.sum_congr rfl hterm, Finset.sum_add_distrib, Finset.sum_comm]
        congr 1
        apply Finset.sum_congr rfl
        intro i hi
        rw [← Finset.mul_sum, ← Finset.mul_sum, ← hδ l i hl' (Finset.mem_range.1 hi)]
        ring
      show _ ≤ ∑ n in Finset.range (N (l + 1)), δ (l + 1) n * _
      rw [hsum]
      have h1 : ∑ n in Finset.range (N (l + 1)), δ (l + 1) n ^ 2
          ≤ ∑ n in Finset.range (N (l + 1)), (δ (l + 1) n ^ 2 +
              ∑ i in Finset.range (N l),
                (activationRef Real.exp W fan x l i * δ (l + 1) n) ^ 2) :=
        Finset.sum_le_sum (fun n _ =>
          le_add_of_nonneg_right (Finset.sum_nonneg (fun i _ => sq_nonneg _)))
      have h2 : 0 ≤ ∑ i in Finset.range (N l), δ l i * z i :=
        le_trans (Finset.sum_nonneg (fun i _ => sq_nonneg _)) hle
      linarith

/-! ## The squared error along a correction -/

/-- A buffer that satisfies the equations of the forward pass holds the reference
activations, for any weight function that agrees with the weight tensor on the weights
of the network. -/
theorem buffer_eq_activationRef (exp : α → α) (net : network α) (m : List (List α))
    (input : List Symbol) (w : Nat → Nat → Nat → α)
    (hw : ∀ l n i, l < net.layerCount → n < nodesOf net l → i ≤ fanInOf net l →
      at3 net.weights l n i = w l n i)
    (hm : ∀ l n, l < net.layerCount → n < nodesOf net l →
      at2 m l n = sigmoid exp (weightedSum net m input l n)) :
    ∀ l n, l < net.layerCount → n < nodesOf net l →
      at2 m l n = activationRef exp w (fanInOf net)
        (fun i => translateInput (input.getD i 0)) l n := by
  intro l
  induction l with
  | zero =>
    intro n hl hn
    rw [hm 0 n hl hn, activationRef_zero, weightedSum, hw 0 n 0 hl hn (Nat.zero_le _)]
    congr 2
    apply Finset.sum_congr rfl
    intro i hi
    rw [hw 0 n (i + 1) hl hn (Nat.succ_le_of_lt (Finset.mem_range.1 hi))]
    rfl
  | succ l ih =>
    intro n hl hn
    rw [hm (l + 1) n hl hn, activationRef_succ, weightedSum,
      hw (l + 1) n 0 hl hn (Nat.zero_le _)]
    congr 2
    apply Finset.sum_congr rfl
    intro i hi
    have hi' : i < nodesOf net l := by
      rw [← fanInOf_succ]
      exact Finset.mem_range.1 hi
    rw [hw (l + 1) n (i + 1) hl hn (Nat.succ_le_of_lt (Finset.mem_range.1 hi)),
      ← ih i (by omega) hi']
    rfl

/-- The derivative at 0 of a sum of squared distances to fixed targets. -/
theorem squares_hasDerivAt (k : Nat) (t : Nat → ℝ) (A : Nat → ℝ → ℝ) (A' : Nat → ℝ)
    (hA : ∀ n, n < k → HasDerivAt (A n) (A' n) 0) :
    HasDerivAt (fun r => ∑ n in Finset.range k, (t n - A n r) ^ 2)
      (∑ n in Finset.range k, -(2 * (t n - A n 0) * A' n)) 0 := by
  apply HasDerivAt.sum
  intro n hn
  have h := ((hA n (Finset.mem_range.1 hn)).const_sub (t n)).pow 2
  convert h using 1
  simp

/-- A function with a negative derivative at 0 is smaller than its value at 0 on an
interval to the right of 0. -/
theorem descent_of_deriv (E : ℝ → ℝ) (e' : ℝ) (h : HasDerivAt E e' 0) (hneg : e' < 0) :
    ∃ eps : ℝ, 0 < eps ∧ ∀ r : ℝ, 0 < r → r < eps → E r < E 0 := by
  have ht := hasDerivAt_iff_tendsto_slope.1 h
  have hev : ∀ᶠ r in nhdsWithin (0 : ℝ) {0}ᶜ, slope E 0 r < 0 := (tendsto_order.1 ht).2 0 hneg
  rw [eventually_nhdsWithin_iff, Metric.eventually_nhds_iff] at hev
  obtain ⟨eps, heps, hall⟩ := hev
  refine ⟨eps, heps, fun r hr0 hr => ?_⟩
  have hs := hall (by rw [Real.dist_eq, sub_zero, abs_of_pos hr0]; exact hr)
    (by simpa using ne_of_gt hr0)
  rw [slope_def_field, sub_zero] at hs
  have hmul := mul_neg_of_pos_of_neg hr0 hs
  rw [mul_div_cancel₀ _ (ne_of_gt hr0)] at hmul
  linarith

/-! ## One correction lowers the squared error -/

/-- The target of an output node whose desired character is known is the number that
`translateOutput` returns. -/
theorem targetOf_eq (net : network α) (desiredOutput : List Symbol) (n : Nat) (c : Symbol)
    (t : translation) (f : α) (hc : desiredOutput[n]? = some c)
    (ht : net.translations[n]? = some t) (hf : translateOutput c t = .ok f) (h0 : 0 ≤ f) :
    targetOf net desiredOutput n = f := by
  simp only [targetOf, hc, ht, hf]
  exact if_neg (not_lt.2 h0)

/-- The squared error as a function of the learning rate: with the activations of a
forward pass in the buffer and the deltas that `BPandWeightUpdate` computes from them,
the squared error of the reference activations for the weights
`w + r * source * delta` has a negative derivative at `r = 0` when some output
activation differs from its target. -/
theorem correction_derivative (net : network ℝ) (hlayers : 1 ≤ net.layerCount)
    (input desiredOutput : List Symbol) (delta : List (List ℝ))
    (hact : ∀ l n, l < net.layerCount → n < nodesOf net l →
      at2 net.outputs l n = sigmoid Real.exp (weightedSum net net.outputs input l n))
    (hspec : DeltaSpecFrom 0 net desiredOutput delta)
    (hdiff : ∃ n, n < nodesOf net (net.layerCount - 1) ∧
      at2 net.outputs (net.layerCount - 1) n ≠ targetOf net desiredOutput n) :
    ∃ e' : ℝ, e' < 0 ∧ HasDerivAt
      (fun r => ∑ n in Finset.range (nodesOf net (net.layerCount - 1)),
        (targetOf net desiredOutput n - activationRef Real.exp
          (fun l n i => at3 net.weights l n i
            + r * (sourceActivation net input l i * at2 delta l n))
          (fanInOf net) (fun i => translateInput (input.getD i 0)) (net.layerCount - 1) n) ^ 2)
      e' 0 := by
  have hbuf := buffer_eq_activationRef Real.exp net net.outputs input
    (fun l n i => at3 net.weights l n i) (fun _ _ _ _ _ _ => rfl) hact
  have hzero : (fun l n i => at3 net.weights l n i
      + (0 : ℝ) * (sourceActivation net input l i * at2 delta l n))
      = fun l n i => at3 net.weights l n i := by
    funext l n i
    rw [zero_mul, add_zero]
  obtain ⟨z, hz, hle⟩ := tangent_layers (fun l n i => at3 net.weights l n i)
    (fun l n i => sourceActivation net input l i * at2 delta l n) (fanInOf net) (nodesOf net)
    (fun i => translateInput (input.getD i 0)) (fun l n => at2 delta l n) (net.layerCount - 1)
    (fun l _ => fanInOf_succ net l)
    (fun l n => by simp [sourceActivation])
    (fun n i => by simp [sourceActivation, sourceAt])
    (fun l n i hl hi => by
      rw [← hbuf l i (by omega) hi]
      simp [sourceActivation, sourceAt])
    (fun l n hl hn => by
      rw [← hbuf l n (by omega) hn]
      exact hspec.2 l n (Nat.zero_le _) (by omega) hn)
    (net.layerCount - 1) (Nat.le_refl _)
  have hder := squares_hasDerivAt (nodesOf net (net.layerCount - 1)) (targetOf net desiredOutput)
    (fun n r => activationRef Real.exp
      (fun l n i => at3 net.weights l n i + r * (sourceActivation net input l i * at2 delta l n))
      (fanInOf net) (fun i => translateInput (input.getD i 0)) (net.layerCount - 1) n)
    _ (fun n _ => hz n)
  refine ⟨_, ?_, hder⟩
  -- the derivative is minus twice the sum of delta times tangent
  have hterm : ∀ n ∈ Finset.range (nodesOf net (net.layerCount - 1)),
      -(2 * (targetOf net desiredOutput n - activationRef Real.exp
          (fun l n i => at3 net.weights l n i
            + (0 : ℝ) * (sourceActivation net input l i * at2 delta l n))
          (fanInOf net) (fun i => translateInput (input.getD i 0)) (net.layerCount - 1) n) *
        (activationRef Real.exp (fun l n i => at3 net.weights l n i) (fanInOf net)
            (fun i => translateInput (input.getD i 0)) (net.layerCount - 1) n *
          (1 - activationRef Real.exp (fun l n i => at3 net.weights l n i) (fanInOf net)
            (fun i => translateInput (input.getD i 0)) (net.layerCount - 1) n) * z n))
      = -2 * (at2 delta (net.layerCount - 1) n * z n) := by
    intro n hn
    have hn' := Finset.mem_range.1 hn
    obtain ⟨c, t, f, hc, ht, hf, hf0, hd⟩ := hspec.1 (by omega) n hn'
    rw [hzero, targetOf_eq net desiredOutput n c t f hc ht hf hf0, hd,
      ← hbuf (net.layerCount - 1) n (by omega) hn']
    ring
  show ∑ n in Finset.range (nodesOf net (net.layerCount - 1)), _ < 0
  rw [Finset.sum_congr rfl hterm, ← Finset.mul_sum]
  -- one delta of the last layer is not zero
  obtain ⟨n0, hn0, hne⟩ := hdiff
  obtain ⟨c, t, f, hc, ht, hf, hf0, hd⟩ := hspec.1 (by omega) n0 hn0
  rw [targetOf_eq net desiredOutput n0 c t f hc ht hf hf0] at hne
  obtain ⟨ha0, ha1⟩ := sigmoid_mem Real.exp Real.exp_pos
    (weightedSum net net.outputs input (net.layerCount - 1) n0)
  rw [← hact (net.layerCount - 1) n0 (by omega) hn0] at ha0 ha1
  have hd0 : at2 delta (net.layerCount - 1) n0 ≠ 0 := by
    rw [hd]
    exact mul_ne_zero (mul_ne_zero (ne_of_gt ha0) (by linarith [ha1] : (1 : ℝ) -
      at2 net.outputs (net.layerCount - 1) n0 ≠ 0)) (sub_ne_zero.2 (Ne.symm hne))
  have hpos : 0 < ∑ n in Finset.range (nodesOf net (net.layerCount - 1)),
      at2 delta (net.layerCount - 1) n ^ 2 :=
    lt_of_lt_of_le (by positivity : 0 < at2 delta (net.layerCount - 1) n0 ^ 2)
      (Finset.single_le_sum (f := fun n => at2 delta (net.layerCount - 1) n ^ 2)
        (fun n _ => sq_nonneg _) (Finset.mem_range.2 hn0))
  linarith

/-- The weights after a call of `BPandWeightUpdate` that finds all desired characters:
the deltas do not depend on the learning rate, and every weight of the network has
moved by the learning rate times its source times the delta of its node. -/
theorem correction_weights (net : network α) (hs : ShapeInv net) (ht : TranslatorsInv net)
    (input desiredOutput : List Symbol) (hin : net.inputLen ≤ input.length)
    (hdes : nodesOf net (net.layerCount - 1) ≤ desiredOutput.length)
    (hknown : KnownSymbols net desiredOutput) :
    ∃ delta, DeltaSpecFrom 0 net desiredOutput delta ∧
      ∀ r : α, ∃ w', BPandWeightUpdate net input desiredOutput r
          = .ok (0, { net with weights := w' }) ∧
        dims3 w' = dims3 net.weights ∧
        ∀ l n i, l < net.layerCount → n < nodesOf net l → i ≤ fanInOf net l →
          at3 w' l n i
            = at3 net.weights l n i + r * (sourceActivation net input l i * at2 delta l n) := by
  obtain ⟨delta, hdel, hdims, hspec⟩ := deltas_ok net hs ht desiredOutput hdes hknown
  refine ⟨delta, hspec, ?_⟩
  intro r
  obtain ⟨w', hrun, hdims', hnew, -⟩ := update_any_order net hs input hin r delta hdims
    (List.range net.layerCount).reverse (List.reverse_perm _)
  rw [← update_eq_forEach] at hrun
  refine ⟨w', ?_, hdims', ?_⟩
  · simp only [BPandWeightUpdate, hdel, hrun, ok_bind]
  · intro l n i hl hn hi
    rw [hnew l n i hl hn hi, updatedWeight, mul_assoc]

/-- Gradient direction in exact arithmetic: take a well-shaped network over the real
numbers with the real exponential, where no sum or product is rounded and no activation
is saturated, an input and desired characters that are all known, and let `runForward`
fill the activation buffer. If some output activation differs from its target, there is a bound
`eps > 0` such that for every learning rate `0 < r < eps` one call of
`BPandWeightUpdate` returns 0 and a following call of `runForward` on the same input
leaves activations whose squared error, the sum over the output nodes of
`(target - a)^2`, is strictly smaller than the squared error before the correction. -/
theorem gradient_direction_exact (net : network ℝ) (hs : ShapeInv net) (ht : TranslatorsInv net)
    (hlayers : 1 ≤ net.layerCount) (input desiredOutput output : List Symbol)
    (hin : net.inputLen ≤ input.length)
    (hdes : nodesOf net (net.layerCount - 1) ≤ desiredOutput.length)
    (hout : nodesOf net (net.layerCount - 1) ≤ output.length)
    (hknown : KnownSymbols net desiredOutput)
    (net1 : network ℝ) (out1 : List Symbol)
    (hrun : runForward Real.exp net input output = .ok (net1, out1))
    (hdiff : ∃ n, n < nodesOf net (net.layerCount - 1) ∧
      at2 net1.outputs (net.layerCount - 1) n ≠ targetOf net desiredOutput n) :
    ∃ eps : ℝ, 0 < eps ∧ ∀ r : ℝ, 0 < r → r < eps →
      ∃ net2 net3 out3, BPandWeightUpdate net1 input desiredOutput r = .ok (0, net2) ∧
        runForward Real.exp net2 input out1 = .ok (net3, out3) ∧
        squaredError net3 desiredOutput < squaredError net1 desiredOutput := by
  -- the forward pass before the correction
  obtain ⟨m, out, hrun0, -, hdims, hvals, hlen, -⟩ :=
    runForward_ok Real.exp Real.exp_pos net hs ht hlayers input output hin hout
  rw [hrun0] at hrun
  injection hrun with hrun
  injection hrun with hnet hout1
  subst hnet
  subst hout1
  obtain ⟨hs1, ht1⟩ := invariants_transfer net { net with outputs := m } hs ht
    ⟨rfl, rfl, rfl, rfl⟩ hdims rfl
  have hvals1 : ∀ l n, l < net.layerCount → n < nodesOf net l →
      at2 m l n = sigmoid Real.exp (weightedSum { net with outputs := m } m input l n) := hvals
  -- the deltas and the derivative of the squared error
  obtain ⟨delta, hspec, hcorr⟩ := correction_weights { net with outputs := m } hs1 ht1 input
    desiredOutput hin hdes hknown
  obtain ⟨e', hneg, hder⟩ := correction_derivative { net with outputs := m } hlayers input
    desiredOutput delta hvals1 hspec hdiff
  obtain ⟨eps, heps, hdesc⟩ := descent_of_deriv _ e' hder hneg
  refine ⟨eps, heps, ?_⟩
  intro r hr0 hr
  -- the correction and the forward pass after it
  obtain ⟨w', hcall, hdims3, hnew⟩ := hcorr r
  obtain ⟨hs2, ht2⟩ := invariants_transfer { net with outputs := m }
    { net with outputs := m, weights := w' } hs1 ht1 ⟨rfl, rfl, rfl, rfl⟩ rfl hdims3
  obtain ⟨m', out3, hrun3, -, -, hvals', -, -⟩ :=
    runForward_ok Real.exp Real.exp_pos { net with outputs := m, weights := w' } hs2 ht2 hlayers
      input out hin (by rw [hlen]; exact hout)
  refine ⟨_, _, out3, hcall, hrun3, ?_⟩
  have hafter := buffer_eq_activationRef Real.exp { net with outputs := m, weights := w' } m'
    input (fun l n i => at3 net.weights l n i
      + r * (sourceActivation { net with outputs := m } input l i * at2 delta l n)) hnew hvals'
  have hbefore := buffer_eq_activationRef Real.exp { net with outputs := m } m input
    (fun l n i => at3 net.weights l n i
      + (0 : ℝ) * (sourceActivation { net with outputs := m } input l i * at2 delta l n))
    (fun l n i _ _ _ => by
      show at3 net.weights l n i = at3 net.weights l n i + 0 * _
      rw [zero_mul, add_zero]) hvals1
  have h := hdesc r hr0 hr
  have hlast : net.layerCount - 1 < net.layerCount := by omega
  have e1 : squaredError { net with outputs := m', weights := w' } desiredOutput
      = ∑ n in Finset.range (nodesOf net (net.layerCount - 1)),
        (targetOf net desiredOutput n - activationRef Real.exp
          (fun l n i => at3 net.weights l n i
            + r * (sourceActivation { net with outputs := m } input l i * at2 delta l n))
          (fanInOf net) (fun i => translateInput (input.getD i 0)) (net.layerCount - 1) n) ^ 2 := by
    apply Finset.sum_congr rfl
    intro n hn
    have := hafter (net.layerCount - 1) n hlast (Finset.mem_range.1 hn)
    show (_ - at2 m' (net.layerCount - 1) n) ^ 2 = _
    rw [this]
    rfl
  have e0 : squaredError { net with outputs := m } desiredOutput
      = ∑ n in Finset.range (nodesOf net (net.layerCount - 1)),
        (targetOf net desiredOutput n - activationRef Real.exp
          (fun l n i => at3 net.weights l n i
            + (0 : ℝ) * (sourceActivation { net with outputs := m } input l i * at2 delta l n))
          (fanInOf net) (fun i => translateInput (input.getD i 0)) (net.layerCount - 1) n) ^ 2 := by
    apply Finset.sum_congr rfl
    intro n hn
    have := hbefore (net.layerCount - 1) n hlast (Finset.mem_range.1 hn)
    show (_ - at2 m (net.layerCount - 1) n) ^ 2 = _
    rw [this]
    rfl
  rw [e1, e0]
  exact h

/-- A network of one node knows the characters `'0'` and `'1'`. -/
theorem unitNet_known (b w1 w2 a : α) (d : Symbol) (hd : d = 48 ∨ d = 49) :
    KnownSymbols (unitNet b w1 w2 a) [d] := by
  intro n hn
  have h0 : n = 0 := by
    have : nodesOf (unitNet b w1 w2 a) ((unitNet b w1 w2 a).layerCount - 1) = 1 := rfl
    omega
  subst h0
  refine ⟨d, ⟨2, [48, 49]⟩, rfl, rfl, ?_⟩
  rcases hd with rfl | rfl <;> decide

/-- The target of the node of a network of one node for the desired character `'0'`. -/
theorem unitNet_target (b w1 w2 a : α) : targetOf (unitNet b w1 w2 a) [48] 0 = 1 / 4 := by
  have hf : translateOutput (α := α) 48 ⟨2, [48, 49]⟩
      = .ok ((((0 : Nat) : α) + 0.5) / ((2 : Nat) : α)) :=
    translateOutput_of_index ⟨2, [48, 49]⟩ 48 rfl (by decide) 0 (by decide) rfl
  rw [targetOf_eq (unitNet b w1 w2 a) [48] 0 48 ⟨2, [48, 49]⟩ _ rfl rfl hf (by norm_num)]
  norm_num

/-- Gradient direction in exact arithmetic for the network of one node with the weights 0
on the input `"01"` with the desired character `'0'`: the activation is 1/2 and the
target 1/4. -/
theorem gradient_direction_exact_example :
    ∃ eps : ℝ, 0 < eps ∧ ∀ r : ℝ, 0 < r → r < eps →
      ∃ net2 net3 out3,
        BPandWeightUpdate (unitNet (0 : ℝ) 0 0 (sigmoid Real.exp (unitSum 0 0 0 48 49)))
          [48, 49] [48] r = .ok (0, net2) ∧
        runForward Real.exp net2 [48, 49] [if unitSum (0 : ℝ) 0 0 48 49 < 0 then 48 else 49]
          = .ok (net3, out3) ∧
        squaredError net3 [48]
          < squaredError (unitNet (0 : ℝ) 0 0 (sigmoid Real.exp (unitSum 0 0 0 48 49))) [48] :=
  gradient_direction_exact (unitNet (0 : ℝ) 0 0 0) (unitNet_shape _ _ _ _) (unitNet_translators _ _ _ _)
    (Nat.le_refl 1) [48, 49] [48] [0] (Nat.le_refl 2) (Nat.le_refl 1) (Nat.le_refl 1)
    (unitNet_known _ _ _ _ 48 (Or.inl rfl)) _ _
    (unitNet_forward Real.exp Real.exp_pos real_exp_gt_one 0 0 0 0 48 49 0)
    ⟨0, Nat.zero_lt_one, by
      show sigmoid Real.exp (unitSum (0 : ℝ) 0 0 48 49) ≠ targetOf (unitNet (0 : ℝ) 0 0 0) [48] 0
      have hsum : unitSum (0 : ℝ) 0 0 48 49 = 0 := by
        unfold unitSum
        ring
      rw [hsum, unitNet_target, sigmoid_real, neg_zero, Real.exp_zero]
      norm_num⟩

/-! ## The sigmoid where the exponential underflows -/

theorem expUnderflow_zero (exp : α → α) (h0 : exp 0 = 1) : expUnderflow exp 0 = 1 := by
  rw [expUnderflow, if_neg (by norm_num), h0]

theorem expUnderflow_nonneg (exp : α → α) (hexp : ∀ x, 0 ≤ exp x) (x : α) :
    0 ≤ expUnderflow exp x := by
  unfold expUnderflow
  split
  · exact le_refl 0
  · exact hexp x

theorem expUnderflow_mono (exp : α → α) (hexp : ∀ x, 0 ≤ exp x)
    (hmono : ∀ x y, x ≤ y → exp x ≤ exp y) (x y : α) (hxy : x ≤ y) :
    expUnderflow exp x ≤ expUnderflow exp y := by
  unfold expUnderflow
  by_cases hx : x < -746
  · rw [if_pos hx]
    split
    · exact le_refl 0
    · exact hexp y
  · rw [if_neg hx, if_neg (by linarith [not_lt.1 hx])]
    exact hmono x y hxy

/-- Where the exponential has underflowed the sigmoid is exactly 1. -/
theorem sigmoid_saturated (exp : α → α) (x : α) (hx : 746 < x) :
    sigmoid (expUnderflow exp) x = 1 := by
  rw [sigmoid, one_lit, zero_lit, expUnderflow, if_pos (by linarith), add_zero, div_one]

/-- With an exponential that is not negative the sigmoid is positive and at most 1. -/
theorem sigmoid_mem_closed (exp : α → α) (hexp : ∀ x, 0 ≤ exp x) (x : α) :
    0 < sigmoid exp x ∧ sigmoid exp x ≤ 1 := by
  have h := hexp (0.0 - x)
  have h1 : (0 : α) < 1.0 + exp (0.0 - x) := by rw [one_lit]; linarith
  constructor
  · exact div_pos (by norm_num) h1
  · rw [sigmoid, div_le_one h1, one_lit]
    linarith

/-- Counterexample to C24 as stated: with an exponential that underflows as the one of
double arithmetic does, `sigmoid` has the value 1 at 800, which is not below 1, and
the same value at 900, so it is not strictly increasing. -/
theorem sigmoid_saturation_counterexample :
    sigmoid (expUnderflow Real.exp) 800 = 1 ∧ (800 : ℝ) < 900 ∧
      sigmoid (expUnderflow Real.exp) 800 = sigmoid (expUnderflow Real.exp) 900 := by
  have h1 := sigmoid_saturated Real.exp (800 : ℝ) (by norm_num)
  have h2 := sigmoid_saturated Real.exp (900 : ℝ) (by norm_num)
  exact ⟨h1, by norm_num, by rw [h1, h2]⟩

/-- C24 (amended). Sigmoid properties: for every function `exp` with `exp 0 = 1` that
is nowhere negative and does not decrease, the function `sigmoid` of ANN.c,
`1.0/(1.0+exp(0.0-sum))`, has the value 1/2 at 0, lies between 0 and 1, both ends
allowed, and does not decrease. -/
theorem sigmoid_closed_range (exp : α → α) (h0 : exp 0 = 1) (hexp : ∀ x, 0 ≤ exp x)
    (hmono : ∀ x y, x ≤ y → exp x ≤ exp y) :
    sigmoid exp 0 = 1 / 2 ∧
      (∀ x : α, 0 ≤ sigmoid exp x ∧ sigmoid exp x ≤ 1) ∧
      (∀ x y : α, x ≤ y → sigmoid exp x ≤ sigmoid exp y) := by
  refine ⟨?_, fun x => ⟨le_of_lt (sigmoid_mem_closed exp hexp x).1,
    (sigmoid_mem_closed exp hexp x).2⟩, ?_⟩
  · rw [sigmoid, one_lit, zero_lit, sub_zero, h0]
    norm_num
  · intro x y hxy
    rw [sigmoid, sigmoid, one_lit, zero_lit]
    have hx := hexp (0 - x)
    have hy := hexp (0 - y)
    have hle : exp (0 - y) ≤ exp (0 - x) := hmono _ _ (by linarith)
    exact one_div_le_one_div_of_le (by linarith) (by linarith)

/-- Witness for C24 (amended): the exponential of the real numbers with the underflow of
double arithmetic. -/
theorem sigmoid_closed_range_witness :
    sigmoid (expUnderflow Real.exp) 0 = 1 / 2 ∧
      (∀ x : ℝ, 0 ≤ sigmoid (expUnderflow Real.exp) x ∧ sigmoid (expUnderflow Real.exp) x ≤ 1) ∧
      (∀ x y : ℝ, x ≤ y →
        sigmoid (expUnderflow Real.exp) x ≤ sigmoid (expUnderflow Real.exp) y) :=
  sigmoid_closed_range (expUnderflow Real.exp) (expUnderflow_zero Real.exp Real.exp_zero)
    (expUnderflow_nonneg Real.exp (fun x => le_of_lt (Real.exp_pos x)))
    (expUnderflow_mono Real.exp (fun x => le_of_lt (Real.exp_pos x))
      (fun _ _ h => Real.exp_le_exp.2 h))

/-! ## The forward pass where the exponential underflows -/

/-- C11. Output vector, on the network of one node with the bias 800 and the weights 0,
with an exponential that underflows as the one of double arithmetic does: the loops
over the layers store the activation 1, the index `(int)(count * 1)` of the decoding is
`count = 2`, and `runForward` reads `entries[2]`, behind the two entries of the
translator, instead of giving an output character that is an entry. -/
theorem runForward_saturated_output :
    runForward.layers (expUnderflow Real.exp) (unitNet (800 : ℝ) 0 0 0) [48, 48] = .ok [[1]] ∧
    truncToInt (((2 : Nat) : ℝ) * 1) = 2 ∧
    runForward.decode ⟨2, [48, 49]⟩ (1 : ℝ) = .error .fault ∧
    runForward (expUnderflow Real.exp) (unitNet (800 : ℝ) 0 0 0) [48, 48] [0]
      = .error .fault := by
  have hsum : unitSum (800 : ℝ) 0 0 48 48 = 800 := by
    unfold unitSum
    ring
  have hl : runForward.layers (expUnderflow Real.exp) (unitNet (800 : ℝ) 0 0 0) [48, 48]
      = .ok [[1]] := by
    rw [unitNet_layers, hsum, sigmoid_saturated Real.exp (800 : ℝ) (by norm_num)]
  have htr : truncToInt (((2 : Nat) : ℝ) * 1) = 2 := by
    rw [truncToInt, if_pos (by norm_num), mul_one]
    exact Int.floor_natCast 2
  have hd : runForward.decode ⟨2, [48, 49]⟩ (1 : ℝ) = .error .fault := by
    simp only [runForward.decode, htr]
    rfl
  refine ⟨hl, htr, hd, ?_⟩
  rw [runForward, hl]
  simp only [ok_bind]
  simp [unitNet, forLoop, rd, get2, hd]

/-! ## The range of the activations -/

/-- A call of `runForward` that ends normally returns the buffer that its loops over the
layers have filled. -/
theorem runForward_buffer (exp : α → α) (net : network α) (input output : List Symbol)
    (net' : network α) (out : List Symbol)
    (h : runForward exp net input output = .ok (net', out)) :
    runForward.layers exp net input = .ok net'.outputs := by
  unfold runForward at h
  cases hl : runForward.layers exp net input with
  | error e => simp [hl] at h
  | ok m =>
    simp only [hl, ok_bind] at h
    by_cases h0 : net.layerCount = 0
    · simp [h0] at h
    · simp only [if_neg h0] at h
      cases hc : rd net.nodeCounts[net.layerCount - 1]? with
      | error e => simp [hc] at h
      | ok cnt =>
        simp only [hc, ok_bind] at h
        cases hf : forLoop (fun o_i out => do
            let t ← rd net.translations[o_i]?
            let a ← rd (get2 m (net.layerCount - 1) o_i)
            let c ← runForward.decode t a
            wr out o_i c) cnt output with
        | error e => simp [hf] at h
        | ok o =>
          simp only [hf, ok_bind] at h
          injection h with h
          injection h with h1 h2
          rw [← h1]

theorem saturatedNet_shape : ShapeInv (saturatedNet : network α) := by
  have hlc : (saturatedNet : network α).layerCount = 2 := rfl
  refine ⟨rfl, rfl, rfl, ?_, ?_, ?_⟩
  · intro l hl
    have h : l = 0 ∨ l = 1 := by omega
    rcases h with rfl | rfl <;> rfl
  · intro l hl
    have h : l = 0 ∨ l = 1 := by omega
    rcases h with rfl | rfl <;> rfl
  · intro l hl n hn
    have h : l = 0 ∨ l = 1 := by omega
    rcases h with rfl | rfl
    · have h1 : n = 0 := by
        have : nodesOf (saturatedNet : network α) 0 = 1 := rfl
        omega
      subst h1
      rfl
    · have h1 : n = 0 := by
        have : nodesOf (saturatedNet : network α) 1 = 1 := rfl
        omega
      subst h1
      rfl

/-- The loops of `runForward` over the layers on the network `saturatedNet`, for any
function `exp`. -/
theorem saturatedNet_layers (exp : α → α) (x1 x2 : Symbol) :
    runForward.layers exp (saturatedNet : network α) [x1, x2]
      = .ok [[sigmoid exp 800], [sigmoid exp 0]] := by
  simp [runForward.layers, saturatedNet, forLoop, runForward.node, fanIn, runForward.weight, rd,
    get2, get3, set2, sourceOf, wr]

/-- Counterexample to C23 as stated: on the network `saturatedNet`, with an exponential
that underflows as the one of double arithmetic does, `runForward` ends normally and
the activation of the node of the first layer is exactly 1, not below 1. -/
theorem activation_range_counterexample :
    runForward (expUnderflow Real.exp) (saturatedNet : network ℝ) [48, 48] [0]
      = .ok ({ (saturatedNet : network ℝ) with outputs := [[1], [1 / 2]] }, [49]) := by
  have h1 := sigmoid_saturated Real.exp (800 : ℝ) (by norm_num)
  have h2 : sigmoid (expUnderflow Real.exp) (0 : ℝ) = 1 / 2 := by
    rw [sigmoid, one_lit, zero_lit, sub_zero, expUnderflow_zero Real.exp Real.exp_zero]
    norm_num
  have hd := decode_binary (1 / 2 : ℝ) (by norm_num) (by norm_num)
  rw [if_neg (lt_irrefl _), one_div] at hd
  rw [runForward, saturatedNet_layers, h1, h2]
  simp only [ok_bind]
  simp [saturatedNet, forLoop, rd, get2, wr, hd]

/-- C23 (amended). Activation range: on a network that satisfies the shape invariant, for
any weights, any input vector of at least `inputLen` characters and any function `exp`
that is nowhere negative, the loops of `runForward` over the layers end normally and
every entry of the activation buffer they leave (every layer, every node) lies between
0 and 1, both ends allowed; a call of `runForward` that returns has left this buffer
and has not changed the weights. -/
theorem runForward_closed_range (exp : α → α) (hexp : ∀ x, 0 ≤ exp x) (net : network α)
    (hs : ShapeInv net) (input output : List Symbol) (hin : net.inputLen ≤ input.length) :
    ∃ m, runForward.layers exp net input = .ok m ∧ dims2 m = dims2 net.outputs ∧
      (∀ l n, l < net.layerCount → n < nodesOf net l →
        ∃ a, get2 m l n = some a ∧ 0 ≤ a ∧ a ≤ 1) ∧
      (∀ row ∈ m, ∀ a ∈ row, 0 ≤ a ∧ a ≤ 1) ∧
      ∀ net' out, runForward exp net input output = .ok (net', out) →
        net'.outputs = m ∧ net'.weights = net.weights := by
  obtain ⟨m, hm, hdims, hvals⟩ := runForward_layers_spec exp net hs input hin
  refine ⟨m, hm, hdims, ?_, ?_, ?_⟩
  · intro l n hl hn
    refine ⟨at2 m l n, get2_eq _ _ _ (output_lt net hs m hdims l n hl hn), ?_⟩
    rw [hvals l n hl hn]
    exact ⟨le_of_lt (sigmoid_mem_closed exp hexp _).1, (sigmoid_mem_closed exp hexp _).2⟩
  · intro row hrow a ha
    obtain ⟨l, n, hl, hn, rfl⟩ := entry_of_mem net hs m hdims row hrow a ha
    rw [hvals l n hl hn]
    exact ⟨le_of_lt (sigmoid_mem_closed exp hexp _).1, (sigmoid_mem_closed exp hexp _).2⟩
  · intro net' out hrun
    have hb := runForward_buffer exp net input output net' out hrun
    rw [hm] at hb
    injection hb with hb
    have hframe := runForward_frame exp net input output net' out hrun
    refine ⟨hb.symm, ?_⟩
    rw [hframe]

/-- Witness for C23 (amended): the network `saturatedNet` with the exponential of the
real numbers and the underflow of double arithmetic, on the input `"00"`. -/
theorem runForward_closed_range_witness :
    ∃ m, runForward.layers (expUnderflow Real.exp) (saturatedNet : network ℝ) [48, 48] = .ok m ∧
      dims2 m = dims2 (saturatedNet : network ℝ).outputs ∧
      (∀ l n, l < (saturatedNet : network ℝ).layerCount →
        n < nodesOf (saturatedNet : network ℝ) l →
        ∃ a, get2 m l n = some a ∧ 0 ≤ a ∧ a ≤ 1) ∧
      (∀ row ∈ m, ∀ a ∈ row, 0 ≤ a ∧ a ≤ 1) ∧
      ∀ net' out, runForward (expUnderflow Real.exp) (saturatedNet : network ℝ) [48, 48] [0]
          = .ok (net', out) →
        net'.outputs = m ∧ net'.weights = (saturatedNet : network ℝ).weights :=
  runForward_closed_range (expUnderflow Real.exp)
    (expUnderflow_nonneg Real.exp (fun x => le_of_lt (Real.exp_pos x))) saturatedNet
    saturatedNet_shape [48, 48] [0] (Nat.le_refl 2)

/-! ## A correction that fails -/

theorem unitNet_unknownRecord (b w1 w2 a : α) :
    WellFormedExamples (unitNet b w1 w2 a) [unknownRecord] := by
  intro r hr
  rw [List.mem_singleton.1 hr]
  exact ⟨Nat.le_refl _, Nat.le_refl _⟩

theorem unitSum_zero_weights (x1 x2 : Symbol) : unitSum (0 : ℝ) 0 0 x1 x2 = 0 := by
  unfold unitSum
  ring

theorem sigmoid_real_zero : sigmoid Real.exp 0 = 1 / 2 := by
  rw [sigmoid_real, neg_zero, Real.exp_zero]
  norm_num

/-- Counterexample to C15 as stated: the network of one node with the weights 0, trained
on the record `unknownRecord` with at most 10 epochs and the convergence range 2. The
forward pass gives `'1'`, the desired character `'2'` is not an entry of the
translator, the correction fails and `train` returns -1 in the first round of the first
epoch: it has completed no epoch, and it has not run 10 epochs although no stop test has
given 0. -/
theorem train_epoch_budget_counterexample :
    ∃ res, train Real.exp (fun _ => 0) true (unitNet (0 : ℝ) 0 0 0) [unknownRecord] 1 10 (1 / 2)
        none 100 2 = .ok res ∧
      res.code = -1 ∧ res.epoch = 0 ∧ res.counts = [] ∧ res.diffs = [] :=
  ⟨_, unitNet_unknown_run Real.exp Real.exp_pos real_exp_gt_one (fun _ => 0) true 0 0 0 0 (1 / 2)
    48 49 50 (by decide) (by decide) [] 1 (by decide) 10 100 2 (by decide), rfl, rfl, rfl, rfl⟩

/-- Witness for C16: the network of one node with the weights 0, trained on the record
`unknownRecord` with no dump file. At the head of the first epoch the forward pass on
the record gives the activation 1/2 and the character `'1'`, the record counts as not
classified and the call of `BPandWeightUpdate` returns -1: the loop of `train` returns
-1 with `epoch = 0`, no count and no difference, and the weights `(0, 0, 0)`; the call
of `train` returns this result, and the failing call is the one on record 0. -/
theorem train_failure_aborts_witness :
    train.loop Real.exp [unknownRecord] 1 10 (1 / 2) 100 2 0
        { network := unitNet (0 : ℝ) 0 0 0, output := [0], accuracy := [0, 0] } [] []
      = .ok { code := -1, epoch := 0,
              state := { network := unitNet (0 : ℝ) 0 0 (1 / 2), output := [49],
                         accuracy := [0, 0] },
              counts := [], diffs := [] } ∧
    train Real.exp (fun _ => 0) true (unitNet (0 : ℝ) 0 0 0) [unknownRecord] 1 10 (1 / 2) none
        100 2
      = .ok { code := -1, epoch := 0,
              state := { network := unitNet (0 : ℝ) 0 0 (1 / 2), output := [49],
                         accuracy := [0, 0] },
              counts := [], diffs := [] } ∧
    (∃ i r, i < 1 ∧ [unknownRecord][i]? = some r ∧
      BPandWeightUpdate (unitNet (0 : ℝ) 0 0 (1 / 2)) r.input r.output (1 / 2)
        = .ok (-1, unitNet (0 : ℝ) 0 0 (1 / 2))) := by
  obtain ⟨hfirst, res, hres, -, hfail⟩ :=
    train_failure_aborts Real.exp Real.exp_pos (fun _ => 0) true (unitNet (0 : ℝ) 0 0 0)
      (unitNet_shape _ _ _ _) (unitNet_translators _ _ _ _) (Nat.le_refl 1) [unknownRecord]
      (unitNet_unknownRecord _ _ _ _) 1 (by decide) (Nat.le_refl 1) 10 (by decide) (1 / 2) 100 2
      (by decide)
  have hrun : runForward Real.exp (unitNet (0 : ℝ) 0 0 0) [48, 49] [0]
      = .ok (unitNet (0 : ℝ) 0 0 (1 / 2), [49]) := by
    rw [unitNet_forward Real.exp Real.exp_pos real_exp_gt_one, unitSum_zero_weights,
      sigmoid_real_zero, if_neg (lt_irrefl _)]
  obtain ⟨hloop, -, -⟩ := hfirst 0
    { network := unitNet (0 : ℝ) 0 0 0, output := [0], accuracy := [0, 0] }
    { network := unitNet (0 : ℝ) 0 0 0, output := [0], accuracy := [0, 0] }
    [] [] 0 unknownRecord (unitNet (0 : ℝ) 0 0 (1 / 2), [49]) 1 (-1)
    (unitNet (0 : ℝ) 0 0 (1 / 2))
    (by decide) (by decide) rfl rfl hrun rfl rfl
    (unitNet_BP_unknown (0 : ℝ) 0 0 (1 / 2) (1 / 2) 48 49 50 (by decide) (by decide))
    (by decide)
  have htrain : train Real.exp (fun _ => 0) true (unitNet (0 : ℝ) 0 0 0) [unknownRecord] 1 10
      (1 / 2) none 100 2
      = .ok { code := -1, epoch := 0,
              state := { network := unitNet (0 : ℝ) 0 0 (1 / 2), output := [49],
                         accuracy := [0, 0] },
              counts := [], diffs := [] } := by
    rw [train]
    exact hloop
  refine ⟨hloop, htrain, ?_⟩
  rw [htrain] at hres
  injection hres with hres
  subst hres
  exact hfail rfl

end ANN
